import Mathlib

/-!
# Wedge and wavy bond assignment (Code/GraphMol/FileParsers/MolFileStereochem.cpp)

A shallow embedding of the depiction routines `pickBondsToWedge`,
`DetermineBondWedgeState`, `WedgeBond`, `WedgeMolBonds`,
`addWavyBondsForStereoAny` and `ClearSingleBondDirFlags`.

Conventions of the embedding:

* a molecule is an arena: atoms and bonds are addressed by their position in
  `ROMol.atoms` and `ROMol.bonds` (`getIdx`); a read outside the arena yields
  the default atom or bond;
* the bonds of an atom (`mol.atomBonds(atom)`) are enumerated in ascending bond
  index;
* C++ `int` and `unsigned` scores are unbounded integers and naturals: no
  wrap-around is modelled, the scores stay below `2^31` as long as no atom has
  thousands of neighbours;
* `PRECONDITION`, `CHECK_INVARIANT` and `POSTCONDITION` failures are the three
  values of `Err`, carried by `Except`;
* ring perception, `Atom::getPerturbationOrder` and the 2D geometry are external
  to the file and enter as fields of `ROMol` and `Conformer`;
* a C++ `double` is a value of `Double`: IEEE 754 binary64 with not-a-number and
  the infinities, and every arithmetic result rounded to nearest, ties to even;
* the warning log is not modelled.
-/

namespace RDKit

/-! ## Data model -/

/-- Failure kinds raised by the RDKit invariant macros. -/
inductive Err where
  | precondition
  | invariant
  | postcondition
  deriving DecidableEq, Repr

/-- Values of `Atom::ChiralType`. -/
inductive ChiralType where
  | CHI_UNSPECIFIED
  | CHI_TETRAHEDRAL_CW
  | CHI_TETRAHEDRAL_CCW
  | CHI_OTHER
  | CHI_TETRAHEDRAL
  | CHI_ALLENE
  | CHI_SQUAREPLANAR
  | CHI_TRIGONALBIPYRAMIDAL
  | CHI_OCTAHEDRAL
  deriving DecidableEq, Repr

/-- Values of `Bond::BondType` that the routines distinguish; every order other
than single and double behaves alike here. -/
inductive BondType where
  | UNSPECIFIED
  | SINGLE
  | DOUBLE
  | TRIPLE
  | AROMATIC
  | DATIVE
  | ZERO
  deriving DecidableEq, Repr

/-- Values of `Bond::BondDir`. -/
inductive BondDir where
  | NONE
  | BEGINWEDGE
  | BEGINDASH
  | ENDDOWNRIGHT
  | ENDUPRIGHT
  | EITHERDOUBLE
  | UNKNOWN
  deriving DecidableEq, Repr

/-- Values of `Bond::BondStereo`, in the order of the enumeration. -/
inductive BondStereo where
  | STEREONONE
  | STEREOANY
  | STEREOZ
  | STEREOE
  | STEREOCIS
  | STEREOTRANS
  deriving DecidableEq, Repr

/-- Numeric value of a `BondStereo`, used by the comparison
`getStereo() > STEREOANY`. -/
def BondStereo.toNat : BondStereo → Nat
  | .STEREONONE => 0
  | .STEREOANY => 1
  | .STEREOZ => 2
  | .STEREOE => 3
  | .STEREOCIS => 4
  | .STEREOTRANS => 5

/-- The attributes of an atom that the routines read. -/
structure Atom where
  atomicNum : Nat
  chiralTag : ChiralType
  deriving DecidableEq, Repr

instance : Inhabited Atom := ⟨⟨0, .CHI_UNSPECIFIED⟩⟩

/-- The attributes of a bond that the routines read or write;
`unknownStereoProp` is the property `common_properties::_UnknownStereo`. -/
structure Bond where
  beginAtomIdx : Nat
  endAtomIdx : Nat
  bondType : BondType
  bondDir : BondDir
  stereo : BondStereo
  unknownStereoProp : Option Int
  deriving DecidableEq, Repr

instance : Inhabited Bond := ⟨⟨0, 0, .UNSPECIFIED, .NONE, .STEREONONE, none⟩⟩

/-- A molecule: the atom and bond arenas, the ring counts of `RingInfo`
(`numAtomRings`, `numBondRings`), the swap count `Atom::getPerturbationOrder`
(atom index, probe list of bond indices) and an identity standing for the
address of the molecule. -/
structure ROMol where
  atoms : List Atom
  bonds : List Bond
  numAtomRings : Nat → Nat
  numBondRings : Nat → Nat
  getPerturbationOrder : Nat → List Nat → Nat
  molId : Nat

/-! ## The C++ type `double` -/

/-- A value of the C++ type `double` (IEEE 754 binary64): not-a-number, an
infinity with its sign, or a finite value, given by the rational number it
denotes. Every binary64 number is such a rational, and the arithmetic below
returns binary64 numbers only, by `Double.round`. The two zeros are one value:
no operation of the file tells them apart. -/
inductive Double where
  | nan
  | inf (negative : Bool)
  | fin (q : ℚ)
  deriving DecidableEq

instance : Inhabited Double := ⟨.fin 0⟩

instance (n : Nat) : OfNat Double n := ⟨.fin n⟩

/-- The power `2 ^ e` for an integer exponent. -/
def pow2 (e : ℤ) : ℚ :=
  if 0 ≤ e then ((2 ^ e.toNat : ℕ) : ℚ) else 1 / ((2 ^ (-e).toNat : ℕ) : ℚ)

/-- The position of the leading binary digit of `n`, found by halving; `fuel`
bounds the number of halvings and `n` itself is enough. -/
def log2Fuel : Nat → Nat → Nat
  | 0, _ => 0
  | fuel + 1, n => if n < 2 then 0 else log2Fuel fuel (n / 2) + 1

/-- The binary exponent of a positive rational: the `e` with
`2 ^ e ≤ q < 2 ^ (e + 1)`. -/
def binade (q : ℚ) : ℤ :=
  let e0 : ℤ := (log2Fuel q.num.natAbs q.num.natAbs : ℤ) - (log2Fuel q.den q.den : ℤ)
  if pow2 e0 ≤ q then e0 else e0 - 1

/-- The integer nearest to a rational, the even one of the two at a tie. -/
def roundHalfEven (q : ℚ) : ℤ :=
  if q - ⌊q⌋ < 1 / 2 then ⌊q⌋
  else if 1 / 2 < q - ⌊q⌋ then ⌊q⌋ + 1
  else if ⌊q⌋ % 2 = 0 then ⌊q⌋ else ⌊q⌋ + 1

/-- The binary64 value of an exact result, rounded to nearest, ties to even:
53 significant binary digits at the exponent of the value, exponents from
-1022 (below it the spacing stays `2 ^ -1074`, the subnormal range) to 1023
(above it the result is an infinity). -/
def Double.round (q : ℚ) : Double :=
  if q = 0 then .fin 0
  else
    let e := max (binade |q|) (-1022)
    let m := roundHalfEven (|q| / pow2 (e - 52))
    if 1024 ≤ e ∨ (e = 1023 ∧ m = 2 ^ 53) then .inf (decide (q < 0))
    else .fin (if q < 0 then -(m * pow2 (e - 52)) else m * pow2 (e - 52))

/-- The value is not a number. -/
def Double.isNaN : Double → Bool
  | .nan => true
  | _ => false

/-- Unary minus. -/
def Double.neg : Double → Double
  | .nan => .nan
  | .inf s => .inf (!s)
  | .fin q => .fin (-q)

/-- The sum `a + b` of two doubles. -/
def Double.add : Double → Double → Double
  | .fin a, .fin b => Double.round (a + b)
  | .inf s, .inf t => if s = t then .inf s else .nan
  | .inf s, .fin _ => .inf s
  | .fin _, .inf t => .inf t
  | _, _ => .nan

/-- The difference `a - b` of two doubles. -/
def Double.sub (a b : Double) : Double :=
  a.add b.neg

/-- The product `a * b` of two doubles. -/
def Double.mul : Double → Double → Double
  | .fin a, .fin b => Double.round (a * b)
  | .inf s, .inf t => .inf (s != t)
  | .inf s, .fin b => if b = 0 then .nan else .inf (s != decide (b < 0))
  | .fin a, .inf t => if a = 0 then .nan else .inf (decide (a < 0) != t)
  | _, _ => .nan

/-- The comparison `a < b` of two doubles, false when either is not a number. -/
def Double.lt : Double → Double → Bool
  | .fin a, .fin b => decide (a < b)
  | .inf true, .fin _ => true
  | .inf true, .inf false => true
  | .fin _, .inf false => true
  | _, _ => false

/-- The comparison `a <= b` of two doubles, false when either is not a number. -/
def Double.le : Double → Double → Bool
  | .fin a, .fin b => decide (a ≤ b)
  | .inf true, .fin _ => true
  | .inf s, .inf t => s || !t
  | .fin _, .inf false => true
  | _, _ => false

/-- The comparison `a > b`. -/
def Double.gt (a b : Double) : Bool :=
  b.lt a

/-- The comparison `a >= b`. -/
def Double.ge (a b : Double) : Bool :=
  b.le a

/-! ## Conformers and the wedge map -/

/-- Modelled from the spec: the geometry of `Geometry/point.h` is not part of
the file. `signedAngle c r o` is the signed angle, in the plane of the
depiction (z discarded), from the direction `c → r` to the direction `c → o`,
that is the double `refVect.signedAngleTo(tmpVect)`; every double is admitted,
not-a-number included, which is the angle to or from a direction of length
zero (an atom drawn on top of the center).
`owningMol` stands for `conf->getOwningMol()`. -/
structure Conformer where
  owningMol : Nat
  signedAngle : Nat → Nat → Nat → Double

/-- The map `INT_MAP_INT` from bond index to atom index, as an association
list kept in ascending key order. -/
abbrev INT_MAP_INT := List (Nat × Nat)

/-- Lookup `m.find(k)`. -/
def INT_MAP_INT.find (m : INT_MAP_INT) (k : Nat) : Option Nat :=
  List.lookup k m

/-- Assignment `m[k] = v`. -/
def INT_MAP_INT.set : INT_MAP_INT → Nat → Nat → INT_MAP_INT
  | [], k, v => [(k, v)]
  | (k', v') :: t, k, v =>
    if k < k' then (k, v) :: (k', v') :: t
    else if k = k' then (k, v) :: t
    else (k', v') :: INT_MAP_INT.set t k v

namespace ROMol

/-- Number of atoms. -/
def getNumAtoms (mol : ROMol) : Nat := mol.atoms.length

/-- Number of bonds. -/
def getNumBonds (mol : ROMol) : Nat := mol.bonds.length

/-- Atom with the given index. -/
def getAtomWithIdx (mol : ROMol) (i : Nat) : Atom := mol.atoms.getD i default

/-- Bond with the given index. -/
def getBondWithIdx (mol : ROMol) (i : Nat) : Bond := mol.bonds.getD i default

/-- Indices of the bonds incident to atom `a`, in ascending order. -/
def atomBonds (mol : ROMol) (a : Nat) : List Nat :=
  (List.range mol.bonds.length).filter fun i =>
    (mol.getBondWithIdx i).beginAtomIdx == a || (mol.getBondWithIdx i).endAtomIdx == a

/-- Degree of an atom: `Atom::getDegree`. -/
def getDegree (mol : ROMol) (a : Nat) : Nat := (mol.atomBonds a).length

end ROMol

/-- The other end of a bond: `Bond::getOtherAtomIdx`, on an end of the bond. -/
def Bond.getOtherAtomIdx (b : Bond) (a : Nat) : Nat :=
  if b.beginAtomIdx = a then b.endAtomIdx else b.beginAtomIdx

/-- Neighbour atoms of `a`: `mol.atomNeighbors(atom)`. -/
def ROMol.atomNeighbors (mol : ROMol) (a : Nat) : List Nat :=
  (mol.atomBonds a).map fun i => (mol.getBondWithIdx i).getOtherAtomIdx a

/-- The test `tag == CHI_TETRAHEDRAL_CW || tag == CHI_TETRAHEDRAL_CCW`. -/
def ChiralType.isTetrahedral (t : ChiralType) : Bool :=
  t == .CHI_TETRAHEDRAL_CW || t == .CHI_TETRAHEDRAL_CCW

/-- The tagged-center test on an atom index. -/
def ROMol.isCenter (mol : ROMol) (a : Nat) : Bool :=
  (mol.getAtomWithIdx a).chiralTag.isTetrahedral

/-! ## `pickBondsToWedge` -/

/-- Counts `(hasDouble, hasKnownDouble, hasAnyDouble)` over the bonds of an
atom. -/
def getDoubleBondPresence (mol : ROMol) (a : Nat) : Nat × Nat × Nat :=
  (mol.atomBonds a).foldl
    (fun acc i =>
      let bond := mol.getBondWithIdx i
      if bond.bondType = .DOUBLE then
        if bond.stereo = .STEREOANY then (acc.1 + 1, acc.2.1, acc.2.2 + 1)
        else if bond.stereo.toNat > BondStereo.STEREOANY.toNat then
          (acc.1 + 1, acc.2.1 + 1, acc.2.2)
        else (acc.1 + 1, acc.2.1, acc.2.2)
      else acc)
    (0, 0, 0)

/-- The constant `noNbrs`. -/
def noNbrs : Int := 100

/-- The test for a wedge, hash or wavy direction on a bond. -/
def BondDir.isWedged (d : BondDir) : Bool :=
  d == .BEGINWEDGE || d == .BEGINDASH || d == .UNKNOWN

/-- First loop of `pickBondsToWedge`: atoms that already carry a wedged bond
get `noNbrs + 1`. -/
def markWedged (mol : ROMol) : List Bond → (Nat → Int) → (Nat → Int)
  | [], n => n
  | bond :: rest, n =>
    if bond.bondDir.isWedged then
      if mol.isCenter bond.beginAtomIdx then
        markWedged mol rest (Function.update n bond.beginAtomIdx (noNbrs + 1))
      else if mol.isCenter bond.endAtomIdx then
        markWedged mol rest (Function.update n bond.endAtomIdx (noNbrs + 1))
      else markWedged mol rest n
    else markWedged mol rest n

/-- Inner loop of the ranking: minus ten per hydrogen neighbour, minus one per
other tagged neighbour. -/
def countChiralNbrs (mol : ROMol) : List Nat → Int → Int
  | [], c => c
  | nat :: rest, c =>
    if (mol.getAtomWithIdx nat).atomicNum = 1 then countChiralNbrs mol rest (c - 10)
    else if !mol.isCenter nat then countChiralNbrs mol rest c
    else countChiralNbrs mol rest (c - 1)

/-- Second loop of `pickBondsToWedge`: ranks the tagged atoms that are not
already wedged; the flag is `chiNbrs`. -/
def rankAtoms (mol : ROMol) : List Nat → (Nat → Int) × Bool → (Nat → Int) × Bool
  | [], s => s
  | a :: rest, (n, chi) =>
    if n a > noNbrs then rankAtoms mol rest (n, chi)
    else if !mol.isCenter a then rankAtoms mol rest (n, chi)
    else
      rankAtoms mol rest
        (Function.update n a (countChiralNbrs mol (mol.atomNeighbors a) 0), true)

/-- The vector `nChiralNbrs` and the flag `chiNbrs` after the two loops. -/
def rankState (mol : ROMol) : (Nat → Int) × Bool :=
  rankAtoms mol (List.range mol.getNumAtoms)
    (markWedged mol mol.bonds (fun _ => noNbrs), false)

/-- The vector `nChiralNbrs`. -/
def nChiralNbrs (mol : ROMol) : Nat → Int := (rankState mol).1

/-- The `indices` vector: the atom indices, sorted by `nChiralNbrs` when some
center was ranked. `std::sort` leaves the order of equal ranks open; the
embedding takes the stable order, one of the orders the sort may return, and
the facts proved of the loop `wedgeLoop` are stated for every list of atoms. -/
def sortedIndices (mol : ROMol) : List Nat :=
  if (rankState mol).2 then
    (List.range mol.getNumAtoms).insertionSort
      (fun i j => nChiralNbrs mol i ≤ nChiralNbrs mol j)
  else List.range mol.getNumAtoms

/-- Score of the bond `bid` from center `a` to a neighbour that is not a
hydrogen. -/
def nbrScore (mol : ROMol) (n : Nat → Int) (a bid : Nat) : Int :=
  let oIdx := (mol.getBondWithIdx bid).getOtherAtomIdx a
  let oatom := mol.getAtomWithIdx oIdx
  let dbl := getDoubleBondPresence mol oIdx
  (oatom.atomicNum : Int) + 100 * (mol.getDegree oIdx : Int)
    + 1000 * (if oatom.chiralTag ≠ .CHI_UNSPECIFIED then 1 else 0)
    - (if n oIdx < noNbrs then 100000 * n oIdx else 0)
    + 10000 * (mol.numAtomRings oIdx : Int)
    + 20000 * (mol.numBondRings bid : Int)
    + 11000 * (dbl.1 : Int) + 12000 * (dbl.2.1 : Int) + 23000 * (dbl.2.2 : Int)

/-- The vector `nbrScores` built for center `a` given the bonds claimed so
far. -/
def nbrScores (mol : ROMol) (n : Nat → Int) (res : INT_MAP_INT) (a : Nat) :
    List (Int × Nat) :=
  (mol.atomBonds a).filterMap fun bid =>
    let bond := mol.getBondWithIdx bid
    if bond.bondType ≠ .SINGLE then none
    else if res.find bid = none then
      if (mol.getAtomWithIdx (bond.getOtherAtomIdx a)).atomicNum = 1 then
        some (-1000000, bid)
      else some (nbrScore mol n a bid, bid)
    else none

/-- Modelled from the spec: `Rankers::pairLess` (RDGeneral/Ranking.h) is not
part of the file; the spec has the lowest score chosen and ties broken by bond
index. -/
def pairLess (p q : Int × Nat) : Bool :=
  p.1 < q.1 || (p.1 == q.1 && p.2 < q.2)

/-- The sorted `nbrScores`. -/
def sortScores (l : List (Int × Nat)) : List (Int × Nat) :=
  l.insertionSort fun p q => pairLess q p = false

/-- The assignment loop of `pickBondsToWedge` over the atoms of `indices`. -/
def wedgeLoop (mol : ROMol) (n : Nat → Int) :
    List Nat → INT_MAP_INT → Except Err INT_MAP_INT
  | [], res => .ok res
  | idx :: rest, res =>
    if n idx > noNbrs then wedgeLoop mol n rest res
    else if !mol.isCenter idx then .ok res
    else
      match sortScores (nbrScores mol n res idx) with
      | [] => .error .invariant
      | p :: _ => wedgeLoop mol n rest (res.set p.2 idx)

/-- The map from wedged bond to its center. -/
def pickBondsToWedge (mol : ROMol) : Except Err INT_MAP_INT :=
  wedgeLoop mol (nChiralNbrs mol) (sortedIndices mol) []

/-- A tagged center that `pickBondsToWedge` does not exclude as already
wedged. -/
def isProcessable (mol : ROMol) (a : Nat) : Bool :=
  decide (a < mol.getNumAtoms) && mol.isCenter a
    && !decide (markWedged mol mol.bonds (fun _ => noNbrs) a > noNbrs)

/-- The processable centers in the order in which the loop reaches them. -/
def centersInOrder (mol : ROMol) : List Nat :=
  (sortedIndices mol).filter fun i => decide (nChiralNbrs mol i ≤ 0)

/-- The score entered in `nbrScores` for the candidate bond `bid` of center
`a`. -/
def candidateScore (mol : ROMol) (n : Nat → Int) (a bid : Nat) : Int :=
  if (mol.getAtomWithIdx ((mol.getBondWithIdx bid).getOtherAtomIdx a)).atomicNum = 1 then
    -1000000
  else nbrScore mol n a bid

/-- The bond `nbrScores[0].second` that the loop assigns to center `a` given the
bonds claimed so far, if there is a candidate. -/
def assignedBond (mol : ROMol) (n : Nat → Int) (res : INT_MAP_INT) (a : Nat) : Option Nat :=
  match sortScores (nbrScores mol n res a) with
  | [] => none
  | p :: _ => some p.2

/-- The candidate score in the words of the specification: a bond to a hydrogen
scores -1000000; a bond `b` to another neighbour `o` scores its atomic number,
100 per bond of `o`, 1000 if `o` carries a chiral tag, 100000 times (ten per
hydrogen neighbour plus one per other tagged neighbour) if `o` is itself a
tagged center not yet wedged, 10000 per ring of `o`, 20000 per ring of `b`,
11000 per double bond of `o`, 12000 more per double bond of specified stereo
and 23000 more per double bond of stereo STEREOANY. -/
def wedgeScoreSpec (mol : ROMol) (a b : Nat) : Int :=
  let o := (mol.getBondWithIdx b).getOtherAtomIdx a
  if (mol.getAtomWithIdx o).atomicNum = 1 then -1000000
  else
    ((mol.getAtomWithIdx o).atomicNum : Int)
      + 100 * ((mol.atomBonds o).length : Int)
      + (if (mol.getAtomWithIdx o).chiralTag = .CHI_UNSPECIFIED then 0 else 1000)
      + (if isProcessable mol o then
          100000 * (10 * (((mol.atomNeighbors o).filter fun x =>
                decide ((mol.getAtomWithIdx x).atomicNum = 1)).length : Int)
            + (((mol.atomNeighbors o).filter fun x =>
                !decide ((mol.getAtomWithIdx x).atomicNum = 1) && mol.isCenter x).length : Int))
        else 0)
      + 10000 * (mol.numAtomRings o : Int)
      + 20000 * (mol.numBondRings b : Int)
      + 11000 * (((mol.atomBonds o).filter fun i =>
          decide ((mol.getBondWithIdx i).bondType = .DOUBLE)).length : Int)
      + 12000 * (((mol.atomBonds o).filter fun i =>
          decide ((mol.getBondWithIdx i).bondType = .DOUBLE)
            && decide ((mol.getBondWithIdx i).stereo.toNat > BondStereo.STEREOANY.toNat)).length
          : Int)
      + 23000 * (((mol.atomBonds o).filter fun i =>
          decide ((mol.getBondWithIdx i).bondType = .DOUBLE)
            && decide ((mol.getBondWithIdx i).stereo = .STEREOANY)).length : Int)

/-- The kind of double bond at an atom: 0 for none, 1 for one double bond of
stereo STEREONONE, 2 for one of specified stereo, 3 for one of stereo
STEREOANY; no kind with two double bonds or more. -/
def doubleBondKind (mol : ROMol) (o : Nat) : Option Nat :=
  match (mol.atomBonds o).filter fun i => decide ((mol.getBondWithIdx i).bondType = .DOUBLE) with
  | [] => some 0
  | [d] =>
    if (mol.getBondWithIdx d).stereo = .STEREONONE then some 1
    else if (mol.getBondWithIdx d).stereo = .STEREOANY then some 3
    else some 2
  | _ => none

/-- The number `h` of neighbours of atomic number 1 of an atom. -/
def hydrogenNbrs (mol : ROMol) (a : Nat) : Nat :=
  ((mol.atomNeighbors a).filter fun x => decide ((mol.getAtomWithIdx x).atomicNum = 1)).length

/-- The number `c` of neighbours of an atom that are not hydrogens and are
tagged CW or CCW. -/
def taggedNbrs (mol : ROMol) (a : Nat) : Nat :=
  ((mol.atomNeighbors a).filter fun x =>
    !decide ((mol.getAtomWithIdx x).atomicNum = 1) && mol.isCenter x).length

/-- The rank value of a center in the words of the specification:
`-(10 * h + c)`. -/
def rankSpec (mol : ROMol) (a : Nat) : Int :=
  -(10 * (hydrogenNbrs mol a : Int) + (taggedNbrs mol a : Int))

/-- An atom that the first loop of `pickBondsToWedge` marks as already wedged:
a tagged center that begins a bond of direction BEGINWEDGE, BEGINDASH or
UNKNOWN, or that ends such a bond whose begin atom is not a tagged center. -/
def alreadyWedged (mol : ROMol) (a : Nat) : Bool :=
  mol.isCenter a && mol.bonds.any fun bond =>
    bond.bondDir.isWedged
      && (bond.beginAtomIdx == a || (bond.endAtomIdx == a && !mol.isCenter bond.beginAtomIdx))

/-- Two atoms are joined by a bond. -/
def areBonded (mol : ROMol) (a b : Nat) : Bool :=
  (mol.atomBonds a).any fun i => decide (i ∈ mol.atomBonds b)

/-! ## `DetermineBondWedgeState`, `WedgeBond`, `WedgeMolBonds` -/

/-- The macro `M_PI` of `<cmath>`: the double written `3.14159265358979323846`. -/
def M_PI : Double :=
  Double.round (314159265358979323846 / 100000000000000000000)

/-- The double written `1e-4`, the tolerance of the three-coordinate test. -/
def angleTol : Double :=
  Double.round (1 / 10000)

/-- Write access to a bond of the arena. -/
def ROMol.modifyBond (mol : ROMol) (i : Nat) (f : Bond → Bond) : ROMol :=
  { mol with bonds := mol.bonds.set i (f (mol.getBondWithIdx i)) }

/-- The setter `bond->setBondDir(d)`. -/
def ROMol.setBondDir (mol : ROMol) (i : Nat) (d : BondDir) : ROMol :=
  mol.modifyBond i fun b => { b with bondDir := d }

/-- The setter `bond->setStereo(s)`. -/
def ROMol.setStereo (mol : ROMol) (i : Nat) (s : BondStereo) : ROMol :=
  mol.modifyBond i fun b => { b with stereo := s }

/-- The exchange of begin and end atom done by `WedgeMolBonds`. -/
def ROMol.swapBeginEnd (mol : ROMol) (i : Nat) : ROMol :=
  mol.modifyBond i fun b =>
    { b with beginAtomIdx := b.endAtomIdx, endAtomIdx := b.beginAtomIdx }

/-- Insertion of a neighbour into the two parallel lists `neighborBondAngles`
and `neighborBondIndices`: both iterators advance while the angle is larger. -/
def insertNeighbor : List Double → List Nat → Double → Nat → List Double × List Nat
  | [], is, angle, bid => ([angle], bid :: is)
  | a :: as, [], angle, bid =>
    if angle.gt a then
      ((a :: (insertNeighbor as [] angle bid).1), (insertNeighbor as [] angle bid).2)
    else (angle :: a :: as, [bid])
  | a :: as, i :: is, angle, bid =>
    if angle.gt a then
      ((a :: (insertNeighbor as is angle bid).1), (i :: (insertNeighbor as is angle bid).2))
    else (angle :: a :: as, bid :: i :: is)

/-- The loop of `DetermineBondWedgeState` over the bonds of the center `atom`;
`bondAtom` is the other end of the reference bond `bid`. -/
def neighborLoop (mol : ROMol) (conf : Conformer) (atom bondAtom bid : Nat) :
    List Nat → List Double × List Nat → List Double × List Nat
  | [], s => s
  | nb :: rest, s =>
    if nb ≠ bid then
      let otherAtom := (mol.getBondWithIdx nb).getOtherAtomIdx atom
      let angle0 := conf.signedAngle atom bondAtom otherAtom
      let angle := if angle0.lt 0 then angle0.add (Double.mul 2 M_PI) else angle0
      neighborLoop mol conf atom bondAtom bid rest (insertNeighbor s.1 s.2 angle nb)
    else neighborLoop mol conf atom bondAtom bid rest s

/-- The atom `atom` that `DetermineBondWedgeState` takes as the center. -/
def fromAtom (bond : Bond) (fromAtomIdx : Nat) : Nat :=
  if bond.beginAtomIdx = fromAtomIdx then bond.beginAtomIdx else bond.endAtomIdx

/-- The atom `bondAtom` at the other end. -/
def toAtom (bond : Bond) (fromAtomIdx : Nat) : Nat :=
  if bond.beginAtomIdx = fromAtomIdx then bond.endAtomIdx else bond.beginAtomIdx

/-- The lists `(neighborBondAngles, neighborBondIndices)` at the end of the
neighbour loop. -/
def neighborLists (mol : ROMol) (conf : Conformer) (bid fromAtomIdx : Nat) :
    List Double × List Nat :=
  let bond := mol.getBondWithIdx bid
  neighborLoop mol conf (fromAtom bond fromAtomIdx) (toAtom bond fromAtomIdx) bid
    (mol.atomBonds (fromAtom bond fromAtomIdx)) ([0], [bid])

/-- The extra swap of a three-coordinate center: the test
`angle2 - angle1 >= (M_PI - 1e-4)` on the second and third entry of the angle
list, both sides computed in doubles. -/
def extraSwap (angles : List Double) : Nat :=
  if angles.length = 3 then
    if ((angles.getD 2 0).sub (angles.getD 1 0)).ge (M_PI.sub angleTol) then 1 else 0
  else 0

/-- The total `nSwaps` of `DetermineBondWedgeState`. -/
def totalSwaps (mol : ROMol) (conf : Conformer) (bid fromAtomIdx : Nat) : Nat :=
  let lists := neighborLists mol conf bid fromAtomIdx
  mol.getPerturbationOrder (fromAtom (mol.getBondWithIdx bid) fromAtomIdx) lists.2
    + extraSwap lists.1

/-- The overload `DetermineBondWedgeState(bond, fromAtomIdx, conf)`; the bond
is given by its index and a bond outside the arena is the null bond. -/
def DetermineBondWedgeState (mol : ROMol) (bid fromAtomIdx : Nat)
    (conf : Option Conformer) : Except Err BondDir :=
  match mol.bonds[bid]? with
  | none => .error .precondition
  | some bond =>
    if bond.bondType ≠ .SINGLE then .error .precondition
    else
      match conf with
      | none => .ok bond.bondDir
      | some c =>
        let chiralType := (mol.getAtomWithIdx (fromAtom bond fromAtomIdx)).chiralTag
        if !chiralType.isTetrahedral then .error .invariant
        else
          let nSwaps := totalSwaps mol c bid fromAtomIdx
          if chiralType = .CHI_TETRAHEDRAL_CCW then
            if nSwaps % 2 = 1 then .ok .BEGINDASH else .ok .BEGINWEDGE
          else
            if nSwaps % 2 = 1 then .ok .BEGINWEDGE else .ok .BEGINDASH

/-- The overload `DetermineBondWedgeState(bond, wedgeBonds, conf)`. -/
def DetermineBondWedgeStateMap (mol : ROMol) (bid : Nat) (wedgeBonds : INT_MAP_INT)
    (conf : Option Conformer) : Except Err BondDir :=
  match mol.bonds[bid]? with
  | none => .error .precondition
  | some bond =>
    match wedgeBonds.find bid with
    | none => .ok bond.bondDir
    | some waid => DetermineBondWedgeState mol bid waid conf

/-- The routine `WedgeBond(bond, fromAtomIdx, conf)`. -/
def WedgeBond (mol : ROMol) (bid fromAtomIdx : Nat) (conf : Option Conformer) :
    Except Err ROMol :=
  match mol.bonds[bid]? with
  | none => .error .precondition
  | some bond =>
    match conf with
    | none => .error .precondition
    | some c =>
      if c.owningMol ≠ mol.molId then .error .precondition
      else if bond.bondType ≠ .SINGLE then .ok mol
      else
        match DetermineBondWedgeState mol bid fromAtomIdx (some c) with
        | .error e => .error e
        | .ok dir =>
          if dir = .BEGINWEDGE ∨ dir = .BEGINDASH then .ok (mol.setBondDir bid dir)
          else .ok mol

/-- The loop of `WedgeMolBonds` over the bonds. -/
def wedgeMolLoop (wedgeBonds : INT_MAP_INT) (conf : Conformer) :
    List Nat → ROMol → Except Err ROMol
  | [], mol => .ok mol
  | i :: rest, mol =>
    if (mol.getBondWithIdx i).bondType = .SINGLE then
      match DetermineBondWedgeStateMap mol i wedgeBonds (some conf) with
      | .error e => .error e
      | .ok dir =>
        if dir = .BEGINWEDGE ∨ dir = .BEGINDASH then
          let mol1 := mol.setBondDir i dir
          match wedgeBonds.find i with
          | none => wedgeMolLoop wedgeBonds conf rest mol1
          | some a =>
            if a ≠ (mol1.getBondWithIdx i).beginAtomIdx then
              wedgeMolLoop wedgeBonds conf rest (mol1.swapBeginEnd i)
            else wedgeMolLoop wedgeBonds conf rest mol1
        else wedgeMolLoop wedgeBonds conf rest mol
    else wedgeMolLoop wedgeBonds conf rest mol

/-- The routine `WedgeMolBonds(mol, conf)`. -/
def WedgeMolBonds (mol : ROMol) (conf : Option Conformer) : Except Err ROMol :=
  match conf with
  | none => .error .precondition
  | some c =>
    match pickBondsToWedge mol with
    | .error e => .error e
    | .ok wedgeBonds => wedgeMolLoop wedgeBonds c (List.range mol.getNumBonds) mol

/-- The angle that the neighbour loop of `DetermineBondWedgeState` computes for
the bond `nb` of the center `atom`: the signed angle from the reference
direction, with `2. * M_PI` added when it is negative. -/
def neighborAngle (mol : ROMol) (conf : Conformer) (atom bondAtom nb : Nat) : Double :=
  if (conf.signedAngle atom bondAtom ((mol.getBondWithIdx nb).getOtherAtomIdx atom)).lt 0 then
    (conf.signedAngle atom bondAtom ((mol.getBondWithIdx nb).getOtherAtomIdx atom)).add
      (Double.mul 2 M_PI)
  else conf.signedAngle atom bondAtom ((mol.getBondWithIdx nb).getOtherAtomIdx atom)

/-- The direction that `DetermineBondWedgeState` derives from the chiral tag of
the center and the swap count `nSwaps`. -/
def swapsToDir (chiralType : ChiralType) (nSwaps : Nat) : BondDir :=
  if chiralType = .CHI_TETRAHEDRAL_CCW then
    if nSwaps % 2 = 1 then .BEGINDASH else .BEGINWEDGE
  else
    if nSwaps % 2 = 1 then .BEGINWEDGE else .BEGINDASH

/-- The loop of `WedgeMolBonds` with the molecule kept as a state: the result
is the molecule as the loop leaves it, at its end or at the throw, and the
error thrown, if any. -/
def wedgeMolLoopState (wedgeBonds : INT_MAP_INT) (conf : Conformer) :
    List Nat → ROMol → ROMol × Option Err
  | [], mol => (mol, none)
  | i :: rest, mol =>
    if (mol.getBondWithIdx i).bondType = .SINGLE then
      match DetermineBondWedgeStateMap mol i wedgeBonds (some conf) with
      | .error e => (mol, some e)
      | .ok dir =>
        if dir = .BEGINWEDGE ∨ dir = .BEGINDASH then
          let mol1 := mol.setBondDir i dir
          match wedgeBonds.find i with
          | none => wedgeMolLoopState wedgeBonds conf rest mol1
          | some a =>
            if a ≠ (mol1.getBondWithIdx i).beginAtomIdx then
              wedgeMolLoopState wedgeBonds conf rest (mol1.swapBeginEnd i)
            else wedgeMolLoopState wedgeBonds conf rest mol1
        else wedgeMolLoopState wedgeBonds conf rest mol
    else wedgeMolLoopState wedgeBonds conf rest mol

/-- The routine `WedgeMolBonds(mol, conf)` with the molecule kept as a state:
the molecule after the call, returned or thrown out of, and the error thrown,
if any. -/
def WedgeMolBondsState (mol : ROMol) (conf : Option Conformer) : ROMol × Option Err :=
  match conf with
  | none => (mol, some .precondition)
  | some c =>
    match pickBondsToWedge mol with
    | .error e => (mol, some e)
    | .ok wedgeBonds => wedgeMolLoopState wedgeBonds c (List.range mol.getNumBonds) mol

/-- The routine `WedgeBond(bond, fromAtomIdx, conf)` with the molecule kept as
a state. -/
def WedgeBondState (mol : ROMol) (bid fromAtomIdx : Nat) (conf : Option Conformer) :
    ROMol × Option Err :=
  match mol.bonds[bid]? with
  | none => (mol, some .precondition)
  | some bond =>
    match conf with
    | none => (mol, some .precondition)
    | some c =>
      if c.owningMol ≠ mol.molId then (mol, some .precondition)
      else if bond.bondType ≠ .SINGLE then (mol, none)
      else
        match DetermineBondWedgeState mol bid fromAtomIdx (some c) with
        | .error e => (mol, some e)
        | .ok dir =>
          if dir = .BEGINWEDGE ∨ dir = .BEGINDASH then (mol.setBondDir bid dir, none)
          else (mol, none)

/-- The outcome of a call as an `Except`: the state when nothing was thrown. -/
def outcome (r : ROMol × Option Err) : Except Err ROMol :=
  match r.2 with
  | none => .ok r.1
  | some e => .error e

/-! ## `addWavyBondsForStereoAny` -/

/-- The constants of `StereoBondThresholds`; their values are declared in the
header and enter as a parameter. -/
structure StereoBondThresholds where
  DBL_BOND_NO_STEREO : Nat
  DBL_BOND_SPECIFIED_STEREO : Nat
  CHIRAL_ATOM : Nat
  DIRECTION_SET : Nat

/-- Bonds sharing an atom with bond `bid`: those at its begin atom, then those
at its end atom, the bond itself left out. -/
def getBondNeighbors (mol : ROMol) (bid : Nat) : List Nat :=
  (mol.atomBonds (mol.getBondWithIdx bid).beginAtomIdx).filter (fun i => i != bid)
    ++ (mol.atomBonds (mol.getBondWithIdx bid).endAtomIdx).filter (fun i => i != bid)

/-- The end of `bond1` that is not shared with `bond2`. -/
def getNonsharedAtom (bond1 bond2 : Bond) : Except Err Nat :=
  if bond1.beginAtomIdx = bond2.beginAtomIdx ∨ bond1.beginAtomIdx = bond2.endAtomIdx then
    .ok bond1.endAtomIdx
  else if bond1.endAtomIdx = bond2.beginAtomIdx ∨ bond1.endAtomIdx = bond2.endAtomIdx then
    .ok bond1.beginAtomIdx
  else .error .postcondition

/-- The three tables of the scoring pass: `singleBondScores`,
`singleBondNeighbors` and `doubleBondsToSet`. -/
structure WavyTables where
  singleBondScores : Nat → Nat
  singleBondNeighbors : Nat → List Nat
  doubleBondsToSet : Nat → Bool

/-- The penalty added to a single bond `sb` for its adjacency to the double
bond `dbl`, `otherAtom` being the end of `sb` away from `dbl`. -/
def wavyPenalty (th : StereoBondThresholds) (mol : ROMol) (sb dbl otherAtom : Nat) : Nat :=
  1
    + (if (mol.getBondWithIdx sb).bondDir ≠ .NONE then th.DIRECTION_SET / 10 else 0)
    + (if (mol.getBondWithIdx dbl).stereo = .STEREONONE then th.DBL_BOND_NO_STEREO / 10
       else if (mol.getBondWithIdx dbl).stereo.toNat > BondStereo.STEREOANY.toNat then
         th.DBL_BOND_SPECIFIED_STEREO / 10
       else 0)
    + 10 * mol.getDegree otherAtom
    + (if (mol.getAtomWithIdx otherAtom).chiralTag ≠ .CHI_UNSPECIFIED
          ∧ (mol.getAtomWithIdx otherAtom).chiralTag ≠ .CHI_OTHER then
         th.CHIRAL_ATOM / 10
       else 0)

/-- Inner loop of the scoring pass, over the neighbours of the double bond
`dbl`. -/
def scoreNeighbors (th : StereoBondThresholds) (mol : ROMol) (dbl : Nat) :
    List Nat → WavyTables → Except Err WavyTables
  | [], t => .ok t
  | sb :: rest, t =>
    if (mol.getBondWithIdx sb).bondType ≠ .SINGLE then scoreNeighbors th mol dbl rest t
    else
      match getNonsharedAtom (mol.getBondWithIdx sb) (mol.getBondWithIdx dbl) with
      | .error e => .error e
      | .ok otherAtom =>
        scoreNeighbors th mol dbl rest
          { singleBondScores :=
              Function.update t.singleBondScores sb
                (t.singleBondScores sb + wavyPenalty th mol sb dbl otherAtom)
            singleBondNeighbors :=
              if (mol.getBondWithIdx dbl).stereo = .STEREOANY then
                Function.update t.singleBondNeighbors sb (t.singleBondNeighbors sb ++ [dbl])
              else t.singleBondNeighbors
            doubleBondsToSet := t.doubleBondsToSet }

/-- Outer loop of the scoring pass, over all bonds. -/
def scoreBonds (th : StereoBondThresholds) (mol : ROMol) :
    List Nat → WavyTables → Except Err WavyTables
  | [], t => .ok t
  | d :: rest, t =>
    if (mol.getBondWithIdx d).bondType ≠ .DOUBLE then scoreBonds th mol rest t
    else
      match
        scoreNeighbors th mol d (getBondNeighbors mol d)
          (if (mol.getBondWithIdx d).stereo = .STEREOANY then
            { t with doubleBondsToSet := Function.update t.doubleBondsToSet d true }
          else t) with
      | .error e => .error e
      | .ok t2 => scoreBonds th mol rest t2

/-- The tables after the scoring pass. -/
def wavyTables (th : StereoBondThresholds) (mol : ROMol) : Except Err WavyTables :=
  scoreBonds th mol (List.range mol.getNumBonds)
    ⟨fun _ => 0, fun _ => [], fun _ => false⟩

/-- The order `<` of the tuples `(-count, score, index)`. -/
def tupleLess (p q : Int × Nat × Nat) : Bool :=
  p.1 < q.1 || (p.1 == q.1 && (p.2.1 < q.2.1 || (p.2.1 == q.2.1 && p.2.2 < q.2.2)))

/-- The vector `sortedScores`. -/
def sortedScores (mol : ROMol) (t : WavyTables) : List (Int × Nat × Nat) :=
  ((List.range mol.getNumBonds).filterMap fun i =>
      if t.singleBondScores i = 0 then none
      else some (-((t.singleBondNeighbors i).length : Int), t.singleBondScores i, i)).insertionSort
    fun p q => tupleLess q p = false

/-- The clearing of a double bond in the marking pass: an EITHERDOUBLE
direction becomes NONE and the stereo becomes STEREONONE. -/
def clearDoubleBond (mol : ROMol) (dblBondIdx : Nat) : ROMol :=
  (if (mol.getBondWithIdx dblBondIdx).bondDir = .EITHERDOUBLE then
    mol.setBondDir dblBondIdx .NONE
  else mol).setStereo dblBondIdx .STEREONONE

/-- Body of the inner loop of the marking pass: the single bond `sb` with score
`score` meets its double bond neighbour `dblBondIdx`; the state is the molecule
and `doubleBondsToSet`. -/
def wavyStep (clearDoubleBondFlags : Bool) (addWhenImpossible score sb : Nat)
    (st : ROMol × (Nat → Bool)) (dblBondIdx : Nat) : ROMol × (Nat → Bool) :=
  if st.2 dblBondIdx then
    if addWhenImpossible ≠ 0 ∧ score > addWhenImpossible then st
    else
      (if clearDoubleBondFlags then
          clearDoubleBond (st.1.setBondDir sb .UNKNOWN) dblBondIdx
        else st.1.setBondDir sb .UNKNOWN,
        Function.update st.2 dblBondIdx false)
  else st

/-- Inner loop of the marking pass, over the double bond neighbours of `sb`. -/
def wavyInner (clearDoubleBondFlags : Bool) (addWhenImpossible score sb : Nat)
    (dbls : List Nat) (st : ROMol × (Nat → Bool)) : ROMol × (Nat → Bool) :=
  dbls.foldl (wavyStep clearDoubleBondFlags addWhenImpossible score sb) st

/-- Outer loop of the marking pass, over `sortedScores`. -/
def wavyOuter (clearDoubleBondFlags : Bool) (addWhenImpossible : Nat)
    (nbrs : Nat → List Nat) (scores : List (Int × Nat × Nat))
    (st : ROMol × (Nat → Bool)) : ROMol × (Nat → Bool) :=
  scores.foldl
    (fun st tpl =>
      wavyInner clearDoubleBondFlags addWhenImpossible tpl.2.1 tpl.2.2 (nbrs tpl.2.2) st)
    st

/-- The routine `addWavyBondsForStereoAny(mol, clearDoubleBondFlags,
addWhenImpossible)`. -/
def addWavyBondsForStereoAny (th : StereoBondThresholds) (mol : ROMol)
    (clearDoubleBondFlags : Bool) (addWhenImpossible : Nat) : Except Err ROMol :=
  match wavyTables th mol with
  | .error e => .error e
  | .ok t =>
    .ok (wavyOuter clearDoubleBondFlags addWhenImpossible t.singleBondNeighbors
      (sortedScores mol t) (mol, t.doubleBondsToSet)).1

/-- The accumulated score of a single bond after the scoring pass. -/
def wavyScore (th : StereoBondThresholds) (mol : ROMol) (s : Nat) : Nat :=
  match wavyTables th mol with
  | .ok t => t.singleBondScores s
  | .error _ => 0

/-- The double bond `D` is resolved in a state: some single bond that lists it
is marked UNKNOWN and, when flags are cleared, `D` has no stereo and no
EITHERDOUBLE direction. -/
def Resolved (c : Bool) (nbrs : Nat → List Nat) (D : Nat) (mol : ROMol) : Prop :=
  (∃ s, D ∈ nbrs s ∧ (mol.getBondWithIdx s).bondDir = .UNKNOWN)
    ∧ (c = true → (mol.getBondWithIdx D).stereo = .STEREONONE
        ∧ (mol.getBondWithIdx D).bondDir ≠ .EITHERDOUBLE)

/-- Two molecules with the same number of bonds and the same ends and type
of every bond. -/
def SameGraph (m1 m2 : ROMol) : Prop :=
  m1.bonds.length = m2.bonds.length
    ∧ ∀ j, (m1.getBondWithIdx j).beginAtomIdx = (m2.getBondWithIdx j).beginAtomIdx
      ∧ (m1.getBondWithIdx j).endAtomIdx = (m2.getBondWithIdx j).endAtomIdx
      ∧ (m1.getBondWithIdx j).bondType = (m2.getBondWithIdx j).bondType

/-- What the marking pass may have done to a molecule `m0` to reach `cur`, given
the table `nbrs` of double bond neighbours: nothing outside the bonds; on a bond
the ends, the type and the property are kept; a direction is kept, or is
UNKNOWN on a bond that lists a double bond, or (flags cleared) is NONE on a
listed double bond that was EITHERDOUBLE; a stereo is kept, or (flags cleared)
is STEREONONE on a listed double bond. -/
def WavyFrame (c : Bool) (nbrs : Nat → List Nat) (m0 cur : ROMol) : Prop :=
  (cur.atoms = m0.atoms ∧ cur.numAtomRings = m0.numAtomRings
      ∧ cur.numBondRings = m0.numBondRings
      ∧ cur.getPerturbationOrder = m0.getPerturbationOrder ∧ cur.molId = m0.molId)
    ∧ cur.bonds.length = m0.bonds.length
    ∧ ∀ j,
      (cur.getBondWithIdx j).beginAtomIdx = (m0.getBondWithIdx j).beginAtomIdx
        ∧ (cur.getBondWithIdx j).endAtomIdx = (m0.getBondWithIdx j).endAtomIdx
        ∧ (cur.getBondWithIdx j).bondType = (m0.getBondWithIdx j).bondType
        ∧ (cur.getBondWithIdx j).unknownStereoProp = (m0.getBondWithIdx j).unknownStereoProp
        ∧ ((cur.getBondWithIdx j).bondDir = (m0.getBondWithIdx j).bondDir
          ∨ ((cur.getBondWithIdx j).bondDir = .UNKNOWN ∧ nbrs j ≠ [])
          ∨ (c = true ∧ (cur.getBondWithIdx j).bondDir = .NONE
            ∧ (m0.getBondWithIdx j).bondDir = .EITHERDOUBLE ∧ ∃ s, j ∈ nbrs s))
        ∧ ((cur.getBondWithIdx j).stereo = (m0.getBondWithIdx j).stereo
          ∨ (c = true ∧ (cur.getBondWithIdx j).stereo = .STEREONONE ∧ ∃ s, j ∈ nbrs s))

/-- The molecule is a simple graph, as `RWMol::addBond` enforces: no bond joins
an atom to itself and no two bonds join the same pair of atoms. -/
def ROMol.isSimpleGraph (mol : ROMol) : Bool :=
  (List.range mol.bonds.length).all fun i =>
    (mol.getBondWithIdx i).beginAtomIdx != (mol.getBondWithIdx i).endAtomIdx
      && (List.range mol.bonds.length).all fun j =>
        i == j
          || !(((mol.getBondWithIdx i).beginAtomIdx == (mol.getBondWithIdx j).beginAtomIdx
                && (mol.getBondWithIdx i).endAtomIdx == (mol.getBondWithIdx j).endAtomIdx)
              || ((mol.getBondWithIdx i).beginAtomIdx == (mol.getBondWithIdx j).endAtomIdx
                && (mol.getBondWithIdx i).endAtomIdx == (mol.getBondWithIdx j).beginAtomIdx))

/-- Two bonds have an atom in common. -/
def Bond.sharesAtom (b1 b2 : Bond) : Bool :=
  b1.beginAtomIdx == b2.beginAtomIdx || b1.beginAtomIdx == b2.endAtomIdx
    || b1.endAtomIdx == b2.beginAtomIdx || b1.endAtomIdx == b2.endAtomIdx

/-- The end of `b1` that is not an end of `b2`, for two bonds with one atom in
common. -/
def nonsharedAtomIdx (b1 b2 : Bond) : Nat :=
  if b1.beginAtomIdx = b2.beginAtomIdx ∨ b1.beginAtomIdx = b2.endAtomIdx then b1.endAtomIdx
  else b1.beginAtomIdx

/-- The score of a bond `S` in the words of the specification: zero unless `S`
is a single bond; otherwise the sum, over the double bonds `D` that share an
atom with `S`, of one, a tenth of `DIRECTION_SET` if `S` has a direction, a
tenth of `DBL_BOND_NO_STEREO` if `D` has no stereo or of
`DBL_BOND_SPECIFIED_STEREO` if its stereo is above STEREOANY, ten times the
degree of the atom `a` of `S` away from `D`, and a tenth of `CHIRAL_ATOM` if the
chiral tag of `a` is neither CHI_UNSPECIFIED nor CHI_OTHER. -/
def wavyScoreSpec (th : StereoBondThresholds) (mol : ROMol) (S : Nat) : Nat :=
  if S < mol.bonds.length ∧ (mol.getBondWithIdx S).bondType = .SINGLE then
    (((List.range mol.bonds.length).filter fun D =>
        decide (D ≠ S) && decide ((mol.getBondWithIdx D).bondType = .DOUBLE)
          && (mol.getBondWithIdx S).sharesAtom (mol.getBondWithIdx D)).map fun D =>
      1
        + (if (mol.getBondWithIdx S).bondDir ≠ .NONE then th.DIRECTION_SET / 10 else 0)
        + (if (mol.getBondWithIdx D).stereo = .STEREONONE then th.DBL_BOND_NO_STEREO / 10
           else if (mol.getBondWithIdx D).stereo.toNat > BondStereo.STEREOANY.toNat then
             th.DBL_BOND_SPECIFIED_STEREO / 10
           else 0)
        + 10 * (mol.atomBonds
            (nonsharedAtomIdx (mol.getBondWithIdx S) (mol.getBondWithIdx D))).length
        + (if (mol.getAtomWithIdx
              (nonsharedAtomIdx (mol.getBondWithIdx S) (mol.getBondWithIdx D))).chiralTag
                ≠ .CHI_UNSPECIFIED
              ∧ (mol.getAtomWithIdx
                (nonsharedAtomIdx (mol.getBondWithIdx S) (mol.getBondWithIdx D))).chiralTag
                ≠ .CHI_OTHER then
            th.CHIRAL_ATOM / 10
          else 0)).sum
  else 0

/-- The double bonds of stereo STEREOANY, in ascending index. -/
def anyDoubleBonds (mol : ROMol) : List Nat :=
  (List.range mol.bonds.length).filter fun D =>
    decide ((mol.getBondWithIdx D).bondType = .DOUBLE)
      && decide ((mol.getBondWithIdx D).stereo = .STEREOANY)

/-- The number of STEREOANY double bonds next to the bond `s`. -/
def adjacentAnyCount (mol : ROMol) (s : Nat) : Nat :=
  ((anyDoubleBonds mol).filter fun D => decide (s ∈ getBondNeighbors mol D)).length

/-- The key `(-count, score, index)` by which the candidates are ranked. -/
def visitKey (th : StereoBondThresholds) (mol : ROMol) (s : Nat) : Int × Nat × Nat :=
  (-(adjacentAnyCount mol s : Int), wavyScore th mol s, s)

/-- The single bonds in the order in which the marking pass visits them. -/
def visitOrder (th : StereoBondThresholds) (mol : ROMol) : List Nat :=
  match wavyTables th mol with
  | .ok t => (sortedScores mol t).map fun tpl => tpl.2.2
  | .error _ => []

/-- Body of the inner loop of the marking pass with a log of the calls of
`setBondDir(UNKNOWN)`: the step of `wavyStep`, and the single bond `sb` entered
in the log when the step marks it. -/
def wavyStepLog (clearDoubleBondFlags : Bool) (addWhenImpossible score sb : Nat)
    (st : (ROMol × (Nat → Bool)) × List Nat) (dblBondIdx : Nat) :
    (ROMol × (Nat → Bool)) × List Nat :=
  (wavyStep clearDoubleBondFlags addWhenImpossible score sb st.1 dblBondIdx,
    if st.1.2 dblBondIdx = true ∧ ¬ (addWhenImpossible ≠ 0 ∧ score > addWhenImpossible) then
      sb :: st.2
    else st.2)

/-- Inner loop of the marking pass with the log. -/
def wavyInnerLog (clearDoubleBondFlags : Bool) (addWhenImpossible score sb : Nat)
    (dbls : List Nat) (st : (ROMol × (Nat → Bool)) × List Nat) :
    (ROMol × (Nat → Bool)) × List Nat :=
  dbls.foldl (wavyStepLog clearDoubleBondFlags addWhenImpossible score sb) st

/-- Outer loop of the marking pass with the log. -/
def wavyOuterLog (clearDoubleBondFlags : Bool) (addWhenImpossible : Nat)
    (nbrs : Nat → List Nat) (scores : List (Int × Nat × Nat))
    (st : (ROMol × (Nat → Bool)) × List Nat) : (ROMol × (Nat → Bool)) × List Nat :=
  scores.foldl
    (fun st tpl =>
      wavyInnerLog clearDoubleBondFlags addWhenImpossible tpl.2.1 tpl.2.2 (nbrs tpl.2.2) st)
    st

/-- The single bonds on which `addWavyBondsForStereoAny` calls
`setBondDir(UNKNOWN)`, one entry per call, the last call first. -/
def markedBonds (th : StereoBondThresholds) (mol : ROMol) (clearDoubleBondFlags : Bool)
    (addWhenImpossible : Nat) : List Nat :=
  match wavyTables th mol with
  | .error _ => []
  | .ok t =>
    (wavyOuterLog clearDoubleBondFlags addWhenImpossible t.singleBondNeighbors
      (sortedScores mol t) ((mol, t.doubleBondsToSet), [])).2

/-- The invariant of the marking pass with its log, with respect to the input
molecule `m0`, the table `nbrs` and the number `K` of bits set at the start:
every call logged has reset one bit; a logged bond is UNKNOWN and lists a
double bond; a bond that is not a listed double bond and has changed its
direction is logged. -/
def LogInv (m0 : ROMol) (nbrs : Nat → List Nat) (K : Nat)
    (st : (ROMol × (Nat → Bool)) × List Nat) : Prop :=
  st.2.length + List.countP st.1.2 (List.range m0.bonds.length) = K
    ∧ (∀ s ∈ st.2, (st.1.1.getBondWithIdx s).bondDir = .UNKNOWN ∧ nbrs s ≠ [])
    ∧ (∀ j, (∀ s, j ∉ nbrs s) →
        (st.1.1.getBondWithIdx j).bondDir ≠ (m0.getBondWithIdx j).bondDir → j ∈ st.2)
    ∧ st.1.1.bonds.length = m0.bonds.length

/-! ## `ClearSingleBondDirFlags` -/

/-- The routine `ClearSingleBondDirFlags(mol)`. -/
def ClearSingleBondDirFlags (mol : ROMol) : ROMol :=
  { mol with
    bonds := mol.bonds.map fun b =>
      if b.bondType = .SINGLE then
        { b with
          unknownStereoProp := if b.bondDir = .UNKNOWN then some 1 else b.unknownStereoProp
          bondDir := .NONE }
      else b }

/-! ## `findPotentialStereo` -/

/-- Modelled from the spec: the variant `type` of a `StereoInfo`
(Code/GraphMol/Chirality.h is not part of the file). -/
inductive StereoType where
  | Unspecified
  | Atom_Tetrahedral
  | Atom_SquarePlanar
  | Atom_TrigonalBipyramidal
  | Atom_Octahedral
  | Bond_Double
  deriving DecidableEq, Repr

/-- Modelled from the spec: the variant `specified` of a `StereoInfo`. -/
inductive StereoSpecified where
  | Unspecified
  | Specified
  | Unknown
  deriving DecidableEq, Repr

/-- Modelled from the spec: the variant `descriptor` of a `StereoInfo`. -/
inductive StereoDescriptor where
  | None
  | Tet_CW
  | Tet_CCW
  | Bond_Cis
  | Bond_Trans
  deriving DecidableEq, Repr

/-- Modelled from the spec: a candidate stereo element, with the fields the
data model lists; the sentinel of `controllingAtoms` is `none`. -/
structure StereoInfo where
  type : StereoType
  centeredOn : Nat
  controllingAtoms : List (Option Nat)
  specified : StereoSpecified
  descriptor : StereoDescriptor
  permutation : Nat
  deriving DecidableEq, Repr

/-- Modelled from the spec: the parts of the perception engine that the
algorithm of `findPotentialStereo` calls and that are not part of the file:
`perceive` is the candidate list after the steps 1 to 3 (classifier,
controlling atoms, dependent stereocenters), `cleanUp` the graph after the
clearing of step 4 and `permutationOf` the table lookup of step 6. -/
structure StereoEngine where
  perceive : ROMol → List StereoInfo
  cleanUp : ROMol → List StereoInfo → ROMol
  permutationOf : ROMol → StereoInfo → Nat

/-- Modelled from the spec: a candidate of one of the non-tetrahedral atom
types. -/
def StereoInfo.isNonTetrahedral (si : StereoInfo) : Bool :=
  si.type == .Atom_SquarePlanar || si.type == .Atom_TrigonalBipyramidal
    || si.type == .Atom_Octahedral

/-- Modelled from the spec: `findPotentialStereo(graph, cleanUp, flagPossible)`
(Code/GraphMol/FindStereo.cpp is not part of the file), following the steps of
the algorithm: the candidates of the steps 1 to 3; if `cleanUp` is set, the
clearing of step 4; if `flagPossible` is false, only the candidates whose
`specified` is not unspecified are kept (step 5); the non-tetrahedral centers
get their `permutation` (step 6). The result is the graph after the call and
the sequence returned. -/
def findPotentialStereo (eng : StereoEngine) (mol : ROMol) (cleanUp flagPossible : Bool) :
    ROMol × List StereoInfo :=
  let candidates := eng.perceive mol
  let mol1 := if cleanUp then eng.cleanUp mol candidates else mol
  let kept :=
    if flagPossible then candidates
    else candidates.filter fun si => si.specified != .Unspecified
  (mol1, kept.map fun si =>
    if si.isNonTetrahedral then { si with permutation := eng.permutationOf mol1 si } else si)

/-! ## Concrete molecules used as inputs -/

/-- An untagged carbon. -/
def carbon : Atom := ⟨6, .CHI_UNSPECIFIED⟩

/-- A hydrogen. -/
def hydrogen : Atom := ⟨1, .CHI_UNSPECIFIED⟩

/-- A bond without direction or stereo. -/
def plainBond (b e : Nat) (t : BondType) : Bond := ⟨b, e, t, .NONE, .STEREONONE, none⟩

/-- A double bond with the given stereo. -/
def stereoBond (b e : Nat) (s : BondStereo) : Bond := ⟨b, e, .DOUBLE, .NONE, s, none⟩

/-- An acyclic molecule with a constant perturbation order. -/
def acyclic (atoms : List Atom) (bonds : List Bond) (nSwaps : Nat) : ROMol :=
  ⟨atoms, bonds, fun _ => 0, fun _ => 0, fun _ _ => nSwaps, 0⟩

/-- A clockwise center (atom 0) with four carbon neighbours; the bonds 1, 2
and 3 start at the neighbour. -/
def tetraMol (nSwaps : Nat) : ROMol :=
  acyclic [⟨6, .CHI_TETRAHEDRAL_CW⟩, carbon, carbon, carbon, carbon]
    [plainBond 0 1 .SINGLE, plainBond 2 0 .SINGLE, plainBond 3 0 .SINGLE,
      plainBond 4 0 .SINGLE]
    nSwaps

/-- A depiction of `tetraMol`: the neighbours 2, 3 and 4 of atom 0 lie at the
angles 1, 2 and 3 from the first one. -/
def tetraConf : Conformer :=
  ⟨0, fun _ _ o => match o with
    | 2 => 1
    | 3 => 2
    | 4 => 3
    | _ => 0⟩

/-- Two adjacent centers: atom 0 (clockwise) carries a hydrogen (atom 2) and a
carbon, atom 1 (counterclockwise) two carbons and an oxygen. -/
def twoCenters : ROMol :=
  acyclic
    [⟨6, .CHI_TETRAHEDRAL_CW⟩, ⟨6, .CHI_TETRAHEDRAL_CCW⟩, hydrogen, carbon, carbon, carbon,
      ⟨8, .CHI_UNSPECIFIED⟩]
    [plainBond 0 1 .SINGLE, plainBond 0 2 .SINGLE, plainBond 0 3 .SINGLE,
      plainBond 1 4 .SINGLE, plainBond 1 5 .SINGLE, plainBond 1 6 .SINGLE]
    0

/-- Two centers whose only single bond is the bond between them. -/
def crowded : ROMol :=
  acyclic [⟨6, .CHI_TETRAHEDRAL_CW⟩, ⟨6, .CHI_TETRAHEDRAL_CW⟩, carbon, carbon]
    [plainBond 0 1 .SINGLE, plainBond 0 2 .DOUBLE, plainBond 1 3 .DOUBLE] 0

/-- A clockwise center (atom 1) whose hydrogen bond starts at the hydrogen
(atom 0). -/
def endCenter : ROMol :=
  acyclic [hydrogen, ⟨6, .CHI_TETRAHEDRAL_CW⟩, carbon, carbon, carbon]
    [plainBond 0 1 .SINGLE, plainBond 1 2 .SINGLE, plainBond 1 3 .SINGLE,
      plainBond 1 4 .SINGLE]
    0

/-- The molecule `endCenter` after `WedgeMolBonds`. -/
def endCenterWedged : ROMol :=
  acyclic [hydrogen, ⟨6, .CHI_TETRAHEDRAL_CW⟩, carbon, carbon, carbon]
    [⟨1, 0, .SINGLE, .BEGINDASH, .STEREONONE, none⟩, plainBond 1 2 .SINGLE,
      plainBond 1 3 .SINGLE, plainBond 1 4 .SINGLE]
    0

/-- The values of the thresholds in the RDKit header. -/
def rdkitThresholds : StereoBondThresholds := ⟨1000, 10000, 100000, 1000000⟩

/-- The chain C=C-C=C with both double bonds STEREOANY: the single bond 1 is the
only single bond next to either of them. -/
def diene : ROMol :=
  acyclic [carbon, carbon, carbon, carbon]
    [stereoBond 0 1 .STEREOANY, plainBond 1 2 .SINGLE, stereoBond 2 3 .STEREOANY] 0

/-- The chain CC=CC=CC=CC of the test suite: the double bonds 1 and 5 are
STEREOCIS, the double bond 3 is STEREOANY. -/
def polyene : ROMol :=
  acyclic [carbon, carbon, carbon, carbon, carbon, carbon, carbon, carbon]
    [plainBond 0 1 .SINGLE, stereoBond 1 2 .STEREOCIS, plainBond 2 3 .SINGLE,
      stereoBond 3 4 .STEREOANY, plainBond 4 5 .SINGLE, stereoBond 5 6 .STEREOCIS,
      plainBond 6 7 .SINGLE]
    0

/-- The molecule OC=C[C@H](C=CF)(C=CC) of the test suite: the center 3 has the
neighbours 2 (double bond STEREOCIS), 4 (double bond STEREOANY) and 7 (double
bond without stereo). -/
def vinylCenter : ROMol :=
  acyclic
    [⟨8, .CHI_UNSPECIFIED⟩, carbon, carbon, ⟨6, .CHI_TETRAHEDRAL_CCW⟩, carbon, carbon,
      ⟨9, .CHI_UNSPECIFIED⟩, carbon, carbon, carbon]
    [plainBond 0 1 .SINGLE, stereoBond 1 2 .STEREOCIS, plainBond 2 3 .SINGLE,
      plainBond 3 4 .SINGLE, stereoBond 4 5 .STEREOANY, plainBond 5 6 .SINGLE,
      plainBond 3 7 .SINGLE, stereoBond 7 8 .STEREONONE, plainBond 8 9 .SINGLE]
    0

/-- The Kekulé form of the molecule of the test "wedgeMolBonds to aromatic
rings": the center 3 lies in the four-membered ring 0-1-2-3 and carries the
six-membered ring 4..9 on the bond 3. -/
def arylAzetidine : ROMol :=
  ⟨[carbon, carbon, ⟨7, .CHI_UNSPECIFIED⟩, ⟨6, .CHI_TETRAHEDRAL_CW⟩, carbon, carbon, carbon,
      carbon, carbon, carbon],
    [plainBond 0 1 .SINGLE, plainBond 1 2 .SINGLE, plainBond 2 3 .SINGLE,
      plainBond 3 4 .SINGLE, plainBond 4 5 .DOUBLE, plainBond 5 6 .SINGLE,
      plainBond 6 7 .DOUBLE, plainBond 7 8 .SINGLE, plainBond 8 9 .DOUBLE,
      plainBond 3 0 .SINGLE, plainBond 9 4 .SINGLE],
    fun _ => 1, fun b => if b = 3 then 0 else 1, fun _ _ => 0, 0⟩

/-- Two adjacent clockwise centers joined by a wedged bond that begins at
atom 0; atom 1 has a further bond to a carbon. -/
def wedgedPair : ROMol :=
  acyclic [⟨6, .CHI_TETRAHEDRAL_CW⟩, ⟨6, .CHI_TETRAHEDRAL_CW⟩, carbon]
    [⟨0, 1, .SINGLE, .BEGINWEDGE, .STEREONONE, none⟩, plainBond 1 2 .SINGLE] 0

/-- The molecule CC=CC of the test suite with its double bond STEREOANY. -/
def butene : ROMol :=
  acyclic [carbon, carbon, carbon, carbon]
    [plainBond 0 1 .SINGLE, stereoBond 1 2 .STEREOANY, plainBond 2 3 .SINGLE] 0

/-- The molecule C[C@](F)(Cl)C(C)=CC of the test "avoid chiral atoms": its
double bond 5 is STEREOANY and atom 1 is a center. -/
def chiralAlkene : ROMol :=
  acyclic
    [carbon, ⟨6, .CHI_TETRAHEDRAL_CCW⟩, ⟨9, .CHI_UNSPECIFIED⟩, ⟨17, .CHI_UNSPECIFIED⟩, carbon,
      carbon, carbon, carbon]
    [plainBond 0 1 .SINGLE, plainBond 1 2 .SINGLE, plainBond 1 3 .SINGLE,
      plainBond 1 4 .SINGLE, plainBond 4 5 .SINGLE, stereoBond 4 6 .STEREOANY,
      plainBond 6 7 .SINGLE]
    0

/-- A branched alkene: the STEREOANY double bond 2 between atoms 1 and 2 has
the single bonds 0, 1 (at atom 1) and 3, 4 (at atom 2) as neighbours, all to
methyl groups. -/
def tetramethylethene : ROMol :=
  acyclic [carbon, carbon, carbon, carbon, carbon, carbon]
    [plainBond 0 1 .SINGLE, plainBond 1 3 .SINGLE, stereoBond 1 2 .STEREOANY,
      plainBond 2 4 .SINGLE, plainBond 2 5 .SINGLE]
    0

/-- The molecule CCC(C)=CC=C(CC)C=CC(C)=CC of the test "multiple bonds to
wedge": the double bond 3 is STEREOCIS, the double bonds 5 and 9 are STEREOANY
and share the single bond 8. -/
def branchedTriene : ROMol :=
  acyclic (List.replicate 15 carbon)
    [plainBond 0 1 .SINGLE, plainBond 1 2 .SINGLE, plainBond 2 3 .SINGLE,
      stereoBond 2 4 .STEREOCIS, plainBond 4 5 .SINGLE, stereoBond 5 6 .STEREOANY,
      plainBond 6 7 .SINGLE, plainBond 7 8 .SINGLE, plainBond 6 9 .SINGLE,
      stereoBond 9 10 .STEREOANY, plainBond 10 11 .SINGLE, plainBond 11 12 .SINGLE,
      stereoBond 11 13 .STEREONONE, plainBond 13 14 .SINGLE]
    0

/-- Three centers in a row, 0 - 1 - 2, each completed by carbons: the middle
one has two tagged neighbours, the outer ones have one. -/
def threeCenters : ROMol :=
  acyclic
    [⟨6, .CHI_TETRAHEDRAL_CW⟩, ⟨6, .CHI_TETRAHEDRAL_CW⟩, ⟨6, .CHI_TETRAHEDRAL_CW⟩, carbon, carbon,
      carbon, carbon, carbon]
    [plainBond 0 1 .SINGLE, plainBond 1 2 .SINGLE, plainBond 0 3 .SINGLE, plainBond 0 4 .SINGLE,
      plainBond 1 5 .SINGLE, plainBond 2 6 .SINGLE, plainBond 2 7 .SINGLE]
    0

/-- The chain H - c - a - b - d - H of four centers (atoms 1 to 4) between two
hydrogens (atoms 0 and 5): the outer centers 1 and 4 have rank -11, the inner
centers 2 and 3 have rank -2 and each prefers the bond 2 between them. -/
def hexad : ROMol :=
  acyclic
    [hydrogen, ⟨6, .CHI_TETRAHEDRAL_CW⟩, ⟨6, .CHI_TETRAHEDRAL_CW⟩, ⟨6, .CHI_TETRAHEDRAL_CW⟩,
      ⟨6, .CHI_TETRAHEDRAL_CW⟩, hydrogen]
    [plainBond 0 1 .SINGLE, plainBond 1 2 .SINGLE, plainBond 2 3 .SINGLE, plainBond 3 4 .SINGLE,
      plainBond 4 5 .SINGLE]
    0

/-- A clockwise center (atom 0) with three carbon neighbours, all bonds
starting at the center. -/
def triMol (nSwaps : Nat) : ROMol :=
  acyclic [⟨6, .CHI_TETRAHEDRAL_CW⟩, carbon, carbon, carbon]
    [plainBond 0 1 .SINGLE, plainBond 0 2 .SINGLE, plainBond 0 3 .SINGLE]
    nSwaps

/-- A depiction of `triMol`: the neighbours 2 and 3 lie at the angles 1 and 5
from the neighbour 1, more than a half turn apart. -/
def triConf : Conformer :=
  ⟨0, fun _ _ o => match o with
    | 2 => 1
    | 3 => 5
    | _ => 0⟩

/-- A depiction of `triMol` in which the neighbour 2 lies in the direction of
the neighbour 1 (signed angle 0) and the neighbour 3 at the angle 2. -/
def eclipsedConf : Conformer :=
  ⟨0, fun _ _ o => match o with
    | 3 => 2
    | _ => 0⟩

/-- A depiction of `triMol` in which the neighbour 2 is drawn on top of the
center, so that its direction has length zero and its angle is not a number,
and the neighbour 3 lies at the angle 2. -/
def overlapConf : Conformer :=
  ⟨0, fun _ _ o => match o with
    | 2 => .nan
    | 3 => 2
    | _ => 0⟩

/-- A depiction of `triMol` at the edge of the three-coordinate test: the
neighbours 2 and 3 lie at the doubles `0.5` and `0.5 + (M_PI - 1e-4)`, whose
difference is the double `M_PI - 1e-4` itself. -/
def edgeConf : Conformer :=
  ⟨0, fun _ _ o => match o with
    | 2 => .fin (1 / 2)
    | 3 => .fin (8199912478889695 / 2251799813685248)
    | _ => 0⟩

/-- A depiction of `triMol` one step below the edge of the three-coordinate
test: the angle of the neighbour 3 is the double next below the one of
`edgeConf`. -/
def belowEdgeConf : Conformer :=
  ⟨0, fun _ _ o => match o with
    | 2 => .fin (1 / 2)
    | 3 => .fin (8199912478889694 / 2251799813685248)
    | _ => 0⟩

/-- A depiction of `triMol` with a negative signed angle: the neighbour 2 lies
at the angle 1 and the neighbour 3 at the signed angle -1. -/
def clockwiseConf : Conformer :=
  ⟨0, fun _ _ o => match o with
    | 2 => 1
    | 3 => .fin (-1)
    | _ => 0⟩

/-- The two candidates that the test "flagPossible" expects on CC(O)[C@H](F)O:
an unspecified possible center on atom 1 and the specified center on atom 3. -/
def flagPossibleCandidates : List StereoInfo :=
  [⟨.Atom_Tetrahedral, 1, [some 0, some 2, some 3, none], .Unspecified, .None, 0⟩,
    ⟨.Atom_Tetrahedral, 3, [some 1, none, some 4, some 5], .Specified, .Tet_CCW, 0⟩]

/-- The molecule CC=CC with its double bond STEREOANY and its first bond
already marked UNKNOWN. -/
def markedButene : ROMol :=
  acyclic [carbon, carbon, carbon, carbon]
    [⟨0, 1, .SINGLE, .UNKNOWN, .STEREONONE, none⟩, stereoBond 1 2 .STEREOANY,
      plainBond 2 3 .SINGLE] 0

end RDKit

namespace RDKit

/-! ## Ranking of the centers -/

theorem isCenter_lt (mol : ROMol) (a : Nat) (h : mol.isCenter a = true) :
    a < mol.getNumAtoms := by
  by_contra hlt
  have hge : mol.atoms.length ≤ a := by
    simpa [ROMol.getNumAtoms] using hlt
  have : mol.getAtomWithIdx a = default := by
    simp [ROMol.getAtomWithIdx, List.getD_eq_getElem?_getD, List.getElem?_eq_none hge]
  rw [ROMol.isCenter, this] at h
  exact absurd h (by decide)

theorem markWedged_cases (mol : ROMol) (bs : List Bond) (n : Nat → Int) (a : Nat) :
    markWedged mol bs n a = n a
      ∨ (markWedged mol bs n a = noNbrs + 1 ∧ mol.isCenter a = true) := by
  induction bs generalizing n with
  | nil => exact Or.inl rfl
  | cons b rest ih =>
    simp only [markWedged]
    split_ifs with h1 h2 h3
    · rcases ih (Function.update n b.beginAtomIdx (noNbrs + 1)) with h | h
      · by_cases ha : a = b.beginAtomIdx
        · subst ha
          right
          rw [h, Function.update_same]
          exact ⟨rfl, h2⟩
        · left
          rw [h, Function.update_noteq ha]
      · exact Or.inr h
    · rcases ih (Function.update n b.endAtomIdx (noNbrs + 1)) with h | h
      · by_cases ha : a = b.endAtomIdx
        · subst ha
          right
          rw [h, Function.update_same]
          exact ⟨rfl, h3⟩
        · left
          rw [h, Function.update_noteq ha]
      · exact Or.inr h
    · exact ih n
    · exact ih n

theorem countChiralNbrs_le (mol : ROMol) (l : List Nat) (c : Int) :
    countChiralNbrs mol l c ≤ c := by
  induction l generalizing c with
  | nil => exact le_refl c
  | cons a rest ih =>
    simp only [countChiralNbrs]
    split_ifs
    · exact le_trans (ih _) (by omega)
    · exact ih c
    · exact le_trans (ih _) (by omega)

theorem rankAtoms_fst (mol : ROMol) (l : List Nat) (n : Nat → Int) (chi : Bool) (a : Nat) :
    (rankAtoms mol l (n, chi)).1 a
      = if a ∈ l ∧ ¬ n a > noNbrs ∧ mol.isCenter a = true then
          countChiralNbrs mol (mol.atomNeighbors a) 0
        else n a := by
  induction l generalizing n chi with
  | nil => simp [rankAtoms]
  | cons x rest ih =>
    simp only [rankAtoms]
    split_ifs <;> simp only [ih] <;>
      try simp only [Bool.not_eq_true', Bool.not_eq_true, Bool.not_eq_false] at *
    all_goals
      by_cases hax : a = x
      · subst hax
        simp_all [Function.update_same, noNbrs]
      · simp_all [Function.update_noteq hax]

theorem rankAtoms_snd (mol : ROMol) (l : List Nat) (n : Nat → Int) (chi : Bool)
    (h : (rankAtoms mol l (n, chi)).2 = false) (a : Nat) (ha : a ∈ l) :
    n a > noNbrs ∨ mol.isCenter a = false := by
  induction l generalizing n chi with
  | nil => simp at ha
  | cons x rest ih =>
    simp only [rankAtoms] at h
    split_ifs at h with h1 h2
    · rcases List.mem_cons.1 ha with hx | hx
      · exact Or.inl (hx ▸ h1)
      · exact ih n chi h hx
    · rcases List.mem_cons.1 ha with hx | hx
      · right
        simpa [hx] using h2
      · exact ih n chi h hx
    · exfalso
      have key : ∀ (l : List Nat) (m : Nat → Int), (rankAtoms mol l (m, true)).2 = true := by
        intro l
        induction l with
        | nil => intro m; rfl
        | cons y t iht =>
          intro m
          simp only [rankAtoms]
          split_ifs <;> exact iht _
      rw [key] at h
      exact Bool.noConfusion h

/-- The three kinds of rank: a processable center has a rank of at most zero,
an untagged atom the rank `noNbrs`, an already wedged center `noNbrs + 1`. -/
theorem nChiralNbrs_cases (mol : ROMol) (a : Nat) :
    (isProcessable mol a = true ∧ nChiralNbrs mol a ≤ 0 ∧ mol.isCenter a = true
        ∧ nChiralNbrs mol a = countChiralNbrs mol (mol.atomNeighbors a) 0)
      ∨ (isProcessable mol a = false ∧ nChiralNbrs mol a = noNbrs ∧ mol.isCenter a = false)
      ∨ (isProcessable mol a = false ∧ nChiralNbrs mol a = noNbrs + 1
        ∧ mol.isCenter a = true) := by
  have hrank := rankAtoms_fst mol (List.range mol.getNumAtoms)
    (markWedged mol mol.bonds (fun _ => noNbrs)) false a
  have hle := countChiralNbrs_le mol (mol.atomNeighbors a) 0
  have hlt := isCenter_lt mol a
  have hcases := markWedged_cases mol mol.bonds (fun _ => noNbrs) a
  unfold nChiralNbrs rankState isProcessable
  generalize markWedged mol mol.bonds (fun _ => noNbrs) a = m0 at hrank hcases ⊢
  rw [hrank]
  have h100 : noNbrs = 100 := rfl
  rcases hcases with h0 | ⟨h0, hc⟩
  · subst h0
    by_cases hc : mol.isCenter a = true
    · left
      have hm : a ∈ List.range mol.getNumAtoms := List.mem_range.2 (hlt hc)
      simp [hc, hlt hc, hm, hle]
    · right; left
      simp [hc]
  · subst h0
    right; right
    simp [hc, h100]

theorem isProcessable_iff (mol : ROMol) (a : Nat) :
    isProcessable mol a = true ↔ nChiralNbrs mol a ≤ 0 := by
  rcases nChiralNbrs_cases mol a with h | h | h
  · simp [h.1, h.2.1]
  · simp [h.1, h.2.1, noNbrs]
  · simp [h.1, h.2.1, noNbrs]

theorem sortedIndices_perm (mol : ROMol) :
    (sortedIndices mol).Perm (List.range mol.getNumAtoms) := by
  unfold sortedIndices
  split_ifs
  · exact List.perm_insertionSort _ _
  · exact List.Perm.refl _

/-- In `indices` no processable center comes after an atom that is not one. -/
theorem sortedIndices_pairwise (mol : ROMol) :
    (sortedIndices mol).Pairwise
      (fun i j => nChiralNbrs mol j ≤ 0 → nChiralNbrs mol i ≤ 0) := by
  unfold sortedIndices
  split_ifs with h
  · have hs : List.Sorted (fun i j => nChiralNbrs mol i ≤ nChiralNbrs mol j)
        ((List.range mol.getNumAtoms).insertionSort
          (fun i j => nChiralNbrs mol i ≤ nChiralNbrs mol j)) := by
      haveI : IsTotal Nat (fun i j => nChiralNbrs mol i ≤ nChiralNbrs mol j) :=
        ⟨fun i j => le_total _ _⟩
      haveI : IsTrans Nat (fun i j => nChiralNbrs mol i ≤ nChiralNbrs mol j) :=
        ⟨fun i j k hij hjk => le_trans hij hjk⟩
      exact List.sorted_insertionSort _ _
    exact List.Pairwise.imp (fun hij hj => le_trans hij hj) hs
  · have hf : (rankState mol).2 = false := by simpa using h
    have htriv : (List.range mol.getNumAtoms).Pairwise (fun _ _ => True) :=
      List.pairwise_of_forall (fun _ _ => trivial)
    refine List.Pairwise.imp_of_mem ?_ htriv
    intro i j _ hj _ hjle
    exfalso
    have hp := (isProcessable_iff mol j).2 hjle
    rcases rankAtoms_snd mol _ _ _ hf j hj with h1 | h1
    · simp [isProcessable, h1] at hp
    · simp [isProcessable, h1] at hp

end RDKit

namespace RDKit

/-! ## The wedge assignment map -/

theorem INT_MAP_INT.find_eq_none_iff (m : INT_MAP_INT) (k : Nat) :
    m.find k = none ↔ k ∉ m.map Prod.fst := by
  induction m with
  | nil => simp [INT_MAP_INT.find]
  | cons e t ih =>
    obtain ⟨k1, v1⟩ := e
    unfold INT_MAP_INT.find at ih ⊢
    by_cases h : k = k1
    · subst h
      simp [List.lookup]
    · have hb : (k == k1) = false := by simpa using h
      simp [List.lookup, hb, ih, h]

theorem INT_MAP_INT.set_perm (m : INT_MAP_INT) (k v : Nat) (h : k ∉ m.map Prod.fst) :
    (m.set k v).Perm ((k, v) :: m) := by
  induction m with
  | nil => exact List.Perm.refl _
  | cons e t ih =>
    obtain ⟨k1, v1⟩ := e
    simp only [List.map_cons, List.mem_cons, not_or] at h
    simp only [INT_MAP_INT.set]
    split_ifs with h1 h2
    · exact List.Perm.refl _
    · exact absurd h2 h.1
    · exact ((ih h.2).cons (k1, v1)).trans (List.Perm.swap _ _ _)

/-! ## The candidate scores -/

theorem mem_nbrScores (mol : ROMol) (n : Nat → Int) (res : INT_MAP_INT) (a : Nat)
    (p : Int × Nat) :
    p ∈ nbrScores mol n res a ↔
      p.2 ∈ mol.atomBonds a ∧ (mol.getBondWithIdx p.2).bondType = .SINGLE
        ∧ res.find p.2 = none
        ∧ p.1 = if (mol.getAtomWithIdx ((mol.getBondWithIdx p.2).getOtherAtomIdx a)).atomicNum = 1
            then -1000000 else nbrScore mol n a p.2 := by
  obtain ⟨s, b⟩ := p
  simp only [nbrScores, List.mem_filterMap]
  constructor
  · rintro ⟨bid, hbid, h⟩
    split_ifs at h with h1 h2 h3
    · simp only [Option.some.injEq, Prod.mk.injEq] at h
      obtain ⟨hs, hb⟩ := h
      subst hb
      exact ⟨hbid, not_not.1 h1, h2, by simp [h3, hs]⟩
    · simp only [Option.some.injEq, Prod.mk.injEq] at h
      obtain ⟨hs, hb⟩ := h
      subst hb
      exact ⟨hbid, not_not.1 h1, h2, by simp [h3, hs]⟩
  · rintro ⟨hb, hs, hf, hsc⟩
    refine ⟨b, hb, ?_⟩
    simp only [hs, hf, ne_eq, not_true_eq_false, if_false, if_true]
    split_ifs with h3 <;> simp [hsc, h3]

theorem nbrScores_eq_nil_iff (mol : ROMol) (n : Nat → Int) (res : INT_MAP_INT) (a : Nat) :
    nbrScores mol n res a = [] ↔
      ∀ b ∈ mol.atomBonds a, (mol.getBondWithIdx b).bondType = .SINGLE → res.find b ≠ none := by
  rw [List.eq_nil_iff_forall_not_mem]
  constructor
  · intro h b hb hs hf
    exact h (if (mol.getAtomWithIdx ((mol.getBondWithIdx b).getOtherAtomIdx a)).atomicNum = 1
      then -1000000 else nbrScore mol n a b, b) ((mem_nbrScores mol n res a _).2 ⟨hb, hs, hf, rfl⟩)
  · intro h p hp
    obtain ⟨hb, hs, hf, _⟩ := (mem_nbrScores mol n res a p).1 hp
    exact h p.2 hb hs hf

/-- Every score of a bond to a heavy neighbour is non-negative. -/
theorem nbrScore_nonneg (mol : ROMol) (a bid : Nat) :
    0 ≤ nbrScore mol (nChiralNbrs mol) a bid := by
  unfold nbrScore
  simp only
  have hn : 0 ≤ -(if nChiralNbrs mol ((mol.getBondWithIdx bid).getOtherAtomIdx a) < noNbrs
      then 100000 * nChiralNbrs mol ((mol.getBondWithIdx bid).getOtherAtomIdx a) else 0) := by
    split_ifs with h
    · rcases nChiralNbrs_cases mol ((mol.getBondWithIdx bid).getOtherAtomIdx a) with
        h1 | h1 | h1
      · have := h1.2.1
        omega
      · rw [h1.2.1] at h
        exact absurd h (lt_irrefl _)
      · rw [h1.2.1] at h
        simp [noNbrs] at h
    · simp
  have h1 : (0 : Int) ≤ (if (mol.getAtomWithIdx
      ((mol.getBondWithIdx bid).getOtherAtomIdx a)).chiralTag ≠ ChiralType.CHI_UNSPECIFIED
      then 1 else 0) := by
    split_ifs <;> simp
  omega

theorem sortScores_perm (l : List (Int × Nat)) : (sortScores l).Perm l :=
  List.perm_insertionSort _ _

/-- The head of the sorted scores is a candidate that no candidate precedes. -/
theorem sortScores_head (l : List (Int × Nat)) (p : Int × Nat) (t : List (Int × Nat))
    (h : sortScores l = p :: t) : p ∈ l ∧ ∀ q ∈ l, pairLess q p = false := by
  have hperm := sortScores_perm l
  have hs : List.Sorted (fun p q : Int × Nat => pairLess q p = false) (sortScores l) := by
    haveI : IsTotal (Int × Nat) (fun p q => pairLess q p = false) :=
      ⟨fun p q => by
        simp only [pairLess, Bool.or_eq_false_iff, Bool.and_eq_false_imp, decide_eq_false_iff_not,
          beq_iff_eq, decide_eq_true_eq]
        omega⟩
    haveI : IsTrans (Int × Nat) (fun p q => pairLess q p = false) :=
      ⟨fun p q r => by
        simp only [pairLess, Bool.or_eq_false_iff, Bool.and_eq_false_imp, decide_eq_false_iff_not,
          beq_iff_eq, decide_eq_true_eq]
        omega⟩
    exact List.sorted_insertionSort _ _
  rw [h] at hperm hs
  refine ⟨hperm.subset (List.mem_cons_self _ _), fun q hq => ?_⟩
  have hq2 : q ∈ p :: t := hperm.symm.subset hq
  rcases List.mem_cons.1 hq2 with hqp | hqt
  · subst hqp
    simp [pairLess]
  · exact List.rel_of_sorted_cons hs q hqt

theorem sortScores_eq_nil_iff (l : List (Int × Nat)) : sortScores l = [] ↔ l = [] := by
  constructor
  · intro h
    have := sortScores_perm l
    rw [h] at this
    exact List.Perm.nil_eq this |>.symm
  · intro h
    subst h
    rfl

end RDKit

namespace RDKit

/-! ## The assignment loop -/

/-- One turn of the loop at a processable center. -/
theorem wedgeLoop_center (mol : ROMol) (c : Nat) (rest : List Nat) (res : INT_MAP_INT)
    (hc : nChiralNbrs mol c ≤ 0) :
    wedgeLoop mol (nChiralNbrs mol) (c :: rest) res
      = match sortScores (nbrScores mol (nChiralNbrs mol) res c) with
        | [] => .error .invariant
        | p :: _ => wedgeLoop mol (nChiralNbrs mol) rest (res.set p.2 c) := by
  rcases nChiralNbrs_cases mol c with h | h | h
  · have h1 : ¬ nChiralNbrs mol c > noNbrs := by
      have : noNbrs = 100 := rfl
      omega
    simp only [wedgeLoop, h1, if_false, h.2.2.1, Bool.not_true, Bool.false_eq_true]
  · rw [h.2.1] at hc
    exact absurd hc (by decide)
  · rw [h.2.1] at hc
    exact absurd hc (by decide)

/-- The loop over `indices` is the loop over the processable centers of
`indices`: the atoms skipped by `continue` and cut off by `break` are not
processable. -/
theorem wedgeLoop_filter (mol : ROMol) (order : List Nat) (res : INT_MAP_INT)
    (hp : order.Pairwise (fun i j => nChiralNbrs mol j ≤ 0 → nChiralNbrs mol i ≤ 0)) :
    wedgeLoop mol (nChiralNbrs mol) order res
      = wedgeLoop mol (nChiralNbrs mol)
          (order.filter fun i => decide (nChiralNbrs mol i ≤ 0)) res := by
  induction order generalizing res with
  | nil => rfl
  | cons idx rest ih =>
    obtain ⟨hhead, htail⟩ := List.pairwise_cons.1 hp
    rcases nChiralNbrs_cases mol idx with h | h | h
    · have hf : (idx :: rest).filter (fun i => decide (nChiralNbrs mol i ≤ 0))
          = idx :: rest.filter (fun i => decide (nChiralNbrs mol i ≤ 0)) := by
        simp [List.filter_cons, h.2.1]
      rw [hf, wedgeLoop_center mol idx _ res h.2.1, wedgeLoop_center mol idx _ res h.2.1]
      cases sortScores (nbrScores mol (nChiralNbrs mol) res idx) with
      | nil => rfl
      | cons p t => exact ih _ htail
    · have hnot : ¬ nChiralNbrs mol idx ≤ 0 := by
        rw [h.2.1]; decide
      have hrest : rest.filter (fun i => decide (nChiralNbrs mol i ≤ 0)) = [] := by
        rw [List.filter_eq_nil_iff]
        intro j hj
        simpa using fun hle => hnot (hhead j hj hle)
      have hf : (idx :: rest).filter (fun i => decide (nChiralNbrs mol i ≤ 0)) = [] := by
        simp [List.filter_cons, hnot, hrest]
      have h1 : ¬ nChiralNbrs mol idx > noNbrs := by
        rw [h.2.1]; exact lt_irrefl _
      rw [hf]
      simp only [wedgeLoop, h1, if_false, h.2.2, Bool.not_false, if_true]
    · have hnot : ¬ nChiralNbrs mol idx ≤ 0 := by
        rw [h.2.1]; decide
      have hf : (idx :: rest).filter (fun i => decide (nChiralNbrs mol i ≤ 0))
          = rest.filter (fun i => decide (nChiralNbrs mol i ≤ 0)) := by
        simp [List.filter_cons, hnot]
      have h1 : nChiralNbrs mol idx > noNbrs := by
        rw [h.2.1]; decide
      rw [hf]
      simp only [wedgeLoop, h1, if_true]
      exact ih res htail

theorem pickBondsToWedge_eq (mol : ROMol) :
    pickBondsToWedge mol = wedgeLoop mol (nChiralNbrs mol) (centersInOrder mol) [] :=
  wedgeLoop_filter mol _ [] (sortedIndices_pairwise mol)

theorem centersInOrder_perm (mol : ROMol) :
    (centersInOrder mol).Perm ((List.range mol.getNumAtoms).filter (isProcessable mol)) := by
  have h : (fun i => decide (nChiralNbrs mol i ≤ 0)) = isProcessable mol := by
    funext i
    by_cases hi : nChiralNbrs mol i ≤ 0
    · simp [hi, (isProcessable_iff mol i).2 hi]
    · have : isProcessable mol i = false := by
        simpa using fun hp => hi ((isProcessable_iff mol i).1 hp)
      simp [hi, this]
  unfold centersInOrder
  rw [h]
  exact (sortedIndices_perm mol).filter _

/-- A successful run over processable centers adds one fresh entry per center,
on a single bond of that center. -/
theorem wedgeLoop_centers_ok (mol : ROMol) (cs : List Nat) (res res1 : INT_MAP_INT)
    (hcs : ∀ c ∈ cs, nChiralNbrs mol c ≤ 0) (hnd : (res.map Prod.fst).Nodup)
    (h : wedgeLoop mol (nChiralNbrs mol) cs res = .ok res1) :
    ∃ picks : List (Nat × Nat),
      picks.map Prod.snd = cs ∧ res1.Perm (picks ++ res) ∧ (res1.map Prod.fst).Nodup
        ∧ ∀ e ∈ picks, e.1 ∈ mol.atomBonds e.2
            ∧ (mol.getBondWithIdx e.1).bondType = .SINGLE := by
  induction cs generalizing res with
  | nil =>
    simp only [wedgeLoop, Except.ok.injEq] at h
    subst h
    exact ⟨[], rfl, List.Perm.refl _, hnd, by simp⟩
  | cons c rest ih =>
    rw [wedgeLoop_center mol c rest res (hcs c (List.mem_cons_self _ _))] at h
    cases hsort : sortScores (nbrScores mol (nChiralNbrs mol) res c) with
    | nil =>
      rw [hsort] at h
      exact Except.noConfusion h
    | cons p t =>
      rw [hsort] at h
      simp only at h
      obtain ⟨hpb, hps, hpf, _⟩ :=
        (mem_nbrScores mol _ res c p).1 (sortScores_head _ p t hsort).1
      have hfresh : p.2 ∉ res.map Prod.fst := (INT_MAP_INT.find_eq_none_iff res p.2).1 hpf
      have hperm := INT_MAP_INT.set_perm res p.2 c hfresh
      have hnd1 : ((res.set p.2 c).map Prod.fst).Nodup := by
        have : ((res.set p.2 c).map Prod.fst).Perm (p.2 :: res.map Prod.fst) := by
          simpa using hperm.map Prod.fst
        exact this.nodup_iff.2 (List.nodup_cons.2 ⟨hfresh, hnd⟩)
      obtain ⟨picks, hmap, hp1, hnd2, hall⟩ :=
        ih (res.set p.2 c) (fun x hx => hcs x (List.mem_cons_of_mem _ hx)) hnd1 h
      refine ⟨(p.2, c) :: picks, by simp [hmap], ?_, hnd2, ?_⟩
      · have h2 : (picks ++ res.set p.2 c).Perm (picks ++ (p.2, c) :: res) :=
          List.Perm.append_left picks hperm
        exact (hp1.trans h2).trans List.perm_middle
      · intro e he
        rcases List.mem_cons.1 he with he1 | he1
        · subst he1
          exact ⟨hpb, hps⟩
        · exact hall e he1

/-- A run over processable centers fails exactly when it reaches a center all
of whose single bonds are claimed, and then with an invariant violation. -/
theorem wedgeLoop_centers_error (mol : ROMol) (cs : List Nat) (res : INT_MAP_INT)
    (hcs : ∀ c ∈ cs, nChiralNbrs mol c ≤ 0) (e : Err) :
    wedgeLoop mol (nChiralNbrs mol) cs res = .error e ↔
      e = .invariant ∧ ∃ pre c post res1, cs = pre ++ c :: post
        ∧ wedgeLoop mol (nChiralNbrs mol) pre res = .ok res1
        ∧ ∀ b ∈ mol.atomBonds c, (mol.getBondWithIdx b).bondType = .SINGLE →
            res1.find b ≠ none := by
  induction cs generalizing res with
  | nil =>
    constructor
    · intro h
      exact Except.noConfusion h
    · rintro ⟨_, pre, c, post, res1, h, _⟩
      exact absurd h (by simp)
  | cons c rest ih =>
    have hc := hcs c (List.mem_cons_self _ _)
    have hrest : ∀ x ∈ rest, nChiralNbrs mol x ≤ 0 :=
      fun x hx => hcs x (List.mem_cons_of_mem _ hx)
    rw [wedgeLoop_center mol c rest res hc]
    cases hsort : sortScores (nbrScores mol (nChiralNbrs mol) res c) with
    | nil =>
      have hnil := (nbrScores_eq_nil_iff mol _ res c).1
        ((sortScores_eq_nil_iff _).1 hsort)
      constructor
      · intro h
        simp only [Except.error.injEq] at h
        exact ⟨h.symm, [], c, rest, res, rfl, rfl, hnil⟩
      · rintro ⟨he, _⟩
        rw [he]
    | cons p t =>
      simp only
      rw [ih (res.set p.2 c) hrest]
      have hne : ¬ ∀ b ∈ mol.atomBonds c, (mol.getBondWithIdx b).bondType = .SINGLE →
          res.find b ≠ none := by
        intro hall
        have := (sortScores_eq_nil_iff _).2
          ((nbrScores_eq_nil_iff mol (nChiralNbrs mol) res c).2 hall)
        rw [hsort] at this
        exact List.noConfusion this
      constructor
      · rintro ⟨he, pre, c1, post, res1, hsplit, hrun, hall⟩
        refine ⟨he, c :: pre, c1, post, res1, by simp [hsplit], ?_, hall⟩
        rw [wedgeLoop_center mol c pre res hc, hsort]
        exact hrun
      · rintro ⟨he, pre, c1, post, res1, hsplit, hrun, hall⟩
        cases pre with
        | nil =>
          simp only [List.nil_append, List.cons.injEq] at hsplit
          simp only [wedgeLoop, Except.ok.injEq] at hrun
          obtain ⟨hcc, _⟩ := hsplit
          subst hcc hrun
          exact absurd hall hne
        | cons x pre1 =>
          simp only [List.cons_append, List.cons.injEq] at hsplit
          obtain ⟨hx, hsplit⟩ := hsplit
          subst hx
          rw [wedgeLoop_center mol c pre1 res hc, hsort] at hrun
          exact ⟨he, pre1, c1, post, res1, hsplit, hrun, hall⟩

end RDKit

namespace RDKit

/-! ## Contracts of `pickBondsToWedge` -/

/-- C1: when `pickBondsToWedge` returns a map, every tagged center that is not
excluded as already wedged owns exactly one entry, every owner is such a
center, no bond has two entries, and there are as many entries as such
centers. -/
theorem pickBondsToWedge_one_entry_per_center (mol : ROMol) (res : INT_MAP_INT)
    (h : pickBondsToWedge mol = .ok res) :
    (∀ a, isProcessable mol a = true → (res.map Prod.snd).count a = 1)
      ∧ (∀ e ∈ res, isProcessable mol e.2 = true)
      ∧ (res.map Prod.fst).Nodup
      ∧ res.length = ((List.range mol.getNumAtoms).filter (isProcessable mol)).length := by
  rw [pickBondsToWedge_eq] at h
  have hcs : ∀ c ∈ centersInOrder mol, nChiralNbrs mol c ≤ 0 := by
    intro c hc
    simpa using (List.mem_filter.1 hc).2
  obtain ⟨picks, hmap, hperm, hnd, _⟩ :=
    wedgeLoop_centers_ok mol (centersInOrder mol) [] res hcs List.nodup_nil h
  rw [List.append_nil] at hperm
  have hvals : (res.map Prod.snd).Perm
      ((List.range mol.getNumAtoms).filter (isProcessable mol)) := by
    have h1 : (res.map Prod.snd).Perm (picks.map Prod.snd) := hperm.map _
    rw [hmap] at h1
    exact h1.trans (centersInOrder_perm mol)
  refine ⟨?_, ?_, hnd, ?_⟩
  · intro a ha
    rw [hvals.count_eq]
    have hmem : a ∈ (List.range mol.getNumAtoms).filter (isProcessable mol) := by
      refine List.mem_filter.2 ⟨List.mem_range.2 ?_, ha⟩
      have : mol.isCenter a = true := by
        rcases nChiralNbrs_cases mol a with h1 | h1 | h1
        · exact h1.2.2.1
        · rw [h1.1] at ha; exact Bool.noConfusion ha
        · exact h1.2.2
      exact isCenter_lt mol a this
    exact List.count_eq_one_of_mem ((List.nodup_range _).filter _) hmem
  · intro e he
    have : e.2 ∈ (List.range mol.getNumAtoms).filter (isProcessable mol) :=
      hvals.subset (List.mem_map_of_mem _ he)
    exact (List.mem_filter.1 this).2
  · have := hvals.length_eq
    simpa using this

/-- Witness of C1 on `twoCenters`, whose map is `1 ↦ 0, 3 ↦ 1`. -/
theorem pickBondsToWedge_one_entry_per_center_witness :
    (∀ a, isProcessable twoCenters a = true → ([(1, 0), (3, 1)].map Prod.snd).count a = 1)
      ∧ (∀ e ∈ [(1, 0), (3, 1)], isProcessable twoCenters e.2 = true)
      ∧ ([(1, 0), (3, 1)].map Prod.fst).Nodup
      ∧ [(1, 0), (3, 1)].length
          = ((List.range twoCenters.getNumAtoms).filter (isProcessable twoCenters)).length :=
  pickBondsToWedge_one_entry_per_center twoCenters [(1, 0), (3, 1)] rfl

/-- C2: when a processable center is reached while one of its single bonds to a
hydrogen is unclaimed, the bond the loop assigns to it is an unclaimed single
bond to an atom of atomic number 1. -/
theorem pickBondsToWedge_prefers_hydrogen (mol : ROMol) (res : INT_MAP_INT) (a : Nat)
    (rest : List Nat) (hp : isProcessable mol a = true)
    (hH : ∃ b ∈ mol.atomBonds a, (mol.getBondWithIdx b).bondType = .SINGLE
      ∧ res.find b = none
      ∧ (mol.getAtomWithIdx ((mol.getBondWithIdx b).getOtherAtomIdx a)).atomicNum = 1) :
    ∃ b, b ∈ mol.atomBonds a ∧ (mol.getBondWithIdx b).bondType = .SINGLE
      ∧ res.find b = none
      ∧ (mol.getAtomWithIdx ((mol.getBondWithIdx b).getOtherAtomIdx a)).atomicNum = 1
      ∧ wedgeLoop mol (nChiralNbrs mol) (a :: rest) res
          = wedgeLoop mol (nChiralNbrs mol) rest (res.set b a) := by
  obtain ⟨bH, hbH, hsH, hfH, hzH⟩ := hH
  have hmemH : ((-1000000 : Int), bH) ∈ nbrScores mol (nChiralNbrs mol) res a :=
    (mem_nbrScores mol _ res a _).2 ⟨hbH, hsH, hfH, by simp [hzH]⟩
  rw [wedgeLoop_center mol a rest res ((isProcessable_iff mol a).1 hp)]
  cases hsort : sortScores (nbrScores mol (nChiralNbrs mol) res a) with
  | nil =>
    rw [(sortScores_eq_nil_iff _).1 hsort] at hmemH
    exact absurd hmemH (List.not_mem_nil _)
  | cons p t =>
    obtain ⟨hpmem, hmin⟩ := sortScores_head _ p t hsort
    obtain ⟨hpb, hps, hpf, hpsc⟩ := (mem_nbrScores mol _ res a p).1 hpmem
    refine ⟨p.2, hpb, hps, hpf, ?_, rfl⟩
    by_contra hz
    rw [if_neg hz] at hpsc
    have hnn := nbrScore_nonneg mol a p.2
    have hlt := hmin _ hmemH
    simp only [pairLess, Bool.or_eq_false_iff, decide_eq_false_iff_not] at hlt
    omega

/-- Witness of C2: the first center of `twoCenters` takes its hydrogen bond. -/
theorem pickBondsToWedge_prefers_hydrogen_witness :
    ∃ b, b ∈ twoCenters.atomBonds 0 ∧ (twoCenters.getBondWithIdx b).bondType = .SINGLE
      ∧ INT_MAP_INT.find [] b = none
      ∧ (twoCenters.getAtomWithIdx
          ((twoCenters.getBondWithIdx b).getOtherAtomIdx 0)).atomicNum = 1
      ∧ wedgeLoop twoCenters (nChiralNbrs twoCenters) [0, 1] []
          = wedgeLoop twoCenters (nChiralNbrs twoCenters) [1] (INT_MAP_INT.set [] b 0) :=
  pickBondsToWedge_prefers_hydrogen twoCenters [] 0 [1] rfl
    ⟨1, by decide, rfl, rfl, rfl⟩

/-- C6: `pickBondsToWedge` fails, and then with an invariant violation, exactly
when the loop, having served the processable centers `pre` in order, reaches a
center `c` all of whose single bonds are already claimed (none at all
included); otherwise it returns a map. -/
theorem pickBondsToWedge_fails_iff (mol : ROMol) :
    (∀ e, pickBondsToWedge mol = .error e ↔
        e = .invariant ∧ ∃ pre c post res, centersInOrder mol = pre ++ c :: post
          ∧ wedgeLoop mol (nChiralNbrs mol) pre [] = .ok res
          ∧ ∀ b ∈ mol.atomBonds c, (mol.getBondWithIdx b).bondType = .SINGLE →
              res.find b ≠ none)
      ∧ ((¬ ∃ pre c post res, centersInOrder mol = pre ++ c :: post
          ∧ wedgeLoop mol (nChiralNbrs mol) pre [] = .ok res
          ∧ ∀ b ∈ mol.atomBonds c, (mol.getBondWithIdx b).bondType = .SINGLE →
              res.find b ≠ none) →
        ∃ res, pickBondsToWedge mol = .ok res) := by
  have hcs : ∀ c ∈ centersInOrder mol, nChiralNbrs mol c ≤ 0 := by
    intro c hc
    simpa using (List.mem_filter.1 hc).2
  have key := fun e => wedgeLoop_centers_error mol (centersInOrder mol) [] hcs e
  rw [pickBondsToWedge_eq]
  refine ⟨key, fun hno => ?_⟩
  cases hrun : wedgeLoop mol (nChiralNbrs mol) (centersInOrder mol) [] with
  | ok res => exact ⟨res, rfl⟩
  | error e => exact absurd ((key e).1 hrun).2 hno

/-- Witness of C6: in `crowded` the first center claims the shared bond and the
second one is left without a candidate. -/
theorem pickBondsToWedge_fails_iff_witness :
    pickBondsToWedge crowded = .error .invariant :=
  ((pickBondsToWedge_fails_iff crowded).1 .invariant).2
    ⟨rfl, [0], 1, [], [(0, 0)], rfl, rfl, by decide⟩

end RDKit

namespace RDKit

/-! ## Wedge direction -/

/-- C7: without a conformer `DetermineBondWedgeState` returns the current
direction of a single bond, for every `fromAtomIdx` and whatever the chiral tag
of the atoms. -/
theorem determineBondWedgeState_no_conformer (mol : ROMol) (bid fromAtomIdx : Nat)
    (bond : Bond) (hb : mol.bonds[bid]? = some bond) (hs : bond.bondType = .SINGLE) :
    DetermineBondWedgeState mol bid fromAtomIdx none = .ok bond.bondDir := by
  simp [DetermineBondWedgeState, hb, hs]

/-- Witness of C7 on the first bond of `tetraMol`. -/
theorem determineBondWedgeState_no_conformer_witness :
    DetermineBondWedgeState (tetraMol 0) 0 0 none = .ok .NONE :=
  determineBondWedgeState_no_conformer (tetraMol 0) 0 0 (plainBond 0 1 .SINGLE) rfl rfl

/-- C8: on a bond whose type is not SINGLE `DetermineBondWedgeState` fails with
a precondition violation, with or without a conformer. -/
theorem determineBondWedgeState_not_single (mol : ROMol) (bid fromAtomIdx : Nat)
    (conf : Option Conformer) (bond : Bond) (hb : mol.bonds[bid]? = some bond)
    (hs : bond.bondType ≠ .SINGLE) :
    DetermineBondWedgeState mol bid fromAtomIdx conf = .error .precondition := by
  simp [DetermineBondWedgeState, hb, hs]

/-- Witness of C8 on a double bond, with and without a conformer. -/
theorem determineBondWedgeState_not_single_witness :
    DetermineBondWedgeState (acyclic [carbon, carbon] [plainBond 0 1 .DOUBLE] 0) 0 0
        (some tetraConf) = .error .precondition
      ∧ DetermineBondWedgeState (acyclic [carbon, carbon] [plainBond 0 1 .DOUBLE] 0) 0 0
        none = .error .precondition :=
  ⟨determineBondWedgeState_not_single _ 0 0 (some tetraConf) (plainBond 0 1 .DOUBLE) rfl
      (by decide),
    determineBondWedgeState_not_single _ 0 0 none (plainBond 0 1 .DOUBLE) rfl (by decide)⟩

/-- C5: with a conformer, on a single bond whose from-atom is tagged, the
direction follows the parity of the total swap count (perturbation order of the
angular bond order plus the three-coordinate extra swap): a clockwise center
gives BEGINDASH when even and BEGINWEDGE when odd, a counterclockwise center
BEGINWEDGE when even and BEGINDASH when odd. -/
theorem determineBondWedgeState_parity (mol : ROMol) (bid fromAtomIdx : Nat)
    (conf : Conformer) (bond : Bond) (hb : mol.bonds[bid]? = some bond)
    (hs : bond.bondType = .SINGLE) :
    ((mol.getAtomWithIdx (fromAtom bond fromAtomIdx)).chiralTag = .CHI_TETRAHEDRAL_CW →
        DetermineBondWedgeState mol bid fromAtomIdx (some conf)
          = .ok (if (mol.getPerturbationOrder (fromAtom bond fromAtomIdx)
                      (neighborLists mol conf bid fromAtomIdx).2
                    + extraSwap (neighborLists mol conf bid fromAtomIdx).1) % 2 = 0
                  then .BEGINDASH else .BEGINWEDGE))
      ∧ ((mol.getAtomWithIdx (fromAtom bond fromAtomIdx)).chiralTag = .CHI_TETRAHEDRAL_CCW →
        DetermineBondWedgeState mol bid fromAtomIdx (some conf)
          = .ok (if (mol.getPerturbationOrder (fromAtom bond fromAtomIdx)
                      (neighborLists mol conf bid fromAtomIdx).2
                    + extraSwap (neighborLists mol conf bid fromAtomIdx).1) % 2 = 0
                  then .BEGINWEDGE else .BEGINDASH)) := by
  have hg : mol.getBondWithIdx bid = bond := by
    simp [ROMol.getBondWithIdx, List.getD_eq_getElem?_getD, hb]
  constructor
  · intro ht
    simp only [DetermineBondWedgeState, hb, hs, ht, totalSwaps, hg]
    rcases Nat.mod_two_eq_zero_or_one
      (mol.getPerturbationOrder (fromAtom bond fromAtomIdx)
          (neighborLists mol conf bid fromAtomIdx).2
        + extraSwap (neighborLists mol conf bid fromAtomIdx).1) with h | h <;>
      simp [h, ChiralType.isTetrahedral]
  · intro ht
    simp only [DetermineBondWedgeState, hb, hs, ht, totalSwaps, hg]
    rcases Nat.mod_two_eq_zero_or_one
      (mol.getPerturbationOrder (fromAtom bond fromAtomIdx)
          (neighborLists mol conf bid fromAtomIdx).2
        + extraSwap (neighborLists mol conf bid fromAtomIdx).1) with h | h <;>
      simp [h, ChiralType.isTetrahedral]

/-- Witness of C5: the clockwise center of `tetraMol`, wedged from its first
bond, with an even and with an odd perturbation order. -/
theorem determineBondWedgeState_parity_witness :
    DetermineBondWedgeState (tetraMol 2) 0 0 (some tetraConf) = .ok .BEGINDASH
      ∧ DetermineBondWedgeState (tetraMol 1) 0 0 (some tetraConf) = .ok .BEGINWEDGE :=
  ⟨(determineBondWedgeState_parity (tetraMol 2) 0 0 tetraConf (plainBond 0 1 .SINGLE)
      rfl rfl).1 rfl,
    (determineBondWedgeState_parity (tetraMol 1) 0 0 tetraConf (plainBond 0 1 .SINGLE)
      rfl rfl).1 rfl⟩

end RDKit

namespace RDKit

/-! ## Bond access and update -/

theorem getBondWithIdx_of_getElem? (mol : ROMol) (i : Nat) (b : Bond)
    (h : mol.bonds[i]? = some b) : mol.getBondWithIdx i = b := by
  simp [ROMol.getBondWithIdx, List.getD_eq_getElem?_getD, h]

theorem getElem?_of_lt (mol : ROMol) (i : Nat) (h : i < mol.bonds.length) :
    mol.bonds[i]? = some (mol.getBondWithIdx i) := by
  simp [ROMol.getBondWithIdx, List.getD_eq_getElem?_getD, List.getElem?_eq_getElem h]

theorem mem_atomBonds (mol : ROMol) (a b : Nat) :
    b ∈ mol.atomBonds a ↔
      b < mol.bonds.length
        ∧ ((mol.getBondWithIdx b).beginAtomIdx = a ∨ (mol.getBondWithIdx b).endAtomIdx = a) := by
  simp [ROMol.atomBonds, List.mem_filter]

theorem getBondWithIdx_modifyBond (mol : ROMol) (i j : Nat) (f : Bond → Bond) :
    (mol.modifyBond i f).getBondWithIdx j
      = if j = i ∧ i < mol.bonds.length then f (mol.getBondWithIdx i)
        else mol.getBondWithIdx j := by
  simp only [ROMol.modifyBond, ROMol.getBondWithIdx, List.getD_eq_getElem?_getD,
    List.getElem?_set]
  by_cases hij : i = j
  · subst hij
    by_cases hlt : i < mol.bonds.length
    · simp [hlt]
    · simp [hlt, List.getElem?_eq_none (not_lt.1 hlt)]
  · have hji : ¬ j = i := fun h => hij h.symm
    simp [hij, hji]

theorem length_modifyBond (mol : ROMol) (i : Nat) (f : Bond → Bond) :
    (mol.modifyBond i f).bonds.length = mol.bonds.length := by
  simp [ROMol.modifyBond]

theorem atoms_modifyBond (mol : ROMol) (i : Nat) (f : Bond → Bond) :
    (mol.modifyBond i f).atoms = mol.atoms := rfl

theorem INT_MAP_INT.find_of_mem (m : INT_MAP_INT) (hnd : (m.map Prod.fst).Nodup)
    (k v : Nat) (h : (k, v) ∈ m) : m.find k = some v := by
  induction m with
  | nil => exact absurd h (List.not_mem_nil _)
  | cons e t ih =>
    obtain ⟨k1, v1⟩ := e
    simp only [List.map_cons, List.nodup_cons] at hnd
    unfold INT_MAP_INT.find at ih ⊢
    rcases List.mem_cons.1 h with h1 | h1
    · simp only [Prod.mk.injEq] at h1
      obtain ⟨hk, hv⟩ := h1
      subst hk hv
      simp [List.lookup]
    · have hne : k ≠ k1 := by
        intro hk
        subst hk
        exact hnd.1 (List.mem_map_of_mem Prod.fst h1)
      have hb : (k == k1) = false := by simpa using hne
      simp [List.lookup, hb, ih hnd.2 h1]

/-- Every entry of the returned map joins a processable center to one of its
single bonds, and the lookup of the bond yields the center. -/
theorem pickBondsToWedge_entry (mol : ROMol) (res : INT_MAP_INT)
    (h : pickBondsToWedge mol = .ok res) (b a : Nat) (he : (b, a) ∈ res) :
    b ∈ mol.atomBonds a ∧ (mol.getBondWithIdx b).bondType = .SINGLE
      ∧ mol.isCenter a = true ∧ res.find b = some a := by
  rw [pickBondsToWedge_eq] at h
  have hcs : ∀ c ∈ centersInOrder mol, nChiralNbrs mol c ≤ 0 := by
    intro c hc
    simpa using (List.mem_filter.1 hc).2
  obtain ⟨picks, hmap, hperm, hnd, hall⟩ :=
    wedgeLoop_centers_ok mol (centersInOrder mol) [] res hcs List.nodup_nil h
  rw [List.append_nil] at hperm
  have hp : (b, a) ∈ picks := hperm.subset he
  have ha : a ∈ centersInOrder mol := by
    rw [← hmap]
    exact List.mem_map_of_mem Prod.snd hp
  have hc : mol.isCenter a = true := by
    rcases nChiralNbrs_cases mol a with h1 | h1 | h1
    · exact h1.2.2.1
    · have := hcs a ha
      rw [h1.2.1] at this
      exact absurd this (by decide)
    · exact h1.2.2
  exact ⟨(hall _ hp).1, (hall _ hp).2, hc, INT_MAP_INT.find_of_mem res hnd b a he⟩

/-! ## The loop of `WedgeMolBonds` -/

/-- One turn of the loop changes at most the bond it visits and no atom. -/
theorem wedgeMolLoop_step (wedgeBonds : INT_MAP_INT) (conf : Conformer) (i : Nat)
    (rest : List Nat) (cur fin : ROMol)
    (h : wedgeMolLoop wedgeBonds conf (i :: rest) cur = .ok fin) :
    ∃ nxt : ROMol, wedgeMolLoop wedgeBonds conf rest nxt = .ok fin
      ∧ nxt.atoms = cur.atoms ∧ nxt.bonds.length = cur.bonds.length
      ∧ ∀ j, j ≠ i → nxt.getBondWithIdx j = cur.getBondWithIdx j := by
  have hset : ∀ (m : ROMol) (f : Bond → Bond) (j : Nat), j ≠ i →
      (m.modifyBond i f).getBondWithIdx j = m.getBondWithIdx j := by
    intro m f j hj
    rw [getBondWithIdx_modifyBond]
    simp [hj]
  simp only [wedgeMolLoop] at h
  split_ifs at h with hs
  · cases hd : DetermineBondWedgeStateMap cur i wedgeBonds (some conf) with
    | error e =>
      rw [hd] at h
      exact Except.noConfusion h
    | ok dir =>
      rw [hd] at h
      simp only at h
      split_ifs at h with hdir
      · cases hf : wedgeBonds.find i with
        | none =>
          rw [hf] at h
          exact ⟨_, h, rfl, length_modifyBond _ _ _, fun j hj => hset cur _ j hj⟩
        | some a =>
          rw [hf] at h
          simp only at h
          split_ifs at h with hab
          · refine ⟨_, h, rfl, ?_, fun j hj => ?_⟩
            · simp [ROMol.swapBeginEnd, ROMol.setBondDir, length_modifyBond]
            · simp only [ROMol.swapBeginEnd, ROMol.setBondDir]
              rw [hset _ _ j hj, hset _ _ j hj]
          · exact ⟨_, h, rfl, length_modifyBond _ _ _, fun j hj => hset cur _ j hj⟩
      · exact ⟨cur, h, rfl, rfl, fun _ _ => rfl⟩
  · exact ⟨cur, h, rfl, rfl, fun _ _ => rfl⟩

/-- The loop keeps the atoms, the number of bonds and every bond it does not
visit. -/
theorem wedgeMolLoop_frame (wedgeBonds : INT_MAP_INT) (conf : Conformer) (is : List Nat)
    (cur fin : ROMol) (h : wedgeMolLoop wedgeBonds conf is cur = .ok fin) :
    fin.atoms = cur.atoms ∧ fin.bonds.length = cur.bonds.length
      ∧ ∀ j, j ∉ is → fin.getBondWithIdx j = cur.getBondWithIdx j := by
  induction is generalizing cur with
  | nil =>
    simp only [wedgeMolLoop, Except.ok.injEq] at h
    subst h
    exact ⟨rfl, rfl, fun _ _ => rfl⟩
  | cons i rest ih =>
    obtain ⟨nxt, hn, ha, hl, hb⟩ := wedgeMolLoop_step wedgeBonds conf i rest cur fin h
    obtain ⟨h1, h2, h3⟩ := ih nxt hn
    refine ⟨h1.trans ha, h2.trans hl, fun j hj => ?_⟩
    have hji : j ≠ i := fun e => hj (e ▸ List.mem_cons_self _ _)
    have hjr : j ∉ rest := fun e => hj (List.mem_cons_of_mem _ e)
    rw [h3 j hjr, hb j hji]

/-- The verdict of `DetermineBondWedgeState` at a tagged end of a single bond
is a wedge or a hash. -/
theorem determineBondWedgeState_center (mol : ROMol) (conf : Conformer) (b a : Nat)
    (hlt : b < mol.bonds.length) (hs : (mol.getBondWithIdx b).bondType = .SINGLE)
    (hend : (mol.getBondWithIdx b).beginAtomIdx = a ∨ (mol.getBondWithIdx b).endAtomIdx = a)
    (hc : mol.isCenter a = true) :
    DetermineBondWedgeState mol b a (some conf) = .ok .BEGINWEDGE
      ∨ DetermineBondWedgeState mol b a (some conf) = .ok .BEGINDASH := by
  have hfrom : fromAtom (mol.getBondWithIdx b) a = a := by
    unfold fromAtom
    split_ifs with h
    · exact h
    · rcases hend with h1 | h1
      · exact absurd h1 h
      · exact h1
  have hc2 : (mol.getAtomWithIdx a).chiralTag.isTetrahedral = true := hc
  simp only [DetermineBondWedgeState, getElem?_of_lt mol b hlt, hs, hfrom, hc2]
  simp only [ne_eq, not_true_eq_false, if_false, Bool.not_true, Bool.false_eq_true]
  split_ifs <;> simp

theorem isCenter_congr (m1 m2 : ROMol) (h : m1.atoms = m2.atoms) (a : Nat) :
    m1.isCenter a = m2.isCenter a := by
  simp [ROMol.isCenter, ROMol.getAtomWithIdx, h]

/-- The bond of a map entry, once visited, is wedged or hashed from its
center. -/
theorem wedgeMolLoop_entry (wedgeBonds : INT_MAP_INT) (conf : Conformer) (b a : Nat)
    (hf : wedgeBonds.find b = some a) (is : List Nat) (cur fin : ROMol)
    (hnd : is.Nodup) (hb : b ∈ is)
    (h : wedgeMolLoop wedgeBonds conf is cur = .ok fin)
    (hlt : b < cur.bonds.length) (hs : (cur.getBondWithIdx b).bondType = .SINGLE)
    (hend : (cur.getBondWithIdx b).beginAtomIdx = a ∨ (cur.getBondWithIdx b).endAtomIdx = a)
    (hc : cur.isCenter a = true) :
    ((fin.getBondWithIdx b).bondDir = .BEGINWEDGE ∨ (fin.getBondWithIdx b).bondDir = .BEGINDASH)
      ∧ (fin.getBondWithIdx b).beginAtomIdx = a
      ∧ ((cur.getBondWithIdx b).beginAtomIdx = a →
          (fin.getBondWithIdx b).endAtomIdx = (cur.getBondWithIdx b).endAtomIdx)
      ∧ ((cur.getBondWithIdx b).beginAtomIdx ≠ a →
          (fin.getBondWithIdx b).beginAtomIdx = (cur.getBondWithIdx b).endAtomIdx
            ∧ (fin.getBondWithIdx b).endAtomIdx = (cur.getBondWithIdx b).beginAtomIdx) := by
  induction is generalizing cur with
  | nil => exact absurd hb (List.not_mem_nil _)
  | cons i rest ih =>
    obtain ⟨hi, hrest⟩ := List.nodup_cons.1 hnd
    by_cases hib : i = b
    · subst hib
      have hmap : DetermineBondWedgeStateMap cur i wedgeBonds (some conf)
          = DetermineBondWedgeState cur i a (some conf) := by
        simp [DetermineBondWedgeStateMap, getElem?_of_lt cur i hlt, hf]
      have hself : ∀ (m : ROMol) (f : Bond → Bond), i < m.bonds.length →
          (m.modifyBond i f).getBondWithIdx i = f (m.getBondWithIdx i) := by
        intro m f hm
        rw [getBondWithIdx_modifyBond]
        simp [hm]
      simp only [wedgeMolLoop, hs, if_true, hmap, hf] at h
      have finish : ∀ dir : BondDir, (dir = .BEGINWEDGE ∨ dir = .BEGINDASH) →
          (if a ≠ ((cur.setBondDir i dir).getBondWithIdx i).beginAtomIdx then
              wedgeMolLoop wedgeBonds conf rest ((cur.setBondDir i dir).swapBeginEnd i)
            else wedgeMolLoop wedgeBonds conf rest (cur.setBondDir i dir)) = .ok fin →
          ((fin.getBondWithIdx i).bondDir = .BEGINWEDGE
              ∨ (fin.getBondWithIdx i).bondDir = .BEGINDASH)
            ∧ (fin.getBondWithIdx i).beginAtomIdx = a
            ∧ ((cur.getBondWithIdx i).beginAtomIdx = a →
                (fin.getBondWithIdx i).endAtomIdx = (cur.getBondWithIdx i).endAtomIdx)
            ∧ ((cur.getBondWithIdx i).beginAtomIdx ≠ a →
                (fin.getBondWithIdx i).beginAtomIdx = (cur.getBondWithIdx i).endAtomIdx
                  ∧ (fin.getBondWithIdx i).endAtomIdx
                      = (cur.getBondWithIdx i).beginAtomIdx) := by
        intro dir hdir hrun
        have hd1 : (cur.setBondDir i dir).getBondWithIdx i
            = { cur.getBondWithIdx i with bondDir := dir } := hself cur _ hlt
        have hl1 : i < (cur.setBondDir i dir).bonds.length := by
          simpa [ROMol.setBondDir, length_modifyBond] using hlt
        rw [hd1] at hrun
        split_ifs at hrun with hab
        · have hfin := (wedgeMolLoop_frame wedgeBonds conf rest _ fin hrun).2.2 i hi
          have hd2 : ((cur.setBondDir i dir).swapBeginEnd i).getBondWithIdx i
              = { cur.getBondWithIdx i with
                  bondDir := dir
                  beginAtomIdx := (cur.getBondWithIdx i).endAtomIdx
                  endAtomIdx := (cur.getBondWithIdx i).beginAtomIdx } := by
            unfold ROMol.swapBeginEnd
            rw [hself _ _ hl1, hd1]
          rw [hfin, hd2]
          simp only at hab
          have hbe : (cur.getBondWithIdx i).beginAtomIdx ≠ a := fun e => hab e.symm
          have hea : (cur.getBondWithIdx i).endAtomIdx = a := by
            rcases hend with e | e
            · exact absurd e hbe
            · exact e
          exact ⟨hdir, hea, fun e => absurd e hbe, fun _ => ⟨rfl, rfl⟩⟩
        · have hfin := (wedgeMolLoop_frame wedgeBonds conf rest _ fin hrun).2.2 i hi
          rw [hfin, hd1]
          simp only [ne_eq, not_not] at hab
          exact ⟨hdir, hab.symm, fun _ => rfl, fun e => absurd hab.symm e⟩
      rcases determineBondWedgeState_center cur conf i a hlt hs hend hc with hd | hd
      · rw [hd] at h
        dsimp only at h
        rw [if_pos (Or.inl rfl)] at h
        exact finish _ (Or.inl rfl) h
      · rw [hd] at h
        dsimp only at h
        rw [if_pos (Or.inr rfl)] at h
        exact finish _ (Or.inr rfl) h
    · have hbr : b ∈ rest := by
        rcases List.mem_cons.1 hb with e | e
        · exact absurd e.symm hib
        · exact e
      obtain ⟨nxt, hn, ha, hl, hbn⟩ := wedgeMolLoop_step wedgeBonds conf i rest cur fin h
      have hbb := hbn b (fun e => hib e.symm)
      have := ih nxt hrest hbr hn (hl ▸ hlt) (hbb ▸ hs) (hbb ▸ hend)
        ((isCenter_congr nxt cur ha a).trans hc)
      rw [hbb] at this
      exact this

/-! ## Contract of `WedgeMolBonds` -/

/-- C4: when `WedgeMolBonds` completes with a conformer, every entry
`b ↦ a` of the map that `pickBondsToWedge` returns on the molecule before the
call ends with bond `b` wedged or hashed and beginning at `a`: the ends are
kept when `a` was the begin atom and exchanged when it was the end atom. -/
theorem wedgeMolBonds_entries (mol fin : ROMol) (conf : Conformer) (res : INT_MAP_INT)
    (hpick : pickBondsToWedge mol = .ok res)
    (hrun : WedgeMolBonds mol (some conf) = .ok fin) (b a : Nat) (he : (b, a) ∈ res) :
    ((fin.getBondWithIdx b).bondDir = .BEGINWEDGE ∨ (fin.getBondWithIdx b).bondDir = .BEGINDASH)
      ∧ (fin.getBondWithIdx b).beginAtomIdx = a
      ∧ ((mol.getBondWithIdx b).beginAtomIdx = a →
          (fin.getBondWithIdx b).endAtomIdx = (mol.getBondWithIdx b).endAtomIdx)
      ∧ ((mol.getBondWithIdx b).beginAtomIdx ≠ a →
          (fin.getBondWithIdx b).beginAtomIdx = (mol.getBondWithIdx b).endAtomIdx
            ∧ (fin.getBondWithIdx b).endAtomIdx = (mol.getBondWithIdx b).beginAtomIdx) := by
  obtain ⟨hmem, hs, hc, hf⟩ := pickBondsToWedge_entry mol res hpick b a he
  obtain ⟨hlt, hend⟩ := (mem_atomBonds mol a b).1 hmem
  simp only [WedgeMolBonds, hpick] at hrun
  exact wedgeMolLoop_entry res conf b a hf (List.range mol.getNumBonds) mol fin
    (List.nodup_range _) (List.mem_range.2 hlt) hrun hlt hs hend hc

/-- Witness of C4 on `endCenter`: the hydrogen bond 0 runs from the hydrogen to
the center 1; after the call it is hashed and runs from the center. -/
theorem wedgeMolBonds_entries_witness :
    ((endCenterWedged.getBondWithIdx 0).bondDir = .BEGINWEDGE
        ∨ (endCenterWedged.getBondWithIdx 0).bondDir = .BEGINDASH)
      ∧ (endCenterWedged.getBondWithIdx 0).beginAtomIdx = 1
      ∧ ((endCenter.getBondWithIdx 0).beginAtomIdx = 1 →
          (endCenterWedged.getBondWithIdx 0).endAtomIdx
            = (endCenter.getBondWithIdx 0).endAtomIdx)
      ∧ ((endCenter.getBondWithIdx 0).beginAtomIdx ≠ 1 →
          (endCenterWedged.getBondWithIdx 0).beginAtomIdx
              = (endCenter.getBondWithIdx 0).endAtomIdx
            ∧ (endCenterWedged.getBondWithIdx 0).endAtomIdx
              = (endCenter.getBondWithIdx 0).beginAtomIdx) :=
  wedgeMolBonds_entries endCenter endCenterWedged tetraConf [(0, 1)] rfl rfl 0 1
    (List.mem_singleton.2 rfl)

end RDKit

namespace RDKit

/-! ## The scoring pass of `addWavyBondsForStereoAny` -/

theorem mem_getBondNeighbors (mol : ROMol) (d s : Nat) :
    s ∈ getBondNeighbors mol d ↔
      s ≠ d ∧ s < mol.bonds.length
        ∧ ((mol.getBondWithIdx s).beginAtomIdx = (mol.getBondWithIdx d).beginAtomIdx
          ∨ (mol.getBondWithIdx s).endAtomIdx = (mol.getBondWithIdx d).beginAtomIdx
          ∨ (mol.getBondWithIdx s).beginAtomIdx = (mol.getBondWithIdx d).endAtomIdx
          ∨ (mol.getBondWithIdx s).endAtomIdx = (mol.getBondWithIdx d).endAtomIdx) := by
  simp only [getBondNeighbors, List.mem_append, List.mem_filter, mem_atomBonds, bne_iff_ne,
    ne_eq]
  tauto

/-- A neighbour returned by `getBondNeighbors` shares an atom with the bond, so
`getNonsharedAtom` returns. -/
theorem getNonsharedAtom_ok (mol : ROMol) (d s : Nat) (h : s ∈ getBondNeighbors mol d) :
    ∃ o, getNonsharedAtom (mol.getBondWithIdx s) (mol.getBondWithIdx d) = .ok o := by
  obtain ⟨_, _, hsh⟩ := (mem_getBondNeighbors mol d s).1 h
  unfold getNonsharedAtom
  split_ifs with h1 h2
  · exact ⟨_, rfl⟩
  · exact ⟨_, rfl⟩
  · exfalso
    rcases hsh with e | e | e | e
    · exact h1 (Or.inl e)
    · exact h2 (Or.inl e)
    · exact h1 (Or.inr e)
    · exact h2 (Or.inr e)

theorem wavyPenalty_pos (th : StereoBondThresholds) (mol : ROMol) (sb dbl o : Nat) :
    0 < wavyPenalty th mol sb dbl o := by
  unfold wavyPenalty
  omega

/-- Effect of the inner scoring loop on the three tables. -/
theorem scoreNeighbors_spec (th : StereoBondThresholds) (mol : ROMol) (d : Nat)
    (l : List Nat) (t : WavyTables)
    (hl : ∀ s ∈ l, ∃ o, getNonsharedAtom (mol.getBondWithIdx s) (mol.getBondWithIdx d) = .ok o) :
    ∃ t1, scoreNeighbors th mol d l t = .ok t1
      ∧ t1.doubleBondsToSet = t.doubleBondsToSet
      ∧ (∀ s x, x ∈ t1.singleBondNeighbors s ↔
          x ∈ t.singleBondNeighbors s
            ∨ (x = d ∧ (mol.getBondWithIdx d).stereo = .STEREOANY ∧ s ∈ l
              ∧ (mol.getBondWithIdx s).bondType = .SINGLE))
      ∧ (∀ s, t1.singleBondScores s ≠ 0 ↔
          t.singleBondScores s ≠ 0
            ∨ (s ∈ l ∧ (mol.getBondWithIdx s).bondType = .SINGLE)) := by
  induction l generalizing t with
  | nil => exact ⟨t, rfl, rfl, by simp, by simp⟩
  | cons sb rest ih =>
    have hrest : ∀ s ∈ rest, ∃ o,
        getNonsharedAtom (mol.getBondWithIdx s) (mol.getBondWithIdx d) = .ok o :=
      fun s hs => hl s (List.mem_cons_of_mem _ hs)
    simp only [scoreNeighbors]
    by_cases hty : (mol.getBondWithIdx sb).bondType = .SINGLE
    · obtain ⟨o, ho⟩ := hl sb (List.mem_cons_self _ _)
      simp only [hty, ne_eq, not_true_eq_false, if_false, ho]
      obtain ⟨t1, hrun, hset, hn, hsc⟩ := ih _ hrest
      refine ⟨t1, hrun, hset, ?_, ?_⟩
      · intro s x
        refine (hn s x).trans ?_
        by_cases hany : (mol.getBondWithIdx d).stereo = .STEREOANY
        · simp only [hany, if_true, true_and]
          by_cases hs : s = sb
          · subst hs
            simp only [Function.update_same, List.mem_append, List.mem_singleton,
              List.mem_cons, true_or, hty, and_true]
            tauto
          · simp only [Function.update_noteq hs, List.mem_cons, hs, false_or]
        · simp only [hany, if_false, false_and, and_false, or_false]
      · intro s
        refine (hsc s).trans ?_
        by_cases hs : s = sb
        · subst hs
          have := wavyPenalty_pos th mol s d o
          simp only [Function.update_same, List.mem_cons, true_or, hty, and_true]
          constructor
          · intro _
            exact Or.inr trivial
          · intro _
            left
            omega
        · simp only [Function.update_noteq hs, List.mem_cons, hs, false_or]
    · simp only [hty, ne_eq, not_false_eq_true, if_true]
      obtain ⟨t1, hrun, hset, hn, hsc⟩ := ih t hrest
      refine ⟨t1, hrun, hset, ?_, ?_⟩
      · intro s x
        refine (hn s x).trans ?_
        constructor
        · rintro (h | ⟨h1, h2, h3, h4⟩)
          · exact Or.inl h
          · exact Or.inr ⟨h1, h2, List.mem_cons_of_mem _ h3, h4⟩
        · rintro (h | ⟨h1, h2, h3, h4⟩)
          · exact Or.inl h
          · rcases List.mem_cons.1 h3 with e | e
            · subst e
              exact absurd h4 hty
            · exact Or.inr ⟨h1, h2, e, h4⟩
      · intro s
        refine (hsc s).trans ?_
        constructor
        · rintro (h | ⟨h3, h4⟩)
          · exact Or.inl h
          · exact Or.inr ⟨List.mem_cons_of_mem _ h3, h4⟩
        · rintro (h | ⟨h3, h4⟩)
          · exact Or.inl h
          · rcases List.mem_cons.1 h3 with e | e
            · subst e
              exact absurd h4 hty
            · exact Or.inr ⟨e, h4⟩

/-- Effect of the scoring pass over a list of bonds on the three tables. -/
theorem scoreBonds_spec (th : StereoBondThresholds) (mol : ROMol) (ds : List Nat)
    (t : WavyTables) :
    ∃ t1, scoreBonds th mol ds t = .ok t1
      ∧ (∀ x, t1.doubleBondsToSet x = true ↔
          t.doubleBondsToSet x = true
            ∨ (x ∈ ds ∧ (mol.getBondWithIdx x).bondType = .DOUBLE
              ∧ (mol.getBondWithIdx x).stereo = .STEREOANY))
      ∧ (∀ s x, x ∈ t1.singleBondNeighbors s ↔
          x ∈ t.singleBondNeighbors s
            ∨ (x ∈ ds ∧ (mol.getBondWithIdx x).bondType = .DOUBLE
              ∧ (mol.getBondWithIdx x).stereo = .STEREOANY ∧ s ∈ getBondNeighbors mol x
              ∧ (mol.getBondWithIdx s).bondType = .SINGLE))
      ∧ (∀ s, t1.singleBondScores s ≠ 0 ↔
          t.singleBondScores s ≠ 0
            ∨ ∃ x ∈ ds, (mol.getBondWithIdx x).bondType = .DOUBLE
              ∧ s ∈ getBondNeighbors mol x ∧ (mol.getBondWithIdx s).bondType = .SINGLE) := by
  induction ds generalizing t with
  | nil => exact ⟨t, rfl, by simp, by simp, by simp⟩
  | cons d rest ih =>
    simp only [scoreBonds]
    by_cases hty : (mol.getBondWithIdx d).bondType = .DOUBLE
    · simp only [hty, ne_eq, not_true_eq_false, if_false]
      obtain ⟨t1, hrun1, hset1, hn1, hsc1⟩ :=
        scoreNeighbors_spec th mol d (getBondNeighbors mol d)
          (if (mol.getBondWithIdx d).stereo = .STEREOANY then
            { t with doubleBondsToSet := Function.update t.doubleBondsToSet d true }
          else t)
          (fun s hs => getNonsharedAtom_ok mol d s hs)
      rw [hrun1]
      obtain ⟨t2, hrun2, hset2, hn2, hsc2⟩ := ih t1
      refine ⟨t2, hrun2, ?_, ?_, ?_⟩
      · intro x
        rw [hset2 x, hset1]
        by_cases hany : (mol.getBondWithIdx d).stereo = .STEREOANY
        · simp only [hany, if_true]
          by_cases hx : x = d
          · subst hx
            simp [hty, hany]
          · simp [Function.update_noteq hx, hx]
        · simp only [hany, if_false, List.mem_cons]
          constructor
          · rintro (h | ⟨h1, h2, h3⟩)
            · exact Or.inl h
            · exact Or.inr ⟨Or.inr h1, h2, h3⟩
          · rintro (h | ⟨h1 | h1, h2, h3⟩)
            · exact Or.inl h
            · subst h1
              exact absurd h3 hany
            · exact Or.inr ⟨h1, h2, h3⟩
      · intro s x
        rw [hn2 s x, hn1 s x]
        have h0 : x ∈ (if (mol.getBondWithIdx d).stereo = .STEREOANY then
            { t with doubleBondsToSet := Function.update t.doubleBondsToSet d true }
          else t).singleBondNeighbors s ↔ x ∈ t.singleBondNeighbors s := by
          split_ifs <;> rfl
        rw [h0]
        simp only [List.mem_cons]
        constructor
        · rintro ((h | ⟨h1, h2, h3, h4⟩) | ⟨h1, h2, h3, h4, h5⟩)
          · exact Or.inl h
          · subst h1
            exact Or.inr ⟨Or.inl rfl, hty, h2, h3, h4⟩
          · exact Or.inr ⟨Or.inr h1, h2, h3, h4, h5⟩
        · rintro (h | ⟨h1 | h1, h2, h3, h4, h5⟩)
          · exact Or.inl (Or.inl h)
          · subst h1
            exact Or.inl (Or.inr ⟨rfl, h3, h4, h5⟩)
          · exact Or.inr ⟨h1, h2, h3, h4, h5⟩
      · intro s
        refine (hsc2 s).trans ?_
        rw [hsc1 s]
        have h0 : (if (mol.getBondWithIdx d).stereo = .STEREOANY then
            { t with doubleBondsToSet := Function.update t.doubleBondsToSet d true }
          else t).singleBondScores s = t.singleBondScores s := by
          split_ifs <;> rfl
        rw [h0]
        simp only [List.mem_cons, exists_eq_or_imp, hty, true_and]
        tauto
    · simp only [hty, ne_eq, not_false_eq_true, if_true]
      obtain ⟨t2, hrun2, hset2, hn2, hsc2⟩ := ih t
      refine ⟨t2, hrun2, ?_, ?_, ?_⟩
      · intro x
        rw [hset2 x]
        simp only [List.mem_cons]
        constructor
        · rintro (h | ⟨h1, h2, h3⟩)
          · exact Or.inl h
          · exact Or.inr ⟨Or.inr h1, h2, h3⟩
        · rintro (h | ⟨h1 | h1, h2, h3⟩)
          · exact Or.inl h
          · subst h1
            exact absurd h2 hty
          · exact Or.inr ⟨h1, h2, h3⟩
      · intro s x
        rw [hn2 s x]
        simp only [List.mem_cons]
        constructor
        · rintro (h | ⟨h1, h2, h3⟩)
          · exact Or.inl h
          · exact Or.inr ⟨Or.inr h1, h2, h3⟩
        · rintro (h | ⟨h1 | h1, h2, h3⟩)
          · exact Or.inl h
          · subst h1
            exact absurd h2 hty
          · exact Or.inr ⟨h1, h2, h3⟩
      · intro s
        refine (hsc2 s).trans ?_
        simp only [List.mem_cons, exists_eq_or_imp, hty, false_and, false_or]

/-- The scoring pass never fails; its tables record the STEREOANY double bonds,
for each single bond its STEREOANY double bond neighbours, and a non-zero score
exactly for the single bonds next to a double bond. -/
theorem wavyTables_spec (th : StereoBondThresholds) (mol : ROMol) :
    ∃ t, wavyTables th mol = .ok t
      ∧ (∀ x, t.doubleBondsToSet x = true ↔
          x < mol.bonds.length ∧ (mol.getBondWithIdx x).bondType = .DOUBLE
            ∧ (mol.getBondWithIdx x).stereo = .STEREOANY)
      ∧ (∀ s x, x ∈ t.singleBondNeighbors s ↔
          x < mol.bonds.length ∧ (mol.getBondWithIdx x).bondType = .DOUBLE
            ∧ (mol.getBondWithIdx x).stereo = .STEREOANY ∧ s ∈ getBondNeighbors mol x
            ∧ (mol.getBondWithIdx s).bondType = .SINGLE)
      ∧ (∀ s, t.singleBondScores s ≠ 0 ↔
          ∃ x, x < mol.bonds.length ∧ (mol.getBondWithIdx x).bondType = .DOUBLE
            ∧ s ∈ getBondNeighbors mol x ∧ (mol.getBondWithIdx s).bondType = .SINGLE) := by
  obtain ⟨t, hrun, hset, hn, hsc⟩ :=
    scoreBonds_spec th mol (List.range mol.getNumBonds) ⟨fun _ => 0, fun _ => [], fun _ => false⟩
  refine ⟨t, hrun, ?_, ?_, ?_⟩
  · intro x
    rw [hset x]
    simp [ROMol.getNumBonds]
  · intro s x
    rw [hn s x]
    simp [ROMol.getNumBonds]
  · intro s
    rw [hsc s]
    simp [ROMol.getNumBonds]

end RDKit

namespace RDKit

/-! ## The marking pass of `addWavyBondsForStereoAny` -/

theorem bondDir_setBondDir (mol : ROMol) (i j : Nat) (d : BondDir) :
    ((mol.setBondDir i d).getBondWithIdx j).bondDir
      = if j = i ∧ i < mol.bonds.length then d else (mol.getBondWithIdx j).bondDir := by
  unfold ROMol.setBondDir
  rw [getBondWithIdx_modifyBond]
  split_ifs with h
  · rfl
  · rfl

theorem stereo_setBondDir (mol : ROMol) (i j : Nat) (d : BondDir) :
    ((mol.setBondDir i d).getBondWithIdx j).stereo = (mol.getBondWithIdx j).stereo := by
  unfold ROMol.setBondDir
  rw [getBondWithIdx_modifyBond]
  split_ifs with h
  · rw [h.1]
  · rfl

theorem bondDir_setStereo (mol : ROMol) (i j : Nat) (s : BondStereo) :
    ((mol.setStereo i s).getBondWithIdx j).bondDir = (mol.getBondWithIdx j).bondDir := by
  unfold ROMol.setStereo
  rw [getBondWithIdx_modifyBond]
  split_ifs with h
  · rw [h.1]
  · rfl

theorem stereo_setStereo (mol : ROMol) (i j : Nat) (s : BondStereo) :
    ((mol.setStereo i s).getBondWithIdx j).stereo
      = if j = i ∧ i < mol.bonds.length then s else (mol.getBondWithIdx j).stereo := by
  unfold ROMol.setStereo
  rw [getBondWithIdx_modifyBond]
  split_ifs with h
  · rfl
  · rfl

theorem length_setBondDir (mol : ROMol) (i : Nat) (d : BondDir) :
    (mol.setBondDir i d).bonds.length = mol.bonds.length :=
  length_modifyBond _ _ _

theorem length_setStereo (mol : ROMol) (i : Nat) (s : BondStereo) :
    (mol.setStereo i s).bonds.length = mol.bonds.length :=
  length_modifyBond _ _ _

theorem getBondWithIdx_setBondDir_ne (mol : ROMol) (i j : Nat) (d : BondDir) (h : j ≠ i) :
    (mol.setBondDir i d).getBondWithIdx j = mol.getBondWithIdx j := by
  unfold ROMol.setBondDir
  rw [getBondWithIdx_modifyBond]
  simp [h]

theorem getBondWithIdx_setStereo_ne (mol : ROMol) (i j : Nat) (s : BondStereo) (h : j ≠ i) :
    (mol.setStereo i s).getBondWithIdx j = mol.getBondWithIdx j := by
  unfold ROMol.setStereo
  rw [getBondWithIdx_modifyBond]
  simp [h]

theorem length_clearDoubleBond (mol : ROMol) (x : Nat) :
    (clearDoubleBond mol x).bonds.length = mol.bonds.length := by
  unfold clearDoubleBond
  split_ifs <;> simp [length_setBondDir, length_setStereo]

theorem getBondWithIdx_clearDoubleBond_ne (mol : ROMol) (x j : Nat) (h : j ≠ x) :
    (clearDoubleBond mol x).getBondWithIdx j = mol.getBondWithIdx j := by
  unfold clearDoubleBond
  rw [getBondWithIdx_setStereo_ne _ _ _ _ h]
  split_ifs
  · exact getBondWithIdx_setBondDir_ne _ _ _ _ h
  · rfl

theorem bondDir_clearDoubleBond (mol : ROMol) (x j : Nat) :
    ((clearDoubleBond mol x).getBondWithIdx j).bondDir
      = if j = x ∧ x < mol.bonds.length
            ∧ (mol.getBondWithIdx x).bondDir = .EITHERDOUBLE then .NONE
        else (mol.getBondWithIdx j).bondDir := by
  unfold clearDoubleBond
  rw [bondDir_setStereo]
  by_cases h : (mol.getBondWithIdx x).bondDir = .EITHERDOUBLE
  · simp only [h, if_true, and_true, bondDir_setBondDir]
  · simp only [h, if_false, and_false]

theorem stereo_clearDoubleBond (mol : ROMol) (x j : Nat) :
    ((clearDoubleBond mol x).getBondWithIdx j).stereo
      = if j = x ∧ x < mol.bonds.length then .STEREONONE
        else (mol.getBondWithIdx j).stereo := by
  unfold clearDoubleBond
  rw [stereo_setStereo]
  split_ifs <;> simp_all [length_setBondDir, stereo_setBondDir]

theorem wavyStep_skip (c : Bool) (T sc sb : Nat) (st : ROMol × (Nat → Bool)) (x : Nat)
    (h : st.2 x = false ∨ (T ≠ 0 ∧ sc > T)) : wavyStep c T sc sb st x = st := by
  unfold wavyStep
  rcases h with h | h
  · simp [h]
  · simp [h]

theorem wavyStep_mark (c : Bool) (T sc sb : Nat) (st : ROMol × (Nat → Bool)) (x : Nat)
    (h1 : st.2 x = true) (h2 : ¬ (T ≠ 0 ∧ sc > T)) :
    wavyStep c T sc sb st x
      = (if c then clearDoubleBond (st.1.setBondDir sb .UNKNOWN) x
          else st.1.setBondDir sb .UNKNOWN,
        Function.update st.2 x false) := by
  unfold wavyStep
  rw [if_pos h1, if_neg h2]

theorem wavyStep_cases (c : Bool) (T sc sb : Nat) (st : ROMol × (Nat → Bool)) (x : Nat) :
    wavyStep c T sc sb st x = st
      ∨ (st.2 x = true ∧ ¬ (T ≠ 0 ∧ sc > T)
        ∧ wavyStep c T sc sb st x
          = (if c then clearDoubleBond (st.1.setBondDir sb .UNKNOWN) x
              else st.1.setBondDir sb .UNKNOWN,
            Function.update st.2 x false)) := by
  by_cases h1 : st.2 x = true
  · by_cases h2 : T ≠ 0 ∧ sc > T
    · exact Or.inl (wavyStep_skip c T sc sb st x (Or.inr h2))
    · exact Or.inr ⟨h1, h2, wavyStep_mark c T sc sb st x h1 h2⟩
  · exact Or.inl (wavyStep_skip c T sc sb st x (Or.inl (by simpa using h1)))

theorem wavyStep_length (c : Bool) (T sc sb : Nat) (st : ROMol × (Nat → Bool)) (x : Nat) :
    (wavyStep c T sc sb st x).1.bonds.length = st.1.bonds.length := by
  rcases wavyStep_cases c T sc sb st x with h | ⟨_, _, h⟩
  · rw [h]
  · rw [h]
    cases c <;> simp [length_setBondDir, length_clearDoubleBond]

/-- A turn never sets a bit of `doubleBondsToSet`. -/
theorem wavyStep_mono (c : Bool) (T sc sb : Nat) (st : ROMol × (Nat → Bool)) (x y : Nat)
    (h : (wavyStep c T sc sb st x).2 y = true) : st.2 y = true := by
  rcases wavyStep_cases c T sc sb st x with h1 | ⟨_, _, h1⟩
  · rw [h1] at h
    exact h
  · rw [h1] at h
    by_cases hy : y = x
    · subst hy
      simp [Function.update_same] at h
    · simpa [Function.update_noteq hy] using h

/-- A turn that the threshold does not stop resets the bit of its double
bond. -/
theorem wavyStep_reset (c : Bool) (T sc sb : Nat) (st : ROMol × (Nat → Bool)) (x : Nat)
    (hT : ¬ (T ≠ 0 ∧ sc > T)) : (wavyStep c T sc sb st x).2 x = false := by
  by_cases h1 : st.2 x = true
  · rw [wavyStep_mark c T sc sb st x h1 hT]
    simp [Function.update_same]
  · rw [wavyStep_skip c T sc sb st x (Or.inl (by simpa using h1))]
    simpa using h1

/-- A turn leaves every bond other than its single and its double bond as it
is, and every bond when the threshold stops it. -/
theorem wavyStep_frame (c : Bool) (T sc sb : Nat) (st : ROMol × (Nat → Bool)) (x j : Nat)
    (h : (T ≠ 0 ∧ sc > T) ∨ (j ≠ sb ∧ j ≠ x)) :
    (wavyStep c T sc sb st x).1.getBondWithIdx j = st.1.getBondWithIdx j := by
  rcases wavyStep_cases c T sc sb st x with h1 | ⟨_, h2, h1⟩
  · rw [h1]
  · rw [h1]
    rcases h with h | ⟨hsb, hx⟩
    · exact absurd h h2
    · cases c
      · exact getBondWithIdx_setBondDir_ne _ _ _ _ hsb
      · simp only [if_true]
        rw [getBondWithIdx_clearDoubleBond_ne _ _ _ hx,
          getBondWithIdx_setBondDir_ne _ _ _ _ hsb]

/-- A turn keeps the invariant: `D` is still to be set or it is resolved. -/
theorem wavyStep_inv (c : Bool) (T sc sb : Nat) (nbrs : Nat → List Nat) (D : Nat)
    (st : ROMol × (Nat → Bool)) (x : Nat) (hsb : sb < st.1.bonds.length)
    (hx : x < st.1.bonds.length) (hxn : x ∈ nbrs sb)
    (h : st.2 D = true ∨ Resolved c nbrs D st.1) :
    (wavyStep c T sc sb st x).2 D = true ∨ Resolved c nbrs D (wavyStep c T sc sb st x).1 := by
  rcases wavyStep_cases c T sc sb st x with h1 | ⟨_, _, h1⟩
  · rw [h1]
    exact h
  rw [h1]
  have hmark : ∀ s, (st.1.getBondWithIdx s).bondDir = .UNKNOWN ∨ s = sb →
      ((if c then clearDoubleBond (st.1.setBondDir sb .UNKNOWN) x
        else st.1.setBondDir sb .UNKNOWN).getBondWithIdx s).bondDir = .UNKNOWN := by
    intro s hs
    have hs1 : ((st.1.setBondDir sb .UNKNOWN).getBondWithIdx s).bondDir = .UNKNOWN := by
      rw [bondDir_setBondDir]
      split_ifs with h4
      · rfl
      · rcases hs with hs | hs
        · exact hs
        · exact absurd ⟨hs, hsb⟩ h4
    cases c
    · exact hs1
    · simp only [if_true]
      rw [bondDir_clearDoubleBond]
      split_ifs with h4
      · obtain ⟨h5, _, h6⟩ := h4
        rw [h5, h6] at hs1
        cases hs1
      · exact hs1
  by_cases hxD : x = D
  · subst hxD
    right
    refine ⟨⟨sb, hxn, hmark sb (Or.inr rfl)⟩, ?_⟩
    intro hc
    subst hc
    simp only [if_true]
    have hx1 : x < (st.1.setBondDir sb .UNKNOWN).bonds.length := by
      rw [length_setBondDir]
      exact hx
    constructor
    · rw [stereo_clearDoubleBond]
      simp [hx1]
    · rw [bondDir_clearDoubleBond]
      split_ifs with h4
      · decide
      · intro h5
        exact h4 ⟨rfl, hx1, h5⟩
  · rcases h with h | ⟨⟨s, hs, hdir⟩, hclear⟩
    · left
      simpa [Function.update_noteq (Ne.symm hxD)] using h
    · right
      have hDx : D ≠ x := Ne.symm hxD
      refine ⟨⟨s, hs, hmark s (Or.inl hdir)⟩, ?_⟩
      intro hc
      subst hc
      obtain ⟨hst, hd⟩ := hclear rfl
      simp only [if_true]
      rw [getBondWithIdx_clearDoubleBond_ne _ _ _ hDx]
      constructor
      · rw [stereo_setBondDir]
        exact hst
      · rw [bondDir_setBondDir]
        split_ifs
        · decide
        · exact hd

end RDKit

namespace RDKit

theorem wavyInner_nil (c : Bool) (T sc sb : Nat) (st : ROMol × (Nat → Bool)) :
    wavyInner c T sc sb [] st = st := rfl

theorem wavyInner_cons (c : Bool) (T sc sb x : Nat) (ds : List Nat)
    (st : ROMol × (Nat → Bool)) :
    wavyInner c T sc sb (x :: ds) st = wavyInner c T sc sb ds (wavyStep c T sc sb st x) := rfl

theorem wavyInner_length (c : Bool) (T sc sb : Nat) (ds : List Nat)
    (st : ROMol × (Nat → Bool)) :
    (wavyInner c T sc sb ds st).1.bonds.length = st.1.bonds.length := by
  induction ds generalizing st with
  | nil => rfl
  | cons x rest ih => rw [wavyInner_cons, ih, wavyStep_length]

theorem wavyInner_mono (c : Bool) (T sc sb : Nat) (ds : List Nat)
    (st : ROMol × (Nat → Bool)) (y : Nat)
    (h : (wavyInner c T sc sb ds st).2 y = true) : st.2 y = true := by
  induction ds generalizing st with
  | nil => exact h
  | cons x rest ih =>
    rw [wavyInner_cons] at h
    exact wavyStep_mono c T sc sb st x y (ih _ h)

theorem wavyInner_frame (c : Bool) (T sc sb : Nat) (ds : List Nat)
    (st : ROMol × (Nat → Bool)) (j : Nat)
    (h : (T ≠ 0 ∧ sc > T) ∨ (j ≠ sb ∧ j ∉ ds)) :
    (wavyInner c T sc sb ds st).1.getBondWithIdx j = st.1.getBondWithIdx j := by
  induction ds generalizing st with
  | nil => rfl
  | cons x rest ih =>
    rw [wavyInner_cons]
    have h1 : (T ≠ 0 ∧ sc > T) ∨ (j ≠ sb ∧ j ∉ rest) := by
      rcases h with h | ⟨h2, h3⟩
      · exact Or.inl h
      · exact Or.inr ⟨h2, fun e => h3 (List.mem_cons_of_mem _ e)⟩
    have h2 : (T ≠ 0 ∧ sc > T) ∨ (j ≠ sb ∧ j ≠ x) := by
      rcases h with h | ⟨h2, h3⟩
      · exact Or.inl h
      · exact Or.inr ⟨h2, fun e => h3 (e ▸ List.mem_cons_self _ _)⟩
    rw [ih _ h1, wavyStep_frame c T sc sb st x j h2]

theorem wavyInner_inv (c : Bool) (T sc sb : Nat) (nbrs : Nat → List Nat) (D : Nat)
    (ds : List Nat) (st : ROMol × (Nat → Bool)) (hsb : sb < st.1.bonds.length)
    (hds : ∀ x ∈ ds, x < st.1.bonds.length ∧ x ∈ nbrs sb)
    (h : st.2 D = true ∨ Resolved c nbrs D st.1) :
    (wavyInner c T sc sb ds st).2 D = true
      ∨ Resolved c nbrs D (wavyInner c T sc sb ds st).1 := by
  induction ds generalizing st with
  | nil => exact h
  | cons x rest ih =>
    rw [wavyInner_cons]
    have hl := wavyStep_length c T sc sb st x
    refine ih _ (hl ▸ hsb) (fun y hy => ?_) ?_
    · rw [hl]
      exact hds y (List.mem_cons_of_mem _ hy)
    · exact wavyStep_inv c T sc sb nbrs D st x hsb (hds x (List.mem_cons_self _ _)).1
        (hds x (List.mem_cons_self _ _)).2 h

theorem wavyInner_reset (c : Bool) (T sc sb : Nat) (ds : List Nat)
    (st : ROMol × (Nat → Bool)) (D : Nat) (hT : ¬ (T ≠ 0 ∧ sc > T)) (hD : D ∈ ds) :
    (wavyInner c T sc sb ds st).2 D = false := by
  induction ds generalizing st with
  | nil => exact absurd hD (List.not_mem_nil _)
  | cons x rest ih =>
    rw [wavyInner_cons]
    by_cases hx : D ∈ rest
    · exact ih _ hx
    · have hDx : D = x := by
        rcases List.mem_cons.1 hD with e | e
        · exact e
        · exact absurd e hx
      subst hDx
      by_contra hne
      have htrue : (wavyInner c T sc sb rest (wavyStep c T sc sb st D)).2 D = true := by
        simpa using hne
      have := wavyInner_mono c T sc sb rest _ D htrue
      rw [wavyStep_reset c T sc sb st D hT] at this
      exact Bool.noConfusion this

theorem wavyOuter_nil (c : Bool) (T : Nat) (nbrs : Nat → List Nat)
    (st : ROMol × (Nat → Bool)) : wavyOuter c T nbrs [] st = st := rfl

theorem wavyOuter_cons (c : Bool) (T : Nat) (nbrs : Nat → List Nat) (tpl : Int × Nat × Nat)
    (l : List (Int × Nat × Nat)) (st : ROMol × (Nat → Bool)) :
    wavyOuter c T nbrs (tpl :: l) st
      = wavyOuter c T nbrs l (wavyInner c T tpl.2.1 tpl.2.2 (nbrs tpl.2.2) st) := rfl

theorem wavyOuter_length (c : Bool) (T : Nat) (nbrs : Nat → List Nat)
    (l : List (Int × Nat × Nat)) (st : ROMol × (Nat → Bool)) :
    (wavyOuter c T nbrs l st).1.bonds.length = st.1.bonds.length := by
  induction l generalizing st with
  | nil => rfl
  | cons tpl rest ih => rw [wavyOuter_cons, ih, wavyInner_length]

theorem wavyOuter_mono (c : Bool) (T : Nat) (nbrs : Nat → List Nat)
    (l : List (Int × Nat × Nat)) (st : ROMol × (Nat → Bool)) (y : Nat)
    (h : (wavyOuter c T nbrs l st).2 y = true) : st.2 y = true := by
  induction l generalizing st with
  | nil => exact h
  | cons tpl rest ih =>
    rw [wavyOuter_cons] at h
    exact wavyInner_mono c T _ _ _ st y (ih _ h)

/-- The marking pass leaves bond `j` as it is when every candidate is stopped
by the threshold or is neither `j` nor a single bond that lists `j`. -/
theorem wavyOuter_frame (c : Bool) (T : Nat) (nbrs : Nat → List Nat)
    (l : List (Int × Nat × Nat)) (st : ROMol × (Nat → Bool)) (j : Nat)
    (h : ∀ tpl ∈ l, (T ≠ 0 ∧ tpl.2.1 > T) ∨ (j ≠ tpl.2.2 ∧ j ∉ nbrs tpl.2.2)) :
    (wavyOuter c T nbrs l st).1.getBondWithIdx j = st.1.getBondWithIdx j := by
  induction l generalizing st with
  | nil => rfl
  | cons tpl rest ih =>
    rw [wavyOuter_cons, ih _ (fun q hq => h q (List.mem_cons_of_mem _ hq)),
      wavyInner_frame c T _ _ _ st j (h tpl (List.mem_cons_self _ _))]

theorem wavyOuter_inv (c : Bool) (T : Nat) (nbrs : Nat → List Nat) (D : Nat)
    (l : List (Int × Nat × Nat)) (st : ROMol × (Nat → Bool))
    (hl : ∀ tpl ∈ l, tpl.2.2 < st.1.bonds.length
      ∧ ∀ x ∈ nbrs tpl.2.2, x < st.1.bonds.length)
    (h : st.2 D = true ∨ Resolved c nbrs D st.1) :
    (wavyOuter c T nbrs l st).2 D = true
      ∨ Resolved c nbrs D (wavyOuter c T nbrs l st).1 := by
  induction l generalizing st with
  | nil => exact h
  | cons tpl rest ih =>
    rw [wavyOuter_cons]
    have hlen := wavyInner_length c T tpl.2.1 tpl.2.2 (nbrs tpl.2.2) st
    obtain ⟨h1, h2⟩ := hl tpl (List.mem_cons_self _ _)
    refine ih _ (fun q hq => ?_) ?_
    · rw [hlen]
      exact hl q (List.mem_cons_of_mem _ hq)
    · exact wavyInner_inv c T _ _ nbrs D _ st h1 (fun x hx => ⟨h2 x hx, hx⟩) h

theorem wavyOuter_reset (c : Bool) (T : Nat) (nbrs : Nat → List Nat)
    (l : List (Int × Nat × Nat)) (st : ROMol × (Nat → Bool)) (D : Nat)
    (tpl : Int × Nat × Nat) (hmem : tpl ∈ l) (hT : ¬ (T ≠ 0 ∧ tpl.2.1 > T))
    (hD : D ∈ nbrs tpl.2.2) : (wavyOuter c T nbrs l st).2 D = false := by
  induction l generalizing st with
  | nil => exact absurd hmem (List.not_mem_nil _)
  | cons q rest ih =>
    rw [wavyOuter_cons]
    by_cases hq : tpl ∈ rest
    · exact ih _ hq
    · have hqe : tpl = q := by
        rcases List.mem_cons.1 hmem with e | e
        · exact e
        · exact absurd e hq
      subst hqe
      by_contra hne
      have htrue : (wavyOuter c T nbrs rest
          (wavyInner c T tpl.2.1 tpl.2.2 (nbrs tpl.2.2) st)).2 D = true := by
        simpa using hne
      have := wavyOuter_mono c T nbrs rest _ D htrue
      rw [wavyInner_reset c T _ _ _ st D hT hD] at this
      exact Bool.noConfusion this

theorem mem_sortedScores (mol : ROMol) (t : WavyTables) (tpl : Int × Nat × Nat) :
    tpl ∈ sortedScores mol t ↔
      tpl.2.2 < mol.bonds.length ∧ t.singleBondScores tpl.2.2 ≠ 0
        ∧ tpl.2.1 = t.singleBondScores tpl.2.2
        ∧ tpl.1 = -((t.singleBondNeighbors tpl.2.2).length : Int) := by
  unfold sortedScores
  rw [(List.perm_insertionSort _ _).mem_iff, List.mem_filterMap]
  obtain ⟨a, b, i⟩ := tpl
  constructor
  · rintro ⟨k, hk, hf⟩
    split_ifs at hf with h0
    simp only [Option.some.injEq, Prod.mk.injEq] at hf
    obtain ⟨h1, h2, h3⟩ := hf
    subst h3
    exact ⟨by simpa [ROMol.getNumBonds] using hk, h0, h2.symm, h1.symm⟩
  · rintro ⟨h1, h2, h3, h4⟩
    refine ⟨i, by simpa [ROMol.getNumBonds] using h1, ?_⟩
    simp only at h2 h3 h4
    simp [h2, h3, h4]

theorem wavyScore_eq (th : StereoBondThresholds) (mol : ROMol) (t : WavyTables)
    (h : wavyTables th mol = .ok t) (s : Nat) : wavyScore th mol s = t.singleBondScores s := by
  simp [wavyScore, h]

end RDKit

namespace RDKit

/-! ## Structure kept by the marking pass -/

theorem struct_modifyBond (mol : ROMol) (i j : Nat) (f : Bond → Bond)
    (hf : ∀ b : Bond, (f b).beginAtomIdx = b.beginAtomIdx ∧ (f b).endAtomIdx = b.endAtomIdx
      ∧ (f b).bondType = b.bondType) :
    ((mol.modifyBond i f).getBondWithIdx j).beginAtomIdx = (mol.getBondWithIdx j).beginAtomIdx
      ∧ ((mol.modifyBond i f).getBondWithIdx j).endAtomIdx = (mol.getBondWithIdx j).endAtomIdx
      ∧ ((mol.modifyBond i f).getBondWithIdx j).bondType = (mol.getBondWithIdx j).bondType := by
  rw [getBondWithIdx_modifyBond]
  split_ifs with h
  · rw [h.1]
    exact hf _
  · exact ⟨rfl, rfl, rfl⟩

theorem SameGraph.refl (m : ROMol) : SameGraph m m := ⟨rfl, fun _ => ⟨rfl, rfl, rfl⟩⟩

theorem SameGraph.trans {m1 m2 m3 : ROMol} (h1 : SameGraph m1 m2) (h2 : SameGraph m2 m3) :
    SameGraph m1 m3 :=
  ⟨h1.1.trans h2.1, fun j =>
    ⟨(h1.2 j).1.trans (h2.2 j).1, (h1.2 j).2.1.trans (h2.2 j).2.1,
      (h1.2 j).2.2.trans (h2.2 j).2.2⟩⟩

theorem sameGraph_setBondDir (mol : ROMol) (i : Nat) (d : BondDir) :
    SameGraph (mol.setBondDir i d) mol :=
  ⟨length_setBondDir _ _ _, fun j => struct_modifyBond mol i j _ (fun _ => ⟨rfl, rfl, rfl⟩)⟩

theorem sameGraph_setStereo (mol : ROMol) (i : Nat) (s : BondStereo) :
    SameGraph (mol.setStereo i s) mol :=
  ⟨length_setStereo _ _ _, fun j => struct_modifyBond mol i j _ (fun _ => ⟨rfl, rfl, rfl⟩)⟩

theorem sameGraph_clearDoubleBond (mol : ROMol) (x : Nat) :
    SameGraph (clearDoubleBond mol x) mol := by
  unfold clearDoubleBond
  split_ifs
  · exact (sameGraph_setStereo _ _ _).trans (sameGraph_setBondDir _ _ _)
  · exact sameGraph_setStereo _ _ _

theorem sameGraph_wavyStep (c : Bool) (T sc sb : Nat) (st : ROMol × (Nat → Bool)) (x : Nat) :
    SameGraph (wavyStep c T sc sb st x).1 st.1 := by
  rcases wavyStep_cases c T sc sb st x with h | ⟨_, _, h⟩
  · rw [h]
    exact SameGraph.refl _
  · rw [h]
    cases c
    · exact sameGraph_setBondDir _ _ _
    · exact (sameGraph_clearDoubleBond _ _).trans (sameGraph_setBondDir _ _ _)

theorem sameGraph_wavyInner (c : Bool) (T sc sb : Nat) (ds : List Nat)
    (st : ROMol × (Nat → Bool)) : SameGraph (wavyInner c T sc sb ds st).1 st.1 := by
  induction ds generalizing st with
  | nil => exact SameGraph.refl _
  | cons x rest ih =>
    rw [wavyInner_cons]
    exact (ih _).trans (sameGraph_wavyStep c T sc sb st x)

theorem sameGraph_wavyOuter (c : Bool) (T : Nat) (nbrs : Nat → List Nat)
    (l : List (Int × Nat × Nat)) (st : ROMol × (Nat → Bool)) :
    SameGraph (wavyOuter c T nbrs l st).1 st.1 := by
  induction l generalizing st with
  | nil => exact SameGraph.refl _
  | cons tpl rest ih =>
    rw [wavyOuter_cons]
    exact (ih _).trans (sameGraph_wavyInner c T _ _ _ st)

theorem SameGraph.getBondNeighbors_eq {m1 m2 : ROMol} (h : SameGraph m1 m2) (d : Nat) :
    getBondNeighbors m1 d = getBondNeighbors m2 d := by
  have hab : ∀ a, m1.atomBonds a = m2.atomBonds a := by
    intro a
    unfold ROMol.atomBonds
    rw [h.1]
    refine List.filter_congr (fun j _ => ?_)
    rw [(h.2 j).1, (h.2 j).2.1]
  unfold getBondNeighbors
  rw [(h.2 d).1, (h.2 d).2.1, hab, hab]

/-- The routine returns: the scoring pass cannot fail. -/
theorem addWavyBondsForStereoAny_eq (th : StereoBondThresholds) (mol : ROMol) (c : Bool)
    (T : Nat) (t : WavyTables) (ht : wavyTables th mol = .ok t) :
    addWavyBondsForStereoAny th mol c T
      = .ok (wavyOuter c T t.singleBondNeighbors (sortedScores mol t)
          (mol, t.doubleBondsToSet)).1 := by
  simp [addWavyBondsForStereoAny, ht]

/-- A STEREOANY double bond with an adjacent single bond that the threshold
admits is resolved at the end of the marking pass. -/
theorem wavyOuter_resolved (th : StereoBondThresholds) (mol : ROMol) (c : Bool) (T : Nat)
    (t : WavyTables) (ht : wavyTables th mol = .ok t) (D S : Nat)
    (hD : D < mol.bonds.length) (hDt : (mol.getBondWithIdx D).bondType = .DOUBLE)
    (hDs : (mol.getBondWithIdx D).stereo = .STEREOANY) (hS : S ∈ getBondNeighbors mol D)
    (hSt : (mol.getBondWithIdx S).bondType = .SINGLE)
    (hT : ¬ (T ≠ 0 ∧ t.singleBondScores S > T)) :
    Resolved c t.singleBondNeighbors D
      (wavyOuter c T t.singleBondNeighbors (sortedScores mol t) (mol, t.doubleBondsToSet)).1 := by
  obtain ⟨t1, ht1, hset, hn, hsc⟩ := wavyTables_spec th mol
  rw [ht] at ht1
  simp only [Except.ok.injEq] at ht1
  subst ht1
  have hSlt : S < mol.bonds.length := ((mem_getBondNeighbors mol D S).1 hS).2.1
  have hinv := wavyOuter_inv c T t.singleBondNeighbors D (sortedScores mol t)
    (mol, t.doubleBondsToSet)
    (fun tpl htpl => ⟨((mem_sortedScores mol t tpl).1 htpl).1,
      fun x hx => ((hn _ x).1 hx).1⟩)
    (Or.inl ((hset D).2 ⟨hD, hDt, hDs⟩))
  have hmem : (-((t.singleBondNeighbors S).length : Int), t.singleBondScores S, S)
      ∈ sortedScores mol t :=
    (mem_sortedScores mol t _).2 ⟨hSlt, (hsc S).2 ⟨D, hD, hDt, hS, hSt⟩, rfl, rfl⟩
  have hreset := wavyOuter_reset c T t.singleBondNeighbors (sortedScores mol t)
    (mol, t.doubleBondsToSet) D _ hmem hT ((hn S D).2 ⟨hD, hDt, hDs, hS, hSt⟩)
  rcases hinv with h | h
  · rw [hreset] at h
    exact Bool.noConfusion h
  · exact h

end RDKit

namespace RDKit

/-- The marking pass keeps a double bond all of whose adjacent single bonds are
stopped by the threshold. -/
theorem wavyOuter_double_kept (th : StereoBondThresholds) (mol : ROMol) (c : Bool) (T : Nat)
    (t : WavyTables) (ht : wavyTables th mol = .ok t) (D : Nat)
    (hDt : (mol.getBondWithIdx D).bondType = .DOUBLE)
    (hall : ∀ s ∈ getBondNeighbors mol D, (mol.getBondWithIdx s).bondType = .SINGLE →
      T ≠ 0 ∧ t.singleBondScores s > T) :
    (wavyOuter c T t.singleBondNeighbors (sortedScores mol t)
        (mol, t.doubleBondsToSet)).1.getBondWithIdx D = mol.getBondWithIdx D := by
  obtain ⟨t1, ht1, _, hn, hsc⟩ := wavyTables_spec th mol
  rw [ht] at ht1
  simp only [Except.ok.injEq] at ht1
  subst ht1
  refine wavyOuter_frame c T _ _ (mol, t.doubleBondsToSet) D (fun tpl htpl => ?_)
  obtain ⟨_, hnz, hscore, _⟩ := (mem_sortedScores mol t tpl).1 htpl
  obtain ⟨x, _, _, _, hsingle⟩ := (hsc tpl.2.2).1 hnz
  by_cases hmem : D ∈ t.singleBondNeighbors tpl.2.2
  · left
    obtain ⟨_, _, _, hadj, hty⟩ := (hn _ _).1 hmem
    rw [hscore]
    exact hall _ hadj hty
  · right
    refine ⟨fun e => ?_, hmem⟩
    rw [← e, hDt] at hsingle
    cases hsingle

/-- The marking pass keeps a single bond that the threshold stops. -/
theorem wavyOuter_single_kept (th : StereoBondThresholds) (mol : ROMol) (c : Bool) (T : Nat)
    (t : WavyTables) (ht : wavyTables th mol = .ok t) (s : Nat)
    (hst : (mol.getBondWithIdx s).bondType = .SINGLE)
    (hT : T ≠ 0 ∧ t.singleBondScores s > T) :
    (wavyOuter c T t.singleBondNeighbors (sortedScores mol t)
        (mol, t.doubleBondsToSet)).1.getBondWithIdx s = mol.getBondWithIdx s := by
  obtain ⟨t1, ht1, _, hn, _⟩ := wavyTables_spec th mol
  rw [ht] at ht1
  simp only [Except.ok.injEq] at ht1
  subst ht1
  refine wavyOuter_frame c T _ _ (mol, t.doubleBondsToSet) s (fun tpl htpl => ?_)
  obtain ⟨_, _, hscore, _⟩ := (mem_sortedScores mol t tpl).1 htpl
  by_cases he : s = tpl.2.2
  · left
    rw [hscore, ← he]
    exact hT
  · right
    refine ⟨he, fun hmem => ?_⟩
    obtain ⟨_, hdbl, _⟩ := (hn _ _).1 hmem
    rw [hst] at hdbl
    cases hdbl

/-! ## Contracts of `addWavyBondsForStereoAny` -/

/-- C3: a STEREOANY double bond `D` with an adjacent single bond `S` that the
threshold admits (`T = 0` or score of `S` at most `T`) ends with an adjacent
single bond of direction UNKNOWN and, when `clearDoubleBondFlags` is set, with
stereo STEREONONE and a direction other than EITHERDOUBLE; when `S` is the only
single bond next to `D`, it is `S` that is marked, so two such double bonds that
share their only single bond both end cleared with that bond marked. -/
theorem addWavyBondsForStereoAny_marks (th : StereoBondThresholds) (mol : ROMol) (c : Bool)
    (T D S : Nat) (hD : D < mol.bonds.length)
    (hDt : (mol.getBondWithIdx D).bondType = .DOUBLE)
    (hDs : (mol.getBondWithIdx D).stereo = .STEREOANY) (hS : S ∈ getBondNeighbors mol D)
    (hSt : (mol.getBondWithIdx S).bondType = .SINGLE)
    (hT : T = 0 ∨ wavyScore th mol S ≤ T) :
    ∃ fin, addWavyBondsForStereoAny th mol c T = .ok fin
      ∧ (∃ s ∈ getBondNeighbors fin D, (fin.getBondWithIdx s).bondType = .SINGLE
          ∧ (fin.getBondWithIdx s).bondDir = .UNKNOWN)
      ∧ (c = true → (fin.getBondWithIdx D).stereo = .STEREONONE
          ∧ (fin.getBondWithIdx D).bondDir ≠ .EITHERDOUBLE)
      ∧ ((∀ s ∈ getBondNeighbors mol D, (mol.getBondWithIdx s).bondType = .SINGLE → s = S) →
          (fin.getBondWithIdx S).bondDir = .UNKNOWN) := by
  obtain ⟨t, ht, _, hn, _⟩ := wavyTables_spec th mol
  rw [wavyScore_eq th mol t ht] at hT
  have hT1 : ¬ (T ≠ 0 ∧ t.singleBondScores S > T) := by
    rintro ⟨h1, h2⟩
    rcases hT with h | h
    · exact h1 h
    · omega
  obtain ⟨⟨s, hs, hdir⟩, hclear⟩ := wavyOuter_resolved th mol c T t ht D S hD hDt hDs hS hSt hT1
  obtain ⟨_, _, _, hadj, hty⟩ := (hn s D).1 hs
  have hsame := sameGraph_wavyOuter c T t.singleBondNeighbors (sortedScores mol t)
    (mol, t.doubleBondsToSet)
  refine ⟨_, addWavyBondsForStereoAny_eq th mol c T t ht, ⟨s, ?_, ?_, hdir⟩, hclear, ?_⟩
  · rw [hsame.getBondNeighbors_eq D]
    exact hadj
  · rw [(hsame.2 s).2.2]
    exact hty
  · intro honly
    rw [← honly s hadj hty]
    exact hdir

/-- Witness of C3 on `diene` with threshold zero: both double bonds share the
single bond 1, which is their only adjacent single bond. -/
theorem addWavyBondsForStereoAny_marks_witness :
    (∃ fin, addWavyBondsForStereoAny rdkitThresholds diene true 0 = .ok fin
      ∧ (∃ s ∈ getBondNeighbors fin 0, (fin.getBondWithIdx s).bondType = .SINGLE
          ∧ (fin.getBondWithIdx s).bondDir = .UNKNOWN)
      ∧ (true = true → (fin.getBondWithIdx 0).stereo = .STEREONONE
          ∧ (fin.getBondWithIdx 0).bondDir ≠ .EITHERDOUBLE)
      ∧ ((∀ s ∈ getBondNeighbors diene 0, (diene.getBondWithIdx s).bondType = .SINGLE → s = 1) →
          (fin.getBondWithIdx 1).bondDir = .UNKNOWN))
    ∧ (∃ fin, addWavyBondsForStereoAny rdkitThresholds diene true 0 = .ok fin
      ∧ (∃ s ∈ getBondNeighbors fin 2, (fin.getBondWithIdx s).bondType = .SINGLE
          ∧ (fin.getBondWithIdx s).bondDir = .UNKNOWN)
      ∧ (true = true → (fin.getBondWithIdx 2).stereo = .STEREONONE
          ∧ (fin.getBondWithIdx 2).bondDir ≠ .EITHERDOUBLE)
      ∧ ((∀ s ∈ getBondNeighbors diene 2, (diene.getBondWithIdx s).bondType = .SINGLE → s = 1) →
          (fin.getBondWithIdx 1).bondDir = .UNKNOWN)) :=
  ⟨addWavyBondsForStereoAny_marks rdkitThresholds diene true 0 0 1 (by decide) rfl rfl
      (by decide) rfl (Or.inl rfl),
    addWavyBondsForStereoAny_marks rdkitThresholds diene true 0 2 1 (by decide) rfl rfl
      (by decide) rfl (Or.inl rfl)⟩

/-- C9: with a non-zero threshold `T` no single bond whose score exceeds `T`
has its direction changed, and a STEREOANY double bond all of whose adjacent
single bonds score above `T` keeps its stereo STEREOANY and its direction. -/
theorem addWavyBondsForStereoAny_threshold (th : StereoBondThresholds) (mol : ROMol)
    (c : Bool) (T : Nat) (hT : T ≠ 0) :
    ∃ fin, addWavyBondsForStereoAny th mol c T = .ok fin
      ∧ (∀ s, (mol.getBondWithIdx s).bondType = .SINGLE → wavyScore th mol s > T →
          (fin.getBondWithIdx s).bondDir = (mol.getBondWithIdx s).bondDir)
      ∧ (∀ D, (mol.getBondWithIdx D).bondType = .DOUBLE →
          (mol.getBondWithIdx D).stereo = .STEREOANY →
          (∀ s ∈ getBondNeighbors mol D, (mol.getBondWithIdx s).bondType = .SINGLE →
            wavyScore th mol s > T) →
          (fin.getBondWithIdx D).stereo = .STEREOANY
            ∧ (fin.getBondWithIdx D).bondDir = (mol.getBondWithIdx D).bondDir) := by
  obtain ⟨t, ht, _⟩ := wavyTables_spec th mol
  refine ⟨_, addWavyBondsForStereoAny_eq th mol c T t ht, ?_, ?_⟩
  · intro s hst hsc
    rw [wavyScore_eq th mol t ht] at hsc
    rw [wavyOuter_single_kept th mol c T t ht s hst ⟨hT, hsc⟩]
  · intro D hDt hDs hall
    rw [wavyOuter_double_kept th mol c T t ht D hDt
      (fun s hs hst => ⟨hT, by
        have := hall s hs hst
        rwa [wavyScore_eq th mol t ht] at this⟩)]
    exact ⟨hDs, rfl⟩

/-- Witness of C9 on `polyene` with the threshold `DBL_BOND_NO_STEREO`: both
single bonds next to the STEREOANY double bond 3 score 1042. -/
theorem addWavyBondsForStereoAny_threshold_witness :
    ∃ fin, addWavyBondsForStereoAny rdkitThresholds polyene true 1000 = .ok fin
      ∧ (∀ s, (polyene.getBondWithIdx s).bondType = .SINGLE →
          wavyScore rdkitThresholds polyene s > 1000 →
          (fin.getBondWithIdx s).bondDir = (polyene.getBondWithIdx s).bondDir)
      ∧ (∀ D, (polyene.getBondWithIdx D).bondType = .DOUBLE →
          (polyene.getBondWithIdx D).stereo = .STEREOANY →
          (∀ s ∈ getBondNeighbors polyene D, (polyene.getBondWithIdx s).bondType = .SINGLE →
            wavyScore rdkitThresholds polyene s > 1000) →
          (fin.getBondWithIdx D).stereo = .STEREOANY
            ∧ (fin.getBondWithIdx D).bondDir = (polyene.getBondWithIdx D).bondDir) :=
  addWavyBondsForStereoAny_threshold rdkitThresholds polyene true 1000 (by decide)

/-- C10, as the code behaves: with threshold zero a STEREOANY double bond that
has an adjacent single bond is resolved whatever the scores (an adjacent single
bond becomes UNKNOWN and, when flags are cleared, the stereo becomes
STEREONONE); only a STEREOANY double bond without any adjacent single bond is
left unchanged. -/
theorem addWavyBondsForStereoAny_zero_threshold (th : StereoBondThresholds) (mol : ROMol)
    (c : Bool) :
    ∃ fin, addWavyBondsForStereoAny th mol c 0 = .ok fin
      ∧ ∀ D, D < mol.bonds.length → (mol.getBondWithIdx D).bondType = .DOUBLE →
          (mol.getBondWithIdx D).stereo = .STEREOANY →
          ((∃ S ∈ getBondNeighbors mol D, (mol.getBondWithIdx S).bondType = .SINGLE) →
              (∃ s ∈ getBondNeighbors fin D, (fin.getBondWithIdx s).bondType = .SINGLE
                ∧ (fin.getBondWithIdx s).bondDir = .UNKNOWN)
              ∧ (c = true → (fin.getBondWithIdx D).stereo = .STEREONONE
                ∧ (fin.getBondWithIdx D).bondDir ≠ .EITHERDOUBLE))
            ∧ ((∀ S ∈ getBondNeighbors mol D, (mol.getBondWithIdx S).bondType ≠ .SINGLE) →
              fin.getBondWithIdx D = mol.getBondWithIdx D) := by
  obtain ⟨t, ht, _, hn, _⟩ := wavyTables_spec th mol
  have hsame := sameGraph_wavyOuter c 0 t.singleBondNeighbors (sortedScores mol t)
    (mol, t.doubleBondsToSet)
  refine ⟨_, addWavyBondsForStereoAny_eq th mol c 0 t ht, fun D hD hDt hDs => ⟨?_, ?_⟩⟩
  · rintro ⟨S, hS, hSt⟩
    obtain ⟨⟨s, hs, hdir⟩, hclear⟩ :=
      wavyOuter_resolved th mol c 0 t ht D S hD hDt hDs hS hSt (fun h => h.1 rfl)
    obtain ⟨_, _, _, hadj, hty⟩ := (hn s D).1 hs
    refine ⟨⟨s, ?_, ?_, hdir⟩, hclear⟩
    · rw [hsame.getBondNeighbors_eq D]
      exact hadj
    · rw [(hsame.2 s).2.2]
      exact hty
  · intro hnone
    exact wavyOuter_double_kept th mol c 0 t ht D hDt
      (fun s hs hst => absurd hst (hnone s hs))

/-- Witness of the amended C10 on `polyene`. -/
theorem addWavyBondsForStereoAny_zero_threshold_witness :
    ∃ fin, addWavyBondsForStereoAny rdkitThresholds polyene true 0 = .ok fin
      ∧ ∀ D, D < polyene.bonds.length → (polyene.getBondWithIdx D).bondType = .DOUBLE →
          (polyene.getBondWithIdx D).stereo = .STEREOANY →
          ((∃ S ∈ getBondNeighbors polyene D, (polyene.getBondWithIdx S).bondType = .SINGLE) →
              (∃ s ∈ getBondNeighbors fin D, (fin.getBondWithIdx s).bondType = .SINGLE
                ∧ (fin.getBondWithIdx s).bondDir = .UNKNOWN)
              ∧ (true = true → (fin.getBondWithIdx D).stereo = .STEREONONE
                ∧ (fin.getBondWithIdx D).bondDir ≠ .EITHERDOUBLE))
            ∧ ((∀ S ∈ getBondNeighbors polyene D,
                (polyene.getBondWithIdx S).bondType ≠ .SINGLE) →
              fin.getBondWithIdx D = polyene.getBondWithIdx D) :=
  addWavyBondsForStereoAny_zero_threshold rdkitThresholds polyene true

/-- Counterexample to C10 as stated: in `polyene`, with the header thresholds
and threshold zero, both single bonds next to the STEREOANY double bond 3 score
1042, above `DBL_BOND_NO_STEREO = 1000`; yet the call resets the stereo of bond
3 to STEREONONE and marks its neighbour, bond 2, UNKNOWN. -/
theorem addWavyBondsForStereoAny_zero_threshold_counterexample :
    (polyene.getBondWithIdx 3).bondType = .DOUBLE
      ∧ (polyene.getBondWithIdx 3).stereo = .STEREOANY
      ∧ (∀ s ∈ getBondNeighbors polyene 3, (polyene.getBondWithIdx s).bondType = .SINGLE →
          wavyScore rdkitThresholds polyene s > rdkitThresholds.DBL_BOND_NO_STEREO)
      ∧ 2 ∈ getBondNeighbors polyene 3
      ∧ (polyene.getBondWithIdx 2).bondDir = .NONE
      ∧ ∃ fin, addWavyBondsForStereoAny rdkitThresholds polyene true 0 = .ok fin
          ∧ (fin.getBondWithIdx 3).stereo = .STEREONONE
          ∧ (fin.getBondWithIdx 2).bondDir = .UNKNOWN :=
  ⟨rfl, rfl, by decide, by decide, rfl, _, rfl, rfl, rfl⟩

end RDKit

namespace RDKit

/-! ## The bond assigned to a center -/

theorem mem_nbrScores_iff (mol : ROMol) (n : Nat → Int) (res : INT_MAP_INT) (a : Nat)
    (p : Int × Nat) :
    p ∈ nbrScores mol n res a ↔
      p.2 ∈ mol.atomBonds a ∧ (mol.getBondWithIdx p.2).bondType = .SINGLE
        ∧ res.find p.2 = none ∧ p.1 = candidateScore mol n a p.2 :=
  mem_nbrScores mol n res a p

/-- The assigned bond is an unclaimed single bond of the center that no
candidate precedes in the order of `pairLess`. -/
theorem assignedBond_spec (mol : ROMol) (n : Nat → Int) (res : INT_MAP_INT) (a b : Nat)
    (h : assignedBond mol n res a = some b) :
    b ∈ mol.atomBonds a ∧ (mol.getBondWithIdx b).bondType = .SINGLE ∧ res.find b = none
      ∧ ∀ b1 ∈ mol.atomBonds a, (mol.getBondWithIdx b1).bondType = .SINGLE →
          res.find b1 = none →
          pairLess (candidateScore mol n a b1, b1) (candidateScore mol n a b, b) = false := by
  unfold assignedBond at h
  cases hsort : sortScores (nbrScores mol n res a) with
  | nil =>
    rw [hsort] at h
    exact Option.noConfusion h
  | cons p t =>
    rw [hsort] at h
    simp only [Option.some.injEq] at h
    obtain ⟨hmem, hmin⟩ := sortScores_head _ p t hsort
    obtain ⟨h1, h2, h3, h4⟩ := (mem_nbrScores_iff mol n res a p).1 hmem
    subst h
    refine ⟨h1, h2, h3, fun b1 hb1 hs1 hf1 => ?_⟩
    have := hmin (candidateScore mol n a b1, b1)
      ((mem_nbrScores_iff mol n res a _).2 ⟨hb1, hs1, hf1, rfl⟩)
    rw [← h4]
    exact this

theorem assignedBond_isSome (mol : ROMol) (n : Nat → Int) (res : INT_MAP_INT) (a b1 : Nat)
    (hb1 : b1 ∈ mol.atomBonds a) (hs1 : (mol.getBondWithIdx b1).bondType = .SINGLE)
    (hf1 : res.find b1 = none) : ∃ b, assignedBond mol n res a = some b := by
  unfold assignedBond
  cases hsort : sortScores (nbrScores mol n res a) with
  | nil =>
    have hnil := (sortScores_eq_nil_iff _).1 hsort
    have hmem : (candidateScore mol n a b1, b1) ∈ nbrScores mol n res a :=
      (mem_nbrScores_iff mol n res a _).2 ⟨hb1, hs1, hf1, rfl⟩
    rw [hnil] at hmem
    exact absurd hmem (List.not_mem_nil _)
  | cons p t => exact ⟨p.2, rfl⟩

/-- The turn of the loop at a processable center, in terms of the assigned
bond. -/
theorem wedgeLoop_assigned (mol : ROMol) (res : INT_MAP_INT) (a : Nat) (rest : List Nat)
    (hp : isProcessable mol a = true) :
    wedgeLoop mol (nChiralNbrs mol) (a :: rest) res
      = match assignedBond mol (nChiralNbrs mol) res a with
        | none => .error .invariant
        | some b => wedgeLoop mol (nChiralNbrs mol) rest (res.set b a) := by
  rw [wedgeLoop_center mol a rest res ((isProcessable_iff mol a).1 hp)]
  unfold assignedBond
  cases sortScores (nbrScores mol (nChiralNbrs mol) res a) <;> rfl

/-! ## Closed form of the score -/

theorem countChiralNbrs_eq (mol : ROMol) (l : List Nat) (c : Int) :
    countChiralNbrs mol l c
      = c - 10 * ((l.filter fun x => decide ((mol.getAtomWithIdx x).atomicNum = 1)).length : Int)
        - ((l.filter fun x =>
            !decide ((mol.getAtomWithIdx x).atomicNum = 1) && mol.isCenter x).length : Int) := by
  induction l generalizing c with
  | nil => simp [countChiralNbrs]
  | cons x rest ih =>
    simp only [countChiralNbrs]
    by_cases h1 : (mol.getAtomWithIdx x).atomicNum = 1
    · simp only [h1, if_true, ih, List.filter_cons, decide_True, Bool.not_true, Bool.false_and,
        List.length_cons]
      push_cast
      ring
    · by_cases h2 : mol.isCenter x = true
      · simp only [h1, if_false, h2, Bool.not_true, ih, List.filter_cons, decide_False,
          Bool.not_false, Bool.true_and, if_true, List.length_cons, Bool.false_eq_true]
        push_cast
        ring
      · have h3 : mol.isCenter x = false := by simpa using h2
        simp only [h1, if_false, h3, Bool.not_false, if_true, ih, List.filter_cons,
          decide_False, Bool.true_and, Bool.false_eq_true]

theorem getDoubleBondPresence_eq (mol : ROMol) (o : Nat) :
    getDoubleBondPresence mol o
      = (((mol.atomBonds o).filter fun i =>
            decide ((mol.getBondWithIdx i).bondType = .DOUBLE)).length,
          ((mol.atomBonds o).filter fun i =>
            decide ((mol.getBondWithIdx i).bondType = .DOUBLE)
              && decide ((mol.getBondWithIdx i).stereo.toNat > BondStereo.STEREOANY.toNat)).length,
          ((mol.atomBonds o).filter fun i =>
            decide ((mol.getBondWithIdx i).bondType = .DOUBLE)
              && decide ((mol.getBondWithIdx i).stereo = .STEREOANY)).length) := by
  unfold getDoubleBondPresence
  have key : ∀ (l : List Nat) (acc : Nat × Nat × Nat),
      l.foldl
        (fun acc i =>
          let bond := mol.getBondWithIdx i
          if bond.bondType = .DOUBLE then
            if bond.stereo = .STEREOANY then (acc.1 + 1, acc.2.1, acc.2.2 + 1)
            else if bond.stereo.toNat > BondStereo.STEREOANY.toNat then
              (acc.1 + 1, acc.2.1 + 1, acc.2.2)
            else (acc.1 + 1, acc.2.1, acc.2.2)
          else acc) acc
        = (acc.1 + (l.filter fun i =>
              decide ((mol.getBondWithIdx i).bondType = .DOUBLE)).length,
            acc.2.1 + (l.filter fun i =>
              decide ((mol.getBondWithIdx i).bondType = .DOUBLE)
                && decide ((mol.getBondWithIdx i).stereo.toNat
                  > BondStereo.STEREOANY.toNat)).length,
            acc.2.2 + (l.filter fun i =>
              decide ((mol.getBondWithIdx i).bondType = .DOUBLE)
                && decide ((mol.getBondWithIdx i).stereo = .STEREOANY)).length) := by
    intro l
    induction l with
    | nil => intro acc; simp
    | cons x rest ih =>
      intro acc
      simp only [List.foldl_cons]
      rw [ih]
      by_cases h1 : (mol.getBondWithIdx x).bondType = .DOUBLE
      · by_cases h2 : (mol.getBondWithIdx x).stereo = .STEREOANY
        · simp [h1, h2, List.filter_cons, BondStereo.toNat]
          omega
        · by_cases h3 : (mol.getBondWithIdx x).stereo.toNat > BondStereo.STEREOANY.toNat
          · simp [h1, h2, h3, List.filter_cons]
            omega
          · simp [h1, h2, h3, List.filter_cons]
            omega
      · simp [h1, List.filter_cons]
  have := key (mol.atomBonds o) (0, 0, 0)
  simpa using this

/-- The score the code computes for a candidate is the score of the
specification. -/
theorem candidateScore_eq_spec (mol : ROMol) (a b : Nat) :
    candidateScore mol (nChiralNbrs mol) a b = wedgeScoreSpec mol a b := by
  unfold candidateScore wedgeScoreSpec
  simp only
  by_cases hH : (mol.getAtomWithIdx ((mol.getBondWithIdx b).getOtherAtomIdx a)).atomicNum = 1
  · rw [if_pos hH, if_pos hH]
  rw [if_neg hH, if_neg hH]
  unfold nbrScore
  simp only [getDoubleBondPresence_eq, ROMol.getDegree]
  have htag : (1000 : Int) * (if (mol.getAtomWithIdx
        ((mol.getBondWithIdx b).getOtherAtomIdx a)).chiralTag ≠ ChiralType.CHI_UNSPECIFIED
        then 1 else 0)
      = if (mol.getAtomWithIdx
        ((mol.getBondWithIdx b).getOtherAtomIdx a)).chiralTag = ChiralType.CHI_UNSPECIFIED
        then 0 else 1000 := by
    split_ifs <;> simp_all
  rw [htag]
  have h100 : noNbrs = 100 := rfl
  rcases nChiralNbrs_cases mol ((mol.getBondWithIdx b).getOtherAtomIdx a) with h | h | h
  · have hlt : nChiralNbrs mol ((mol.getBondWithIdx b).getOtherAtomIdx a) < noNbrs := by
      have := h.2.1
      omega
    rw [if_pos hlt, h.1, if_pos rfl, h.2.2.2, countChiralNbrs_eq]
    ring
  · have hlt : ¬ nChiralNbrs mol ((mol.getBondWithIdx b).getOtherAtomIdx a) < noNbrs := by
      rw [h.2.1]
      exact lt_irrefl _
    rw [if_neg hlt, h.1]
    simp
  · have hlt : ¬ nChiralNbrs mol ((mol.getBondWithIdx b).getOtherAtomIdx a) < noNbrs := by
      rw [h.2.1, h100]
      decide
    rw [if_neg hlt, h.1]
    simp

end RDKit

namespace RDKit

/-! ## Scores and choice of the wedged bond -/

/-- C14: the bond assigned to a processable center has the minimum score among
the unclaimed single bonds of the center, the score being the one of the
specification (`wedgeScoreSpec`): -1000000 for a hydrogen, the weighted sum of
atomic number, degree, chiral tag, chiral neighbours, ring counts and double
bond counts otherwise. -/
theorem pickBondsToWedge_minimum_score (mol : ROMol) (res : INT_MAP_INT) (a b : Nat)
    (rest : List Nat) (hp : isProcessable mol a = true)
    (hb : assignedBond mol (nChiralNbrs mol) res a = some b) :
    wedgeLoop mol (nChiralNbrs mol) (a :: rest) res
        = wedgeLoop mol (nChiralNbrs mol) rest (res.set b a)
      ∧ b ∈ mol.atomBonds a ∧ (mol.getBondWithIdx b).bondType = .SINGLE ∧ res.find b = none
      ∧ ∀ b1 ∈ mol.atomBonds a, (mol.getBondWithIdx b1).bondType = .SINGLE →
          res.find b1 = none → wedgeScoreSpec mol a b ≤ wedgeScoreSpec mol a b1 := by
  obtain ⟨h1, h2, h3, hmin⟩ := assignedBond_spec mol _ res a b hb
  refine ⟨?_, h1, h2, h3, fun b1 hb1 hs1 hf1 => ?_⟩
  · rw [wedgeLoop_assigned mol res a rest hp, hb]
  · have := hmin b1 hb1 hs1 hf1
    rw [candidateScore_eq_spec, candidateScore_eq_spec] at this
    simp only [pairLess, Bool.or_eq_false_iff, decide_eq_false_iff_not] at this
    omega

/-- Witness of C14: the second center of `twoCenters`, once the first has
claimed bond 1, is assigned bond 3. -/
theorem pickBondsToWedge_minimum_score_witness :
    wedgeLoop twoCenters (nChiralNbrs twoCenters) [1] [(1, 0)]
        = wedgeLoop twoCenters (nChiralNbrs twoCenters) [] (INT_MAP_INT.set [(1, 0)] 3 1)
      ∧ 3 ∈ twoCenters.atomBonds 1 ∧ (twoCenters.getBondWithIdx 3).bondType = .SINGLE
      ∧ INT_MAP_INT.find [(1, 0)] 3 = none
      ∧ ∀ b1 ∈ twoCenters.atomBonds 1, (twoCenters.getBondWithIdx b1).bondType = .SINGLE →
          INT_MAP_INT.find [(1, 0)] b1 = none →
          wedgeScoreSpec twoCenters 1 3 ≤ wedgeScoreSpec twoCenters 1 b1 :=
  pickBondsToWedge_minimum_score twoCenters [(1, 0)] 1 3 [] rfl rfl

/-- C15: among the unclaimed single bonds of a processable center that share
the score of the assigned bond, the assigned bond has the smallest index. -/
theorem pickBondsToWedge_tie_break (mol : ROMol) (res : INT_MAP_INT) (a b : Nat)
    (rest : List Nat) (hp : isProcessable mol a = true)
    (hb : assignedBond mol (nChiralNbrs mol) res a = some b) :
    wedgeLoop mol (nChiralNbrs mol) (a :: rest) res
        = wedgeLoop mol (nChiralNbrs mol) rest (res.set b a)
      ∧ ∀ b1 ∈ mol.atomBonds a, (mol.getBondWithIdx b1).bondType = .SINGLE →
          res.find b1 = none →
          candidateScore mol (nChiralNbrs mol) a b ≤ candidateScore mol (nChiralNbrs mol) a b1
            ∧ (candidateScore mol (nChiralNbrs mol) a b1
                = candidateScore mol (nChiralNbrs mol) a b → b ≤ b1) := by
  obtain ⟨_, _, _, hmin⟩ := assignedBond_spec mol _ res a b hb
  refine ⟨?_, fun b1 hb1 hs1 hf1 => ?_⟩
  · rw [wedgeLoop_assigned mol res a rest hp, hb]
  · have := hmin b1 hb1 hs1 hf1
    simp only [pairLess, Bool.or_eq_false_iff, decide_eq_false_iff_not, Bool.and_eq_false_imp,
      beq_iff_eq] at this
    refine ⟨by omega, fun he => ?_⟩
    have := this.2 he
    omega

/-- Witness of C15: at the second center of `twoCenters` the bonds 3 and 4 tie
with the score 106 and bond 3 is assigned. -/
theorem pickBondsToWedge_tie_break_witness :
    wedgeLoop twoCenters (nChiralNbrs twoCenters) [1] [(1, 0)]
        = wedgeLoop twoCenters (nChiralNbrs twoCenters) [] (INT_MAP_INT.set [(1, 0)] 3 1)
      ∧ ∀ b1 ∈ twoCenters.atomBonds 1, (twoCenters.getBondWithIdx b1).bondType = .SINGLE →
          INT_MAP_INT.find [(1, 0)] b1 = none →
          candidateScore twoCenters (nChiralNbrs twoCenters) 1 3
              ≤ candidateScore twoCenters (nChiralNbrs twoCenters) 1 b1
            ∧ (candidateScore twoCenters (nChiralNbrs twoCenters) 1 b1
                = candidateScore twoCenters (nChiralNbrs twoCenters) 1 3 → 3 ≤ b1) :=
  pickBondsToWedge_tie_break twoCenters [(1, 0)] 1 3 [] rfl rfl

/-- The double bond term of the score for each kind of double bond. -/
theorem doubleBondTerm_of_kind (mol : ROMol) (o k : Nat) (h : doubleBondKind mol o = some k) :
    (11000 * ((getDoubleBondPresence mol o).1 : Int)
        + 12000 * ((getDoubleBondPresence mol o).2.1 : Int)
        + 23000 * ((getDoubleBondPresence mol o).2.2 : Int)
      = if k = 0 then 0 else if k = 1 then 11000 else if k = 2 then 23000 else 34000)
      ∧ k ≤ 3 := by
  rw [getDoubleBondPresence_eq]
  have hf : ∀ q : Nat → Bool,
      (mol.atomBonds o).filter (fun i =>
          decide ((mol.getBondWithIdx i).bondType = .DOUBLE) && q i)
        = ((mol.atomBonds o).filter fun i =>
            decide ((mol.getBondWithIdx i).bondType = .DOUBLE)).filter q := by
    intro q
    rw [List.filter_filter]
    refine List.filter_congr (fun x _ => ?_)
    exact Bool.and_comm _ _
  simp only [hf]
  unfold doubleBondKind at h
  generalize (mol.atomBonds o).filter
    (fun i => decide ((mol.getBondWithIdx i).bondType = .DOUBLE)) = L at h ⊢
  match L, h with
  | [], h =>
    simp only [Option.some.injEq] at h
    subst h
    simp
  | [d], h =>
    simp only at h
    split_ifs at h with h1 h2
    · simp only [Option.some.injEq] at h
      subst h
      simp [List.filter_cons, h1, BondStereo.toNat]
    · simp only [Option.some.injEq] at h
      subst h
      simp [List.filter_cons, h2, BondStereo.toNat]
    · simp only [Option.some.injEq] at h
      subst h
      have h3 : (mol.getBondWithIdx d).stereo.toNat > BondStereo.STEREOANY.toNat := by
        cases hst : (mol.getBondWithIdx d).stereo <;> simp_all [BondStereo.toNat]
      simp [List.filter_cons, h2, h3]

end RDKit

namespace RDKit

/-- C18: for two unclaimed single bonds of a processable center to neighbours
that are not hydrogens and agree on atomic number, degree, presence of a chiral
tag, chiral neighbour term and ring counts, the scores follow the kind of double
bond at the neighbour: none < one without stereo < one of specified stereo <
one of stereo STEREOANY; the bond to the neighbour of the higher kind is not
assigned while the other one is available. -/
theorem pickBondsToWedge_avoids_double_bonds (mol : ROMol) (res : INT_MAP_INT)
    (a b1 b2 k1 k2 : Nat)
    (hb1 : b1 ∈ mol.atomBonds a) (hs1 : (mol.getBondWithIdx b1).bondType = .SINGLE)
    (hf1 : res.find b1 = none)
    (hH1 : (mol.getAtomWithIdx ((mol.getBondWithIdx b1).getOtherAtomIdx a)).atomicNum ≠ 1)
    (hH2 : (mol.getAtomWithIdx ((mol.getBondWithIdx b2).getOtherAtomIdx a)).atomicNum ≠ 1)
    (hZ : (mol.getAtomWithIdx ((mol.getBondWithIdx b1).getOtherAtomIdx a)).atomicNum
      = (mol.getAtomWithIdx ((mol.getBondWithIdx b2).getOtherAtomIdx a)).atomicNum)
    (hdeg : mol.getDegree ((mol.getBondWithIdx b1).getOtherAtomIdx a)
      = mol.getDegree ((mol.getBondWithIdx b2).getOtherAtomIdx a))
    (htag : (mol.getAtomWithIdx ((mol.getBondWithIdx b1).getOtherAtomIdx a)).chiralTag
        = .CHI_UNSPECIFIED
      ↔ (mol.getAtomWithIdx ((mol.getBondWithIdx b2).getOtherAtomIdx a)).chiralTag
        = .CHI_UNSPECIFIED)
    (hchi : (if nChiralNbrs mol ((mol.getBondWithIdx b1).getOtherAtomIdx a) < noNbrs then
          100000 * nChiralNbrs mol ((mol.getBondWithIdx b1).getOtherAtomIdx a) else 0)
      = if nChiralNbrs mol ((mol.getBondWithIdx b2).getOtherAtomIdx a) < noNbrs then
          100000 * nChiralNbrs mol ((mol.getBondWithIdx b2).getOtherAtomIdx a) else 0)
    (hring : mol.numAtomRings ((mol.getBondWithIdx b1).getOtherAtomIdx a)
      = mol.numAtomRings ((mol.getBondWithIdx b2).getOtherAtomIdx a))
    (hbring : mol.numBondRings b1 = mol.numBondRings b2)
    (hk1 : doubleBondKind mol ((mol.getBondWithIdx b1).getOtherAtomIdx a) = some k1)
    (hk2 : doubleBondKind mol ((mol.getBondWithIdx b2).getOtherAtomIdx a) = some k2)
    (hlt : k1 < k2) :
    candidateScore mol (nChiralNbrs mol) a b1 < candidateScore mol (nChiralNbrs mol) a b2
      ∧ assignedBond mol (nChiralNbrs mol) res a ≠ some b2 := by
  have hscore : candidateScore mol (nChiralNbrs mol) a b1
      < candidateScore mol (nChiralNbrs mol) a b2 := by
    unfold candidateScore
    rw [if_neg hH1, if_neg hH2]
    obtain ⟨ht1, hle1⟩ := doubleBondTerm_of_kind mol _ k1 hk1
    obtain ⟨ht2, hle2⟩ := doubleBondTerm_of_kind mol _ k2 hk2
    unfold nbrScore
    simp only
    have htag2 : (if (mol.getAtomWithIdx ((mol.getBondWithIdx b1).getOtherAtomIdx a)).chiralTag
          ≠ ChiralType.CHI_UNSPECIFIED then (1 : Int) else 0)
        = if (mol.getAtomWithIdx ((mol.getBondWithIdx b2).getOtherAtomIdx a)).chiralTag
          ≠ ChiralType.CHI_UNSPECIFIED then 1 else 0 := by
      by_cases h : (mol.getAtomWithIdx ((mol.getBondWithIdx b1).getOtherAtomIdx a)).chiralTag
          = ChiralType.CHI_UNSPECIFIED
      · simp [h, htag.1 h]
      · have h2 : ¬ (mol.getAtomWithIdx ((mol.getBondWithIdx b2).getOtherAtomIdx a)).chiralTag
            = ChiralType.CHI_UNSPECIFIED := fun e => h (htag.2 e)
        simp [h, h2]
    rw [htag2, hZ, hdeg, hchi, hring, hbring]
    have hterm : (if k1 = 0 then (0 : Int) else if k1 = 1 then 11000 else if k1 = 2 then 23000
          else 34000)
        < if k2 = 0 then 0 else if k2 = 1 then 11000 else if k2 = 2 then 23000 else 34000 := by
      have hk1c : k1 = 0 ∨ k1 = 1 ∨ k1 = 2 := by omega
      have hk2c : k2 = 1 ∨ k2 = 2 ∨ k2 = 3 := by omega
      rcases hk1c with h | h | h <;> rcases hk2c with g | g | g <;> subst h <;> subst g <;>
        first
          | (exfalso; omega)
          | norm_num
    linarith
  refine ⟨hscore, fun hass => ?_⟩
  have := (assignedBond_spec mol _ res a b2 hass).2.2.2 b1 hb1 hs1 hf1
  simp only [pairLess, Bool.or_eq_false_iff, decide_eq_false_iff_not] at this
  exact this.1 hscore

/-- Witness of C18 on `vinylCenter`: the neighbour 7 has a double bond without
stereo, the neighbour 2 one of stereo STEREOCIS; bond 6 scores below bond 2. -/
theorem pickBondsToWedge_avoids_double_bonds_witness :
    candidateScore vinylCenter (nChiralNbrs vinylCenter) 3 6
        < candidateScore vinylCenter (nChiralNbrs vinylCenter) 3 2
      ∧ assignedBond vinylCenter (nChiralNbrs vinylCenter) [] 3 ≠ some 2 :=
  pickBondsToWedge_avoids_double_bonds vinylCenter [] 3 6 2 1 2 (by decide) rfl rfl
    (by decide) (by decide) rfl rfl (by decide) rfl rfl rfl rfl rfl (by decide)

/-- C19: at a processable center all of whose candidate neighbours are heavy
atoms, a candidate bond in no ring whose neighbour has no chiral tag, atomic
number at most 118, degree at most 4, exactly one ring and at most one double
bond, without stereo, scores below every candidate bond that is itself in a
ring, and the assigned bond is in no ring. The ring counts are those of
`RingInfo`, under which the ends of a ring bond are ring atoms. -/
theorem pickBondsToWedge_prefers_non_ring (mol : ROMol) (res : INT_MAP_INT) (a b1 : Nat)
    (rest : List Nat) (hp : isProcessable mol a = true)
    (hb1 : b1 ∈ mol.atomBonds a) (hs1 : (mol.getBondWithIdx b1).bondType = .SINGLE)
    (hf1 : res.find b1 = none)
    (hnoH : ∀ b ∈ mol.atomBonds a, (mol.getBondWithIdx b).bondType = .SINGLE →
      res.find b = none →
      (mol.getAtomWithIdx ((mol.getBondWithIdx b).getOtherAtomIdx a)).atomicNum ≠ 1)
    (hcons : ∀ b ∈ mol.atomBonds a, 0 < mol.numBondRings b →
      0 < mol.numAtomRings ((mol.getBondWithIdx b).getOtherAtomIdx a))
    (htag : (mol.getAtomWithIdx ((mol.getBondWithIdx b1).getOtherAtomIdx a)).chiralTag
      = .CHI_UNSPECIFIED)
    (hZ : (mol.getAtomWithIdx ((mol.getBondWithIdx b1).getOtherAtomIdx a)).atomicNum ≤ 118)
    (hdeg : mol.getDegree ((mol.getBondWithIdx b1).getOtherAtomIdx a) ≤ 4)
    (hring : mol.numAtomRings ((mol.getBondWithIdx b1).getOtherAtomIdx a) = 1)
    (hbring : mol.numBondRings b1 = 0)
    (hk : doubleBondKind mol ((mol.getBondWithIdx b1).getOtherAtomIdx a) = some 0
      ∨ doubleBondKind mol ((mol.getBondWithIdx b1).getOtherAtomIdx a) = some 1) :
    (∀ b2 ∈ mol.atomBonds a, (mol.getBondWithIdx b2).bondType = .SINGLE →
        res.find b2 = none → 0 < mol.numBondRings b2 →
        candidateScore mol (nChiralNbrs mol) a b1 < candidateScore mol (nChiralNbrs mol) a b2)
      ∧ ∃ b, assignedBond mol (nChiralNbrs mol) res a = some b ∧ mol.numBondRings b = 0
          ∧ wedgeLoop mol (nChiralNbrs mol) (a :: rest) res
            = wedgeLoop mol (nChiralNbrs mol) rest (res.set b a) := by
  have h100 : noNbrs = 100 := rfl
  have hupper : candidateScore mol (nChiralNbrs mol) a b1 ≤ 21518 := by
    unfold candidateScore
    rw [if_neg (hnoH b1 hb1 hs1 hf1)]
    unfold nbrScore
    simp only
    have hchi : (if nChiralNbrs mol ((mol.getBondWithIdx b1).getOtherAtomIdx a) < noNbrs then
        100000 * nChiralNbrs mol ((mol.getBondWithIdx b1).getOtherAtomIdx a) else 0) = 0 := by
      rcases nChiralNbrs_cases mol ((mol.getBondWithIdx b1).getOtherAtomIdx a) with h | h | h
      · have hc := h.2.2.1
        rw [ROMol.isCenter, htag] at hc
        exact absurd hc (by decide)
      · rw [h.2.1]
        simp
      · have hc := h.2.2
        rw [ROMol.isCenter, htag] at hc
        exact absurd hc (by decide)
    have hterm : 11000 * ((getDoubleBondPresence mol
          ((mol.getBondWithIdx b1).getOtherAtomIdx a)).1 : Int)
        + 12000 * ((getDoubleBondPresence mol
          ((mol.getBondWithIdx b1).getOtherAtomIdx a)).2.1 : Int)
        + 23000 * ((getDoubleBondPresence mol
          ((mol.getBondWithIdx b1).getOtherAtomIdx a)).2.2 : Int) ≤ 11000 := by
      rcases hk with hk | hk
      · rw [(doubleBondTerm_of_kind mol _ 0 hk).1]
        norm_num
      · rw [(doubleBondTerm_of_kind mol _ 1 hk).1]
        norm_num
    rw [hchi, htag, hring, hbring]
    have hZ' : ((mol.getAtomWithIdx ((mol.getBondWithIdx b1).getOtherAtomIdx a)).atomicNum : Int)
        ≤ 118 := by exact_mod_cast hZ
    have hdeg' : (mol.getDegree ((mol.getBondWithIdx b1).getOtherAtomIdx a) : Int) ≤ 4 := by
      exact_mod_cast hdeg
    simp only [ne_eq, not_true_eq_false, if_false]
    push_cast
    linarith
  have hlower : ∀ b2 ∈ mol.atomBonds a, (mol.getBondWithIdx b2).bondType = .SINGLE →
      res.find b2 = none → 0 < mol.numBondRings b2 →
      30000 ≤ candidateScore mol (nChiralNbrs mol) a b2 := by
    intro b2 hb2 hs2 hf2 hr2
    unfold candidateScore
    rw [if_neg (hnoH b2 hb2 hs2 hf2)]
    have hr3 := hcons b2 hb2 hr2
    unfold nbrScore
    simp only
    have hchi : (0 : Int) ≤ -(if nChiralNbrs mol ((mol.getBondWithIdx b2).getOtherAtomIdx a)
        < noNbrs then 100000 * nChiralNbrs mol ((mol.getBondWithIdx b2).getOtherAtomIdx a)
        else 0) := by
      split_ifs with h
      · rcases nChiralNbrs_cases mol ((mol.getBondWithIdx b2).getOtherAtomIdx a) with
          h1 | h1 | h1
        · have := h1.2.1
          omega
        · rw [h1.2.1] at h
          exact absurd h (lt_irrefl _)
        · rw [h1.2.1, h100] at h
          exact absurd h (by decide)
      · simp
    have htagnn : (0 : Int) ≤ (if (mol.getAtomWithIdx
        ((mol.getBondWithIdx b2).getOtherAtomIdx a)).chiralTag ≠ ChiralType.CHI_UNSPECIFIED
        then 1 else 0) := by
      split_ifs <;> simp
    have hr2' : (1 : Int) ≤ (mol.numBondRings b2 : Int) := by exact_mod_cast hr2
    have hr3' : (1 : Int) ≤ (mol.numAtomRings ((mol.getBondWithIdx b2).getOtherAtomIdx a) : Int) := by
      exact_mod_cast hr3
    have h1 : (0 : Int) ≤ ((mol.getAtomWithIdx
        ((mol.getBondWithIdx b2).getOtherAtomIdx a)).atomicNum : Int) := Int.natCast_nonneg _
    have h2 : (0 : Int) ≤ (mol.getDegree ((mol.getBondWithIdx b2).getOtherAtomIdx a) : Int) :=
      Int.natCast_nonneg _
    have h3 : (0 : Int) ≤ ((getDoubleBondPresence mol
        ((mol.getBondWithIdx b2).getOtherAtomIdx a)).1 : Int) := Int.natCast_nonneg _
    have h4 : (0 : Int) ≤ ((getDoubleBondPresence mol
        ((mol.getBondWithIdx b2).getOtherAtomIdx a)).2.1 : Int) := Int.natCast_nonneg _
    have h5 : (0 : Int) ≤ ((getDoubleBondPresence mol
        ((mol.getBondWithIdx b2).getOtherAtomIdx a)).2.2 : Int) := Int.natCast_nonneg _
    linarith
  refine ⟨fun b2 hb2 hs2 hf2 hr2 => ?_, ?_⟩
  · have := hlower b2 hb2 hs2 hf2 hr2
    linarith
  · obtain ⟨b, hb⟩ := assignedBond_isSome mol (nChiralNbrs mol) res a b1 hb1 hs1 hf1
    refine ⟨b, hb, ?_, ?_⟩
    · obtain ⟨hm, hs, hf, hmin⟩ := assignedBond_spec mol _ res a b hb
      by_contra hne
      have hpos : 0 < mol.numBondRings b := Nat.pos_of_ne_zero hne
      have hlow := hlower b hm hs hf hpos
      have := hmin b1 hb1 hs1 hf1
      simp only [pairLess, Bool.or_eq_false_iff, decide_eq_false_iff_not] at this
      have := this.1
      omega
    · rw [wedgeLoop_assigned mol res a rest hp, hb]

/-- Witness of C19 on `arylAzetidine`: the center 3 is assigned bond 3 to the
six-membered ring and neither of its two bonds in the four-membered ring. -/
theorem pickBondsToWedge_prefers_non_ring_witness :
    (∀ b2 ∈ arylAzetidine.atomBonds 3, (arylAzetidine.getBondWithIdx b2).bondType = .SINGLE →
        INT_MAP_INT.find [] b2 = none → 0 < arylAzetidine.numBondRings b2 →
        candidateScore arylAzetidine (nChiralNbrs arylAzetidine) 3 3
          < candidateScore arylAzetidine (nChiralNbrs arylAzetidine) 3 b2)
      ∧ ∃ b, assignedBond arylAzetidine (nChiralNbrs arylAzetidine) [] 3 = some b
          ∧ arylAzetidine.numBondRings b = 0
          ∧ wedgeLoop arylAzetidine (nChiralNbrs arylAzetidine) [3] []
            = wedgeLoop arylAzetidine (nChiralNbrs arylAzetidine) [] (INT_MAP_INT.set [] b 3) :=
  pickBondsToWedge_prefers_non_ring arylAzetidine [] 3 3 [] rfl (by decide) rfl rfl
    (by decide) (by decide) rfl (by decide) (by decide) rfl rfl (Or.inr rfl)

end RDKit

namespace RDKit

/-! ## Centers that are already wedged -/

theorem markWedged_keeps (mol : ROMol) (bs : List Bond) (n : Nat → Int) (a : Nat)
    (h : n a = noNbrs + 1) : markWedged mol bs n a = noNbrs + 1 := by
  induction bs generalizing n with
  | nil => exact h
  | cons b rest ih =>
    simp only [markWedged]
    have hupd : ∀ x, Function.update n x (noNbrs + 1) a = noNbrs + 1 := by
      intro x
      by_cases hx : a = x
      · subst hx
        exact Function.update_same _ _ _
      · rw [Function.update_noteq hx]
        exact h
    split_ifs
    · exact ih _ (hupd _)
    · exact ih _ (hupd _)
    · exact ih _ h
    · exact ih _ h

/-- The first loop marks the begin atom of a wedged bond when it is a tagged
center, and otherwise its end atom when that one is. -/
theorem markWedged_marks (mol : ROMol) (bs : List Bond) (n : Nat → Int) (bond : Bond)
    (hmem : bond ∈ bs) (hw : bond.bondDir.isWedged = true) :
    (mol.isCenter bond.beginAtomIdx = true →
        markWedged mol bs n bond.beginAtomIdx = noNbrs + 1)
      ∧ (mol.isCenter bond.beginAtomIdx = false → mol.isCenter bond.endAtomIdx = true →
        markWedged mol bs n bond.endAtomIdx = noNbrs + 1) := by
  induction bs generalizing n with
  | nil => exact absurd hmem (List.not_mem_nil _)
  | cons b rest ih =>
    rcases List.mem_cons.1 hmem with e | e
    · subst e
      constructor
      · intro hc
        simp only [markWedged, hw, if_true, hc]
        exact markWedged_keeps mol rest _ _ (Function.update_same _ _ _)
      · intro hc1 hc2
        simp only [markWedged, hw, if_true, hc1, hc2, Bool.false_eq_true, if_false]
        exact markWedged_keeps mol rest _ _ (Function.update_same _ _ _)
    · simp only [markWedged]
      split_ifs
      · exact ih _ e
      · exact ih _ e
      · exact ih _ e
      · exact ih _ e

/-- Every owner in the returned map is a processable center. -/
theorem pickBondsToWedge_owner (mol : ROMol) (res : INT_MAP_INT)
    (h : pickBondsToWedge mol = .ok res) (e : Nat × Nat) (he : e ∈ res) :
    isProcessable mol e.2 = true := by
  rw [pickBondsToWedge_eq] at h
  have hcs : ∀ c ∈ centersInOrder mol, nChiralNbrs mol c ≤ 0 := by
    intro c hc
    simpa using (List.mem_filter.1 hc).2
  obtain ⟨picks, hmap, hperm, _, _⟩ :=
    wedgeLoop_centers_ok mol (centersInOrder mol) [] res hcs List.nodup_nil h
  rw [List.append_nil] at hperm
  have hp : e ∈ picks := hperm.subset he
  have ha : e.2 ∈ centersInOrder mol := by
    rw [← hmap]
    exact List.mem_map_of_mem Prod.snd hp
  exact (isProcessable_iff mol e.2).2 (hcs _ ha)

/-- C20, as the code behaves: a tagged center that is the begin atom of a bond
of direction BEGINWEDGE, BEGINDASH or UNKNOWN, or the end atom of such a bond
whose begin atom is not a tagged center, owns no entry of the returned map. -/
theorem pickBondsToWedge_excludes_wedged (mol : ROMol) (res : INT_MAP_INT)
    (h : pickBondsToWedge mol = .ok res) (bond : Bond) (hmem : bond ∈ mol.bonds)
    (hw : bond.bondDir = .BEGINWEDGE ∨ bond.bondDir = .BEGINDASH ∨ bond.bondDir = .UNKNOWN) :
    (mol.isCenter bond.beginAtomIdx = true → ∀ e ∈ res, e.2 ≠ bond.beginAtomIdx)
      ∧ (mol.isCenter bond.beginAtomIdx = false → mol.isCenter bond.endAtomIdx = true →
        ∀ e ∈ res, e.2 ≠ bond.endAtomIdx) := by
  have hw2 : bond.bondDir.isWedged = true := by
    rcases hw with e | e | e <;> rw [e] <;> rfl
  obtain ⟨h1, h2⟩ := markWedged_marks mol mol.bonds (fun _ => noNbrs) bond hmem hw2
  have hnot : ∀ x, markWedged mol mol.bonds (fun _ => noNbrs) x = noNbrs + 1 →
      isProcessable mol x = false := by
    intro x hx
    have : markWedged mol mol.bonds (fun _ => noNbrs) x > noNbrs := by
      rw [hx]
      decide
    simp [isProcessable, this]
  constructor
  · intro hc e he heq
    have hp := pickBondsToWedge_owner mol res h e he
    rw [heq, hnot _ (h1 hc)] at hp
    exact Bool.noConfusion hp
  · intro hc1 hc2 e he heq
    have hp := pickBondsToWedge_owner mol res h e he
    rw [heq, hnot _ (h2 hc1 hc2)] at hp
    exact Bool.noConfusion hp

/-- Witness of the amended C20 on `wedgedPair`: the begin atom 0 of the wedged
bond owns no entry. -/
theorem pickBondsToWedge_excludes_wedged_witness :
    (wedgedPair.isCenter 0 = true → ∀ e ∈ [(1, 1)], e.2 ≠ 0)
      ∧ (wedgedPair.isCenter 0 = false → wedgedPair.isCenter 1 = true →
        ∀ e ∈ [(1, 1)], e.2 ≠ 1) :=
  pickBondsToWedge_excludes_wedged wedgedPair [(1, 1)] rfl
    ⟨0, 1, .SINGLE, .BEGINWEDGE, .STEREONONE, none⟩ (by decide) (Or.inl rfl)

/-- Counterexample to C20 as stated: in `wedgedPair` atom 1 is a clockwise
center and the end atom of bond 0, whose direction is BEGINWEDGE, yet it owns
the entry of bond 1 in the returned map. -/
theorem pickBondsToWedge_excludes_wedged_counterexample :
    (wedgedPair.getBondWithIdx 0).bondDir = .BEGINWEDGE
      ∧ (wedgedPair.getBondWithIdx 0).endAtomIdx = 1
      ∧ (wedgedPair.getAtomWithIdx 1).chiralTag = .CHI_TETRAHEDRAL_CW
      ∧ pickBondsToWedge wedgedPair = .ok [(1, 1)] :=
  ⟨rfl, rfl, rfl, rfl⟩

end RDKit

namespace RDKit

/-! ## Frame of the marking pass -/

theorem prop_modifyBond (mol : ROMol) (i j : Nat) (f : Bond → Bond)
    (hf : ∀ b : Bond, (f b).unknownStereoProp = b.unknownStereoProp) :
    ((mol.modifyBond i f).getBondWithIdx j).unknownStereoProp
      = (mol.getBondWithIdx j).unknownStereoProp := by
  rw [getBondWithIdx_modifyBond]
  split_ifs with h
  · rw [h.1]
    exact hf _
  · rfl

theorem Bond.ext_fields (b1 b2 : Bond) (h1 : b1.beginAtomIdx = b2.beginAtomIdx)
    (h2 : b1.endAtomIdx = b2.endAtomIdx) (h3 : b1.bondType = b2.bondType)
    (h4 : b1.bondDir = b2.bondDir) (h5 : b1.stereo = b2.stereo)
    (h6 : b1.unknownStereoProp = b2.unknownStereoProp) : b1 = b2 := by
  cases b1
  cases b2
  simp only at h1 h2 h3 h4 h5 h6
  subst h1 h2 h3 h4 h5 h6
  rfl

theorem prop_setBondDir (mol : ROMol) (i j : Nat) (d : BondDir) :
    ((mol.setBondDir i d).getBondWithIdx j).unknownStereoProp
      = (mol.getBondWithIdx j).unknownStereoProp :=
  prop_modifyBond mol i j _ (fun _ => rfl)

theorem prop_setStereo (mol : ROMol) (i j : Nat) (s : BondStereo) :
    ((mol.setStereo i s).getBondWithIdx j).unknownStereoProp
      = (mol.getBondWithIdx j).unknownStereoProp :=
  prop_modifyBond mol i j _ (fun _ => rfl)

theorem outside_clearDoubleBond (mol : ROMol) (x : Nat) :
    (clearDoubleBond mol x).atoms = mol.atoms
      ∧ (clearDoubleBond mol x).numAtomRings = mol.numAtomRings
      ∧ (clearDoubleBond mol x).numBondRings = mol.numBondRings
      ∧ (clearDoubleBond mol x).getPerturbationOrder = mol.getPerturbationOrder
      ∧ (clearDoubleBond mol x).molId = mol.molId := by
  unfold clearDoubleBond
  split_ifs <;> exact ⟨rfl, rfl, rfl, rfl, rfl⟩

theorem wavyFrame_refl (c : Bool) (nbrs : Nat → List Nat) (m : ROMol) :
    WavyFrame c nbrs m m :=
  ⟨⟨rfl, rfl, rfl, rfl, rfl⟩, rfl, fun _ => ⟨rfl, rfl, rfl, rfl, Or.inl rfl, Or.inl rfl⟩⟩

theorem wavyFrame_setBondDir (c : Bool) (nbrs : Nat → List Nat) (m0 cur : ROMol) (sb : Nat)
    (h : WavyFrame c nbrs m0 cur) (hsb : nbrs sb ≠ []) :
    WavyFrame c nbrs m0 (cur.setBondDir sb .UNKNOWN) := by
  obtain ⟨h1, h2, h3⟩ := h
  refine ⟨h1, (length_setBondDir _ _ _).trans h2, fun j => ?_⟩
  · obtain ⟨g1, g2, g3, g4, g5, g6⟩ := h3 j
    obtain ⟨s1, s2, s3⟩ := (sameGraph_setBondDir cur sb .UNKNOWN).2 j
    refine ⟨s1.trans g1, s2.trans g2, s3.trans g3, ?_, ?_, ?_⟩
    · exact (prop_setBondDir cur sb j _).trans g4
    · rw [bondDir_setBondDir]
      split_ifs with hj
      · exact Or.inr (Or.inl ⟨rfl, hj.1 ▸ hsb⟩)
      · exact g5
    · rw [stereo_setBondDir]
      exact g6

theorem wavyFrame_clearDoubleBond (nbrs : Nat → List Nat) (m0 cur : ROMol) (x : Nat)
    (h : WavyFrame true nbrs m0 cur) (hx : ∃ s, x ∈ nbrs s) :
    WavyFrame true nbrs m0 (clearDoubleBond cur x) := by
  obtain ⟨h1, h2, h3⟩ := h
  obtain ⟨o1, o2, o3, o4, o5⟩ := outside_clearDoubleBond cur x
  refine ⟨⟨o1.trans h1.1, o2.trans h1.2.1, o3.trans h1.2.2.1, o4.trans h1.2.2.2.1,
    o5.trans h1.2.2.2.2⟩, (length_clearDoubleBond _ _).trans h2, fun j => ?_⟩
  · obtain ⟨g1, g2, g3, g4, g5, g6⟩ := h3 j
    obtain ⟨s1, s2, s3⟩ := (sameGraph_clearDoubleBond cur x).2 j
    refine ⟨s1.trans g1, s2.trans g2, s3.trans g3, ?_, ?_, ?_⟩
    · refine Eq.trans ?_ g4
      unfold clearDoubleBond
      split_ifs
      · rw [prop_setStereo, prop_setBondDir]
      · rw [prop_setStereo]
    · rw [bondDir_clearDoubleBond]
      split_ifs with hj
      · obtain ⟨hjx, _, hdir⟩ := hj
        subst hjx
        right; right
        refine ⟨rfl, rfl, ?_, hx⟩
        rcases g5 with e | ⟨e, _⟩ | ⟨_, e, _⟩
        · rw [← e]
          exact hdir
        · rw [hdir] at e
          cases e
        · rw [hdir] at e
          cases e
      · exact g5
    · rw [stereo_clearDoubleBond]
      split_ifs with hj
      · exact Or.inr ⟨rfl, rfl, hj.1 ▸ hx⟩
      · exact g6

theorem wavyFrame_wavyStep (c : Bool) (T sc sb : Nat) (nbrs : Nat → List Nat) (m0 : ROMol)
    (st : ROMol × (Nat → Bool)) (x : Nat) (hx : x ∈ nbrs sb)
    (h : WavyFrame c nbrs m0 st.1) : WavyFrame c nbrs m0 (wavyStep c T sc sb st x).1 := by
  rcases wavyStep_cases c T sc sb st x with h1 | ⟨_, _, h1⟩
  · rw [h1]
    exact h
  · rw [h1]
    have hsb : nbrs sb ≠ [] := List.ne_nil_of_mem hx
    cases c
    · exact wavyFrame_setBondDir false nbrs m0 st.1 sb h hsb
    · exact wavyFrame_clearDoubleBond nbrs m0 _ x
        (wavyFrame_setBondDir true nbrs m0 st.1 sb h hsb) ⟨sb, hx⟩

theorem wavyFrame_wavyInner (c : Bool) (T sc sb : Nat) (nbrs : Nat → List Nat) (m0 : ROMol)
    (ds : List Nat) (st : ROMol × (Nat → Bool)) (hds : ∀ x ∈ ds, x ∈ nbrs sb)
    (h : WavyFrame c nbrs m0 st.1) : WavyFrame c nbrs m0 (wavyInner c T sc sb ds st).1 := by
  induction ds generalizing st with
  | nil => exact h
  | cons x rest ih =>
    rw [wavyInner_cons]
    exact ih _ (fun y hy => hds y (List.mem_cons_of_mem _ hy))
      (wavyFrame_wavyStep c T sc sb nbrs m0 st x (hds x (List.mem_cons_self _ _)) h)

theorem wavyFrame_wavyOuter (c : Bool) (T : Nat) (nbrs : Nat → List Nat) (m0 : ROMol)
    (l : List (Int × Nat × Nat)) (st : ROMol × (Nat → Bool))
    (h : WavyFrame c nbrs m0 st.1) : WavyFrame c nbrs m0 (wavyOuter c T nbrs l st).1 := by
  induction l generalizing st with
  | nil => exact h
  | cons tpl rest ih =>
    rw [wavyOuter_cons]
    exact ih _ (wavyFrame_wavyInner c T _ _ nbrs m0 _ st (fun _ hx => hx) h)

end RDKit

namespace RDKit

theorem wavyOuter_of_no_nbrs (c : Bool) (T : Nat) (nbrs : Nat → List Nat)
    (l : List (Int × Nat × Nat)) (st : ROMol × (Nat → Bool)) (h : ∀ s, nbrs s = []) :
    wavyOuter c T nbrs l st = st := by
  induction l generalizing st with
  | nil => rfl
  | cons tpl rest ih =>
    rw [wavyOuter_cons, h tpl.2.2, wavyInner_nil]
    exact ih st

/-- The frame of the whole routine with respect to the tables of the scoring
pass. -/
theorem addWavyBondsForStereoAny_wavyFrame (th : StereoBondThresholds) (mol : ROMol)
    (c : Bool) (T : Nat) (t : WavyTables) (ht : wavyTables th mol = .ok t) :
    ∃ fin, addWavyBondsForStereoAny th mol c T = .ok fin
      ∧ WavyFrame c t.singleBondNeighbors mol fin :=
  ⟨_, addWavyBondsForStereoAny_eq th mol c T t ht,
    wavyFrame_wavyOuter c T t.singleBondNeighbors mol (sortedScores mol t)
      (mol, t.doubleBondsToSet) (wavyFrame_refl c _ mol)⟩

/-- C13: the routine changes nothing outside the bonds and keeps the ends, the
type and the properties of every bond; a direction changes only to UNKNOWN, on
a single bond next to a STEREOANY double bond, or (flags cleared) from
EITHERDOUBLE to NONE on a STEREOANY double bond; a stereo changes only (flags
cleared) to STEREONONE on a STEREOANY double bond; a molecule without a
STEREOANY double bond is returned as it is. -/
theorem addWavyBondsForStereoAny_frame (th : StereoBondThresholds) (mol : ROMol) (c : Bool)
    (T : Nat) :
    ∃ fin, addWavyBondsForStereoAny th mol c T = .ok fin
      ∧ (fin.atoms = mol.atoms ∧ fin.numAtomRings = mol.numAtomRings
        ∧ fin.numBondRings = mol.numBondRings
        ∧ fin.getPerturbationOrder = mol.getPerturbationOrder ∧ fin.molId = mol.molId)
      ∧ fin.bonds.length = mol.bonds.length
      ∧ (∀ j,
          (fin.getBondWithIdx j).beginAtomIdx = (mol.getBondWithIdx j).beginAtomIdx
            ∧ (fin.getBondWithIdx j).endAtomIdx = (mol.getBondWithIdx j).endAtomIdx
            ∧ (fin.getBondWithIdx j).bondType = (mol.getBondWithIdx j).bondType
            ∧ (fin.getBondWithIdx j).unknownStereoProp
              = (mol.getBondWithIdx j).unknownStereoProp
            ∧ ((fin.getBondWithIdx j).bondDir = (mol.getBondWithIdx j).bondDir
              ∨ ((fin.getBondWithIdx j).bondDir = .UNKNOWN
                ∧ (mol.getBondWithIdx j).bondType = .SINGLE
                ∧ ∃ D, D < mol.bonds.length ∧ (mol.getBondWithIdx D).bondType = .DOUBLE
                  ∧ (mol.getBondWithIdx D).stereo = .STEREOANY ∧ j ∈ getBondNeighbors mol D)
              ∨ (c = true ∧ (fin.getBondWithIdx j).bondDir = .NONE
                ∧ (mol.getBondWithIdx j).bondDir = .EITHERDOUBLE
                ∧ (mol.getBondWithIdx j).bondType = .DOUBLE
                ∧ (mol.getBondWithIdx j).stereo = .STEREOANY))
            ∧ ((fin.getBondWithIdx j).stereo = (mol.getBondWithIdx j).stereo
              ∨ (c = true ∧ (fin.getBondWithIdx j).stereo = .STEREONONE
                ∧ (mol.getBondWithIdx j).bondType = .DOUBLE
                ∧ (mol.getBondWithIdx j).stereo = .STEREOANY)))
      ∧ ((∀ D, D < mol.bonds.length → (mol.getBondWithIdx D).bondType = .DOUBLE →
          (mol.getBondWithIdx D).stereo ≠ .STEREOANY) → fin = mol) := by
  obtain ⟨t, ht, _, hn, _⟩ := wavyTables_spec th mol
  have hfr := wavyFrame_wavyOuter c T t.singleBondNeighbors mol (sortedScores mol t)
    (mol, t.doubleBondsToSet) (wavyFrame_refl c _ mol)
  obtain ⟨hout, hlen, hb⟩ := hfr
  refine ⟨_, addWavyBondsForStereoAny_eq th mol c T t ht, hout, hlen, fun j => ?_, ?_⟩
  · obtain ⟨g1, g2, g3, g4, g5, g6⟩ := hb j
    refine ⟨g1, g2, g3, g4, ?_, ?_⟩
    · rcases g5 with e | ⟨e, hne⟩ | ⟨hc, e1, e2, s, hs⟩
      · exact Or.inl e
      · obtain ⟨x, hx⟩ := List.exists_mem_of_ne_nil _ hne
        obtain ⟨h1, h2, h3, h4, h5⟩ := (hn j x).1 hx
        exact Or.inr (Or.inl ⟨e, h5, x, h1, h2, h3, h4⟩)
      · obtain ⟨_, h2, h3, _, _⟩ := (hn s j).1 hs
        exact Or.inr (Or.inr ⟨hc, e1, e2, h2, h3⟩)
    · rcases g6 with e | ⟨hc, e, s, hs⟩
      · exact Or.inl e
      · obtain ⟨_, h2, h3, _, _⟩ := (hn s j).1 hs
        exact Or.inr ⟨hc, e, h2, h3⟩
  · intro hno
    have hnil : ∀ s, t.singleBondNeighbors s = [] := by
      intro s
      rw [List.eq_nil_iff_forall_not_mem]
      intro x hx
      obtain ⟨h1, h2, h3, _, _⟩ := (hn s x).1 hx
      exact hno x h1 h2 h3
    rw [wavyOuter_of_no_nbrs c T _ _ _ hnil]

/-- Witness of C13 on `polyene` with the flags cleared and the threshold
10000. -/
theorem addWavyBondsForStereoAny_frame_witness :
    ∃ fin, addWavyBondsForStereoAny rdkitThresholds polyene true 10000 = .ok fin
      ∧ (fin.atoms = polyene.atoms ∧ fin.numAtomRings = polyene.numAtomRings
        ∧ fin.numBondRings = polyene.numBondRings
        ∧ fin.getPerturbationOrder = polyene.getPerturbationOrder
        ∧ fin.molId = polyene.molId)
      ∧ fin.bonds.length = polyene.bonds.length
      ∧ (∀ j,
          (fin.getBondWithIdx j).beginAtomIdx = (polyene.getBondWithIdx j).beginAtomIdx
            ∧ (fin.getBondWithIdx j).endAtomIdx = (polyene.getBondWithIdx j).endAtomIdx
            ∧ (fin.getBondWithIdx j).bondType = (polyene.getBondWithIdx j).bondType
            ∧ (fin.getBondWithIdx j).unknownStereoProp
              = (polyene.getBondWithIdx j).unknownStereoProp
            ∧ ((fin.getBondWithIdx j).bondDir = (polyene.getBondWithIdx j).bondDir
              ∨ ((fin.getBondWithIdx j).bondDir = .UNKNOWN
                ∧ (polyene.getBondWithIdx j).bondType = .SINGLE
                ∧ ∃ D, D < polyene.bonds.length
                  ∧ (polyene.getBondWithIdx D).bondType = .DOUBLE
                  ∧ (polyene.getBondWithIdx D).stereo = .STEREOANY
                  ∧ j ∈ getBondNeighbors polyene D)
              ∨ (true = true ∧ (fin.getBondWithIdx j).bondDir = .NONE
                ∧ (polyene.getBondWithIdx j).bondDir = .EITHERDOUBLE
                ∧ (polyene.getBondWithIdx j).bondType = .DOUBLE
                ∧ (polyene.getBondWithIdx j).stereo = .STEREOANY))
            ∧ ((fin.getBondWithIdx j).stereo = (polyene.getBondWithIdx j).stereo
              ∨ (true = true ∧ (fin.getBondWithIdx j).stereo = .STEREONONE
                ∧ (polyene.getBondWithIdx j).bondType = .DOUBLE
                ∧ (polyene.getBondWithIdx j).stereo = .STEREOANY)))
      ∧ ((∀ D, D < polyene.bonds.length → (polyene.getBondWithIdx D).bondType = .DOUBLE →
          (polyene.getBondWithIdx D).stereo ≠ .STEREOANY) → fin = polyene) :=
  addWavyBondsForStereoAny_frame rdkitThresholds polyene true 10000

/-- C11: with `clearDoubleBondFlags = false` every double bond is returned as
it is, stereo and direction included, while a STEREOANY double bond with an
adjacent single bond that the threshold admits still gets an adjacent single
bond marked UNKNOWN. -/
theorem addWavyBondsForStereoAny_keeps_flags (th : StereoBondThresholds) (mol : ROMol)
    (T : Nat) :
    ∃ fin, addWavyBondsForStereoAny th mol false T = .ok fin
      ∧ (∀ j, (mol.getBondWithIdx j).bondType = .DOUBLE →
          fin.getBondWithIdx j = mol.getBondWithIdx j)
      ∧ (∀ j, (fin.getBondWithIdx j).stereo = (mol.getBondWithIdx j).stereo)
      ∧ (∀ D S, D < mol.bonds.length → (mol.getBondWithIdx D).bondType = .DOUBLE →
          (mol.getBondWithIdx D).stereo = .STEREOANY → S ∈ getBondNeighbors mol D →
          (mol.getBondWithIdx S).bondType = .SINGLE → (T = 0 ∨ wavyScore th mol S ≤ T) →
          (fin.getBondWithIdx D).stereo = .STEREOANY
            ∧ ∃ s ∈ getBondNeighbors fin D, (fin.getBondWithIdx s).bondType = .SINGLE
              ∧ (fin.getBondWithIdx s).bondDir = .UNKNOWN) := by
  obtain ⟨t, ht, _, hn, _⟩ := wavyTables_spec th mol
  obtain ⟨hout, hlen, hb⟩ := wavyFrame_wavyOuter false T t.singleBondNeighbors mol
    (sortedScores mol t) (mol, t.doubleBondsToSet) (wavyFrame_refl false _ mol)
  have hst : ∀ j, ((wavyOuter false T t.singleBondNeighbors (sortedScores mol t)
      (mol, t.doubleBondsToSet)).1.getBondWithIdx j).stereo = (mol.getBondWithIdx j).stereo := by
    intro j
    rcases (hb j).2.2.2.2.2 with e | ⟨hc, _⟩
    · exact e
    · exact Bool.noConfusion hc
  refine ⟨_, addWavyBondsForStereoAny_eq th mol false T t ht, fun j hj => ?_, hst,
    fun D S hD hDt hDs hS hSt hT => ?_⟩
  · obtain ⟨g1, g2, g3, g4, g5, _⟩ := hb j
    refine Bond.ext_fields _ _ g1 g2 g3 ?_ (hst j) g4
    rcases g5 with e | ⟨_, hne⟩ | ⟨hc, _⟩
    · exact e
    · obtain ⟨x, hx⟩ := List.exists_mem_of_ne_nil _ hne
      obtain ⟨_, _, _, _, h5⟩ := (hn j x).1 hx
      rw [hj] at h5
      cases h5
    · exact Bool.noConfusion hc
  · rw [wavyScore_eq th mol t ht] at hT
    have hT1 : ¬ (T ≠ 0 ∧ t.singleBondScores S > T) := by
      rintro ⟨h1, h2⟩
      rcases hT with h | h
      · exact h1 h
      · omega
    obtain ⟨⟨s, hs, hdir⟩, _⟩ :=
      wavyOuter_resolved th mol false T t ht D S hD hDt hDs hS hSt hT1
    obtain ⟨_, _, _, hadj, hty⟩ := (hn s D).1 hs
    have hsame := sameGraph_wavyOuter false T t.singleBondNeighbors (sortedScores mol t)
      (mol, t.doubleBondsToSet)
    refine ⟨(hst D).trans hDs, s, ?_, ?_, hdir⟩
    · rw [hsame.getBondNeighbors_eq D]
      exact hadj
    · rw [(hsame.2 s).2.2]
      exact hty

/-- Witness of C11 on `butene`, the molecule of the test "don't reset
flags". -/
theorem addWavyBondsForStereoAny_keeps_flags_witness :
    ∃ fin, addWavyBondsForStereoAny rdkitThresholds butene false 1000 = .ok fin
      ∧ (∀ j, (butene.getBondWithIdx j).bondType = .DOUBLE →
          fin.getBondWithIdx j = butene.getBondWithIdx j)
      ∧ (∀ j, (fin.getBondWithIdx j).stereo = (butene.getBondWithIdx j).stereo)
      ∧ (∀ D S, D < butene.bonds.length → (butene.getBondWithIdx D).bondType = .DOUBLE →
          (butene.getBondWithIdx D).stereo = .STEREOANY → S ∈ getBondNeighbors butene D →
          (butene.getBondWithIdx S).bondType = .SINGLE →
          (1000 = 0 ∨ wavyScore rdkitThresholds butene S ≤ 1000) →
          (fin.getBondWithIdx D).stereo = .STEREOANY
            ∧ ∃ s ∈ getBondNeighbors fin D, (fin.getBondWithIdx s).bondType = .SINGLE
              ∧ (fin.getBondWithIdx s).bondDir = .UNKNOWN) :=
  addWavyBondsForStereoAny_keeps_flags rdkitThresholds butene 1000

end RDKit

namespace RDKit

/-! ## The tables of the scoring pass in closed form -/

theorem atomBonds_nodup (mol : ROMol) (a : Nat) : (mol.atomBonds a).Nodup :=
  (List.nodup_range _).filter _

theorem isSimpleGraph_spec (mol : ROMol) (h : mol.isSimpleGraph = true) (i : Nat)
    (hi : i < mol.bonds.length) :
    (mol.getBondWithIdx i).beginAtomIdx ≠ (mol.getBondWithIdx i).endAtomIdx
      ∧ ∀ j, j < mol.bonds.length → i ≠ j →
        ¬ (((mol.getBondWithIdx i).beginAtomIdx = (mol.getBondWithIdx j).beginAtomIdx
            ∧ (mol.getBondWithIdx i).endAtomIdx = (mol.getBondWithIdx j).endAtomIdx)
          ∨ ((mol.getBondWithIdx i).beginAtomIdx = (mol.getBondWithIdx j).endAtomIdx
            ∧ (mol.getBondWithIdx i).endAtomIdx = (mol.getBondWithIdx j).beginAtomIdx)) := by
  unfold ROMol.isSimpleGraph at h
  rw [List.all_eq_true] at h
  have h1 := h i (List.mem_range.2 hi)
  rw [Bool.and_eq_true, List.all_eq_true] at h1
  refine ⟨by simpa using h1.1, fun j hj hij => ?_⟩
  have h2 := h1.2 j (List.mem_range.2 hj)
  simp only [Bool.or_eq_true, beq_iff_eq, hij, false_or, Bool.not_eq_true', Bool.or_eq_false_iff,
    Bool.and_eq_false_imp, Bool.and_eq_true, bne_iff_ne, ne_eq] at h2
  rintro (⟨a1, a2⟩ | ⟨a1, a2⟩)
  · exact absurd a2 (by simpa using h2.1 a1)
  · exact absurd a2 (by simpa using h2.2 a1)

/-- In a simple graph no bond is listed twice among the neighbours of a
bond. -/
theorem getBondNeighbors_nodup (mol : ROMol) (h : mol.isSimpleGraph = true) (d : Nat)
    (hd : d < mol.bonds.length) : (getBondNeighbors mol d).Nodup := by
  unfold getBondNeighbors
  rw [List.nodup_append]
  refine ⟨(atomBonds_nodup mol _).filter _, (atomBonds_nodup mol _).filter _, ?_⟩
  intro s hs1 hs2
  obtain ⟨hm1, hne⟩ := List.mem_filter.1 hs1
  obtain ⟨hm2, _⟩ := List.mem_filter.1 hs2
  obtain ⟨hlt, he1⟩ := (mem_atomBonds mol _ s).1 hm1
  obtain ⟨_, he2⟩ := (mem_atomBonds mol _ s).1 hm2
  have hsd : s ≠ d := by simpa using hne
  obtain ⟨hloop, hpar⟩ := isSimpleGraph_spec mol h d hd
  apply hpar s hlt (Ne.symm hsd)
  rcases he1 with e1 | e1 <;> rcases he2 with e2 | e2
  · exact absurd (e1.symm.trans e2) hloop
  · exact Or.inl ⟨e1.symm, e2.symm⟩
  · exact Or.inr ⟨e1.symm, e2.symm⟩
  · exact absurd (e1.symm.trans e2) hloop

theorem getNonsharedAtom_eq (b1 b2 : Bond) (o : Nat) (h : getNonsharedAtom b1 b2 = .ok o) :
    o = nonsharedAtomIdx b1 b2 := by
  unfold getNonsharedAtom at h
  unfold nonsharedAtomIdx
  split_ifs at h ⊢ with h1 h2
  · simpa using h.symm
  · simpa using h.symm

theorem scoreNeighbors_exact (th : StereoBondThresholds) (mol : ROMol) (d : Nat)
    (l : List Nat) (t t1 : WavyTables) (hnd : l.Nodup)
    (h : scoreNeighbors th mol d l t = .ok t1) :
    (∀ s, t1.singleBondScores s
        = t.singleBondScores s
          + if s ∈ l ∧ (mol.getBondWithIdx s).bondType = .SINGLE then
              wavyPenalty th mol s d
                (nonsharedAtomIdx (mol.getBondWithIdx s) (mol.getBondWithIdx d))
            else 0)
      ∧ ∀ s, t1.singleBondNeighbors s
        = t.singleBondNeighbors s
          ++ if s ∈ l ∧ (mol.getBondWithIdx s).bondType = .SINGLE
                ∧ (mol.getBondWithIdx d).stereo = .STEREOANY then [d]
            else [] := by
  induction l generalizing t with
  | nil =>
    simp only [scoreNeighbors, Except.ok.injEq] at h
    subst h
    simp
  | cons sb rest ih =>
    obtain ⟨hsb, hrest⟩ := List.nodup_cons.1 hnd
    simp only [scoreNeighbors] at h
    by_cases hty : (mol.getBondWithIdx sb).bondType = .SINGLE
    · simp only [hty, ne_eq, not_true_eq_false, if_false] at h
      cases ho : getNonsharedAtom (mol.getBondWithIdx sb) (mol.getBondWithIdx d) with
      | error e =>
        rw [ho] at h
        exact Except.noConfusion h
      | ok o =>
        rw [ho] at h
        simp only at h
        have hoe := getNonsharedAtom_eq _ _ o ho
        subst hoe
        obtain ⟨h1, h2⟩ := ih _ hrest h
        constructor
        · intro s
          rw [h1 s]
          by_cases hs : s = sb
          · subst hs
            simp [Function.update_same, hsb, hty]
          · simp [Function.update_noteq hs, hs]
        · intro s
          rw [h2 s]
          by_cases hs : s = sb
          · subst hs
            by_cases hany : (mol.getBondWithIdx d).stereo = .STEREOANY
            · simp [Function.update_same, hsb, hty, hany]
            · simp [hany]
          · by_cases hany : (mol.getBondWithIdx d).stereo = .STEREOANY
            · simp [Function.update_noteq hs, hs, hany]
            · simp [hany]
    · simp only [hty, ne_eq, not_false_eq_true, if_true] at h
      obtain ⟨h1, h2⟩ := ih _ hrest h
      constructor
      · intro s
        rw [h1 s]
        by_cases hs : s = sb
        · subst hs
          simp [hty]
        · simp [hs]
      · intro s
        rw [h2 s]
        by_cases hs : s = sb
        · subst hs
          simp [hty]
        · simp [hs]

theorem scoreBonds_exact (th : StereoBondThresholds) (mol : ROMol) (ds : List Nat)
    (t t1 : WavyTables) (hnd : ∀ d ∈ ds, (getBondNeighbors mol d).Nodup)
    (h : scoreBonds th mol ds t = .ok t1) :
    (∀ s, t1.singleBondScores s
        = t.singleBondScores s
          + ((ds.filter fun d =>
                decide ((mol.getBondWithIdx d).bondType = .DOUBLE)
                  && decide (s ∈ getBondNeighbors mol d)
                  && decide ((mol.getBondWithIdx s).bondType = .SINGLE)).map fun d =>
              wavyPenalty th mol s d
                (nonsharedAtomIdx (mol.getBondWithIdx s) (mol.getBondWithIdx d))).sum)
      ∧ ∀ s, t1.singleBondNeighbors s
        = t.singleBondNeighbors s
          ++ ds.filter fun d =>
              decide ((mol.getBondWithIdx d).bondType = .DOUBLE)
                && decide ((mol.getBondWithIdx d).stereo = .STEREOANY)
                && decide (s ∈ getBondNeighbors mol d)
                && decide ((mol.getBondWithIdx s).bondType = .SINGLE) := by
  induction ds generalizing t with
  | nil =>
    simp only [scoreBonds, Except.ok.injEq] at h
    subst h
    simp
  | cons d rest ih =>
    have hrest : ∀ x ∈ rest, (getBondNeighbors mol x).Nodup :=
      fun x hx => hnd x (List.mem_cons_of_mem _ hx)
    simp only [scoreBonds] at h
    by_cases hty : (mol.getBondWithIdx d).bondType = .DOUBLE
    · simp only [hty, ne_eq, not_true_eq_false, if_false] at h
      cases hrun : scoreNeighbors th mol d (getBondNeighbors mol d)
          (if (mol.getBondWithIdx d).stereo = .STEREOANY then
            { t with doubleBondsToSet := Function.update t.doubleBondsToSet d true }
          else t) with
      | error e =>
        rw [hrun] at h
        exact Except.noConfusion h
      | ok t2 =>
        rw [hrun] at h
        simp only at h
        obtain ⟨a1, a2⟩ := scoreNeighbors_exact th mol d _ _ t2
          (hnd d (List.mem_cons_self _ _)) hrun
        obtain ⟨b1, b2⟩ := ih t2 hrest h
        have e1 : ∀ s, (if (mol.getBondWithIdx d).stereo = .STEREOANY then
            { t with doubleBondsToSet := Function.update t.doubleBondsToSet d true }
          else t).singleBondScores s = t.singleBondScores s := by
          intro s
          split_ifs <;> rfl
        have e2 : ∀ s, (if (mol.getBondWithIdx d).stereo = .STEREOANY then
            { t with doubleBondsToSet := Function.update t.doubleBondsToSet d true }
          else t).singleBondNeighbors s = t.singleBondNeighbors s := by
          intro s
          split_ifs <;> rfl
        constructor
        · intro s
          rw [b1 s, a1 s, e1 s, List.filter_cons]
          by_cases hs : s ∈ getBondNeighbors mol d ∧ (mol.getBondWithIdx s).bondType = .SINGLE
          · have hP : (decide ((mol.getBondWithIdx d).bondType = .DOUBLE)
                && decide (s ∈ getBondNeighbors mol d)
                && decide ((mol.getBondWithIdx s).bondType = .SINGLE)) = true := by
              simp [hty, hs.1, hs.2]
            rw [if_pos hs, if_pos hP, List.map_cons, List.sum_cons, Nat.add_assoc]
          · have hP : ¬ (decide ((mol.getBondWithIdx d).bondType = .DOUBLE)
                && decide (s ∈ getBondNeighbors mol d)
                && decide ((mol.getBondWithIdx s).bondType = .SINGLE)) = true := by
              simp only [Bool.and_eq_true, decide_eq_true_eq, not_and]
              intro g
              exact fun g3 => hs ⟨g.2, g3⟩
            rw [if_neg hs, if_neg hP, Nat.add_zero]
        · intro s
          rw [b2 s, a2 s, e2 s, List.filter_cons]
          by_cases hs : s ∈ getBondNeighbors mol d ∧ (mol.getBondWithIdx s).bondType = .SINGLE
              ∧ (mol.getBondWithIdx d).stereo = .STEREOANY
          · have hP : (decide ((mol.getBondWithIdx d).bondType = .DOUBLE)
                && decide ((mol.getBondWithIdx d).stereo = .STEREOANY)
                && decide (s ∈ getBondNeighbors mol d)
                && decide ((mol.getBondWithIdx s).bondType = .SINGLE)) = true := by
              simp [hty, hs.1, hs.2.1, hs.2.2]
            rw [if_pos hs, if_pos hP, List.append_assoc, List.singleton_append]
          · have hP : ¬ (decide ((mol.getBondWithIdx d).bondType = .DOUBLE)
                && decide ((mol.getBondWithIdx d).stereo = .STEREOANY)
                && decide (s ∈ getBondNeighbors mol d)
                && decide ((mol.getBondWithIdx s).bondType = .SINGLE)) = true := by
              simp only [Bool.and_eq_true, decide_eq_true_eq, not_and]
              intro g
              exact fun g3 => hs ⟨g.2, g3, g.1.2⟩
            rw [if_neg hs, if_neg hP, List.append_nil]
    · simp only [hty, ne_eq, not_false_eq_true, if_true] at h
      obtain ⟨b1, b2⟩ := ih t hrest h
      constructor
      · intro s
        rw [b1 s]
        simp [List.filter_cons, hty]
      · intro s
        rw [b2 s]
        simp [List.filter_cons, hty]

/-- The tables of the scoring pass of a simple graph. -/
theorem wavyTables_exact (th : StereoBondThresholds) (mol : ROMol)
    (hsimple : mol.isSimpleGraph = true) (t : WavyTables) (ht : wavyTables th mol = .ok t) :
    (∀ s, t.singleBondScores s
        = (((List.range mol.bonds.length).filter fun d =>
              decide ((mol.getBondWithIdx d).bondType = .DOUBLE)
                && decide (s ∈ getBondNeighbors mol d)
                && decide ((mol.getBondWithIdx s).bondType = .SINGLE)).map fun d =>
            wavyPenalty th mol s d
              (nonsharedAtomIdx (mol.getBondWithIdx s) (mol.getBondWithIdx d))).sum)
      ∧ ∀ s, t.singleBondNeighbors s
        = (List.range mol.bonds.length).filter fun d =>
            decide ((mol.getBondWithIdx d).bondType = .DOUBLE)
              && decide ((mol.getBondWithIdx d).stereo = .STEREOANY)
              && decide (s ∈ getBondNeighbors mol d)
              && decide ((mol.getBondWithIdx s).bondType = .SINGLE) := by
  obtain ⟨h1, h2⟩ := scoreBonds_exact th mol (List.range mol.getNumBonds)
    ⟨fun _ => 0, fun _ => [], fun _ => false⟩ t
    (fun d hd => getBondNeighbors_nodup mol hsimple d (List.mem_range.1 hd)) ht
  constructor
  · intro s
    rw [h1 s]
    simp [ROMol.getNumBonds]
  · intro s
    rw [h2 s]
    simp [ROMol.getNumBonds]

end RDKit

namespace RDKit

theorem mem_getBondNeighbors_iff_shares (mol : ROMol) (d s : Nat) :
    s ∈ getBondNeighbors mol d ↔
      s ≠ d ∧ s < mol.bonds.length
        ∧ (mol.getBondWithIdx s).sharesAtom (mol.getBondWithIdx d) = true := by
  rw [mem_getBondNeighbors]
  simp only [Bond.sharesAtom, Bool.or_eq_true, beq_iff_eq]
  tauto

/-- C16: in a simple graph the score accumulated for a bond is the score of the
specification (`wavyScoreSpec`): the sum over the double bonds sharing an atom
with it of the base 1 and the penalties at a tenth of the thresholds; the score
is zero exactly for the bonds that are not single bonds next to a double
bond. -/
theorem wavyScore_eq_spec (th : StereoBondThresholds) (mol : ROMol) (S : Nat)
    (hsimple : mol.isSimpleGraph = true) :
    wavyScore th mol S = wavyScoreSpec th mol S
      ∧ (wavyScore th mol S = 0 ↔
        ¬ (S < mol.bonds.length ∧ (mol.getBondWithIdx S).bondType = .SINGLE
          ∧ ∃ D, D < mol.bonds.length ∧ D ≠ S ∧ (mol.getBondWithIdx D).bondType = .DOUBLE
            ∧ (mol.getBondWithIdx S).sharesAtom (mol.getBondWithIdx D) = true)) := by
  obtain ⟨t, ht, _, _, hsc⟩ := wavyTables_spec th mol
  obtain ⟨hexact, _⟩ := wavyTables_exact th mol hsimple t ht
  rw [wavyScore_eq th mol t ht]
  constructor
  · rw [hexact S]
    unfold wavyScoreSpec
    by_cases hS : S < mol.bonds.length ∧ (mol.getBondWithIdx S).bondType = .SINGLE
    · rw [if_pos hS]
      have hfilter : (List.range mol.bonds.length).filter (fun d =>
            decide ((mol.getBondWithIdx d).bondType = .DOUBLE)
              && decide (S ∈ getBondNeighbors mol d)
              && decide ((mol.getBondWithIdx S).bondType = .SINGLE))
          = (List.range mol.bonds.length).filter (fun D =>
            decide (D ≠ S) && decide ((mol.getBondWithIdx D).bondType = .DOUBLE)
              && (mol.getBondWithIdx S).sharesAtom (mol.getBondWithIdx D)) := by
        refine List.filter_congr (fun d _ => ?_)
        rw [Bool.eq_iff_iff]
        simp only [Bool.and_eq_true, decide_eq_true_eq, mem_getBondNeighbors_iff_shares, hS.1,
          hS.2, true_and, and_true]
        constructor
        · rintro ⟨g1, g2, g3⟩
          exact ⟨⟨fun e => g2 e.symm, g1⟩, g3⟩
        · rintro ⟨⟨g1, g2⟩, g3⟩
          exact ⟨g2, fun e => g1 e.symm, g3⟩
      rw [hfilter]
      rfl
    · rw [if_neg hS]
      have hnil : (List.range mol.bonds.length).filter (fun d =>
            decide ((mol.getBondWithIdx d).bondType = .DOUBLE)
              && decide (S ∈ getBondNeighbors mol d)
              && decide ((mol.getBondWithIdx S).bondType = .SINGLE)) = [] := by
        rw [List.filter_eq_nil_iff]
        intro d _
        simp only [Bool.and_eq_true, decide_eq_true_eq, mem_getBondNeighbors_iff_shares]
        rintro ⟨⟨_, _, g2, _⟩, g3⟩
        exact hS ⟨g2, g3⟩
      rw [hnil]
      rfl
  · have h0 := hsc S
    constructor
    · rintro hz ⟨_, hs, D, hD, hne, hDt, hsh⟩
      exact h0.2 ⟨D, hD, hDt,
        (mem_getBondNeighbors_iff_shares mol D S).2 ⟨fun e => hne e.symm, by assumption, hsh⟩,
        hs⟩ hz
    · intro hno
      by_contra hz
      obtain ⟨D, hD, hDt, hmem, hs⟩ := h0.1 hz
      obtain ⟨hne, hlt, hsh⟩ := (mem_getBondNeighbors_iff_shares mol D S).1 hmem
      exact hno ⟨hlt, hs, D, hD, fun e => hne e.symm, hDt, hsh⟩

/-- Witness of C16 on `chiralAlkene`: the single bond 3 from the center to the
double bond scores 1 + 10 * 4 + 100000 / 10. -/
theorem wavyScore_eq_spec_witness :
    (wavyScore rdkitThresholds chiralAlkene 3 = wavyScoreSpec rdkitThresholds chiralAlkene 3
      ∧ (wavyScore rdkitThresholds chiralAlkene 3 = 0 ↔
        ¬ (3 < chiralAlkene.bonds.length
          ∧ (chiralAlkene.getBondWithIdx 3).bondType = .SINGLE
          ∧ ∃ D, D < chiralAlkene.bonds.length ∧ D ≠ 3
            ∧ (chiralAlkene.getBondWithIdx D).bondType = .DOUBLE
            ∧ (chiralAlkene.getBondWithIdx 3).sharesAtom (chiralAlkene.getBondWithIdx D)
              = true)))
      ∧ wavyScoreSpec rdkitThresholds chiralAlkene 3 = 10041 :=
  ⟨wavyScore_eq_spec rdkitThresholds chiralAlkene 3 (by decide), by decide⟩

end RDKit

namespace RDKit

/-! ## The order of the marking pass -/

theorem tupleLess_total (p q : Int × Nat × Nat) :
    tupleLess q p = false ∨ tupleLess p q = false := by
  simp only [tupleLess, Bool.or_eq_false_iff, Bool.and_eq_false_imp, decide_eq_false_iff_not,
    beq_iff_eq, decide_eq_true_eq]
  omega

theorem tupleLess_trans (p q r : Int × Nat × Nat) (h1 : tupleLess q p = false)
    (h2 : tupleLess r q = false) : tupleLess r p = false := by
  simp only [tupleLess, Bool.or_eq_false_iff, Bool.and_eq_false_imp, decide_eq_false_iff_not,
    beq_iff_eq, decide_eq_true_eq] at *
  omega

theorem tupleLess_of_not_ge (p q : Int × Nat × Nat) (h1 : tupleLess q p = false)
    (h2 : p.2.2 ≠ q.2.2) : tupleLess p q = true := by
  simp only [tupleLess, Bool.or_eq_false_iff, Bool.and_eq_false_imp, decide_eq_false_iff_not,
    beq_iff_eq, decide_eq_true_eq, Bool.or_eq_true, Bool.and_eq_true] at *
  omega

theorem tupleLess_asymm (p q : Int × Nat × Nat) (h1 : tupleLess p q = true) :
    tupleLess q p = false := by
  simp only [tupleLess, Bool.or_eq_false_iff, Bool.and_eq_false_imp, decide_eq_false_iff_not,
    beq_iff_eq, decide_eq_true_eq, Bool.or_eq_true, Bool.and_eq_true] at *
  omega

theorem sortedScores_sorted (mol : ROMol) (t : WavyTables) :
    (sortedScores mol t).Pairwise (fun p q => tupleLess q p = false) := by
  unfold sortedScores
  haveI : IsTotal (Int × Nat × Nat) (fun p q => tupleLess q p = false) :=
    ⟨fun p q => tupleLess_total p q⟩
  haveI : IsTrans (Int × Nat × Nat) (fun p q => tupleLess q p = false) :=
    ⟨fun p q r h1 h2 => tupleLess_trans p q r h1 h2⟩
  exact List.sorted_insertionSort _ _

theorem sortedScores_map_perm (mol : ROMol) (t : WavyTables) :
    ((sortedScores mol t).map fun tpl => tpl.2.2).Perm
      ((List.range mol.bonds.length).filter fun s => decide (t.singleBondScores s ≠ 0)) := by
  have key : ∀ l : List Nat,
      ((l.filterMap fun i =>
          if t.singleBondScores i = 0 then none
          else some (-((t.singleBondNeighbors i).length : Int), t.singleBondScores i, i)).map
        fun tpl => tpl.2.2)
        = l.filter fun s => decide (t.singleBondScores s ≠ 0) := by
    intro l
    induction l with
    | nil => rfl
    | cons x rest ih =>
      by_cases hx : t.singleBondScores x = 0
      · simp only [List.filterMap_cons, hx, if_true, List.filter_cons, ne_eq, not_true_eq_false,
          decide_False, Bool.false_eq_true, if_false]
        exact ih
      · simp only [List.filterMap_cons, hx, if_false, List.map_cons, List.filter_cons, ne_eq,
          not_false_eq_true, decide_True, if_true, List.cons.injEq, true_and]
        exact ih
  unfold sortedScores
  rw [← key]
  exact (List.perm_insertionSort _ _).map _

/-- In a simple graph the first component of a candidate tuple is minus the
number of STEREOANY double bonds next to the candidate. -/
theorem sortedScores_key (th : StereoBondThresholds) (mol : ROMol)
    (hsimple : mol.isSimpleGraph = true) (t : WavyTables) (ht : wavyTables th mol = .ok t)
    (tpl : Int × Nat × Nat) (h : tpl ∈ sortedScores mol t) :
    tpl = visitKey th mol tpl.2.2 := by
  obtain ⟨t1, ht1, _, _, hsc⟩ := wavyTables_spec th mol
  rw [ht] at ht1
  simp only [Except.ok.injEq] at ht1
  subst ht1
  obtain ⟨_, hn⟩ := wavyTables_exact th mol hsimple t ht
  obtain ⟨_, hnz, h1, h2⟩ := (mem_sortedScores mol t tpl).1 h
  obtain ⟨_, _, _, _, hsingle⟩ := (hsc tpl.2.2).1 hnz
  obtain ⟨a, b, i⟩ := tpl
  simp only at hnz h1 h2 hsingle
  unfold visitKey
  rw [wavyScore_eq th mol t ht, ← h1]
  have hcount : (t.singleBondNeighbors i).length = adjacentAnyCount mol i := by
    rw [hn i]
    unfold adjacentAnyCount anyDoubleBonds
    rw [List.filter_filter]
    congr 1
    refine List.filter_congr (fun d _ => ?_)
    simp only [hsingle, decide_True, Bool.and_true]
    exact Bool.and_comm _ _
  rw [h2, hcount]

theorem sublist_pair_of_pairwise {α : Type} (R : α → α → Prop)
    (hasymm : ∀ a b, R a b → ¬ R b a) (l : List α) (hp : l.Pairwise R) (i j : α)
    (hi : i ∈ l) (hj : j ∈ l) (hij : R i j) : List.Sublist [i, j] l := by
  induction l with
  | nil => exact absurd hi (List.not_mem_nil _)
  | cons x rest ih =>
    obtain ⟨hx, hrest⟩ := List.pairwise_cons.1 hp
    have hne : i ≠ j := by
      intro e
      subst e
      exact hasymm i i hij hij
    by_cases hxi : x = i
    · subst hxi
      have hjr : j ∈ rest := by
        rcases List.mem_cons.1 hj with e | e
        · exact absurd e.symm hne
        · exact e
      exact (List.singleton_sublist.2 hjr).cons₂ x
    · have hir : i ∈ rest := by
        rcases List.mem_cons.1 hi with e | e
        · exact absurd e.symm hxi
        · exact e
      have hjr : j ∈ rest := by
        rcases List.mem_cons.1 hj with e | e
        · subst e
          exact absurd (hx i hir) (hasymm i j hij)
        · exact e
      exact (ih hrest hir hjr).cons x

theorem foldl_map_congr {α β γ : Type} (f : γ → β → γ) (g : γ → α → γ) (k : α → β)
    (l : List α) (init : γ) (h : ∀ x ∈ l, ∀ acc, g acc x = f acc (k x)) :
    l.foldl g init = (l.map k).foldl f init := by
  induction l generalizing init with
  | nil => rfl
  | cons x rest ih =>
    simp only [List.foldl_cons, List.map_cons]
    rw [h x (List.mem_cons_self _ _), ih _ (fun y hy => h y (List.mem_cons_of_mem _ hy))]

/-- C17: in a simple graph the marking pass visits the candidate single bonds
(those of non-zero score), each once, in strictly ascending lexicographic order
of (minus the number of adjacent STEREOANY double bonds, score, bond index);
among candidates of equal count and score the one of smaller index comes
first; the result of the routine is the fold of the visits over that order. -/
theorem addWavyBondsForStereoAny_visit_order (th : StereoBondThresholds) (mol : ROMol)
    (c : Bool) (T : Nat) (hsimple : mol.isSimpleGraph = true) :
    (visitOrder th mol).Perm
        ((List.range mol.bonds.length).filter fun s => decide (wavyScore th mol s ≠ 0))
      ∧ (visitOrder th mol).Pairwise
          (fun i j => tupleLess (visitKey th mol i) (visitKey th mol j) = true)
      ∧ (∀ i j, i ∈ visitOrder th mol → j ∈ visitOrder th mol →
          adjacentAnyCount mol i = adjacentAnyCount mol j →
          wavyScore th mol i = wavyScore th mol j → i < j →
          List.Sublist [i, j] (visitOrder th mol))
      ∧ ∃ t, wavyTables th mol = .ok t
          ∧ addWavyBondsForStereoAny th mol c T
            = .ok ((visitOrder th mol).foldl
                (fun st s => wavyInner c T (wavyScore th mol s) s (t.singleBondNeighbors s) st)
                (mol, t.doubleBondsToSet)).1 := by
  obtain ⟨t, ht, _⟩ := wavyTables_spec th mol
  have hvo : visitOrder th mol = (sortedScores mol t).map fun tpl => tpl.2.2 := by
    simp [visitOrder, ht]
  have hperm : (visitOrder th mol).Perm
      ((List.range mol.bonds.length).filter fun s => decide (wavyScore th mol s ≠ 0)) := by
    rw [hvo]
    have hfun : (fun s => decide (wavyScore th mol s ≠ 0))
        = fun s => decide (t.singleBondScores s ≠ 0) := by
      funext s
      rw [wavyScore_eq th mol t ht]
    rw [hfun]
    exact sortedScores_map_perm mol t
  have hnd : (visitOrder th mol).Nodup :=
    hperm.nodup_iff.2 ((List.nodup_range _).filter _)
  have hpw : (visitOrder th mol).Pairwise
      (fun i j => tupleLess (visitKey th mol i) (visitKey th mol j) = true) := by
    have h1 : (sortedScores mol t).Pairwise (fun p q => p.2.2 ≠ q.2.2) := by
      rw [hvo] at hnd
      exact List.pairwise_map.1 hnd
    rw [hvo, List.pairwise_map]
    refine List.Pairwise.imp_of_mem ?_ ((sortedScores_sorted mol t).and h1)
    intro p q hp hq hpq
    rw [← sortedScores_key th mol hsimple t ht p hp, ← sortedScores_key th mol hsimple t ht q hq]
    exact tupleLess_of_not_ge p q hpq.1 hpq.2
  refine ⟨hperm, hpw, ?_, t, ht, ?_⟩
  · intro i j hi hj hc hs hij
    refine sublist_pair_of_pairwise _ ?_ _ hpw i j hi hj ?_
    · intro a b hab hba
      rw [tupleLess_asymm _ _ hab] at hba
      exact Bool.noConfusion hba
    · simp only [visitKey, tupleLess, hc, hs, Bool.or_eq_true, decide_eq_true_eq,
        Bool.and_eq_true, beq_iff_eq]
      right
      exact ⟨trivial, Or.inr ⟨trivial, hij⟩⟩
  · rw [addWavyBondsForStereoAny_eq th mol c T t ht, hvo]
    unfold wavyOuter
    congr 2
    refine foldl_map_congr _ _ _ _ _ (fun tpl htpl acc => ?_)
    rw [wavyScore_eq th mol t ht, ((mem_sortedScores mol t tpl).1 htpl).2.2.1]

/-- Witness of C17 on `tetramethylethene`: the four single bonds tie on count
and score and are visited in the order of their indices. -/
theorem addWavyBondsForStereoAny_visit_order_witness :
    ((visitOrder rdkitThresholds tetramethylethene).Perm
        ((List.range tetramethylethene.bonds.length).filter fun s =>
          decide (wavyScore rdkitThresholds tetramethylethene s ≠ 0))
      ∧ (visitOrder rdkitThresholds tetramethylethene).Pairwise
          (fun i j => tupleLess (visitKey rdkitThresholds tetramethylethene i)
            (visitKey rdkitThresholds tetramethylethene j) = true)
      ∧ (∀ i j, i ∈ visitOrder rdkitThresholds tetramethylethene →
          j ∈ visitOrder rdkitThresholds tetramethylethene →
          adjacentAnyCount tetramethylethene i = adjacentAnyCount tetramethylethene j →
          wavyScore rdkitThresholds tetramethylethene i
            = wavyScore rdkitThresholds tetramethylethene j → i < j →
          List.Sublist [i, j] (visitOrder rdkitThresholds tetramethylethene))
      ∧ ∃ t, wavyTables rdkitThresholds tetramethylethene = .ok t
          ∧ addWavyBondsForStereoAny rdkitThresholds tetramethylethene true 1000
            = .ok ((visitOrder rdkitThresholds tetramethylethene).foldl
                (fun st s => wavyInner true 1000 (wavyScore rdkitThresholds tetramethylethene s)
                  s (t.singleBondNeighbors s) st)
                (tetramethylethene, t.doubleBondsToSet)).1)
      ∧ visitOrder rdkitThresholds tetramethylethene = [0, 1, 3, 4] :=
  ⟨addWavyBondsForStereoAny_visit_order rdkitThresholds tetramethylethene true 1000
    (by decide), by decide⟩

end RDKit

namespace RDKit

/-! ## A single bond next to every STEREOANY double bond -/

theorem wavyInner_of_all_false (c : Bool) (T sc sb : Nat) (ds : List Nat)
    (st : ROMol × (Nat → Bool)) (h : ∀ x, st.2 x = false) :
    wavyInner c T sc sb ds st = st := by
  induction ds with
  | nil => rfl
  | cons x rest ih =>
    rw [wavyInner_cons, wavyStep_skip c T sc sb st x (Or.inl (h x))]
    exact ih

theorem wavyOuter_of_all_false (c : Bool) (T : Nat) (nbrs : Nat → List Nat)
    (l : List (Int × Nat × Nat)) (st : ROMol × (Nat → Bool)) (h : ∀ x, st.2 x = false) :
    wavyOuter c T nbrs l st = st := by
  induction l with
  | nil => rfl
  | cons tpl rest ih =>
    rw [wavyOuter_cons, wavyInner_of_all_false c T _ _ _ st h]
    exact ih

/-- A turn keeps a direction UNKNOWN, and a turn that marks sets it on its
single bond. -/
theorem wavyStep_unknown (c : Bool) (T sc sb : Nat) (st : ROMol × (Nat → Bool)) (x s : Nat)
    (h : (st.1.getBondWithIdx s).bondDir = .UNKNOWN
      ∨ (s = sb ∧ sb < st.1.bonds.length ∧ st.2 x = true ∧ ¬ (T ≠ 0 ∧ sc > T))) :
    ((wavyStep c T sc sb st x).1.getBondWithIdx s).bondDir = .UNKNOWN := by
  rcases wavyStep_cases c T sc sb st x with h1 | ⟨_, _, h1⟩
  · rw [h1]
    rcases h with h | ⟨_, _, h2, h3⟩
    · exact h
    · have hskip : wavyStep c T sc sb st x = (if c then
          clearDoubleBond (st.1.setBondDir sb .UNKNOWN) x
          else st.1.setBondDir sb .UNKNOWN, Function.update st.2 x false) :=
        wavyStep_mark c T sc sb st x h2 h3
      rw [hskip] at h1
      have := congrArg (fun p => p.2 x) h1
      simp only [Function.update_same] at this
      rw [h2] at this
      exact Bool.noConfusion this
  · rw [h1]
    have hs1 : ((st.1.setBondDir sb .UNKNOWN).getBondWithIdx s).bondDir = .UNKNOWN := by
      rw [bondDir_setBondDir]
      split_ifs with h4
      · rfl
      · rcases h with h | ⟨e, hlt, _, _⟩
        · exact h
        · exact absurd ⟨e, hlt⟩ h4
    cases c
    · exact hs1
    · simp only [if_true]
      rw [bondDir_clearDoubleBond]
      split_ifs with h4
      · obtain ⟨h5, _, h6⟩ := h4
        rw [h5, h6] at hs1
        cases hs1
      · exact hs1

theorem wavyInner_keeps_unknown (c : Bool) (T sc sb : Nat) (ds : List Nat)
    (st : ROMol × (Nat → Bool)) (s : Nat) (h : (st.1.getBondWithIdx s).bondDir = .UNKNOWN) :
    ((wavyInner c T sc sb ds st).1.getBondWithIdx s).bondDir = .UNKNOWN := by
  induction ds generalizing st with
  | nil => exact h
  | cons x rest ih =>
    rw [wavyInner_cons]
    exact ih _ (wavyStep_unknown c T sc sb st x s (Or.inl h))

/-- A visit that the threshold admits and that meets a double bond still to be
set marks its single bond. -/
theorem wavyInner_marks (c : Bool) (T sc sb : Nat) (ds : List Nat)
    (st : ROMol × (Nat → Bool)) (hsb : sb < st.1.bonds.length) (hT : ¬ (T ≠ 0 ∧ sc > T))
    (h : ∃ x ∈ ds, st.2 x = true) :
    ((wavyInner c T sc sb ds st).1.getBondWithIdx sb).bondDir = .UNKNOWN := by
  induction ds generalizing st with
  | nil =>
    obtain ⟨x, hx, _⟩ := h
    exact absurd hx (List.not_mem_nil _)
  | cons x rest ih =>
    rw [wavyInner_cons]
    by_cases hx : st.2 x = true
    · exact wavyInner_keeps_unknown c T sc sb rest _ sb
        (wavyStep_unknown c T sc sb st x sb (Or.inr ⟨rfl, hsb, hx, hT⟩))
    · have hskip := wavyStep_skip c T sc sb st x (Or.inl (by simpa using hx))
      rw [hskip]
      obtain ⟨y, hy, hyt⟩ := h
      rcases List.mem_cons.1 hy with e | e
      · subst e
        exact absurd hyt hx
      · exact ih st hsb ⟨y, e, hyt⟩

theorem mem_anyDoubleBonds (mol : ROMol) (D : Nat) :
    D ∈ anyDoubleBonds mol ↔
      D < mol.bonds.length ∧ (mol.getBondWithIdx D).bondType = .DOUBLE
        ∧ (mol.getBondWithIdx D).stereo = .STEREOANY := by
  simp [anyDoubleBonds, List.mem_filter]

theorem singleBondNeighbors_length (th : StereoBondThresholds) (mol : ROMol)
    (hsimple : mol.isSimpleGraph = true) (t : WavyTables) (ht : wavyTables th mol = .ok t)
    (s : Nat) (hs : (mol.getBondWithIdx s).bondType = .SINGLE) :
    (t.singleBondNeighbors s).length = adjacentAnyCount mol s := by
  obtain ⟨_, hn⟩ := wavyTables_exact th mol hsimple t ht
  rw [hn s]
  unfold adjacentAnyCount anyDoubleBonds
  rw [List.filter_filter]
  congr 1
  refine List.filter_congr (fun d _ => ?_)
  simp only [hs, decide_True, Bool.and_true]
  exact Bool.and_comm _ _

theorem adjacentAnyCount_le (mol : ROMol) (s : Nat) :
    adjacentAnyCount mol s ≤ (anyDoubleBonds mol).length :=
  List.length_filter_le _ _

theorem adjacentAnyCount_eq_iff (mol : ROMol) (s : Nat) :
    adjacentAnyCount mol s = (anyDoubleBonds mol).length ↔
      ∀ D ∈ anyDoubleBonds mol, s ∈ getBondNeighbors mol D := by
  unfold adjacentAnyCount
  constructor
  · intro h D hD
    by_contra hne
    have hlt : ((anyDoubleBonds mol).filter fun D =>
        decide (s ∈ getBondNeighbors mol D)).length < (anyDoubleBonds mol).length :=
      List.length_filter_lt_length_iff_exists.2 ⟨D, hD, by simpa using hne⟩
    omega
  · intro h
    rw [List.filter_eq_self.2 (fun D hD => by simpa using h D hD)]

theorem sortedScores_head (mol : ROMol) (t : WavyTables) (p : Int × Nat × Nat)
    (rest : List (Int × Nat × Nat)) (h : sortedScores mol t = p :: rest) :
    ∀ q ∈ sortedScores mol t, tupleLess q p = false := by
  have hs := sortedScores_sorted mol t
  rw [h] at hs ⊢
  intro q hq
  rcases List.mem_cons.1 hq with e | e
  · subst e
    rcases tupleLess_total q q with h1 | h1 <;> exact h1
  · exact (List.pairwise_cons.1 hs).1 q e

theorem tupleLess_false (q p : Int × Nat × Nat) (h : tupleLess q p = false) :
    p.1 ≤ q.1 ∧ (p.1 = q.1 → p.2.1 ≤ q.2.1 ∧ (p.2.1 = q.2.1 → p.2.2 ≤ q.2.2)) := by
  obtain ⟨a, b, i⟩ := q
  obtain ⟨a1, b1, i1⟩ := p
  simp only [tupleLess, Bool.or_eq_false_iff, decide_eq_false_iff_not, Bool.and_eq_false_iff,
    beq_eq_false_iff_ne, ne_eq, not_lt] at h
  obtain ⟨h1, h2⟩ := h
  refine ⟨h1, fun e => ?_⟩
  simp only at e
  rcases h2 with h2 | ⟨h3, h4⟩
  · exact absurd e.symm h2
  · refine ⟨h3, fun e1 => ?_⟩
    simp only at e1
    rcases h4 with h4 | h4
    · exact absurd e1.symm h4
    · exact h4

/-- C12: in a simple graph with at least one STEREOANY double bond, when some
single bond `s0` within the threshold is adjacent to every STEREOANY double
bond, the routine returns, and there is a single bond `m` adjacent to every
STEREOANY double bond, of least (score, bond index) among the single bonds
adjacent to all of them, whose direction is set to UNKNOWN while every other
single bond is returned as it was. -/
theorem addWavyBondsForStereoAny_marks_one (th : StereoBondThresholds) (mol : ROMol)
    (c : Bool) (T s0 : Nat) (hsimple : mol.isSimpleGraph = true)
    (hany : anyDoubleBonds mol ≠ [])
    (hs0t : (mol.getBondWithIdx s0).bondType = .SINGLE)
    (hs0 : ∀ D ∈ anyDoubleBonds mol, s0 ∈ getBondNeighbors mol D)
    (hT : T = 0 ∨ wavyScore th mol s0 ≤ T) :
    ∃ fin m, addWavyBondsForStereoAny th mol c T = .ok fin
      ∧ (mol.getBondWithIdx m).bondType = .SINGLE
      ∧ (∀ D ∈ anyDoubleBonds mol, m ∈ getBondNeighbors mol D)
      ∧ (∀ s, (mol.getBondWithIdx s).bondType = .SINGLE →
          (∀ D ∈ anyDoubleBonds mol, s ∈ getBondNeighbors mol D) →
          wavyScore th mol m ≤ wavyScore th mol s
            ∧ (wavyScore th mol m = wavyScore th mol s → m ≤ s))
      ∧ (fin.getBondWithIdx m).bondDir = .UNKNOWN
      ∧ (∀ j, j ≠ m → (mol.getBondWithIdx j).bondType = .SINGLE →
          fin.getBondWithIdx j = mol.getBondWithIdx j) := by
  obtain ⟨t, ht, hS2, hS3, hsc⟩ := wavyTables_spec th mol
  obtain ⟨D0, hD0⟩ := List.exists_mem_of_ne_nil _ hany
  obtain ⟨hD0lt, hD0t, hD0s⟩ := (mem_anyDoubleBonds mol D0).1 hD0
  -- every single bond adjacent to all STEREOANY double bonds is a candidate
  have hcand : ∀ s, (mol.getBondWithIdx s).bondType = .SINGLE →
      (∀ D ∈ anyDoubleBonds mol, s ∈ getBondNeighbors mol D) →
      (-((anyDoubleBonds mol).length : Int), t.singleBondScores s, s) ∈ sortedScores mol t := by
    intro s hst hs
    rw [mem_sortedScores]
    refine ⟨((mem_getBondNeighbors mol D0 s).1 (hs D0 hD0)).2.1,
      (hsc s).2 ⟨D0, hD0lt, hD0t, hs D0 hD0, hst⟩, rfl, ?_⟩
    show -((anyDoubleBonds mol).length : Int) = -((t.singleBondNeighbors s).length : Int)
    rw [singleBondNeighbors_length th mol hsimple t ht s hst,
      (adjacentAnyCount_eq_iff mol s).2 hs]
  have h0 := hcand s0 hs0t hs0
  cases hss : sortedScores mol t with
  | nil =>
    rw [hss] at h0
    exact absurd h0 (List.not_mem_nil _)
  | cons p rest =>
    have hp : p ∈ sortedScores mol t := by
      rw [hss]
      exact List.mem_cons_self _ _
    obtain ⟨hplt, hpnz, hpsc, hpcnt⟩ := (mem_sortedScores mol t p).1 hp
    obtain ⟨_, _, _, _, hmt⟩ := (hsc p.2.2).1 hpnz
    have hmin := sortedScores_head mol t p rest hss
    have hlen := singleBondNeighbors_length th mol hsimple t ht p.2.2 hmt
    have hle := adjacentAnyCount_le mol p.2.2
    -- the first candidate is adjacent to every STEREOANY double bond
    have hcnt : adjacentAnyCount mol p.2.2 = (anyDoubleBonds mol).length := by
      have h1 := (tupleLess_false _ _ (hmin _ h0)).1
      rw [hpcnt, hlen] at h1
      simp only at h1
      omega
    have hall := (adjacentAnyCount_eq_iff mol p.2.2).1 hcnt
    have hp1 : p.1 = -((anyDoubleBonds mol).length : Int) := by
      rw [hpcnt, hlen, hcnt]
    have hleast : ∀ s, (mol.getBondWithIdx s).bondType = .SINGLE →
        (∀ D ∈ anyDoubleBonds mol, s ∈ getBondNeighbors mol D) →
        t.singleBondScores p.2.2 ≤ t.singleBondScores s
          ∧ (t.singleBondScores p.2.2 = t.singleBondScores s → p.2.2 ≤ s) := by
      intro s hst hs
      have h1 := (tupleLess_false _ _ (hmin _ (hcand s hst hs))).2 hp1
      rw [hpsc] at h1
      exact h1
    have hTm : ¬ (T ≠ 0 ∧ p.2.1 > T) := by
      rintro ⟨h1, h2⟩
      rcases hT with e | e
      · exact h1 e
      · rw [wavyScore_eq th mol t ht] at e
        have := (hleast s0 hs0t hs0).1
        omega
    -- after the first visit no double bond is left to set
    have hdone : ∀ x, (wavyInner c T p.2.1 p.2.2 (t.singleBondNeighbors p.2.2)
        (mol, t.doubleBondsToSet)).2 x = false := by
      intro x
      by_contra hne
      have hx : (wavyInner c T p.2.1 p.2.2 (t.singleBondNeighbors p.2.2)
          (mol, t.doubleBondsToSet)).2 x = true := by simpa using hne
      have hx0 := wavyInner_mono c T p.2.1 p.2.2 _ _ x hx
      obtain ⟨g1, g2, g3⟩ := (hS2 x).1 hx0
      have hxm : x ∈ t.singleBondNeighbors p.2.2 :=
        (hS3 p.2.2 x).2 ⟨g1, g2, g3, hall x ((mem_anyDoubleBonds mol x).2 ⟨g1, g2, g3⟩), hmt⟩
      rw [wavyInner_reset c T p.2.1 p.2.2 _ _ x hTm hxm] at hx
      exact Bool.noConfusion hx
    have hfin : addWavyBondsForStereoAny th mol c T
        = .ok (wavyInner c T p.2.1 p.2.2 (t.singleBondNeighbors p.2.2)
            (mol, t.doubleBondsToSet)).1 := by
      rw [addWavyBondsForStereoAny_eq th mol c T t ht, hss, wavyOuter_cons,
        wavyOuter_of_all_false c T _ rest _ hdone]
    refine ⟨_, p.2.2, hfin, hmt, hall, fun s hst hs => ?_, ?_, fun j hj hjt => ?_⟩
    · rw [wavyScore_eq th mol t ht, wavyScore_eq th mol t ht]
      exact hleast s hst hs
    · exact wavyInner_marks c T p.2.1 p.2.2 _ (mol, t.doubleBondsToSet) hplt hTm
        ⟨D0, (hS3 p.2.2 D0).2 ⟨hD0lt, hD0t, hD0s, hall D0 hD0, hmt⟩,
          (hS2 D0).2 ⟨hD0lt, hD0t, hD0s⟩⟩
    · refine wavyInner_frame c T p.2.1 p.2.2 _ (mol, t.doubleBondsToSet) j
        (Or.inr ⟨hj, fun hmem => ?_⟩)
      have := ((hS3 p.2.2 j).1 hmem).2.1
      rw [hjt] at this
      cases this

/-- Witness of C12 on `branchedTriene`, the molecule of the test "multiple
bonds to wedge": the single bond 8 lies between the two STEREOANY double bonds
5 and 9 and has score 52. -/
theorem addWavyBondsForStereoAny_marks_one_witness :
    (branchedTriene.isSimpleGraph = true ∧ anyDoubleBonds branchedTriene = [5, 9]
      ∧ wavyScore rdkitThresholds branchedTriene 8 = 52)
    ∧ ∃ fin m, addWavyBondsForStereoAny rdkitThresholds branchedTriene true 1000 = .ok fin
      ∧ (branchedTriene.getBondWithIdx m).bondType = .SINGLE
      ∧ (∀ D ∈ anyDoubleBonds branchedTriene, m ∈ getBondNeighbors branchedTriene D)
      ∧ (∀ s, (branchedTriene.getBondWithIdx s).bondType = .SINGLE →
          (∀ D ∈ anyDoubleBonds branchedTriene, s ∈ getBondNeighbors branchedTriene D) →
          wavyScore rdkitThresholds branchedTriene m ≤ wavyScore rdkitThresholds branchedTriene s
            ∧ (wavyScore rdkitThresholds branchedTriene m
                = wavyScore rdkitThresholds branchedTriene s → m ≤ s))
      ∧ (fin.getBondWithIdx m).bondDir = .UNKNOWN
      ∧ (∀ j, j ≠ m → (branchedTriene.getBondWithIdx j).bondType = .SINGLE →
          fin.getBondWithIdx j = branchedTriene.getBondWithIdx j) :=
  ⟨⟨by decide, by decide, by decide⟩,
    addWavyBondsForStereoAny_marks_one rdkitThresholds branchedTriene true 1000 8
      (by decide) (by decide) (by decide) (by decide) (Or.inr (by decide))⟩

end RDKit

namespace RDKit

/-! ## The rank of the centers and the order of their turns -/

theorem markWedged_eq_iff (mol : ROMol) (bs : List Bond) (n : Nat → Int) (a : Nat) :
    markWedged mol bs n a = noNbrs + 1 ↔
      n a = noNbrs + 1
        ∨ (mol.isCenter a = true ∧ ∃ bond ∈ bs, bond.bondDir.isWedged = true
            ∧ (bond.beginAtomIdx = a
              ∨ (bond.endAtomIdx = a ∧ mol.isCenter bond.beginAtomIdx = false))) := by
  induction bs generalizing n with
  | nil => simp [markWedged]
  | cons bond rest ih =>
    unfold markWedged
    by_cases hw : bond.bondDir.isWedged = true
    · rw [if_pos hw]
      by_cases hb : mol.isCenter bond.beginAtomIdx = true
      · rw [if_pos hb, ih]
        by_cases e : a = bond.beginAtomIdx
        · subst e
          simp only [Function.update_same, true_or, true_iff]
          exact Or.inr ⟨hb, bond, List.mem_cons_self _ _, hw, Or.inl rfl⟩
        · rw [Function.update_noteq e]
          constructor
          · rintro (h | ⟨h1, b1, hb1, h2, h3⟩)
            · exact Or.inl h
            · exact Or.inr ⟨h1, b1, List.mem_cons_of_mem _ hb1, h2, h3⟩
          · rintro (h | ⟨h1, b1, hb1, h2, h3⟩)
            · exact Or.inl h
            · rcases List.mem_cons.1 hb1 with e1 | e1
              · subst e1
                rcases h3 with h3 | ⟨_, h3⟩
                · exact absurd h3.symm e
                · rw [hb] at h3
                  exact Bool.noConfusion h3
              · exact Or.inr ⟨h1, b1, e1, h2, h3⟩
      · rw [if_neg hb]
        have hbf : mol.isCenter bond.beginAtomIdx = false := by simpa using hb
        by_cases he : mol.isCenter bond.endAtomIdx = true
        · rw [if_pos he, ih]
          by_cases e : a = bond.endAtomIdx
          · subst e
            simp only [Function.update_same, true_or, true_iff]
            exact Or.inr ⟨he, bond, List.mem_cons_self _ _, hw, Or.inr ⟨rfl, hbf⟩⟩
          · rw [Function.update_noteq e]
            constructor
            · rintro (h | ⟨h1, b1, hb1, h2, h3⟩)
              · exact Or.inl h
              · exact Or.inr ⟨h1, b1, List.mem_cons_of_mem _ hb1, h2, h3⟩
            · rintro (h | ⟨h1, b1, hb1, h2, h3⟩)
              · exact Or.inl h
              · rcases List.mem_cons.1 hb1 with e1 | e1
                · subst e1
                  rcases h3 with h3 | ⟨h3, _⟩
                  · rw [h3] at hb
                    exact absurd h1 hb
                  · exact absurd h3.symm e
                · exact Or.inr ⟨h1, b1, e1, h2, h3⟩
        · rw [if_neg he, ih]
          constructor
          · rintro (h | ⟨h1, b1, hb1, h2, h3⟩)
            · exact Or.inl h
            · exact Or.inr ⟨h1, b1, List.mem_cons_of_mem _ hb1, h2, h3⟩
          · rintro (h | ⟨h1, b1, hb1, h2, h3⟩)
            · exact Or.inl h
            · rcases List.mem_cons.1 hb1 with e1 | e1
              · subst e1
                rcases h3 with h3 | ⟨h3, _⟩
                · rw [h3] at hb
                  exact absurd h1 hb
                · rw [h3] at he
                  exact absurd h1 he
              · exact Or.inr ⟨h1, b1, e1, h2, h3⟩
    · rw [if_neg hw, ih]
      constructor
      · rintro (h | ⟨h1, b1, hb1, h2, h3⟩)
        · exact Or.inl h
        · exact Or.inr ⟨h1, b1, List.mem_cons_of_mem _ hb1, h2, h3⟩
      · rintro (h | ⟨h1, b1, hb1, h2, h3⟩)
        · exact Or.inl h
        · rcases List.mem_cons.1 hb1 with e1 | e1
          · subst e1
            exact absurd h2 hw
          · exact Or.inr ⟨h1, b1, e1, h2, h3⟩

/-- The first loop marks exactly the already wedged centers. -/
theorem markWedged_alreadyWedged (mol : ROMol) (a : Nat) :
    markWedged mol mol.bonds (fun _ => noNbrs) a > noNbrs ↔ alreadyWedged mol a = true := by
  have hiff := markWedged_eq_iff mol mol.bonds (fun _ => noNbrs) a
  have hcases := markWedged_cases mol mol.bonds (fun _ => noNbrs) a
  have h100 : ¬ ((fun _ : Nat => noNbrs) a = noNbrs + 1) := by simp
  have hgt : markWedged mol mol.bonds (fun _ => noNbrs) a > noNbrs ↔
      markWedged mol mol.bonds (fun _ => noNbrs) a = noNbrs + 1 := by
    rcases hcases with h | ⟨h, _⟩
    · rw [h]
      simp [noNbrs]
    · rw [h]
      simp
  rw [hgt, hiff]
  simp only [h100, false_or, alreadyWedged, Bool.and_eq_true, List.any_eq_true, Bool.or_eq_true,
    beq_iff_eq, Bool.not_eq_true', and_congr_right_iff]

/-- The processable centers are the tagged centers that are not already
wedged. -/
theorem isProcessable_iff_not_wedged (mol : ROMol) (a : Nat) :
    isProcessable mol a = true ↔ (mol.isCenter a = true ∧ alreadyWedged mol a = false) := by
  have hw := markWedged_alreadyWedged mol a
  unfold isProcessable
  simp only [Bool.and_eq_true, decide_eq_true_eq, Bool.not_eq_true', decide_eq_false_iff_not]
  constructor
  · rintro ⟨⟨_, h2⟩, h3⟩
    refine ⟨h2, ?_⟩
    by_contra hne
    exact h3 (hw.2 (by simpa using hne))
  · rintro ⟨h1, h2⟩
    refine ⟨⟨isCenter_lt mol a h1, h1⟩, fun h3 => ?_⟩
    rw [hw.1 h3] at h2
    exact Bool.noConfusion h2

theorem rank_processable (mol : ROMol) (a : Nat) (h : isProcessable mol a = true) :
    nChiralNbrs mol a = rankSpec mol a := by
  rcases nChiralNbrs_cases mol a with h1 | h1 | h1
  · rw [h1.2.2.2, countChiralNbrs_eq]
    unfold rankSpec hydrogenNbrs taggedNbrs
    ring
  · rw [h1.1] at h
    exact Bool.noConfusion h
  · rw [h1.1] at h
    exact Bool.noConfusion h

theorem rank_untagged (mol : ROMol) (a : Nat) (h : mol.isCenter a = false) :
    nChiralNbrs mol a = 100 := by
  rcases nChiralNbrs_cases mol a with h1 | h1 | h1
  · rw [h1.2.2.1] at h
    exact Bool.noConfusion h
  · exact h1.2.1
  · rw [h1.2.2] at h
    exact Bool.noConfusion h

theorem rank_wedged (mol : ROMol) (a : Nat) (h : alreadyWedged mol a = true) :
    nChiralNbrs mol a = 101 := by
  have hc : mol.isCenter a = true := by
    unfold alreadyWedged at h
    exact (Bool.and_eq_true _ _ ▸ h).1
  rcases nChiralNbrs_cases mol a with h1 | h1 | h1
  · rw [((isProcessable_iff_not_wedged mol a).1 h1.1).2] at h
    exact Bool.noConfusion h
  · rw [h1.2.2] at hc
    exact Bool.noConfusion hc
  · rw [h1.2.1]
    rfl

theorem centersInOrder_sorted (mol : ROMol) :
    (centersInOrder mol).Pairwise (fun i j => nChiralNbrs mol i ≤ nChiralNbrs mol j) := by
  unfold centersInOrder sortedIndices
  split_ifs with hchi
  · refine List.Pairwise.filter _ ?_
    haveI : IsTotal Nat (fun i j => nChiralNbrs mol i ≤ nChiralNbrs mol j) :=
      ⟨fun i j => le_total _ _⟩
    haveI : IsTrans Nat (fun i j => nChiralNbrs mol i ≤ nChiralNbrs mol j) :=
      ⟨fun i j k h1 h2 => le_trans h1 h2⟩
    exact List.sorted_insertionSort _ _
  · have hnil : (List.range mol.getNumAtoms).filter
        (fun i => decide (nChiralNbrs mol i ≤ 0)) = [] := by
      rw [List.filter_eq_nil_iff]
      intro a ha hle
      have hp := (isProcessable_iff mol a).2 (by simpa using hle)
      have hf : (rankAtoms mol (List.range mol.getNumAtoms)
          (markWedged mol mol.bonds (fun _ => noNbrs), false)).2 = false := by
        simpa [rankState] using hchi
      rcases rankAtoms_snd mol _ _ _ hf a ha with h1 | h1
      · have : alreadyWedged mol a = true := (markWedged_alreadyWedged mol a).1 h1
        rw [((isProcessable_iff_not_wedged mol a).1 hp).2] at this
        exact Bool.noConfusion this
      · rw [((isProcessable_iff_not_wedged mol a).1 hp).1] at h1
        exact Bool.noConfusion h1
    rw [hnil]
    exact List.Pairwise.nil

theorem centersInOrder_nodup (mol : ROMol) : (centersInOrder mol).Nodup :=
  (centersInOrder_perm mol).nodup_iff.2 ((List.nodup_range _).filter _)

theorem mem_centersInOrder (mol : ROMol) (a : Nat) :
    a ∈ centersInOrder mol ↔ isProcessable mol a = true := by
  rw [(centersInOrder_perm mol).mem_iff, List.mem_filter, List.mem_range]
  constructor
  · exact fun h => h.2
  · intro h
    exact ⟨isCenter_lt mol a ((isProcessable_iff_not_wedged mol a).1 h).1, h⟩

theorem split_of_pairwise {α : Type} (p : α → Bool) (l : List α)
    (h : l.Pairwise (fun i j => p j = true → p i = true)) :
    l = l.filter p ++ l.filter (fun i => !p i) := by
  induction l with
  | nil => rfl
  | cons x rest ih =>
    obtain ⟨hx, hrest⟩ := List.pairwise_cons.1 h
    by_cases hpx : p x = true
    · rw [List.filter_cons_of_pos hpx, List.filter_cons_of_neg (by simp [hpx]), List.cons_append,
        ← ih hrest]
    · have hnone : rest.filter p = [] := by
        rw [List.filter_eq_nil_iff]
        intro y hy hpy
        exact hpx (hx y hy hpy)
      rw [List.filter_cons_of_neg hpx, hnone, List.filter_cons_of_pos (by simp [hpx]),
        List.nil_append]
      congr 1
      have := ih hrest
      rw [hnone, List.nil_append] at this
      exact this

/-- In `indices` the processable centers come first. -/
theorem sortedIndices_split (mol : ROMol) :
    ∃ rest, sortedIndices mol = centersInOrder mol ++ rest
      ∧ ∀ x ∈ rest, isProcessable mol x = false := by
  refine ⟨(sortedIndices mol).filter (fun i => !decide (nChiralNbrs mol i ≤ 0)), ?_, ?_⟩
  · unfold centersInOrder
    refine split_of_pairwise (fun i => decide (nChiralNbrs mol i ≤ 0)) _ ?_
    refine (sortedIndices_pairwise mol).imp ?_
    intro i j hij hj
    simpa using hij (by simpa using hj)
  · intro x hx
    have hx2 := (List.mem_filter.1 hx).2
    by_contra hne
    have hp : isProcessable mol x = true := by simpa using hne
    have := (isProcessable_iff mol x).1 hp
    simp [this] at hx2

theorem sublist_pair_of_sorted {α : Type} (R : α → α → Prop) (hrefl : ∀ a, R a a)
    (l : List α) (hp : l.Pairwise R) (i j : α) (hi : i ∈ l) (hj : j ∈ l) (hij : ¬ R j i) :
    List.Sublist [i, j] l := by
  induction l with
  | nil => exact absurd hi (List.not_mem_nil _)
  | cons x rest ih =>
    obtain ⟨hx, hrest⟩ := List.pairwise_cons.1 hp
    have hne : i ≠ j := by
      intro e
      subst e
      exact hij (hrefl i)
    by_cases hxi : x = i
    · subst hxi
      rcases List.mem_cons.1 hj with e | e
      · exact absurd e.symm hne
      · exact (List.singleton_sublist.2 e).cons₂ x
    · have hir : i ∈ rest := by
        rcases List.mem_cons.1 hi with e | e
        · exact absurd e.symm hxi
        · exact e
      have hjr : j ∈ rest := by
        rcases List.mem_cons.1 hj with e | e
        · subst e
          exact absurd (hx i hir) hij
        · exact e
      exact (ih hrest hir hjr).cons x

end RDKit

namespace RDKit

/-- C23: every entry `b ↦ a` of the map that `pickBondsToWedge` returns has `b`
a bond of the molecule of type SINGLE, `a` one of the two ends of `b`, and `a`
tagged CHI_TETRAHEDRAL_CW or CHI_TETRAHEDRAL_CCW. -/
theorem pickBondsToWedge_entry_wellformed (mol : ROMol) (res : INT_MAP_INT)
    (h : pickBondsToWedge mol = .ok res) (b a : Nat) (he : (b, a) ∈ res) :
    b < mol.bonds.length ∧ (mol.getBondWithIdx b).bondType = .SINGLE
      ∧ ((mol.getBondWithIdx b).beginAtomIdx = a ∨ (mol.getBondWithIdx b).endAtomIdx = a)
      ∧ ((mol.getAtomWithIdx a).chiralTag = .CHI_TETRAHEDRAL_CW
        ∨ (mol.getAtomWithIdx a).chiralTag = .CHI_TETRAHEDRAL_CCW) := by
  obtain ⟨h1, h2, h3, _⟩ := pickBondsToWedge_entry mol res h b a he
  obtain ⟨h4, h5⟩ := (mem_atomBonds mol a b).1 h1
  refine ⟨h4, h2, h5, ?_⟩
  simpa [ROMol.isCenter, ChiralType.isTetrahedral] using h3

/-- Witness of C23 on `twoCenters`: the entry `3 ↦ 1` of its map. -/
theorem pickBondsToWedge_entry_wellformed_witness :
    pickBondsToWedge twoCenters = .ok [(1, 0), (3, 1)]
      ∧ 3 < twoCenters.bonds.length ∧ (twoCenters.getBondWithIdx 3).bondType = .SINGLE
      ∧ ((twoCenters.getBondWithIdx 3).beginAtomIdx = 1
        ∨ (twoCenters.getBondWithIdx 3).endAtomIdx = 1)
      ∧ ((twoCenters.getAtomWithIdx 1).chiralTag = .CHI_TETRAHEDRAL_CW
        ∨ (twoCenters.getAtomWithIdx 1).chiralTag = .CHI_TETRAHEDRAL_CCW) :=
  ⟨rfl, pickBondsToWedge_entry_wellformed twoCenters [(1, 0), (3, 1)] rfl 3 1 (by decide)⟩

/-- C28: the centers that get a turn are the tagged centers not already wedged;
the rank of such a center is `-(10 * h + c)` and at most 0, the rank of an
untagged atom is 100 and the rank of an already wedged center is 101; the turns
are taken in non-decreasing order of the rank, and in `indices` the centers
that get a turn stand before all other atoms. -/
theorem pickBondsToWedge_rank_order (mol : ROMol) :
    (∀ a, isProcessable mol a = true ↔
        (mol.isCenter a = true ∧ alreadyWedged mol a = false))
      ∧ (∀ a, isProcessable mol a = true →
          nChiralNbrs mol a = rankSpec mol a ∧ nChiralNbrs mol a ≤ 0)
      ∧ (∀ a, mol.isCenter a = false → nChiralNbrs mol a = 100)
      ∧ (∀ a, alreadyWedged mol a = true → nChiralNbrs mol a = 101)
      ∧ (∀ a, a ∈ centersInOrder mol ↔ isProcessable mol a = true)
      ∧ (centersInOrder mol).Nodup
      ∧ (centersInOrder mol).Pairwise (fun i j => rankSpec mol i ≤ rankSpec mol j)
      ∧ (∃ rest, sortedIndices mol = centersInOrder mol ++ rest
          ∧ ∀ x ∈ rest, isProcessable mol x = false)
      ∧ pickBondsToWedge mol = wedgeLoop mol (nChiralNbrs mol) (centersInOrder mol) [] := by
  refine ⟨isProcessable_iff_not_wedged mol,
    fun a h => ⟨rank_processable mol a h, (isProcessable_iff mol a).1 h⟩, rank_untagged mol,
    rank_wedged mol, mem_centersInOrder mol, centersInOrder_nodup mol, ?_,
    sortedIndices_split mol, pickBondsToWedge_eq mol⟩
  refine List.Pairwise.imp_of_mem ?_ (centersInOrder_sorted mol)
  intro i j hi hj hij
  rw [← rank_processable mol i ((mem_centersInOrder mol i).1 hi),
    ← rank_processable mol j ((mem_centersInOrder mol j).1 hj)]
  exact hij

/-- Witness of C28 on `threeCenters`, whose centers take their turns in the
order 1, 0, 2 of the ranks -2, -1, -1. -/
theorem pickBondsToWedge_rank_order_witness :
    (centersInOrder threeCenters = [1, 0, 2]
        ∧ (centersInOrder threeCenters).map (rankSpec threeCenters) = [-2, -1, -1])
      ∧ (
(∀ a, isProcessable threeCenters a = true ↔
        (threeCenters.isCenter a = true ∧ alreadyWedged threeCenters a = false))
      ∧ (∀ a, isProcessable threeCenters a = true →
          nChiralNbrs threeCenters a = rankSpec threeCenters a ∧ nChiralNbrs threeCenters a ≤ 0)
      ∧ (∀ a, threeCenters.isCenter a = false → nChiralNbrs threeCenters a = 100)
      ∧ (∀ a, alreadyWedged threeCenters a = true → nChiralNbrs threeCenters a = 101)
      ∧ (∀ a, a ∈ centersInOrder threeCenters ↔ isProcessable threeCenters a = true)
      ∧ (centersInOrder threeCenters).Nodup
      ∧ (centersInOrder threeCenters).Pairwise (fun i j => rankSpec threeCenters i ≤ rankSpec threeCenters j)
      ∧ (∃ rest, sortedIndices threeCenters = centersInOrder threeCenters ++ rest
          ∧ ∀ x ∈ rest, isProcessable threeCenters x = false)
      ∧ pickBondsToWedge threeCenters = wedgeLoop threeCenters (nChiralNbrs threeCenters) (centersInOrder threeCenters) []) :=
  ⟨⟨by decide, by decide⟩, pickBondsToWedge_rank_order threeCenters⟩

/-- C21, as the code behaves: of two centers that get a turn and have no
hydrogen neighbour, the one with more tagged neighbours has its turn before the
one with fewer. -/
theorem pickBondsToWedge_more_tagged_first (mol : ROMol) (a b : Nat)
    (ha : isProcessable mol a = true) (hb : isProcessable mol b = true)
    (hHa : hydrogenNbrs mol a = 0) (hHb : hydrogenNbrs mol b = 0)
    (hlt : taggedNbrs mol b < taggedNbrs mol a) :
    List.Sublist [a, b] (centersInOrder mol) ∧ (centersInOrder mol).Nodup
      ∧ pickBondsToWedge mol = wedgeLoop mol (nChiralNbrs mol) (centersInOrder mol) [] := by
  refine ⟨?_, centersInOrder_nodup mol, pickBondsToWedge_eq mol⟩
  refine sublist_pair_of_sorted (fun i j => nChiralNbrs mol i ≤ nChiralNbrs mol j)
    (fun _ => le_refl _) _ (centersInOrder_sorted mol) a b
    ((mem_centersInOrder mol a).2 ha) ((mem_centersInOrder mol b).2 hb) ?_
  show ¬ (nChiralNbrs mol b ≤ nChiralNbrs mol a)
  rw [rank_processable mol a ha, rank_processable mol b hb]
  unfold rankSpec
  rw [hHa, hHb]
  push_cast
  omega

/-- Witness of C21 as amended on `threeCenters`: the middle center 1, with two
tagged neighbours, has its turn before the outer center 0, with one. -/
theorem pickBondsToWedge_more_tagged_first_witness :
    List.Sublist [1, 0] (centersInOrder threeCenters) ∧ (centersInOrder threeCenters).Nodup
      ∧ pickBondsToWedge threeCenters
        = wedgeLoop threeCenters (nChiralNbrs threeCenters) (centersInOrder threeCenters) [] :=
  pickBondsToWedge_more_tagged_first threeCenters 1 0 (by decide) (by decide) (by decide)
    (by decide) (by decide)

/-- Counterexample to C21 as stated: in `threeCenters` the centers 0 and 1 get a
turn and have no hydrogen neighbour, center 0 has fewer tagged neighbours than
center 1, and yet the turns are taken in the order 1, 0, 2. -/
theorem pickBondsToWedge_more_tagged_first_counterexample :
    isProcessable threeCenters 0 = true ∧ isProcessable threeCenters 1 = true
      ∧ hydrogenNbrs threeCenters 0 = 0 ∧ hydrogenNbrs threeCenters 1 = 0
      ∧ taggedNbrs threeCenters 0 < taggedNbrs threeCenters 1
      ∧ centersInOrder threeCenters = [1, 0, 2]
      ∧ ¬ List.Sublist [0, 1] (centersInOrder threeCenters) := by
  decide

end RDKit

namespace RDKit

/-! ## The order of the turns among centers of equal rank -/

theorem INT_MAP_INT.find_set (m : INT_MAP_INT) (k v j : Nat) :
    (m.set k v).find j = if j = k then some v else m.find j := by
  induction m with
  | nil =>
    unfold INT_MAP_INT.find INT_MAP_INT.set
    rw [List.lookup_cons]
    by_cases h : j = k
    · simp [h]
    · simp [h, beq_false_of_ne h]
  | cons e t ih =>
    obtain ⟨k1, v1⟩ := e
    unfold INT_MAP_INT.find at ih ⊢
    unfold INT_MAP_INT.set
    by_cases h1 : k < k1
    · rw [if_pos h1, List.lookup_cons]
      by_cases h : j = k
      · simp [h]
      · simp [h, beq_false_of_ne h]
    · rw [if_neg h1]
      by_cases h2 : k = k1
      · rw [if_pos h2]
        subst h2
        rw [List.lookup_cons, List.lookup_cons]
        by_cases h : j = k
        · simp [h]
        · simp [h, beq_false_of_ne h]
      · rw [if_neg h2, List.lookup_cons, List.lookup_cons, ih]
        by_cases h : j = k1
        · subst h
          have : ¬ j = k := fun e => h2 e.symm
          simp [this]
        · simp [beq_false_of_ne h]

theorem INT_MAP_INT.set_comm (m : INT_MAP_INT) (k v k1 v1 : Nat) (h : k ≠ k1) :
    (m.set k v).set k1 v1 = (m.set k1 v1).set k v := by
  induction m with
  | nil =>
    simp only [INT_MAP_INT.set]
    split_ifs <;> first | rfl | omega
  | cons e t ih =>
    obtain ⟨c, w⟩ := e
    simp only [INT_MAP_INT.set]
    split_ifs <;> (try simp only [INT_MAP_INT.set]) <;> (try split_ifs) <;>
      first | rfl | omega | rw [ih]

theorem nbrScores_congr (mol : ROMol) (n : Nat → Int) (res res1 : INT_MAP_INT) (a : Nat)
    (h : ∀ b ∈ mol.atomBonds a, res.find b = res1.find b) :
    nbrScores mol n res a = nbrScores mol n res1 a := by
  unfold nbrScores
  refine List.filterMap_congr (fun b hb => ?_)
  simp only [h b hb]

theorem assignedBond_congr (mol : ROMol) (n : Nat → Int) (res res1 : INT_MAP_INT) (a : Nat)
    (h : ∀ b ∈ mol.atomBonds a, res.find b = res1.find b) :
    assignedBond mol n res a = assignedBond mol n res1 a := by
  unfold assignedBond
  rw [nbrScores_congr mol n res res1 a h]

/-- A bond claimed for another atom that is not a bond of `a` does not change
the choice of `a`. -/
theorem assignedBond_set (mol : ROMol) (n : Nat → Int) (res : INT_MAP_INT) (a p x : Nat)
    (hp : p ∉ mol.atomBonds a) :
    assignedBond mol n (res.set p x) a = assignedBond mol n res a := by
  refine assignedBond_congr mol n _ _ a (fun b hb => ?_)
  rw [INT_MAP_INT.find_set, if_neg]
  intro e
  subst e
  exact hp hb

theorem areBonded_false (mol : ROMol) (a b : Nat) (h : areBonded mol a b = false) (i : Nat) :
    ¬ (i ∈ mol.atomBonds a ∧ i ∈ mol.atomBonds b) := by
  rintro ⟨h1, h2⟩
  have : areBonded mol a b = true := by
    unfold areBonded
    rw [List.any_eq_true]
    exact ⟨i, h1, by simpa using h2⟩
  rw [h] at this
  exact Bool.noConfusion this

/-- Two consecutive turns of centers that are not bonded to each other can be
exchanged. -/
theorem wedgeLoop_swap (mol : ROMol) (a x : Nat) (rest : List Nat) (res : INT_MAP_INT)
    (ha : isProcessable mol a = true) (hx : isProcessable mol x = true)
    (hnb : areBonded mol a x = false) :
    wedgeLoop mol (nChiralNbrs mol) (x :: a :: rest) res
      = wedgeLoop mol (nChiralNbrs mol) (a :: x :: rest) res := by
  rw [wedgeLoop_assigned mol res x _ hx, wedgeLoop_assigned mol res a _ ha]
  cases hpx : assignedBond mol (nChiralNbrs mol) res x with
  | none =>
    cases hpa : assignedBond mol (nChiralNbrs mol) res a with
    | none => rfl
    | some q =>
      have hq := (assignedBond_spec mol _ res a q hpa).1
      have hqx : q ∉ mol.atomBonds x := fun e => areBonded_false mol a x hnb q ⟨hq, e⟩
      simp only []
      rw [wedgeLoop_assigned mol _ x _ hx, assignedBond_set mol _ res x q a hqx, hpx]
  | some p =>
    have hp := (assignedBond_spec mol _ res x p hpx).1
    have hpa1 : p ∉ mol.atomBonds a := fun e => areBonded_false mol a x hnb p ⟨e, hp⟩
    simp only []
    rw [wedgeLoop_assigned mol _ a _ ha, assignedBond_set mol _ res a p x hpa1]
    cases hpa : assignedBond mol (nChiralNbrs mol) res a with
    | none => rfl
    | some q =>
      have hq := (assignedBond_spec mol _ res a q hpa).1
      have hqx : q ∉ mol.atomBonds x := fun e => areBonded_false mol a x hnb q ⟨hq, e⟩
      simp only []
      rw [wedgeLoop_assigned mol _ x _ hx, assignedBond_set mol _ res x q a hqx, hpx]
      simp only []
      have hne : p ≠ q := by
        intro e
        subst e
        exact hpa1 hq
      rw [INT_MAP_INT.set_comm res p x q a hne]

theorem wedgeLoop_cons_congr (mol : ROMol) (x : Nat) (l1 l2 : List Nat) (res : INT_MAP_INT)
    (hx : isProcessable mol x = true)
    (h : ∀ r, wedgeLoop mol (nChiralNbrs mol) l1 r = wedgeLoop mol (nChiralNbrs mol) l2 r) :
    wedgeLoop mol (nChiralNbrs mol) (x :: l1) res
      = wedgeLoop mol (nChiralNbrs mol) (x :: l2) res := by
  rw [wedgeLoop_assigned mol res x _ hx, wedgeLoop_assigned mol res x _ hx]
  cases assignedBond mol (nChiralNbrs mol) res x with
  | none => rfl
  | some p => exact h _

/-- The turn of a center can be moved in front of the turns of centers it is
not bonded to. -/
theorem wedgeLoop_move (mol : ROMol) (a : Nat) (u v : List Nat) (res : INT_MAP_INT)
    (ha : isProcessable mol a = true)
    (hu : ∀ x ∈ u, isProcessable mol x = true ∧ areBonded mol a x = false) :
    wedgeLoop mol (nChiralNbrs mol) (u ++ a :: v) res
      = wedgeLoop mol (nChiralNbrs mol) (a :: (u ++ v)) res := by
  induction u generalizing res with
  | nil => rfl
  | cons x rest ih =>
    obtain ⟨hx, hnb⟩ := hu x (List.mem_cons_self _ _)
    have hrest : ∀ y ∈ rest, isProcessable mol y = true ∧ areBonded mol a y = false :=
      fun y hy => hu y (List.mem_cons_of_mem _ hy)
    rw [List.cons_append, List.cons_append,
      wedgeLoop_cons_congr mol x _ (a :: (rest ++ v)) res hx (fun r => ih r hrest)]
    exact wedgeLoop_swap mol a x _ res ha hx hnb

theorem not_sublist_of_before {α : Type} (u v : List α) (a x : α)
    (hnd : (u ++ a :: v).Nodup) (hx : x ∈ u) : ¬ List.Sublist [a, x] (u ++ a :: v) := by
  intro h
  obtain ⟨_, _, hdis⟩ := List.nodup_append.1 hnd
  obtain ⟨l1, l2, hl, h1, h2⟩ := List.sublist_append_iff.1 h
  cases l1 with
  | nil =>
    rw [List.nil_append] at hl
    subst hl
    have hxm : x ∈ a :: v := h2.subset (by simp)
    exact hdis hx hxm
  | cons y l1 =>
    have hy : y = a := by
      have := congrArg List.head? hl
      simpa using this.symm
    subst hy
    exact hdis (h1.subset (List.mem_cons_self _ _)) (List.mem_cons_self _ _)

theorem sublist_remove {α : Type} (l u v : List α) (a : α)
    (h : List.Sublist l (u ++ a :: v)) (ha : a ∉ l) : List.Sublist l (u ++ v) := by
  obtain ⟨l1, l2, hl, h1, h2⟩ := List.sublist_append_iff.1 h
  subst hl
  refine h1.append ?_
  rcases List.sublist_cons_iff.1 h2 with h3 | ⟨r, hr, _⟩
  · exact h3
  · subst hr
    exact absurd (List.mem_append_right _ (List.mem_cons_self _ _)) ha

/-- Two orders of the same centers that agree on the relative order of every
two centers bonded to each other give the same run of the loop. -/
theorem wedgeLoop_reorder (mol : ROMol) (c1 c2 : List Nat) (hnd : c1.Nodup)
    (hperm : c1.Perm c2) (hproc : ∀ x ∈ c1, isProcessable mol x = true)
    (hord : ∀ a ∈ c1, ∀ b ∈ c1, areBonded mol a b = true →
      List.Sublist [a, b] c1 → List.Sublist [a, b] c2)
    (res : INT_MAP_INT) :
    wedgeLoop mol (nChiralNbrs mol) c1 res = wedgeLoop mol (nChiralNbrs mol) c2 res := by
  induction c1 generalizing c2 res with
  | nil =>
    rw [List.nil_perm.1 hperm]
  | cons a t ih =>
    have ha2 : a ∈ c2 := hperm.subset (List.mem_cons_self _ _)
    obtain ⟨u, v, rfl⟩ := List.append_of_mem ha2
    have hnd2 : (u ++ a :: v).Nodup := hperm.nodup_iff.1 hnd
    obtain ⟨hat, hndt⟩ := List.nodup_cons.1 hnd
    have hpt : t.Perm (u ++ v) := (hperm.trans List.perm_middle).cons_inv
    have hap := hproc a (List.mem_cons_self _ _)
    have hu : ∀ x ∈ u, isProcessable mol x = true ∧ areBonded mol a x = false := by
      intro x hx
      have hxt : x ∈ t := hpt.symm.subset (List.mem_append_left _ hx)
      refine ⟨hproc x (List.mem_cons_of_mem _ hxt), ?_⟩
      by_contra hne
      have hb : areBonded mol a x = true := by simpa using hne
      exact not_sublist_of_before u v a x hnd2 hx
        (hord a (List.mem_cons_self _ _) x (List.mem_cons_of_mem _ hxt) hb
          ((List.singleton_sublist.2 hxt).cons₂ a))
    rw [wedgeLoop_move mol a u v res hap hu]
    refine wedgeLoop_cons_congr mol a t (u ++ v) res hap (fun r => ?_)
    refine ih (u ++ v) hndt hpt (fun x hx => hproc x (List.mem_cons_of_mem _ hx)) ?_ r
    intro a1 ha1 b1 hb1 hbond hsub
    refine sublist_remove _ u v a
      (hord a1 (List.mem_cons_of_mem _ ha1) b1 (List.mem_cons_of_mem _ hb1) hbond
        (hsub.cons a)) ?_
    intro hmem
    rcases List.mem_cons.1 hmem with e | e
    · subst e
      exact hat ha1
    · rcases List.mem_cons.1 e with e1 | e1
      · subst e1
        exact hat hb1
      · exact absurd e1 (List.not_mem_nil _)

end RDKit

namespace RDKit

/-- Two orders of the same atoms, the first sorted by the rank value, the
second with its processable centers first and sorted by the rank value, that
agree on the relative order of every two bonded centers of equal rank, give the
same run of the loop. -/
theorem wedgeLoop_tie_order (mol : ROMol) (o1 o2 : List Nat) (hnd1 : o1.Nodup)
    (hperm : o1.Perm o2)
    (hs1 : o1.Pairwise (fun i j => nChiralNbrs mol i ≤ nChiralNbrs mol j))
    (hpw2 : o2.Pairwise (fun i j => nChiralNbrs mol j ≤ 0 → nChiralNbrs mol i ≤ 0))
    (hs2 : (o2.filter fun i => decide (nChiralNbrs mol i ≤ 0)).Pairwise
      (fun i j => nChiralNbrs mol i ≤ nChiralNbrs mol j))
    (hagree : ∀ a ∈ o1, ∀ b ∈ o1, isProcessable mol a = true → isProcessable mol b = true →
      nChiralNbrs mol a = nChiralNbrs mol b → areBonded mol a b = true →
      List.Sublist [a, b] o1 → List.Sublist [a, b] o2) :
    wedgeLoop mol (nChiralNbrs mol) o1 [] = wedgeLoop mol (nChiralNbrs mol) o2 [] := by
  have hpw1 : o1.Pairwise (fun i j => nChiralNbrs mol j ≤ 0 → nChiralNbrs mol i ≤ 0) :=
    hs1.imp (fun hij hj => le_trans hij hj)
  rw [wedgeLoop_filter mol o1 [] hpw1, wedgeLoop_filter mol o2 [] hpw2]
  have hproc : ∀ x, x ∈ o1.filter (fun i => decide (nChiralNbrs mol i ≤ 0)) →
      isProcessable mol x = true := by
    intro x hx
    exact (isProcessable_iff mol x).2 (by simpa using (List.mem_filter.1 hx).2)
  refine wedgeLoop_reorder mol _ _ (hnd1.filter _) (hperm.filter _) hproc ?_ []
  intro a ha b hb hbond hsub
  have ha1 := (List.mem_filter.1 ha).1
  have hb1 := (List.mem_filter.1 hb).1
  have hsub1 : List.Sublist [a, b] o1 := hsub.trans (List.filter_sublist _)
  have hle : nChiralNbrs mol a ≤ nChiralNbrs mol b := by
    have := List.Pairwise.sublist hsub1 hs1
    simpa using this
  rcases lt_or_eq_of_le hle with hlt | heq
  · exact sublist_pair_of_sorted (fun i j => nChiralNbrs mol i ≤ nChiralNbrs mol j)
      (fun _ => le_refl _) _ hs2 a b ((hperm.filter _).subset ha) ((hperm.filter _).subset hb)
      (not_le.2 hlt)
  · have hsub2 := hagree a ha1 b hb1 (hproc a ha) (hproc b hb) heq hbond hsub1
    have hf := hsub2.filter (fun i => decide (nChiralNbrs mol i ≤ 0))
    have hfa : nChiralNbrs mol a ≤ 0 := by simpa using (List.mem_filter.1 ha).2
    have hfb : nChiralNbrs mol b ≤ 0 := by simpa using (List.mem_filter.1 hb).2
    simpa [List.filter_cons, hfa, hfb] using hf

/-- C22, as the code behaves: two processing orders of the atoms that are both
sorted by the rank value and that agree on the relative order of every two
centers of equal rank that are bonded to each other give the same result of the
assignment loop, the same map or the same failure; an order sorted by the rank
value that agrees in this way with the order `indices` of the code gives the
result of `pickBondsToWedge`. -/
theorem pickBondsToWedge_tie_order (mol : ROMol) (o1 o2 : List Nat)
    (hp1 : o1.Perm (List.range mol.getNumAtoms)) (hp2 : o2.Perm (List.range mol.getNumAtoms))
    (hs1 : o1.Pairwise (fun i j => nChiralNbrs mol i ≤ nChiralNbrs mol j))
    (hs2 : o2.Pairwise (fun i j => nChiralNbrs mol i ≤ nChiralNbrs mol j))
    (hagree : ∀ a ∈ o1, ∀ b ∈ o1, isProcessable mol a = true → isProcessable mol b = true →
      nChiralNbrs mol a = nChiralNbrs mol b → areBonded mol a b = true →
      List.Sublist [a, b] o1 → List.Sublist [a, b] o2) :
    wedgeLoop mol (nChiralNbrs mol) o1 [] = wedgeLoop mol (nChiralNbrs mol) o2 []
      ∧ ((∀ a ∈ o1, ∀ b ∈ o1, isProcessable mol a = true → isProcessable mol b = true →
            nChiralNbrs mol a = nChiralNbrs mol b → areBonded mol a b = true →
            List.Sublist [a, b] o1 → List.Sublist [a, b] (sortedIndices mol)) →
          wedgeLoop mol (nChiralNbrs mol) o1 [] = pickBondsToWedge mol) := by
  have hnd1 : o1.Nodup := hp1.nodup_iff.2 (List.nodup_range _)
  refine ⟨?_, fun hcode => ?_⟩
  · exact wedgeLoop_tie_order mol o1 o2 hnd1 (hp1.trans hp2.symm) hs1
      (hs2.imp (fun hij hj => le_trans hij hj)) (hs2.filter _) hagree
  · exact wedgeLoop_tie_order mol o1 (sortedIndices mol) hnd1
      (hp1.trans (sortedIndices_perm mol).symm) hs1 (sortedIndices_pairwise mol)
      (centersInOrder_sorted mol) hcode

/-- Witness of C22 as amended on `hexad`: the order `indices` of the code and an
order that exchanges the outer centers 1 and 4 (equal rank, not bonded) and the
hydrogens. -/
theorem pickBondsToWedge_tie_order_witness :
    (sortedIndices hexad = [1, 4, 2, 3, 0, 5]
        ∧ pickBondsToWedge hexad = .ok [(0, 1), (2, 2), (3, 3), (4, 4)])
      ∧ wedgeLoop hexad (nChiralNbrs hexad) [4, 1, 2, 3, 5, 0] []
        = wedgeLoop hexad (nChiralNbrs hexad) [1, 4, 2, 3, 0, 5] []
      ∧ ((∀ a ∈ [4, 1, 2, 3, 5, 0], ∀ b ∈ [4, 1, 2, 3, 5, 0], isProcessable hexad a = true →
            isProcessable hexad b = true → nChiralNbrs hexad a = nChiralNbrs hexad b →
            areBonded hexad a b = true → List.Sublist [a, b] [4, 1, 2, 3, 5, 0] →
            List.Sublist [a, b] (sortedIndices hexad)) →
          wedgeLoop hexad (nChiralNbrs hexad) [4, 1, 2, 3, 5, 0] [] = pickBondsToWedge hexad) :=
  ⟨⟨by decide, rfl⟩,
    pickBondsToWedge_tie_order hexad [4, 1, 2, 3, 5, 0] [1, 4, 2, 3, 0, 5] (by decide)
      (by decide) (by decide) (by decide) (by decide)⟩

/-- Counterexample to C22 as stated: in `hexad` the centers 2 and 3 have the
same rank; the two orders below are both sorted by the rank value, the first
takes center 2 before center 3 and the second center 3 before center 2, and the
loop returns two different maps. -/
theorem pickBondsToWedge_tie_order_counterexample :
    List.Perm [1, 4, 2, 3, 0, 5] (List.range hexad.getNumAtoms)
      ∧ List.Perm [1, 4, 3, 2, 0, 5] (List.range hexad.getNumAtoms)
      ∧ List.Pairwise (fun i j => nChiralNbrs hexad i ≤ nChiralNbrs hexad j) [1, 4, 2, 3, 0, 5]
      ∧ List.Pairwise (fun i j => nChiralNbrs hexad i ≤ nChiralNbrs hexad j) [1, 4, 3, 2, 0, 5]
      ∧ nChiralNbrs hexad 2 = nChiralNbrs hexad 3
      ∧ sortedIndices hexad = [1, 4, 2, 3, 0, 5]
      ∧ wedgeLoop hexad (nChiralNbrs hexad) [1, 4, 2, 3, 0, 5] []
        = .ok [(0, 1), (2, 2), (3, 3), (4, 4)]
      ∧ wedgeLoop hexad (nChiralNbrs hexad) [1, 4, 3, 2, 0, 5] []
        = .ok [(0, 1), (1, 2), (2, 3), (4, 4)]
      ∧ wedgeLoop hexad (nChiralNbrs hexad) [1, 4, 2, 3, 0, 5] []
        ≠ wedgeLoop hexad (nChiralNbrs hexad) [1, 4, 3, 2, 0, 5] [] := by
  have h1 : wedgeLoop hexad (nChiralNbrs hexad) [1, 4, 2, 3, 0, 5] []
      = .ok [(0, 1), (2, 2), (3, 3), (4, 4)] := rfl
  have h2 : wedgeLoop hexad (nChiralNbrs hexad) [1, 4, 3, 2, 0, 5] []
      = .ok [(0, 1), (1, 2), (2, 3), (4, 4)] := rfl
  refine ⟨by decide, by decide, by decide, by decide, by decide, by decide, h1, h2, ?_⟩
  rw [h1, h2]
  intro h
  have h3 := Except.ok.inj h
  exact absurd h3 (by decide)

end RDKit
namespace RDKit

/-! ## The rounding to binary64 -/

theorem log2Fuel_spec (fuel n : Nat) (hf : n ≤ fuel) (hn : 0 < n) :
    2 ^ log2Fuel fuel n ≤ n ∧ n < 2 ^ (log2Fuel fuel n + 1) := by
  induction fuel generalizing n with
  | zero => omega
  | succ k ih =>
    unfold log2Fuel
    split_ifs with h
    · simp only [pow_zero, zero_add, pow_one]
      omega
    · obtain ⟨h1, h2⟩ := ih (n / 2) (by omega) (by omega)
      rw [pow_succ] at h2 ⊢
      rw [pow_succ]
      omega

theorem pow2_eq_zpow (e : ℤ) : pow2 e = (2 : ℚ) ^ e := by
  unfold pow2
  split_ifs with h
  · obtain ⟨n, rfl⟩ := Int.eq_ofNat_of_zero_le h
    simp
  · obtain ⟨n, hn⟩ := Int.eq_ofNat_of_zero_le (by omega : 0 ≤ -e)
    have he : e = -(n : ℤ) := by omega
    subst he
    simp

theorem pow2_pos (e : ℤ) : 0 < pow2 e := by
  rw [pow2_eq_zpow]
  positivity

/-- The binary exponent of a positive rational brackets it: `2 ^ e ≤ q < 2 ^ (e + 1)`. -/
theorem binade_spec (q : ℚ) (hq : 0 < q) :
    pow2 (binade q) ≤ q ∧ q < pow2 (binade q + 1) := by
  have hnum : 0 < q.num := Rat.num_pos.2 hq
  have hnat : 0 < q.num.natAbs := Int.natAbs_pos.2 (ne_of_gt hnum)
  obtain ⟨a1, a2⟩ := log2Fuel_spec q.num.natAbs q.num.natAbs le_rfl hnat
  obtain ⟨b1, b2⟩ := log2Fuel_spec q.den q.den le_rfl q.den_pos
  generalize ha : log2Fuel q.num.natAbs q.num.natAbs = a at a1 a2
  generalize hb : log2Fuel q.den q.den = b at b1 b2
  have hqe : q = (q.num.natAbs : ℚ) / (q.den : ℚ) := by
    have h1 : ((q.num.natAbs : ℤ) : ℚ) = (q.num : ℚ) := by
      rw [Int.natAbs_of_nonneg (le_of_lt hnum)]
    rw [← Int.cast_natCast q.num.natAbs, h1]
    exact (Rat.num_div_den q).symm
  have hden : (0 : ℚ) < q.den := by exact_mod_cast q.den_pos
  have a1q : (2 : ℚ) ^ a ≤ (q.num.natAbs : ℚ) := by exact_mod_cast a1
  have a2q : (q.num.natAbs : ℚ) < (2 : ℚ) ^ (a + 1) := by exact_mod_cast a2
  have b1q : (2 : ℚ) ^ b ≤ (q.den : ℚ) := by exact_mod_cast b1
  have b2q : (q.den : ℚ) < (2 : ℚ) ^ (b + 1) := by exact_mod_cast b2
  have hlow : (2 : ℚ) ^ ((a : ℤ) - b - 1) < q := by
    have : (2 : ℚ) ^ ((a : ℤ) - b - 1) = (2 : ℚ) ^ a / (2 : ℚ) ^ (b + 1) := by
      rw [show (a : ℤ) - b - 1 = (a : ℤ) - ((b + 1 : ℕ) : ℤ) by push_cast; ring,
        zpow_sub₀ (by norm_num), zpow_natCast, zpow_natCast]
    rw [this, hqe, div_lt_div_iff₀ (by positivity) hden]
    calc (2 : ℚ) ^ a * q.den ≤ q.num.natAbs * q.den :=
          mul_le_mul_of_nonneg_right a1q (le_of_lt hden)
      _ < q.num.natAbs * (2 : ℚ) ^ (b + 1) :=
          mul_lt_mul_of_pos_left b2q (by exact_mod_cast hnat)
  have hhigh : q < (2 : ℚ) ^ ((a : ℤ) - b + 1) := by
    have : (2 : ℚ) ^ ((a : ℤ) - b + 1) = (2 : ℚ) ^ (a + 1) / (2 : ℚ) ^ b := by
      rw [show (a : ℤ) - b + 1 = ((a + 1 : ℕ) : ℤ) - (b : ℤ) by push_cast; ring,
        zpow_sub₀ (by norm_num), zpow_natCast, zpow_natCast]
    rw [this, hqe, div_lt_div_iff₀ hden (by positivity)]
    calc (q.num.natAbs : ℚ) * (2 : ℚ) ^ b ≤ q.num.natAbs * q.den :=
          mul_le_mul_of_nonneg_left b1q (by positivity)
      _ < (2 : ℚ) ^ (a + 1) * q.den := mul_lt_mul_of_pos_right a2q hden
  unfold binade
  simp only [ha, hb]
  split_ifs with h
  · exact ⟨h, by rw [pow2_eq_zpow]; exact hhigh⟩
  · refine ⟨by rw [pow2_eq_zpow]; exact le_of_lt hlow, ?_⟩
    rw [show (a : ℤ) - b - 1 + 1 = (a : ℤ) - b by ring]
    exact not_le.1 h

/-- The rounding to an integer returns a nearest integer, and an even one when
the value lies halfway between two integers. -/
theorem roundHalfEven_spec (q : ℚ) :
    |(roundHalfEven q : ℚ) - q| ≤ 1 / 2
      ∧ (|(roundHalfEven q : ℚ) - q| = 1 / 2 → roundHalfEven q % 2 = 0) := by
  have h1 : (⌊q⌋ : ℚ) ≤ q := Int.floor_le q
  have h2 : q < (⌊q⌋ : ℚ) + 1 := Int.lt_floor_add_one q
  unfold roundHalfEven
  split_ifs with c1 c2 c3
  · refine ⟨?_, fun h => ?_⟩
    · rw [abs_le]
      constructor <;> linarith
    · rw [abs_sub_comm, abs_of_nonneg (by linarith)] at h
      linarith
  · refine ⟨?_, fun h => ?_⟩
    · rw [abs_le]
      push_cast
      constructor <;> linarith
    · push_cast at h
      rw [abs_of_nonneg (by linarith)] at h
      linarith
  · exact ⟨by rw [abs_le]; constructor <;> linarith, fun _ => c3⟩
  · refine ⟨?_, fun _ => ?_⟩
    · rw [abs_le]
      push_cast
      constructor <;> linarith
    · omega

theorem pow2_mono (a b : ℤ) (h : a ≤ b) : pow2 a ≤ pow2 b := by
  rw [pow2_eq_zpow, pow2_eq_zpow]
  exact zpow_le_zpow_right₀ (by norm_num) h

theorem pow2_add (a b : ℤ) : pow2 (a + b) = pow2 a * pow2 b := by
  rw [pow2_eq_zpow, pow2_eq_zpow, pow2_eq_zpow, zpow_add₀ (by norm_num)]

/-- The rounding to binary64 of a nonzero `q`, with `u` the spacing
`2 ^ (e - 52)` of the doubles at the exponent `e` of `q` (at least -1022): the
result is the infinity of the sign of `q`, and then `|q|` is at least
`2 ^ 1024 - 2 ^ 970`, or it is a finite multiple `k * u` with `|k| ≤ 2 ^ 53`
that lies within `u / 2` of `q`, with `k` even when it lies at `u / 2`. -/
theorem double_round_spec (q : ℚ) (hq : q ≠ 0) :
    (Double.round q = .inf (decide (q < 0)) ∧ pow2 1024 - pow2 970 ≤ |q|)
      ∨ ∃ k : ℤ, Double.round q = .fin (k * pow2 (max (binade |q|) (-1022) - 52))
          ∧ |k| ≤ 2 ^ 53
          ∧ |(k : ℚ) * pow2 (max (binade |q|) (-1022) - 52) - q|
              ≤ pow2 (max (binade |q|) (-1022) - 52) / 2
          ∧ (|(k : ℚ) * pow2 (max (binade |q|) (-1022) - 52) - q|
              = pow2 (max (binade |q|) (-1022) - 52) / 2 → k % 2 = 0) := by
  have habs : 0 < |q| := abs_pos.2 hq
  obtain ⟨hb1, hb2⟩ := binade_spec |q| habs
  have hval : Double.round q
      = if 1024 ≤ max (binade |q|) (-1022) ∨ (max (binade |q|) (-1022) = 1023
            ∧ roundHalfEven (|q| / pow2 (max (binade |q|) (-1022) - 52)) = 2 ^ 53)
          then .inf (decide (q < 0))
          else .fin (if q < 0
            then -(roundHalfEven (|q| / pow2 (max (binade |q|) (-1022) - 52))
              * pow2 (max (binade |q|) (-1022) - 52))
            else roundHalfEven (|q| / pow2 (max (binade |q|) (-1022) - 52))
              * pow2 (max (binade |q|) (-1022) - 52)) := by
    unfold Double.round
    rw [if_neg hq]
  have hle : binade |q| ≤ max (binade |q|) (-1022) := le_max_left _ _
  have hmax : max (binade |q|) (-1022) = binade |q| ∨ max (binade |q|) (-1022) = -1022 :=
    max_choice _ _
  generalize max (binade |q|) (-1022) = e at hval hle hmax ⊢
  have hupos : 0 < pow2 (e - 52) := pow2_pos _
  obtain ⟨hr1, hr2⟩ := roundHalfEven_spec (|q| / pow2 (e - 52))
  generalize roundHalfEven (|q| / pow2 (e - 52)) = m at hval hr1 hr2
  generalize hu : pow2 (e - 52) = u at hval hr1 hr2 hupos ⊢
  have hdist : |(m : ℚ) * u - abs q| = |(m : ℚ) - abs q / u| * u := by
    rw [← abs_of_pos hupos, ← abs_mul, abs_of_pos hupos, sub_mul,
      div_mul_cancel₀ _ (ne_of_gt hupos)]
  have hx : |q| / u < 2 ^ 53 := by
    rw [div_lt_iff₀ hupos]
    calc |q| < pow2 (binade |q| + 1) := hb2
      _ ≤ pow2 (e + 1) := pow2_mono _ _ (by omega)
      _ = 2 ^ 53 * u := by
        rw [← hu, show e + 1 = 53 + (e - 52) by ring, pow2_add, pow2_eq_zpow 53]
        norm_num
  have hxpos : 0 < |q| / u := div_pos habs hupos
  have hm1 : m ≤ 2 ^ 53 := by
    have h1 := (abs_le.1 hr1).2
    have : (m : ℚ) < 2 ^ 53 + 1 := by linarith
    have h2 : (m : ℚ) < ((9007199254740993 : ℤ) : ℚ) := by
      norm_num
      linarith
    have := Int.cast_lt.1 h2
    omega
  have hm0 : 0 ≤ m := by
    have h1 := (abs_le.1 hr1).1
    have : (-1 : ℚ) < m := by linarith
    have h2 : ((-1 : ℤ) : ℚ) < (m : ℚ) := by
      push_cast
      exact this
    have := Int.cast_lt.1 h2
    omega
  by_cases hov : 1024 ≤ e ∨ (e = 1023 ∧ m = 2 ^ 53)
  · left
    rw [hval, if_pos hov]
    refine ⟨rfl, ?_⟩
    have h970 : 0 ≤ pow2 970 := le_of_lt (pow2_pos _)
    rcases hov with h | ⟨h, hm⟩
    · have he : e = binade |q| := by
        rcases hmax with c | c
        · exact c
        · omega
      have : pow2 1024 ≤ |q| := le_trans (pow2_mono _ _ (by omega)) hb1
      linarith
    · have h1 := (abs_le.1 hr1).2
      rw [hm] at h1
      have h2 : (2 ^ 53 - 1 / 2 : ℚ) ≤ |q| / u := by
        push_cast at h1
        linarith
      rw [le_div_iff₀ hupos] at h2
      have hu1 : u = pow2 971 := by
        rw [← hu, h]
        norm_num
      have e1 : (2 ^ 53 - 1 / 2 : ℚ) * u = pow2 1024 - pow2 970 := by
        rw [hu1, pow2_eq_zpow, pow2_eq_zpow, pow2_eq_zpow, sub_mul,
          show (1024 : ℤ) = 53 + 971 by norm_num, zpow_add₀ (by norm_num),
          show (971 : ℤ) = 1 + 970 by norm_num, zpow_add₀ (by norm_num)]
        norm_num
      linarith
  · right
    rw [hval, if_neg hov]
    by_cases hneg : q < 0
    · refine ⟨-m, ?_, ?_, ?_, ?_⟩
      · rw [if_pos hneg]
        push_cast
        ring_nf
      · rw [abs_neg, abs_of_nonneg hm0]
        exact hm1
      · have e1 : |((-m : ℤ) : ℚ) * u - q| = |(m : ℚ) * u - abs q| := by
          rw [abs_of_neg hneg, ← abs_neg]
          congr 1
          push_cast
          ring
        rw [e1, hdist]
        calc |(m : ℚ) - abs q / u| * u ≤ 1 / 2 * u :=
              mul_le_mul_of_nonneg_right hr1 (le_of_lt hupos)
          _ = u / 2 := by ring
      · intro heq
        have e1 : |((-m : ℤ) : ℚ) * u - q| = |(m : ℚ) * u - abs q| := by
          rw [abs_of_neg hneg, ← abs_neg]
          congr 1
          push_cast
          ring
        rw [e1, hdist] at heq
        have : |(m : ℚ) - abs q / u| = 1 / 2 := by
          have h3 : |(m : ℚ) - abs q / u| * u = 1 / 2 * u := by rw [heq]; ring
          exact mul_right_cancel₀ (ne_of_gt hupos) h3
        have := hr2 this
        omega
    · have hpos : 0 < q := lt_of_le_of_ne (not_lt.1 hneg) (Ne.symm hq)
      refine ⟨m, ?_, ?_, ?_, ?_⟩
      · rw [if_neg hneg]
      · rw [abs_of_nonneg hm0]
        exact hm1
      · have e1 : |(m : ℚ) * u - q| = |(m : ℚ) * u - abs q| := by
          rw [abs_of_pos hpos]
        rw [e1, hdist]
        calc |(m : ℚ) - abs q / u| * u ≤ 1 / 2 * u :=
              mul_le_mul_of_nonneg_right hr1 (le_of_lt hupos)
          _ = u / 2 := by ring
      · intro heq
        have e1 : |(m : ℚ) * u - q| = |(m : ℚ) * u - abs q| := by
          rw [abs_of_pos hpos]
        rw [e1, hdist] at heq
        have : |(m : ℚ) - abs q / u| = 1 / 2 := by
          have h3 : |(m : ℚ) - abs q / u| * u = 1 / 2 * u := by rw [heq]; ring
          exact mul_right_cancel₀ (ne_of_gt hupos) h3
        exact hr2 this

/-! ## The doubles of the file -/

/-- The double `M_PI` is `884279719003555 / 2 ^ 48`. -/
theorem M_PI_eq : M_PI = .fin (884279719003555 / 281474976710656) := by
  with_unfolding_all rfl

/-- The double `1e-4` is `7378697629483821 / 2 ^ 66`. -/
theorem angleTol_eq : angleTol = .fin (7378697629483821 / 73786976294838206464) := by
  with_unfolding_all rfl

/-- The double `2. * M_PI` is `884279719003555 / 2 ^ 47`. -/
theorem two_M_PI_eq : Double.mul 2 M_PI = .fin (884279719003555 / 140737488355328) := by
  with_unfolding_all rfl

/-- The bound `M_PI - 1e-4` of the three-coordinate test is the double
`7074012572047071 / 2 ^ 51`; it lies below the exact difference of the two
doubles, which is no double. -/
theorem M_PI_sub_angleTol_eq :
    M_PI.sub angleTol = .fin (7074012572047071 / 2251799813685248)
      ∧ (7074012572047071 / 2251799813685248 : ℚ)
          < 884279719003555 / 281474976710656 - 7378697629483821 / 73786976294838206464
      ∧ (7074012572047071 / 2251799813685248 : ℚ)
          < 884279719003555 / 281474976710656 - 1 / 10000 := by
  refine ⟨by with_unfolding_all rfl, by norm_num, by norm_num⟩

/-- Values of the rounding: a tie goes to the even neighbour, `0.1` is no
double, and a value below half of the least subnormal becomes zero. -/
theorem round_examples :
    Double.round (9007199254740993) = .fin 9007199254740992
      ∧ Double.round (9007199254740995) = .fin 9007199254740996
      ∧ Double.round (1 / 10) = .fin (3602879701896397 / 36028797018963968)
      ∧ Double.round (1 / 2) = .fin (1 / 2)
      ∧ Double.round (-3) = .fin (-3) := by
  refine ⟨?_, ?_, ?_, ?_, ?_⟩ <;> with_unfolding_all rfl

theorem double_round_isNaN (q : ℚ) : (Double.round q).isNaN = false := by
  unfold Double.round
  dsimp only
  split_ifs <;> rfl

theorem double_le_of_gt (a b : Double) (h : a.gt b = true) : b.le a = true := by
  cases a with
  | nan => cases b <;> simp [Double.gt, Double.lt] at h
  | inf s =>
    cases b with
    | nan => simp [Double.gt, Double.lt] at h
    | inf t => cases s <;> cases t <;> first | rfl | simp [Double.gt, Double.lt] at h
    | fin q => cases s <;> first | rfl | simp [Double.gt, Double.lt] at h
  | fin p =>
    cases b with
    | nan => simp [Double.gt, Double.lt] at h
    | inf t => cases t <;> first | rfl | simp [Double.gt, Double.lt] at h
    | fin q =>
      simp only [Double.gt, Double.lt, decide_eq_true_eq] at h
      simp only [Double.le, decide_eq_true_eq]
      exact le_of_lt h

theorem double_le_of_not_gt (a b : Double) (ha : a.isNaN = false) (hb : b.isNaN = false)
    (h : a.gt b = false) : a.le b = true := by
  cases a with
  | nan => cases ha
  | inf s =>
    cases b with
    | nan => cases hb
    | inf t => cases s <;> cases t <;> first | rfl | simp [Double.gt, Double.lt] at h
    | fin q => cases s <;> first | rfl | simp [Double.gt, Double.lt] at h
  | fin p =>
    cases b with
    | nan => cases hb
    | inf t => cases t <;> first | rfl | simp [Double.gt, Double.lt] at h
    | fin q =>
      simp only [Double.gt, Double.lt, decide_eq_false_iff_not, not_lt] at h
      simp only [Double.le, decide_eq_true_eq]
      exact h

theorem double_le_trans (a b c : Double) (h1 : a.le b = true) (h2 : b.le c = true) :
    a.le c = true := by
  cases a with
  | nan => cases b <;> simp [Double.le] at h1
  | inf s =>
    cases b with
    | nan => simp [Double.le] at h1
    | inf t =>
      cases c with
      | nan => simp [Double.le] at h2
      | inf u => cases s <;> cases t <;> cases u <;> simp [Double.le] at h1 h2 ⊢
      | fin r => cases s <;> cases t <;> simp [Double.le] at h1 h2 ⊢
    | fin q =>
      cases c with
      | nan => simp [Double.le] at h2
      | inf u => cases s <;> cases u <;> simp [Double.le] at h1 h2 ⊢
      | fin r => cases s <;> simp [Double.le] at h1 h2 ⊢
  | fin p =>
    cases b with
    | nan => simp [Double.le] at h1
    | inf t =>
      cases c with
      | nan => simp [Double.le] at h2
      | inf u => cases t <;> cases u <;> simp [Double.le] at h1 h2 ⊢
      | fin r => cases t <;> simp [Double.le] at h1 h2 ⊢
    | fin q =>
      cases c with
      | nan => simp [Double.le] at h2
      | inf u => cases u <;> simp [Double.le] at h1 h2 ⊢
      | fin r =>
        simp only [Double.le, decide_eq_true_eq] at h1 h2 ⊢
        exact h1.trans h2

/-! ## The angular order built by `DetermineBondWedgeState` -/

theorem insertNeighbor_length (as : List Double) (is : List Nat) (angle : Double) (bid : Nat) :
    (insertNeighbor as is angle bid).1.length = as.length + 1 := by
  induction as generalizing is with
  | nil => simp [insertNeighbor]
  | cons a rest ih =>
    cases is with
    | nil =>
      unfold insertNeighbor
      split_ifs
      · simp [ih]
      · simp
    | cons i t =>
      unfold insertNeighbor
      split_ifs
      · simp [ih]
      · simp

/-- Insertion into the two parallel lists, when the angles are the values of
`f` on the indices: the lists stay parallel, the new index is added, an
ascending list of numbers stays ascending when the new angle is a number, and a
head of smaller angle stays the head. -/
theorem insertNeighbor_spec (f : Nat → Double) (is : List Nat) (bid : Nat) :
    (insertNeighbor (is.map f) is (f bid) bid).1
        = (insertNeighbor (is.map f) is (f bid) bid).2.map f
      ∧ (insertNeighbor (is.map f) is (f bid) bid).2.Perm (bid :: is)
      ∧ ((∀ x ∈ bid :: is, (f x).isNaN = false) →
          (is.map f).Pairwise (fun a b => a.le b = true) →
          (insertNeighbor (is.map f) is (f bid) bid).1.Pairwise (fun a b => a.le b = true))
      ∧ (∀ i t, is = i :: t → (f i).lt (f bid) = true →
          ∃ t1, (insertNeighbor (is.map f) is (f bid) bid).2 = i :: t1) := by
  induction is with
  | nil =>
    refine ⟨rfl, List.Perm.refl _, fun _ _ => ?_, fun i t h => ?_⟩
    · simp [insertNeighbor]
    · cases h
  | cons i t ih =>
    obtain ⟨ih1, ih2, ih3, _⟩ := ih
    by_cases hgt : (f bid).gt (f i) = true
    · have hval : insertNeighbor ((i :: t).map f) (i :: t) (f bid) bid
          = (f i :: (insertNeighbor (t.map f) t (f bid) bid).1,
              i :: (insertNeighbor (t.map f) t (f bid) bid).2) := by
        simp only [List.map_cons, insertNeighbor, if_pos hgt]
      rw [hval]
      refine ⟨?_, ?_, fun hn hs => ?_, fun i1 t1 h _ => ?_⟩
      · simp only [List.map_cons, ← ih1]
      · exact (ih2.cons i).trans (List.Perm.swap _ _ _)
      · simp only [List.map_cons, List.pairwise_cons] at hs ⊢
        refine ⟨fun y hy => ?_, ih3 (fun x hx => ?_) hs.2⟩
        · rw [ih1, List.mem_map] at hy
          obtain ⟨x, hx, rfl⟩ := hy
          rcases List.mem_cons.1 (ih2.subset hx) with e | e
          · rw [e]
            exact double_le_of_gt _ _ hgt
          · exact hs.1 _ (List.mem_map.2 ⟨x, e, rfl⟩)
        · rcases List.mem_cons.1 hx with e | e
          · exact hn x (e ▸ List.mem_cons_self _ _)
          · exact hn x (List.mem_cons_of_mem _ (List.mem_cons_of_mem _ e))
      · cases h
        exact ⟨_, rfl⟩
    · have hval : insertNeighbor ((i :: t).map f) (i :: t) (f bid) bid
          = (f bid :: f i :: t.map f, bid :: i :: t) := by
        simp only [List.map_cons, insertNeighbor, if_neg hgt]
      rw [hval]
      refine ⟨by simp, List.Perm.refl _, fun hn hs => ?_, fun i1 t1 h hlt => ?_⟩
      · have hle : (f bid).le (f i) = true :=
          double_le_of_not_gt _ _ (hn bid (List.mem_cons_self _ _))
            (hn i (List.mem_cons_of_mem _ (List.mem_cons_self _ _)))
            (Bool.eq_false_iff.2 hgt)
        simp only [List.map_cons, List.pairwise_cons] at hs ⊢
        refine ⟨fun y hy => ?_, hs⟩
        rcases List.mem_cons.1 hy with e | e
        · rw [e]
          exact hle
        · exact double_le_trans _ _ _ hle (hs.1 y e)
      · cases h
        exact absurd hlt hgt

/-- The angle of a neighbour is not a number only when the signed angle that
the conformer returns is not a number. -/
theorem neighborAngle_isNaN (mol : ROMol) (conf : Conformer) (atom bondAtom nb : Nat) :
    (neighborAngle mol conf atom bondAtom nb).isNaN
      = (conf.signedAngle atom bondAtom
          ((mol.getBondWithIdx nb).getOtherAtomIdx atom)).isNaN := by
  unfold neighborAngle
  split_ifs with h
  · rw [two_M_PI_eq]
    cases hv : conf.signedAngle atom bondAtom ((mol.getBondWithIdx nb).getOtherAtomIdx atom) with
    | nan => rfl
    | inf s => rfl
    | fin q => exact double_round_isNaN _
  · rfl

/-- The neighbour loop, started on parallel lists: the lists stay parallel, the
bonds other than the reference are added, ascending lists stay ascending when
no angle is not-a-number, and the reference stays at the head when every angle
added is positive. -/
theorem neighborLoop_spec (mol : ROMol) (conf : Conformer) (atom bondAtom bid : Nat)
    (l : List Nat) (s : List Double × List Nat)
    (h1 : s.1 = s.2.map
      (fun x => if x = bid then 0 else neighborAngle mol conf atom bondAtom x)) :
    (neighborLoop mol conf atom bondAtom bid l s).1
        = (neighborLoop mol conf atom bondAtom bid l s).2.map
          (fun x => if x = bid then 0 else neighborAngle mol conf atom bondAtom x)
      ∧ ((∀ x ∈ l ++ s.2, x ≠ bid → (neighborAngle mol conf atom bondAtom x).isNaN = false) →
          s.1.Pairwise (fun a b => a.le b = true) →
          (neighborLoop mol conf atom bondAtom bid l s).1.Pairwise (fun a b => a.le b = true))
      ∧ (neighborLoop mol conf atom bondAtom bid l s).2.Perm
          (l.filter (fun nb => nb != bid) ++ s.2)
      ∧ ((∀ nb ∈ l, nb ≠ bid →
            Double.lt 0 (neighborAngle mol conf atom bondAtom nb) = true) →
          ∀ t, s.2 = bid :: t →
            ∃ t1, (neighborLoop mol conf atom bondAtom bid l s).2 = bid :: t1) := by
  induction l generalizing s with
  | nil =>
    exact ⟨h1, fun _ h2 => h2, by simp [neighborLoop], fun _ t ht => ⟨t, ht⟩⟩
  | cons nb rest ih =>
    by_cases hnb : nb = bid
    · have hval : neighborLoop mol conf atom bondAtom bid (nb :: rest) s
          = neighborLoop mol conf atom bondAtom bid rest s := by
        simp only [neighborLoop, hnb, ne_eq, not_true_eq_false, if_false]
      rw [hval]
      obtain ⟨g1, g2, g3, g4⟩ := ih s h1
      refine ⟨g1, fun hn h2 => g2 (fun x hx => hn x (List.mem_cons_of_mem _ hx)) h2, ?_,
        fun hpos t ht => g4 (fun x hx => hpos x (List.mem_cons_of_mem _ hx)) t ht⟩
      rw [List.filter_cons_of_neg (by simp [hnb])]
      exact g3
    · have hval : neighborLoop mol conf atom bondAtom bid (nb :: rest) s
          = neighborLoop mol conf atom bondAtom bid rest
              (insertNeighbor s.1 s.2 (neighborAngle mol conf atom bondAtom nb) nb) := by
        simp only [neighborLoop, ne_eq, hnb, not_false_eq_true, if_true, neighborAngle]
      rw [hval]
      obtain ⟨k1, k2, k3, k4⟩ := insertNeighbor_spec
        (fun x => if x = bid then 0 else neighborAngle mol conf atom bondAtom x) s.2 nb
      rw [← h1] at k1 k2 k3 k4
      simp only [hnb, if_false] at k1 k2 k3 k4
      obtain ⟨g1, g2, g3, g4⟩ := ih _ k1
      refine ⟨g1, fun hn h2 => ?_, ?_, fun hpos t ht => ?_⟩
      · refine g2 (fun x hx hxb => ?_) (k3 (fun x hx => ?_) h2)
        · rcases List.mem_append.1 hx with e | e
          · exact hn x (List.mem_cons_of_mem _ (List.mem_append_left _ e)) hxb
          · rcases List.mem_cons.1 (k2.subset e) with e1 | e1
            · exact hn x (e1 ▸ List.mem_cons_self _ _) hxb
            · exact hn x (List.mem_cons_of_mem _ (List.mem_append_right _ e1)) hxb
        · by_cases hxb : x = bid
          · rw [if_pos hxb]
            rfl
          · rw [if_neg hxb]
            rcases List.mem_cons.1 hx with e1 | e1
            · exact hn x (e1 ▸ List.mem_cons_self _ _) hxb
            · exact hn x (List.mem_cons_of_mem _ (List.mem_append_right _ e1)) hxb
      · rw [List.filter_cons_of_pos (by simp [hnb])]
        refine g3.trans ?_
        refine (List.Perm.append_left _ k2).trans ?_
        exact List.perm_middle
      · have hlt : Double.lt
            (if bid = bid then (0 : Double) else neighborAngle mol conf atom bondAtom bid)
            (neighborAngle mol conf atom bondAtom nb) = true := by
          rw [if_pos rfl]
          exact hpos nb (List.mem_cons_self _ _) hnb
        obtain ⟨t1, ht1⟩ := k4 bid t ht hlt
        exact g4 (fun x hx => hpos x (List.mem_cons_of_mem _ hx)) t1 ht1

/-- The lists that `DetermineBondWedgeState` hands to the parity computation:
the angles belong to the bond indices position by position, the indices are
the reference bond and the other bonds of the center, the angles are ascending
when no signed angle is not-a-number, and the reference bond comes first when
all other bonds have a positive angle. -/
theorem neighborLists_spec (mol : ROMol) (conf : Conformer) (bid fromAtomIdx : Nat) :
    (neighborLists mol conf bid fromAtomIdx).1
        = (neighborLists mol conf bid fromAtomIdx).2.map
          (fun x => if x = bid then 0
            else neighborAngle mol conf (fromAtom (mol.getBondWithIdx bid) fromAtomIdx)
              (toAtom (mol.getBondWithIdx bid) fromAtomIdx) x)
      ∧ ((∀ nb ∈ mol.atomBonds (fromAtom (mol.getBondWithIdx bid) fromAtomIdx), nb ≠ bid →
            (conf.signedAngle (fromAtom (mol.getBondWithIdx bid) fromAtomIdx)
              (toAtom (mol.getBondWithIdx bid) fromAtomIdx)
              ((mol.getBondWithIdx nb).getOtherAtomIdx
                (fromAtom (mol.getBondWithIdx bid) fromAtomIdx))).isNaN = false) →
          (neighborLists mol conf bid fromAtomIdx).1.Pairwise (fun a b => a.le b = true))
      ∧ (neighborLists mol conf bid fromAtomIdx).2.Perm
          (bid :: (mol.atomBonds (fromAtom (mol.getBondWithIdx bid) fromAtomIdx)).filter
            (fun nb => nb != bid))
      ∧ ((∀ nb ∈ mol.atomBonds (fromAtom (mol.getBondWithIdx bid) fromAtomIdx), nb ≠ bid →
            Double.lt 0 (neighborAngle mol conf (fromAtom (mol.getBondWithIdx bid) fromAtomIdx)
              (toAtom (mol.getBondWithIdx bid) fromAtomIdx) nb) = true) →
          ∃ rest, (neighborLists mol conf bid fromAtomIdx).2 = bid :: rest) := by
  obtain ⟨g1, g2, g3, g4⟩ := neighborLoop_spec mol conf
    (fromAtom (mol.getBondWithIdx bid) fromAtomIdx) (toAtom (mol.getBondWithIdx bid) fromAtomIdx)
    bid (mol.atomBonds (fromAtom (mol.getBondWithIdx bid) fromAtomIdx)) ([0], [bid])
    (by simp)
  refine ⟨g1, fun hn => g2 (fun x hx hxb => ?_) (by simp), ?_, fun hpos => g4 hpos [] rfl⟩
  · rw [neighborAngle_isNaN]
    rcases List.mem_append.1 hx with e | e
    · exact hn x e hxb
    · exact absurd (List.mem_singleton.1 e) hxb
  · exact g3.trans List.perm_append_comm

/-- The angle list has one entry per bond of the center. -/
theorem neighborLists_length (mol : ROMol) (conf : Conformer) (bid fromAtomIdx : Nat)
    (hlt : bid < mol.bonds.length) :
    (neighborLists mol conf bid fromAtomIdx).1.length
      = mol.getDegree (fromAtom (mol.getBondWithIdx bid) fromAtomIdx) := by
  obtain ⟨g1, _, g3, _⟩ := neighborLists_spec mol conf bid fromAtomIdx
  rw [g1, List.length_map, g3.length_eq, List.length_cons]
  have hmem : bid ∈ mol.atomBonds (fromAtom (mol.getBondWithIdx bid) fromAtomIdx) := by
    rw [mem_atomBonds]
    refine ⟨hlt, ?_⟩
    unfold fromAtom
    split_ifs with h
    · exact Or.inl rfl
    · exact Or.inr rfl
  rw [← (atomBonds_nodup mol _).erase_eq_filter bid, List.length_erase_of_mem hmem]
  unfold ROMol.getDegree
  have := List.length_pos_of_mem hmem
  omega

theorem determineBondWedgeState_eq (mol : ROMol) (bid fromAtomIdx : Nat) (conf : Conformer)
    (bond : Bond) (hb : mol.bonds[bid]? = some bond) (hs : bond.bondType = .SINGLE)
    (hc : mol.isCenter (fromAtom bond fromAtomIdx) = true) :
    DetermineBondWedgeState mol bid fromAtomIdx (some conf)
      = .ok (swapsToDir (mol.getAtomWithIdx (fromAtom bond fromAtomIdx)).chiralTag
          (totalSwaps mol conf bid fromAtomIdx)) := by
  have hc1 : (mol.getAtomWithIdx (fromAtom bond fromAtomIdx)).chiralTag.isTetrahedral = true := hc
  unfold DetermineBondWedgeState swapsToDir
  simp only [hb, hs, ne_eq, not_true_eq_false, if_false, hc1, Bool.not_true, Bool.false_eq_true]
  split_ifs <;> rfl

end RDKit
namespace RDKit

theorem swapsToDir_succ (tag : ChiralType) (P : Nat) :
    (swapsToDir tag (P + 1) = .BEGINWEDGE ∧ swapsToDir tag P = .BEGINDASH)
      ∨ (swapsToDir tag (P + 1) = .BEGINDASH ∧ swapsToDir tag P = .BEGINWEDGE) := by
  unfold swapsToDir
  rcases Nat.mod_two_eq_zero_or_one P with h | h
  · have h1 : (P + 1) % 2 = 1 := by omega
    by_cases ht : tag = .CHI_TETRAHEDRAL_CCW <;> simp [ht, h, h1]
  · have h1 : (P + 1) % 2 = 0 := by omega
    by_cases ht : tag = .CHI_TETRAHEDRAL_CCW <;> simp [ht, h, h1]

/-- C24: at a tagged center with exactly three bonds the angle list has three
entries, ascending whenever no signed angle is not-a-number, and one swap is
added to the perturbation order exactly when the test
`angle2 - angle1 >= (M_PI - 1e-4)` on its second and third entry holds, the
difference and the bound being the doubles the code computes; the direction
returned is then the opposite of the one the perturbation order alone gives,
and otherwise the one it gives; at a center with four bonds no swap is added.
The bound is the double `7074012572047071 / 2 ^ 51`. -/
theorem determineBondWedgeState_three_coordinate (mol : ROMol) (bid fromAtomIdx : Nat)
    (conf : Conformer) (bond : Bond) (hb : mol.bonds[bid]? = some bond)
    (hs : bond.bondType = .SINGLE) (hc : mol.isCenter (fromAtom bond fromAtomIdx) = true) :
    (mol.getDegree (fromAtom bond fromAtomIdx) = 3 →
        (neighborLists mol conf bid fromAtomIdx).1.length = 3
          ∧ ((∀ nb ∈ mol.atomBonds (fromAtom bond fromAtomIdx), nb ≠ bid →
                (conf.signedAngle (fromAtom bond fromAtomIdx) (toAtom bond fromAtomIdx)
                  ((mol.getBondWithIdx nb).getOtherAtomIdx
                    (fromAtom bond fromAtomIdx))).isNaN = false) →
              (neighborLists mol conf bid fromAtomIdx).1.Pairwise (fun a b => a.le b = true))
          ∧ totalSwaps mol conf bid fromAtomIdx
            = mol.getPerturbationOrder (fromAtom bond fromAtomIdx)
                (neighborLists mol conf bid fromAtomIdx).2
              + (if (((neighborLists mol conf bid fromAtomIdx).1.getD 2 0).sub
                    ((neighborLists mol conf bid fromAtomIdx).1.getD 1 0)).ge
                      (M_PI.sub angleTol) = true
                  then 1 else 0)
          ∧ ((((neighborLists mol conf bid fromAtomIdx).1.getD 2 0).sub
                ((neighborLists mol conf bid fromAtomIdx).1.getD 1 0)).ge
                  (M_PI.sub angleTol) = true →
              DetermineBondWedgeState mol bid fromAtomIdx (some conf)
                  = .ok (swapsToDir (mol.getAtomWithIdx (fromAtom bond fromAtomIdx)).chiralTag
                      (mol.getPerturbationOrder (fromAtom bond fromAtomIdx)
                        (neighborLists mol conf bid fromAtomIdx).2 + 1))
                ∧ ((swapsToDir (mol.getAtomWithIdx (fromAtom bond fromAtomIdx)).chiralTag
                        (mol.getPerturbationOrder (fromAtom bond fromAtomIdx)
                          (neighborLists mol conf bid fromAtomIdx).2 + 1) = .BEGINWEDGE
                      ∧ swapsToDir (mol.getAtomWithIdx (fromAtom bond fromAtomIdx)).chiralTag
                        (mol.getPerturbationOrder (fromAtom bond fromAtomIdx)
                          (neighborLists mol conf bid fromAtomIdx).2) = .BEGINDASH)
                  ∨ (swapsToDir (mol.getAtomWithIdx (fromAtom bond fromAtomIdx)).chiralTag
                        (mol.getPerturbationOrder (fromAtom bond fromAtomIdx)
                          (neighborLists mol conf bid fromAtomIdx).2 + 1) = .BEGINDASH
                      ∧ swapsToDir (mol.getAtomWithIdx (fromAtom bond fromAtomIdx)).chiralTag
                        (mol.getPerturbationOrder (fromAtom bond fromAtomIdx)
                          (neighborLists mol conf bid fromAtomIdx).2) = .BEGINWEDGE)))
          ∧ ((((neighborLists mol conf bid fromAtomIdx).1.getD 2 0).sub
                ((neighborLists mol conf bid fromAtomIdx).1.getD 1 0)).ge
                  (M_PI.sub angleTol) = false →
              DetermineBondWedgeState mol bid fromAtomIdx (some conf)
                = .ok (swapsToDir (mol.getAtomWithIdx (fromAtom bond fromAtomIdx)).chiralTag
                    (mol.getPerturbationOrder (fromAtom bond fromAtomIdx)
                      (neighborLists mol conf bid fromAtomIdx).2))))
      ∧ (mol.getDegree (fromAtom bond fromAtomIdx) = 4 →
          totalSwaps mol conf bid fromAtomIdx
              = mol.getPerturbationOrder (fromAtom bond fromAtomIdx)
                  (neighborLists mol conf bid fromAtomIdx).2
            ∧ DetermineBondWedgeState mol bid fromAtomIdx (some conf)
              = .ok (swapsToDir (mol.getAtomWithIdx (fromAtom bond fromAtomIdx)).chiralTag
                  (mol.getPerturbationOrder (fromAtom bond fromAtomIdx)
                    (neighborLists mol conf bid fromAtomIdx).2)))
      ∧ M_PI.sub angleTol = .fin (7074012572047071 / 2251799813685248) := by
  have hbond := getBondWithIdx_of_getElem? mol bid bond hb
  have hlt : bid < mol.bonds.length := by
    by_contra hne
    rw [List.getElem?_eq_none (by omega)] at hb
    cases hb
  have hlen := neighborLists_length mol conf bid fromAtomIdx hlt
  rw [hbond] at hlen
  have hdir := determineBondWedgeState_eq mol bid fromAtomIdx conf bond hb hs hc
  have htot : totalSwaps mol conf bid fromAtomIdx
      = mol.getPerturbationOrder (fromAtom bond fromAtomIdx)
          (neighborLists mol conf bid fromAtomIdx).2
        + extraSwap (neighborLists mol conf bid fromAtomIdx).1 := by
    unfold totalSwaps
    rw [hbond]
  refine ⟨fun hdeg => ?_, fun hdeg => ?_, M_PI_sub_angleTol_eq.1⟩
  · rw [hdeg] at hlen
    have hex : extraSwap (neighborLists mol conf bid fromAtomIdx).1
        = if (((neighborLists mol conf bid fromAtomIdx).1.getD 2 0).sub
              ((neighborLists mol conf bid fromAtomIdx).1.getD 1 0)).ge
                (M_PI.sub angleTol) = true
            then 1 else 0 := by
      unfold extraSwap
      rw [if_pos hlen]
    have hsorted := (neighborLists_spec mol conf bid fromAtomIdx).2.1
    rw [hbond] at hsorted
    refine ⟨hlen, hsorted, ?_, fun hgap => ⟨?_, ?_⟩, fun hgap => ?_⟩
    · rw [htot, hex]
    · rw [hdir, htot, hex, if_pos hgap]
    · exact swapsToDir_succ _ _
    · rw [hdir, htot, hex, if_neg (by rw [hgap]; decide), Nat.add_zero]
  · rw [hdeg] at hlen
    have hex : extraSwap (neighborLists mol conf bid fromAtomIdx).1 = 0 := by
      unfold extraSwap
      rw [if_neg (by omega)]
    refine ⟨by rw [htot, hex, Nat.add_zero], by rw [hdir, htot, hex, Nat.add_zero]⟩

/-- Witness of C24 on `triMol` depicted by `edgeConf`, at the edge of the
test: the angles are the doubles 0, `0.5` and `0.5 + (M_PI - 1e-4)`, the
difference of the last two is the bound itself, the swap is added, and the
clockwise center with perturbation order 0 gets BEGINWEDGE instead of
BEGINDASH. -/
theorem determineBondWedgeState_three_coordinate_witness :
    ((triMol 0).bonds[0]? = some (plainBond 0 1 .SINGLE)
        ∧ (triMol 0).getDegree (fromAtom (plainBond 0 1 .SINGLE) 0) = 3
        ∧ neighborLists (triMol 0) edgeConf 0 0
          = ([0, .fin (1 / 2), .fin (8199912478889695 / 2251799813685248)], [0, 1, 2])
        ∧ Double.sub (.fin (8199912478889695 / 2251799813685248)) (.fin (1 / 2))
          = .fin (7074012572047071 / 2251799813685248)
        ∧ DetermineBondWedgeState (triMol 0) 0 0 (some edgeConf) = .ok .BEGINWEDGE
        ∧ swapsToDir (.CHI_TETRAHEDRAL_CW) 0 = .BEGINDASH)
      ∧ (
((triMol 0).getDegree (fromAtom (plainBond 0 1 .SINGLE) 0) = 3 →
        (neighborLists (triMol 0) edgeConf 0 0).1.length = 3
          ∧ ((∀ nb ∈ (triMol 0).atomBonds (fromAtom (plainBond 0 1 .SINGLE) 0), nb ≠ 0 →
                (edgeConf.signedAngle (fromAtom (plainBond 0 1 .SINGLE) 0) (toAtom (plainBond 0 1 .SINGLE) 0)
                  (((triMol 0).getBondWithIdx nb).getOtherAtomIdx
                    (fromAtom (plainBond 0 1 .SINGLE) 0))).isNaN = false) →
              (neighborLists (triMol 0) edgeConf 0 0).1.Pairwise (fun a b => a.le b = true))
          ∧ totalSwaps (triMol 0) edgeConf 0 0
            = (triMol 0).getPerturbationOrder (fromAtom (plainBond 0 1 .SINGLE) 0)
                (neighborLists (triMol 0) edgeConf 0 0).2
              + (if (((neighborLists (triMol 0) edgeConf 0 0).1.getD 2 0).sub
                    ((neighborLists (triMol 0) edgeConf 0 0).1.getD 1 0)).ge
                      (M_PI.sub angleTol) = true
                  then 1 else 0)
          ∧ ((((neighborLists (triMol 0) edgeConf 0 0).1.getD 2 0).sub
                ((neighborLists (triMol 0) edgeConf 0 0).1.getD 1 0)).ge
                  (M_PI.sub angleTol) = true →
              DetermineBondWedgeState (triMol 0) 0 0 (some edgeConf)
                  = .ok (swapsToDir ((triMol 0).getAtomWithIdx (fromAtom (plainBond 0 1 .SINGLE) 0)).chiralTag
                      ((triMol 0).getPerturbationOrder (fromAtom (plainBond 0 1 .SINGLE) 0)
                        (neighborLists (triMol 0) edgeConf 0 0).2 + 1))
                ∧ ((swapsToDir ((triMol 0).getAtomWithIdx (fromAtom (plainBond 0 1 .SINGLE) 0)).chiralTag
                        ((triMol 0).getPerturbationOrder (fromAtom (plainBond 0 1 .SINGLE) 0)
                          (neighborLists (triMol 0) edgeConf 0 0).2 + 1) = .BEGINWEDGE
                      ∧ swapsToDir ((triMol 0).getAtomWithIdx (fromAtom (plainBond 0 1 .SINGLE) 0)).chiralTag
                        ((triMol 0).getPerturbationOrder (fromAtom (plainBond 0 1 .SINGLE) 0)
                          (neighborLists (triMol 0) edgeConf 0 0).2) = .BEGINDASH)
                  ∨ (swapsToDir ((triMol 0).getAtomWithIdx (fromAtom (plainBond 0 1 .SINGLE) 0)).chiralTag
                        ((triMol 0).getPerturbationOrder (fromAtom (plainBond 0 1 .SINGLE) 0)
                          (neighborLists (triMol 0) edgeConf 0 0).2 + 1) = .BEGINDASH
                      ∧ swapsToDir ((triMol 0).getAtomWithIdx (fromAtom (plainBond 0 1 .SINGLE) 0)).chiralTag
                        ((triMol 0).getPerturbationOrder (fromAtom (plainBond 0 1 .SINGLE) 0)
                          (neighborLists (triMol 0) edgeConf 0 0).2) = .BEGINWEDGE)))
          ∧ ((((neighborLists (triMol 0) edgeConf 0 0).1.getD 2 0).sub
                ((neighborLists (triMol 0) edgeConf 0 0).1.getD 1 0)).ge
                  (M_PI.sub angleTol) = false →
              DetermineBondWedgeState (triMol 0) 0 0 (some edgeConf)
                = .ok (swapsToDir ((triMol 0).getAtomWithIdx (fromAtom (plainBond 0 1 .SINGLE) 0)).chiralTag
                    ((triMol 0).getPerturbationOrder (fromAtom (plainBond 0 1 .SINGLE) 0)
                      (neighborLists (triMol 0) edgeConf 0 0).2))))
      ∧ ((triMol 0).getDegree (fromAtom (plainBond 0 1 .SINGLE) 0) = 4 →
          totalSwaps (triMol 0) edgeConf 0 0
              = (triMol 0).getPerturbationOrder (fromAtom (plainBond 0 1 .SINGLE) 0)
                  (neighborLists (triMol 0) edgeConf 0 0).2
            ∧ DetermineBondWedgeState (triMol 0) 0 0 (some edgeConf)
              = .ok (swapsToDir ((triMol 0).getAtomWithIdx (fromAtom (plainBond 0 1 .SINGLE) 0)).chiralTag
                  ((triMol 0).getPerturbationOrder (fromAtom (plainBond 0 1 .SINGLE) 0)
                    (neighborLists (triMol 0) edgeConf 0 0).2)))
      ∧ M_PI.sub angleTol = .fin (7074012572047071 / 2251799813685248)) :=
  ⟨⟨rfl, by decide, by with_unfolding_all rfl, by with_unfolding_all rfl,
      by with_unfolding_all rfl, by decide⟩,
    determineBondWedgeState_three_coordinate (triMol 0) 0 0 edgeConf (plainBond 0 1 .SINGLE) rfl
      rfl (by decide)⟩

/-- One double below the edge of the test, and far above it: in `belowEdgeConf`
the difference of the two angles is the double next below the bound, no swap is
added and the clockwise center keeps BEGINDASH; in `triConf` the angles are 0,
1 and 5 and the swap is added; in `clockwiseConf` the signed angle -1 becomes
the double `-1 + 2. * M_PI` and the swap is added. -/
theorem determineBondWedgeState_edge_values :
    neighborLists (triMol 0) belowEdgeConf 0 0
        = ([0, .fin (1 / 2), .fin (8199912478889694 / 2251799813685248)], [0, 1, 2])
      ∧ Double.sub (.fin (8199912478889694 / 2251799813685248)) (.fin (1 / 2))
        = .fin (7074012572047070 / 2251799813685248)
      ∧ DetermineBondWedgeState (triMol 0) 0 0 (some belowEdgeConf) = .ok .BEGINDASH
      ∧ neighborLists (triMol 0) triConf 0 0 = ([0, 1, 5], [0, 1, 2])
      ∧ DetermineBondWedgeState (triMol 0) 0 0 (some triConf) = .ok .BEGINWEDGE
      ∧ neighborAngle (triMol 0) clockwiseConf 0 1 2
        = .fin (743542230648227 / 140737488355328)
      ∧ DetermineBondWedgeState (triMol 0) 0 0 (some clockwiseConf) = .ok .BEGINWEDGE := by
  refine ⟨?_, ?_, ?_, ?_, ?_, ?_, ?_⟩ <;> with_unfolding_all rfl

/-- The angles of the depictions `edgeConf`, `belowEdgeConf`, `triConf` and
`clockwiseConf` are doubles: the rounding to binary64 leaves each as it is. -/
theorem depiction_angles_are_doubles :
    Double.round (1 / 2) = .fin (1 / 2)
      ∧ Double.round (8199912478889695 / 2251799813685248)
        = .fin (8199912478889695 / 2251799813685248)
      ∧ Double.round (8199912478889694 / 2251799813685248)
        = .fin (8199912478889694 / 2251799813685248)
      ∧ Double.round 1 = .fin 1
      ∧ Double.round 2 = .fin 2
      ∧ Double.round 5 = .fin 5
      ∧ Double.round (-1) = .fin (-1) := by
  refine ⟨?_, ?_, ?_, ?_, ?_, ?_, ?_⟩ <;> with_unfolding_all rfl

/-- Evaluation for C25: in `triMol` depicted by `eclipsedConf` the bond 1 has the
angle 0 and the bond 2 the angle 2 from the reference bond 0, both in
`[0, 2 * M_PI)`, and the list of bond indices that the routine builds is
`[1, 0, 2]`: it starts with bond 1, not with the reference bond 0. -/
theorem neighborLists_reference_not_first :
    (triMol 0).atomBonds 0 = [0, 1, 2]
      ∧ neighborAngle (triMol 0) eclipsedConf 0 1 1 = 0
      ∧ neighborAngle (triMol 0) eclipsedConf 0 1 2 = 2
      ∧ Double.lt 2 (Double.mul 2 M_PI) = true
      ∧ neighborLists (triMol 0) eclipsedConf 0 0 = ([0, 0, 2], [1, 0, 2])
      ∧ (neighborLists (triMol 0) eclipsedConf 0 0).2.head? ≠ some 0 := by
  refine ⟨by decide, by rfl, by rfl, by with_unfolding_all rfl, by rfl, by decide⟩

end RDKit

namespace RDKit

/-! ## The molecule after a failed call -/

theorem wedgeMolLoop_eq_outcome (wedgeBonds : INT_MAP_INT) (conf : Conformer) (is : List Nat)
    (mol : ROMol) :
    wedgeMolLoop wedgeBonds conf is mol = outcome (wedgeMolLoopState wedgeBonds conf is mol) := by
  induction is generalizing mol with
  | nil => rfl
  | cons i rest ih =>
    unfold wedgeMolLoop wedgeMolLoopState
    by_cases hs : (mol.getBondWithIdx i).bondType = .SINGLE
    · rw [if_pos hs, if_pos hs]
      cases DetermineBondWedgeStateMap mol i wedgeBonds (some conf) with
      | error e => rfl
      | ok dir =>
        simp only []
        by_cases hd : dir = .BEGINWEDGE ∨ dir = .BEGINDASH
        · rw [if_pos hd, if_pos hd]
          cases wedgeBonds.find i with
          | none => exact ih _
          | some a =>
            simp only []
            split_ifs
            · exact ih _
            · exact ih _
        · rw [if_neg hd, if_neg hd]
          exact ih _
    · rw [if_neg hs, if_neg hs]
      exact ih _

/-- The state-keeping routines agree with `WedgeMolBonds` and `WedgeBond`. -/
theorem wedgeMolBonds_eq_outcome (mol : ROMol) (conf : Option Conformer) :
    WedgeMolBonds mol conf = outcome (WedgeMolBondsState mol conf) := by
  unfold WedgeMolBonds WedgeMolBondsState
  cases conf with
  | none => rfl
  | some c =>
    simp only []
    cases pickBondsToWedge mol with
    | error e => rfl
    | ok wb => exact wedgeMolLoop_eq_outcome wb c _ mol

theorem wedgeBond_eq_outcome (mol : ROMol) (bid fromAtomIdx : Nat) (conf : Option Conformer) :
    WedgeBond mol bid fromAtomIdx conf = outcome (WedgeBondState mol bid fromAtomIdx conf) := by
  unfold WedgeBond WedgeBondState
  cases mol.bonds[bid]? with
  | none => rfl
  | some bond =>
    simp only []
    cases conf with
    | none => rfl
    | some c =>
      simp only []
      split_ifs with h1 h2
      · rfl
      · rfl
      · cases DetermineBondWedgeState mol bid fromAtomIdx (some c) with
        | error e => rfl
        | ok dir =>
          simp only []
          split_ifs <;> rfl

/-- C26: without a conformer `WedgeMolBonds` and `WedgeBond` fail with a
precondition violation and leave the molecule as it was: every bond keeps its
direction and its ends. -/
theorem wedge_without_conformer (mol : ROMol) (bid fromAtomIdx : Nat) :
    WedgeMolBonds mol none = .error .precondition
      ∧ WedgeBond mol bid fromAtomIdx none = .error .precondition
      ∧ WedgeMolBondsState mol none = (mol, some .precondition)
      ∧ WedgeBondState mol bid fromAtomIdx none = (mol, some .precondition)
      ∧ (∀ j, ((WedgeMolBondsState mol none).1.getBondWithIdx j).bondDir
            = (mol.getBondWithIdx j).bondDir
          ∧ ((WedgeMolBondsState mol none).1.getBondWithIdx j).beginAtomIdx
            = (mol.getBondWithIdx j).beginAtomIdx
          ∧ ((WedgeMolBondsState mol none).1.getBondWithIdx j).endAtomIdx
            = (mol.getBondWithIdx j).endAtomIdx)
      ∧ (∀ j, ((WedgeBondState mol bid fromAtomIdx none).1.getBondWithIdx j).bondDir
            = (mol.getBondWithIdx j).bondDir
          ∧ ((WedgeBondState mol bid fromAtomIdx none).1.getBondWithIdx j).beginAtomIdx
            = (mol.getBondWithIdx j).beginAtomIdx
          ∧ ((WedgeBondState mol bid fromAtomIdx none).1.getBondWithIdx j).endAtomIdx
            = (mol.getBondWithIdx j).endAtomIdx) := by
  have h1 : WedgeMolBondsState mol none = (mol, some .precondition) := rfl
  have h2 : WedgeBondState mol bid fromAtomIdx none = (mol, some .precondition) := by
    unfold WedgeBondState
    cases mol.bonds[bid]? <;> rfl
  refine ⟨?_, ?_, h1, h2, fun j => ?_, fun j => ?_⟩
  · rw [wedgeMolBonds_eq_outcome, h1]
    rfl
  · rw [wedgeBond_eq_outcome, h2]
    rfl
  · rw [h1]
    exact ⟨rfl, rfl, rfl⟩
  · rw [h2]
    exact ⟨rfl, rfl, rfl⟩

end RDKit

namespace RDKit

/-! ## `findPotentialStereo` without the possible candidates -/

/-- C27: with `flagPossible = false` the routine returns the candidates that it
returns with `flagPossible = true` and whose `specified` is not unspecified, in
the same order, and leaves the same graph; an engine that perceives the two
candidates of the test "flagPossible" returns only the center on atom 3. -/
theorem findPotentialStereo_flagPossible (eng : StereoEngine) (mol : ROMol) (cleanUp : Bool) :
    (findPotentialStereo eng mol cleanUp false).2
        = (findPotentialStereo eng mol cleanUp true).2.filter
          (fun si => si.specified != .Unspecified)
      ∧ (findPotentialStereo eng mol cleanUp false).1
        = (findPotentialStereo eng mol cleanUp true).1
      ∧ (eng.perceive mol = flagPossibleCandidates →
          (findPotentialStereo eng mol cleanUp true).2 = flagPossibleCandidates
            ∧ (findPotentialStereo eng mol cleanUp false).2
              = [⟨.Atom_Tetrahedral, 3, [some 1, none, some 4, some 5], .Specified, .Tet_CCW, 0⟩]) := by
  refine ⟨?_, rfl, fun h => ?_⟩
  · unfold findPotentialStereo
    simp only [if_true, Bool.false_eq_true, if_false]
    rw [List.filter_map]
    congr 1
    refine List.filter_congr (fun si _ => ?_)
    simp only [Function.comp]
    split_ifs <;> rfl
  · unfold findPotentialStereo
    simp only [h, if_true, Bool.false_eq_true, if_false]
    exact ⟨rfl, rfl⟩

/-- Witness of C27: an engine that perceives the candidates of the test on any
molecule and clears nothing. -/
theorem findPotentialStereo_flagPossible_witness :
    (findPotentialStereo ⟨fun _ => flagPossibleCandidates, fun m _ => m, fun _ _ => 0⟩
          butene false false).2
        = (findPotentialStereo ⟨fun _ => flagPossibleCandidates, fun m _ => m, fun _ _ => 0⟩
            butene false true).2.filter (fun si => si.specified != .Unspecified)
      ∧ (findPotentialStereo ⟨fun _ => flagPossibleCandidates, fun m _ => m, fun _ _ => 0⟩
          butene false false).1
        = (findPotentialStereo ⟨fun _ => flagPossibleCandidates, fun m _ => m, fun _ _ => 0⟩
            butene false true).1
      ∧ ((fun _ : ROMol => flagPossibleCandidates) butene = flagPossibleCandidates →
          (findPotentialStereo ⟨fun _ => flagPossibleCandidates, fun m _ => m, fun _ _ => 0⟩
              butene false true).2 = flagPossibleCandidates
            ∧ (findPotentialStereo ⟨fun _ => flagPossibleCandidates, fun m _ => m, fun _ _ => 0⟩
                butene false false).2
              = [⟨.Atom_Tetrahedral, 3, [some 1, none, some 4, some 5], .Specified, .Tet_CCW,
                  0⟩]) :=
  findPotentialStereo_flagPossible ⟨fun _ => flagPossibleCandidates, fun m _ => m, fun _ _ => 0⟩
    butene false

end RDKit

namespace RDKit

/-! ## A second call of `WedgeMolBonds` -/

theorem setBondDir_self (mol : ROMol) (i : Nat) :
    mol.setBondDir i (mol.getBondWithIdx i).bondDir = mol := by
  unfold ROMol.setBondDir ROMol.modifyBond
  have hset : mol.bonds.set i (mol.getBondWithIdx i) = mol.bonds := by
    by_cases hlt : i < mol.bonds.length
    · refine List.ext_getElem (by simp) (fun j h1 h2 => ?_)
      rw [List.getElem_set]
      split_ifs with e
      · subst e
        unfold ROMol.getBondWithIdx
        rw [List.getD_eq_getElem?_getD, List.getElem?_eq_getElem hlt]
        rfl
      · rfl
    · exact List.set_eq_of_length_le (by omega)
  show ({ mol with bonds := mol.bonds.set i (mol.getBondWithIdx i) } : ROMol) = mol
  rw [hset]

theorem alreadyWedged_of_none (mol : ROMol) (h : ∀ bond ∈ mol.bonds, bond.bondDir = .NONE)
    (a : Nat) : alreadyWedged mol a = false := by
  unfold alreadyWedged
  rw [Bool.and_eq_false_iff]
  right
  rw [List.any_eq_false]
  intro bond hb
  rw [h bond hb]
  simp [BondDir.isWedged]

theorem getBondWithIdx_mem (mol : ROMol) (i : Nat) (h : i < mol.bonds.length) :
    mol.getBondWithIdx i ∈ mol.bonds := by
  unfold ROMol.getBondWithIdx
  rw [List.getD_eq_getElem?_getD, List.getElem?_eq_getElem h]
  exact List.getElem_mem _

/-- A center that begins a wedged or hashed bond is already wedged. -/
theorem alreadyWedged_of_begin (mol : ROMol) (a b : Nat) (hc : mol.isCenter a = true)
    (hlt : b < mol.bonds.length)
    (hd : (mol.getBondWithIdx b).bondDir = .BEGINWEDGE
      ∨ (mol.getBondWithIdx b).bondDir = .BEGINDASH)
    (hbeg : (mol.getBondWithIdx b).beginAtomIdx = a) : alreadyWedged mol a = true := by
  unfold alreadyWedged
  rw [Bool.and_eq_true, List.any_eq_true]
  refine ⟨hc, mol.getBondWithIdx b, getBondWithIdx_mem mol b hlt, ?_⟩
  rcases hd with hd | hd <;> simp [hd, BondDir.isWedged, hbeg]

/-- A successful run of `pickBondsToWedge` gives every processable center an
entry. -/
theorem pickBondsToWedge_has_entry (mol : ROMol) (res : INT_MAP_INT)
    (h : pickBondsToWedge mol = .ok res) (a : Nat) (ha : isProcessable mol a = true) :
    ∃ b, (b, a) ∈ res := by
  rw [pickBondsToWedge_eq] at h
  obtain ⟨picks, hp1, hp2, _, _⟩ := wedgeLoop_centers_ok mol (centersInOrder mol) [] res
    (fun c hc => (isProcessable_iff mol c).1 ((mem_centersInOrder mol c).1 hc))
    (by simp) h
  have hmem : a ∈ picks.map Prod.snd := by
    rw [hp1]
    exact (mem_centersInOrder mol a).2 ha
  obtain ⟨e, he, hea⟩ := List.mem_map.1 hmem
  refine ⟨e.1, ?_⟩
  have : e ∈ res := hp2.symm.subset (List.mem_append_left _ he)
  rw [← hea]
  exact this

/-- With no entry in the map the loop of `WedgeMolBonds` changes nothing. -/
theorem wedgeMolLoop_nil_map (conf : Conformer) (is : List Nat) (mol : ROMol)
    (his : ∀ i ∈ is, i < mol.bonds.length) :
    wedgeMolLoop [] conf is mol = .ok mol := by
  induction is with
  | nil => rfl
  | cons i rest ih =>
    have hi := his i (List.mem_cons_self _ _)
    have hrest := ih (fun j hj => his j (List.mem_cons_of_mem _ hj))
    have hdet : DetermineBondWedgeStateMap mol i [] (some conf)
        = .ok (mol.getBondWithIdx i).bondDir := by
      unfold DetermineBondWedgeStateMap
      rw [getElem?_of_lt mol i hi]
      rfl
    unfold wedgeMolLoop
    split_ifs with hs
    · rw [hdet]
      simp only []
      split_ifs with hd
      · rw [setBondDir_self]
        exact hrest
      · exact hrest
    · exact hrest

/-- C29: when no bond of the molecule has a direction and `WedgeMolBonds`
completes with a conformer, a second call, with any conformer, finds no center
to serve (the map of `pickBondsToWedge` is empty) and returns the molecule as
the first call left it. -/
theorem wedgeMolBonds_second_call (mol m1 : ROMol) (conf conf2 : Conformer)
    (hnone : ∀ bond ∈ mol.bonds, bond.bondDir = .NONE)
    (hrun : WedgeMolBonds mol (some conf) = .ok m1) :
    pickBondsToWedge m1 = .ok [] ∧ WedgeMolBonds m1 (some conf2) = .ok m1 := by
  have hrun1 := hrun
  unfold WedgeMolBonds at hrun1
  simp only [] at hrun1
  cases hpick : pickBondsToWedge mol with
  | error e =>
    rw [hpick] at hrun1
    cases hrun1
  | ok res =>
    rw [hpick] at hrun1
    simp only [] at hrun1
    obtain ⟨hatoms, hlen, _⟩ := wedgeMolLoop_frame res conf _ mol m1 hrun1
    have hwedged : ∀ a, m1.isCenter a = true → alreadyWedged m1 a = true := by
      intro a hc
      have hc0 : mol.isCenter a = true := by
        rw [← isCenter_congr m1 mol hatoms a]
        exact hc
      have hproc : isProcessable mol a = true :=
        (isProcessable_iff_not_wedged mol a).2 ⟨hc0, alreadyWedged_of_none mol hnone a⟩
      obtain ⟨b, hb⟩ := pickBondsToWedge_has_entry mol res hpick a hproc
      obtain ⟨hmem, hs, _, hf⟩ := pickBondsToWedge_entry mol res hpick b a hb
      obtain ⟨hlt, hend⟩ := (mem_atomBonds mol a b).1 hmem
      obtain ⟨hd, hbeg, _⟩ := wedgeMolLoop_entry res conf b a hf (List.range mol.getNumBonds)
        mol m1 (List.nodup_range _) (List.mem_range.2 hlt) hrun1 hlt hs hend hc0
      exact alreadyWedged_of_begin m1 a b hc (by rw [hlen]; exact hlt) hd hbeg
    have hnoproc : ∀ a, isProcessable m1 a = false := by
      intro a
      by_contra hne
      have hp : isProcessable m1 a = true := by simpa using hne
      obtain ⟨h1, h2⟩ := (isProcessable_iff_not_wedged m1 a).1 hp
      rw [hwedged a h1] at h2
      exact Bool.noConfusion h2
    have hcs : centersInOrder m1 = [] := by
      rw [List.eq_nil_iff_forall_not_mem]
      intro a ha
      have := (mem_centersInOrder m1 a).1 ha
      rw [hnoproc a] at this
      exact Bool.noConfusion this
    have hpick1 : pickBondsToWedge m1 = .ok [] := by
      rw [pickBondsToWedge_eq, hcs]
      rfl
    refine ⟨hpick1, ?_⟩
    unfold WedgeMolBonds
    simp only [hpick1]
    exact wedgeMolLoop_nil_map conf2 _ m1 (fun i hi => List.mem_range.1 hi)

/-- Witness of C29 on `endCenter`, whose bonds have no direction: the first call
gives `endCenterWedged`, and the second call returns it unchanged. -/
theorem wedgeMolBonds_second_call_witness :
    ((∀ bond ∈ endCenter.bonds, bond.bondDir = .NONE)
        ∧ WedgeMolBonds endCenter (some tetraConf) = .ok endCenterWedged)
      ∧ pickBondsToWedge endCenterWedged = .ok []
      ∧ WedgeMolBonds endCenterWedged (some tetraConf) = .ok endCenterWedged :=
  ⟨⟨by decide, rfl⟩,
    wedgeMolBonds_second_call endCenter endCenterWedged tetraConf tetraConf (by decide) rfl⟩

end RDKit

namespace RDKit

/-! ## A second call of `addWavyBondsForStereoAny` -/

theorem SameGraph.atomBonds_eq {m1 m2 : ROMol} (h : SameGraph m1 m2) (a : Nat) :
    m1.atomBonds a = m2.atomBonds a := by
  unfold ROMol.atomBonds
  rw [h.1]
  refine List.filter_congr (fun j _ => ?_)
  rw [(h.2 j).1, (h.2 j).2.1]

/-- The penalty of a single bond does not shrink when directions are only
added and stereo is only taken from STEREOANY double bonds. -/
theorem wavyPenalty_mono (th : StereoBondThresholds) (mol m1 : ROMol) (sb dbl o : Nat)
    (hsame : SameGraph m1 mol) (hatoms : m1.atoms = mol.atoms)
    (hdir : (mol.getBondWithIdx sb).bondDir ≠ .NONE → (m1.getBondWithIdx sb).bondDir ≠ .NONE)
    (hst : (m1.getBondWithIdx dbl).stereo = (mol.getBondWithIdx dbl).stereo
      ∨ (mol.getBondWithIdx dbl).stereo = .STEREOANY) :
    wavyPenalty th mol sb dbl o ≤ wavyPenalty th m1 sb dbl o := by
  unfold wavyPenalty
  have hA : (if (mol.getBondWithIdx sb).bondDir ≠ .NONE then th.DIRECTION_SET / 10 else 0)
      ≤ (if (m1.getBondWithIdx sb).bondDir ≠ .NONE then th.DIRECTION_SET / 10 else 0) := by
    by_cases h : (mol.getBondWithIdx sb).bondDir ≠ .NONE
    · rw [if_pos h, if_pos (hdir h)]
    · rw [if_neg h]
      exact Nat.zero_le _
  have hB : (if (mol.getBondWithIdx dbl).stereo = .STEREONONE then th.DBL_BOND_NO_STEREO / 10
        else if (mol.getBondWithIdx dbl).stereo.toNat > BondStereo.STEREOANY.toNat then
          th.DBL_BOND_SPECIFIED_STEREO / 10
        else 0)
      ≤ (if (m1.getBondWithIdx dbl).stereo = .STEREONONE then th.DBL_BOND_NO_STEREO / 10
        else if (m1.getBondWithIdx dbl).stereo.toNat > BondStereo.STEREOANY.toNat then
          th.DBL_BOND_SPECIFIED_STEREO / 10
        else 0) := by
    rcases hst with h | h
    · rw [h]
    · rw [h]
      simp [BondStereo.toNat]
  have hC : mol.getDegree o = m1.getDegree o := by
    unfold ROMol.getDegree
    rw [hsame.atomBonds_eq]
  have hD : mol.getAtomWithIdx o = m1.getAtomWithIdx o := by
    unfold ROMol.getAtomWithIdx
    rw [hatoms]
  rw [hC, hD]
  omega

theorem scoreNeighbors_mono (th : StereoBondThresholds) (mol m1 : ROMol) (d : Nat)
    (hsame : SameGraph m1 mol) (hatoms : m1.atoms = mol.atoms)
    (hdir : ∀ j, (mol.getBondWithIdx j).bondType = .SINGLE →
      (mol.getBondWithIdx j).bondDir ≠ .NONE → (m1.getBondWithIdx j).bondDir ≠ .NONE)
    (hst : ∀ j, (m1.getBondWithIdx j).stereo = (mol.getBondWithIdx j).stereo
      ∨ (mol.getBondWithIdx j).stereo = .STEREOANY)
    (l : List Nat) (t t1 r r1 : WavyTables)
    (hle : ∀ s, t.singleBondScores s ≤ t1.singleBondScores s)
    (hr : scoreNeighbors th mol d l t = .ok r) (hr1 : scoreNeighbors th m1 d l t1 = .ok r1) :
    ∀ s, r.singleBondScores s ≤ r1.singleBondScores s := by
  induction l generalizing t t1 with
  | nil =>
    simp only [scoreNeighbors, Except.ok.injEq] at hr hr1
    subst hr
    subst hr1
    exact hle
  | cons sb rest ih =>
    have hty : (m1.getBondWithIdx sb).bondType = (mol.getBondWithIdx sb).bondType :=
      (hsame.2 sb).2.2
    have hns : getNonsharedAtom (m1.getBondWithIdx sb) (m1.getBondWithIdx d)
        = getNonsharedAtom (mol.getBondWithIdx sb) (mol.getBondWithIdx d) := by
      unfold getNonsharedAtom
      rw [(hsame.2 sb).1, (hsame.2 sb).2.1, (hsame.2 d).1, (hsame.2 d).2.1]
    unfold scoreNeighbors at hr hr1
    rw [hty, hns] at hr1
    by_cases hs : (mol.getBondWithIdx sb).bondType = .SINGLE
    · rw [if_neg (by simp [hs])] at hr hr1
      cases ho : getNonsharedAtom (mol.getBondWithIdx sb) (mol.getBondWithIdx d) with
      | error e =>
        rw [ho] at hr
        cases hr
      | ok o =>
        rw [ho] at hr hr1
        simp only [] at hr hr1
        refine ih _ _ ?_ hr hr1
        intro s
        simp only []
        by_cases e : s = sb
        · subst e
          simp only [Function.update_same]
          have := wavyPenalty_mono th mol m1 s d o hsame hatoms (hdir s hs) (hst d)
          have := hle s
          omega
        · simp only [Function.update_noteq e]
          exact hle s
    · rw [if_pos (by simpa using hs)] at hr hr1
      exact ih t t1 hle hr hr1

theorem scoreBonds_mono (th : StereoBondThresholds) (mol m1 : ROMol)
    (hsame : SameGraph m1 mol) (hatoms : m1.atoms = mol.atoms)
    (hdir : ∀ j, (mol.getBondWithIdx j).bondType = .SINGLE →
      (mol.getBondWithIdx j).bondDir ≠ .NONE → (m1.getBondWithIdx j).bondDir ≠ .NONE)
    (hst : ∀ j, (m1.getBondWithIdx j).stereo = (mol.getBondWithIdx j).stereo
      ∨ (mol.getBondWithIdx j).stereo = .STEREOANY)
    (l : List Nat) (t t1 r r1 : WavyTables)
    (hle : ∀ s, t.singleBondScores s ≤ t1.singleBondScores s)
    (hr : scoreBonds th mol l t = .ok r) (hr1 : scoreBonds th m1 l t1 = .ok r1) :
    ∀ s, r.singleBondScores s ≤ r1.singleBondScores s := by
  induction l generalizing t t1 with
  | nil =>
    simp only [scoreBonds, Except.ok.injEq] at hr hr1
    subst hr
    subst hr1
    exact hle
  | cons d rest ih =>
    have hty : (m1.getBondWithIdx d).bondType = (mol.getBondWithIdx d).bondType :=
      (hsame.2 d).2.2
    unfold scoreBonds at hr hr1
    rw [hty, hsame.getBondNeighbors_eq] at hr1
    by_cases hd : (mol.getBondWithIdx d).bondType = .DOUBLE
    · rw [if_neg (by simp [hd])] at hr hr1
      cases h2 : scoreNeighbors th mol d (getBondNeighbors mol d)
          (if (mol.getBondWithIdx d).stereo = .STEREOANY then
            { t with doubleBondsToSet := Function.update t.doubleBondsToSet d true }
          else t) with
      | error e =>
        rw [h2] at hr
        cases hr
      | ok u =>
        rw [h2] at hr
        simp only [] at hr
        cases h3 : scoreNeighbors th m1 d (getBondNeighbors mol d)
            (if (m1.getBondWithIdx d).stereo = .STEREOANY then
              { t1 with doubleBondsToSet := Function.update t1.doubleBondsToSet d true }
            else t1) with
        | error e =>
          rw [h3] at hr1
          cases hr1
        | ok u1 =>
          rw [h3] at hr1
          simp only [] at hr1
          refine ih u u1 ?_ hr hr1
          refine scoreNeighbors_mono th mol m1 d hsame hatoms hdir hst _ _ _ u u1 ?_ h2 h3
          intro s
          split_ifs <;> exact hle s
    · rw [if_pos (by simpa using hd)] at hr hr1
      exact ih t t1 hle hr hr1

/-- A visit all of whose double bonds are set already or stopped by the
threshold changes nothing. -/
theorem wavyInner_blocked (c : Bool) (T sc sb : Nat) (ds : List Nat)
    (st : ROMol × (Nat → Bool)) (h : ∀ x ∈ ds, st.2 x = false ∨ (T ≠ 0 ∧ sc > T)) :
    wavyInner c T sc sb ds st = st := by
  induction ds with
  | nil => rfl
  | cons x rest ih =>
    rw [wavyInner_cons, wavyStep_skip c T sc sb st x (h x (List.mem_cons_self _ _))]
    exact ih (fun y hy => h y (List.mem_cons_of_mem _ hy))

theorem wavyOuter_blocked (c : Bool) (T : Nat) (nbrs : Nat → List Nat)
    (l : List (Int × Nat × Nat)) (st : ROMol × (Nat → Bool))
    (h : ∀ tpl ∈ l, ∀ x ∈ nbrs tpl.2.2, st.2 x = false ∨ (T ≠ 0 ∧ tpl.2.1 > T)) :
    wavyOuter c T nbrs l st = st := by
  induction l with
  | nil => rfl
  | cons tpl rest ih =>
    rw [wavyOuter_cons, wavyInner_blocked c T _ _ _ st (h tpl (List.mem_cons_self _ _))]
    exact ih (fun q hq => h q (List.mem_cons_of_mem _ hq))

/-- C30: with `clearDoubleBondFlags = true` the routine is idempotent: it
returns, and applied to its result with the same threshold it returns that
result unchanged; no score is smaller in the second run than in the first. -/
theorem addWavyBondsForStereoAny_idempotent (th : StereoBondThresholds) (mol : ROMol)
    (T : Nat) :
    ∃ m1, addWavyBondsForStereoAny th mol true T = .ok m1
      ∧ addWavyBondsForStereoAny th m1 true T = .ok m1
      ∧ ∀ s, wavyScore th mol s ≤ wavyScore th m1 s := by
  obtain ⟨t, ht, hS2, hS3, hsc⟩ := wavyTables_spec th mol
  have hfin := addWavyBondsForStereoAny_eq th mol true T t ht
  have hsame : SameGraph (wavyOuter true T t.singleBondNeighbors (sortedScores mol t)
      (mol, t.doubleBondsToSet)).1 mol := sameGraph_wavyOuter true T _ _ _
  obtain ⟨hout, hlen, hb⟩ := wavyFrame_wavyOuter true T t.singleBondNeighbors mol
    (sortedScores mol t) (mol, t.doubleBondsToSet) (wavyFrame_refl true _ mol)
  have hres := fun D S h1 h2 h3 h4 h5 h6 =>
    wavyOuter_resolved th mol true T t ht D S h1 h2 h3 h4 h5 h6
  generalize (wavyOuter true T t.singleBondNeighbors (sortedScores mol t)
      (mol, t.doubleBondsToSet)).1 = m1 at hfin hsame hout hlen hb hres
  refine ⟨m1, hfin, ?_⟩
  obtain ⟨t2, ht2, kS2, kS3, ksc⟩ := wavyTables_spec th m1
  have hdir : ∀ j, (mol.getBondWithIdx j).bondType = .SINGLE →
      (mol.getBondWithIdx j).bondDir ≠ .NONE → (m1.getBondWithIdx j).bondDir ≠ .NONE := by
    intro j hj hne
    rcases (hb j).2.2.2.2.1 with e | ⟨e, _⟩ | ⟨_, _, _, s, hs⟩
    · rw [e]
      exact hne
    · rw [e]
      simp
    · have := ((hS3 s j).1 hs).2.1
      rw [hj] at this
      cases this
  have hst : ∀ j, (m1.getBondWithIdx j).stereo = (mol.getBondWithIdx j).stereo
      ∨ (mol.getBondWithIdx j).stereo = .STEREOANY := by
    intro j
    rcases (hb j).2.2.2.2.2 with e | ⟨_, _, s, hs⟩
    · exact Or.inl e
    · exact Or.inr ((hS3 s j).1 hs).2.2.1
  have hmono : ∀ s, t.singleBondScores s ≤ t2.singleBondScores s := by
    have ht2a := ht2
    unfold wavyTables at ht ht2a
    rw [show m1.getNumBonds = mol.getNumBonds from hlen] at ht2a
    exact scoreBonds_mono th mol m1 hsame hout.1 hdir hst _ _ _ t t2 (fun _ => le_refl _) ht ht2a
  refine ⟨?_, fun s => by rw [wavyScore_eq th mol t ht, wavyScore_eq th m1 t2 ht2]; exact hmono s⟩
  rw [addWavyBondsForStereoAny_eq th m1 true T t2 ht2]
  rw [wavyOuter_blocked true T _ _ _ ?_]
  intro tpl htpl x hx
  right
  obtain ⟨_, _, hscore, _⟩ := (mem_sortedScores m1 t2 tpl).1 htpl
  obtain ⟨k1, k2, k3, k4, k5⟩ := (kS3 tpl.2.2 x).1 hx
  by_contra hnb
  have hx1 : x < mol.bonds.length := by
    rw [← hlen]
    exact k1
  have hx2 : (mol.getBondWithIdx x).bondType = .DOUBLE := by
    rw [← (hsame.2 x).2.2]
    exact k2
  have hx3 : (mol.getBondWithIdx x).stereo = .STEREOANY := by
    rcases (hb x).2.2.2.2.2 with e | ⟨_, e, _⟩
    · rw [← e]
      exact k3
    · rw [k3] at e
      cases e
  have hs1 : tpl.2.2 ∈ getBondNeighbors mol x := by
    rw [← hsame.getBondNeighbors_eq]
    exact k4
  have hs2 : (mol.getBondWithIdx tpl.2.2).bondType = .SINGLE := by
    rw [← (hsame.2 tpl.2.2).2.2]
    exact k5
  have hT : ¬ (T ≠ 0 ∧ t.singleBondScores tpl.2.2 > T) := by
    rintro ⟨h1, h2⟩
    apply hnb
    refine ⟨h1, ?_⟩
    rw [hscore]
    exact lt_of_lt_of_le h2 (hmono _)
  have := (hres x tpl.2.2 hx1 hx2 hx3 hs1 hs2 hT).2 rfl
  rw [k3] at this
  cases this.1

end RDKit

namespace RDKit

/-! ## Verdicts of `DetermineBondWedgeState` and the effect of `WedgeBond` -/

theorem determineBondWedgeState_untagged (mol : ROMol) (bid fromAtomIdx : Nat)
    (conf : Conformer) (bond : Bond) (hb : mol.bonds[bid]? = some bond)
    (hs : bond.bondType = .SINGLE) (hc : mol.isCenter (fromAtom bond fromAtomIdx) = false) :
    DetermineBondWedgeState mol bid fromAtomIdx (some conf) = .error .invariant := by
  have hc1 : (mol.getAtomWithIdx (fromAtom bond fromAtomIdx)).chiralTag.isTetrahedral = false :=
    hc
  unfold DetermineBondWedgeState
  simp only [hb, hs, ne_eq, not_true_eq_false, if_false, hc1, Bool.not_false, if_true]

theorem swapsToDir_cases (tag : ChiralType) (n : Nat) :
    swapsToDir tag n = .BEGINWEDGE ∨ swapsToDir tag n = .BEGINDASH := by
  unfold swapsToDir
  split_ifs <;> simp

/-- C31: on a single bond, with a conformer, `DetermineBondWedgeState` returns
BEGINWEDGE or BEGINDASH when the atom it takes as the center is tagged
CHI_TETRAHEDRAL_CW or CHI_TETRAHEDRAL_CCW and fails with an invariant violation
for every other chiral tag; in no case does it return another direction. The
center is the atom `fromAtomIdx` whenever that is an end of the bond. -/
theorem determineBondWedgeState_verdict (mol : ROMol) (bid fromAtomIdx : Nat)
    (conf : Conformer) (bond : Bond) (hb : mol.bonds[bid]? = some bond)
    (hs : bond.bondType = .SINGLE) :
    (((mol.getAtomWithIdx (fromAtom bond fromAtomIdx)).chiralTag = .CHI_TETRAHEDRAL_CW
          ∨ (mol.getAtomWithIdx (fromAtom bond fromAtomIdx)).chiralTag = .CHI_TETRAHEDRAL_CCW) →
        (DetermineBondWedgeState mol bid fromAtomIdx (some conf) = .ok .BEGINWEDGE
          ∨ DetermineBondWedgeState mol bid fromAtomIdx (some conf) = .ok .BEGINDASH))
      ∧ ((mol.getAtomWithIdx (fromAtom bond fromAtomIdx)).chiralTag ≠ .CHI_TETRAHEDRAL_CW →
          (mol.getAtomWithIdx (fromAtom bond fromAtomIdx)).chiralTag ≠ .CHI_TETRAHEDRAL_CCW →
          DetermineBondWedgeState mol bid fromAtomIdx (some conf) = .error .invariant)
      ∧ (∀ d, DetermineBondWedgeState mol bid fromAtomIdx (some conf) = .ok d →
          d = .BEGINWEDGE ∨ d = .BEGINDASH)
      ∧ ((bond.beginAtomIdx = fromAtomIdx ∨ bond.endAtomIdx = fromAtomIdx) →
          fromAtom bond fromAtomIdx = fromAtomIdx) := by
  have hyes : mol.isCenter (fromAtom bond fromAtomIdx) = true →
      (DetermineBondWedgeState mol bid fromAtomIdx (some conf) = .ok .BEGINWEDGE
        ∨ DetermineBondWedgeState mol bid fromAtomIdx (some conf) = .ok .BEGINDASH) := by
    intro hc
    rw [determineBondWedgeState_eq mol bid fromAtomIdx conf bond hb hs hc]
    rcases swapsToDir_cases (mol.getAtomWithIdx (fromAtom bond fromAtomIdx)).chiralTag
      (totalSwaps mol conf bid fromAtomIdx) with h | h
    · exact Or.inl (by rw [h])
    · exact Or.inr (by rw [h])
  refine ⟨fun htag => hyes ?_, fun h1 h2 => ?_, fun d hd => ?_, fun hend => ?_⟩
  · rcases htag with h | h <;> simp [ROMol.isCenter, ChiralType.isTetrahedral, h]
  · refine determineBondWedgeState_untagged mol bid fromAtomIdx conf bond hb hs ?_
    simp [ROMol.isCenter, ChiralType.isTetrahedral, h1, h2]
  · by_cases hc : mol.isCenter (fromAtom bond fromAtomIdx) = true
    · rcases hyes hc with h | h
      · rw [h] at hd
        exact Or.inl (Except.ok.inj hd).symm
      · rw [h] at hd
        exact Or.inr (Except.ok.inj hd).symm
    · rw [determineBondWedgeState_untagged mol bid fromAtomIdx conf bond hb hs
        (by simpa using hc)] at hd
      cases hd
  · unfold fromAtom
    split_ifs with h
    · exact h
    · rcases hend with e | e
      · exact absurd e h
      · exact e

/-- Witness of C31 on the first bond of `tetraMol`: from the tagged center 0 the
verdict is BEGINDASH, from the untagged atom 1 the call fails. -/
theorem determineBondWedgeState_verdict_witness :
    ((tetraMol 0).bonds[0]? = some (plainBond 0 1 .SINGLE)
        ∧ DetermineBondWedgeState (tetraMol 0) 0 0 (some tetraConf) = .ok .BEGINDASH
        ∧ DetermineBondWedgeState (tetraMol 0) 0 1 (some tetraConf) = .error .invariant)
      ∧ (((((tetraMol 0).getAtomWithIdx (fromAtom (plainBond 0 1 .SINGLE) 0)).chiralTag
              = .CHI_TETRAHEDRAL_CW
            ∨ ((tetraMol 0).getAtomWithIdx (fromAtom (plainBond 0 1 .SINGLE) 0)).chiralTag
              = .CHI_TETRAHEDRAL_CCW) →
          (DetermineBondWedgeState (tetraMol 0) 0 0 (some tetraConf) = .ok .BEGINWEDGE
            ∨ DetermineBondWedgeState (tetraMol 0) 0 0 (some tetraConf) = .ok .BEGINDASH))
        ∧ (((tetraMol 0).getAtomWithIdx (fromAtom (plainBond 0 1 .SINGLE) 0)).chiralTag
              ≠ .CHI_TETRAHEDRAL_CW →
            ((tetraMol 0).getAtomWithIdx (fromAtom (plainBond 0 1 .SINGLE) 0)).chiralTag
              ≠ .CHI_TETRAHEDRAL_CCW →
            DetermineBondWedgeState (tetraMol 0) 0 0 (some tetraConf) = .error .invariant)
        ∧ (∀ d, DetermineBondWedgeState (tetraMol 0) 0 0 (some tetraConf) = .ok d →
            d = .BEGINWEDGE ∨ d = .BEGINDASH)
        ∧ (((plainBond 0 1 .SINGLE).beginAtomIdx = 0 ∨ (plainBond 0 1 .SINGLE).endAtomIdx = 0) →
            fromAtom (plainBond 0 1 .SINGLE) 0 = 0)) :=
  ⟨⟨rfl, rfl, rfl⟩,
    determineBondWedgeState_verdict (tetraMol 0) 0 0 tetraConf (plainBond 0 1 .SINGLE) rfl rfl⟩

/-- C34: the overload of `DetermineBondWedgeState` that takes the map returns
the current direction of the bond, whatever its type and with or without a
conformer, when the index of the bond is not a key of the map, and otherwise
the result of `DetermineBondWedgeState` from the atom the map gives. -/
theorem determineBondWedgeStateMap_spec (mol : ROMol) (bid : Nat) (wedgeBonds : INT_MAP_INT)
    (conf : Option Conformer) (bond : Bond) (hb : mol.bonds[bid]? = some bond) :
    (bid ∉ wedgeBonds.map Prod.fst →
        DetermineBondWedgeStateMap mol bid wedgeBonds conf = .ok bond.bondDir)
      ∧ (∀ a, wedgeBonds.find bid = some a →
          DetermineBondWedgeStateMap mol bid wedgeBonds conf
            = DetermineBondWedgeState mol bid a conf)
      ∧ (bid ∈ wedgeBonds.map Prod.fst → ∃ a, wedgeBonds.find bid = some a) := by
  refine ⟨fun h => ?_, fun a h => ?_, fun h => ?_⟩
  · have hf := (INT_MAP_INT.find_eq_none_iff wedgeBonds bid).2 h
    unfold DetermineBondWedgeStateMap
    simp only [hb, hf]
  · unfold DetermineBondWedgeStateMap
    simp only [hb, h]
  · cases hf : wedgeBonds.find bid with
    | none => exact absurd h ((INT_MAP_INT.find_eq_none_iff wedgeBonds bid).1 hf)
    | some a => exact ⟨a, rfl⟩

/-- Witness of C34 on the first bond of `tetraMol`, with the empty map and with
the map `0 ↦ 0`. -/
theorem determineBondWedgeStateMap_spec_witness :
    ((tetraMol 0).bonds[0]? = some (plainBond 0 1 .SINGLE)
        ∧ DetermineBondWedgeStateMap (tetraMol 0) 0 [] (some tetraConf) = .ok .NONE
        ∧ DetermineBondWedgeStateMap (tetraMol 0) 0 [(0, 0)] (some tetraConf) = .ok .BEGINDASH)
      ∧ ((0 ∉ List.map Prod.fst [(0, 0)] →
          DetermineBondWedgeStateMap (tetraMol 0) 0 [(0, 0)] (some tetraConf)
            = .ok (plainBond 0 1 .SINGLE).bondDir)
        ∧ (∀ a, INT_MAP_INT.find [(0, 0)] 0 = some a →
            DetermineBondWedgeStateMap (tetraMol 0) 0 [(0, 0)] (some tetraConf)
              = DetermineBondWedgeState (tetraMol 0) 0 a (some tetraConf))
        ∧ (0 ∈ List.map Prod.fst [(0, 0)] → ∃ a, INT_MAP_INT.find [(0, 0)] 0 = some a)) :=
  ⟨⟨rfl, rfl, rfl⟩,
    determineBondWedgeStateMap_spec (tetraMol 0) 0 [(0, 0)] (some tetraConf)
      (plainBond 0 1 .SINGLE) rfl⟩

/-- C35: with a conformer of the molecule, `WedgeBond` on a bond that is not
single returns the molecule as it is; on a single bond for which
`DetermineBondWedgeState` returns, the direction returned is BEGINWEDGE or
BEGINDASH and the call sets it on that bond and changes nothing else; when
`DetermineBondWedgeState` fails the call fails the same way and the molecule is
left as it is. -/
theorem wedgeBond_effect (mol : ROMol) (bid fromAtomIdx : Nat) (conf : Conformer)
    (bond : Bond) (hb : mol.bonds[bid]? = some bond) (hown : conf.owningMol = mol.molId) :
    (bond.bondType ≠ .SINGLE →
        WedgeBond mol bid fromAtomIdx (some conf) = .ok mol
          ∧ WedgeBondState mol bid fromAtomIdx (some conf) = (mol, none))
      ∧ (bond.bondType = .SINGLE →
          (∀ dir, DetermineBondWedgeState mol bid fromAtomIdx (some conf) = .ok dir →
              (dir = .BEGINWEDGE ∨ dir = .BEGINDASH)
                ∧ WedgeBond mol bid fromAtomIdx (some conf) = .ok (mol.setBondDir bid dir)
                ∧ (mol.setBondDir bid dir).getBondWithIdx bid = { bond with bondDir := dir }
                ∧ (∀ j, j ≠ bid →
                    (mol.setBondDir bid dir).getBondWithIdx j = mol.getBondWithIdx j)
                ∧ (mol.setBondDir bid dir).atoms = mol.atoms
                ∧ (mol.setBondDir bid dir).bonds.length = mol.bonds.length)
            ∧ (∀ e, DetermineBondWedgeState mol bid fromAtomIdx (some conf) = .error e →
                WedgeBond mol bid fromAtomIdx (some conf) = .error e
                  ∧ WedgeBondState mol bid fromAtomIdx (some conf) = (mol, some e))) := by
  have hlt : bid < mol.bonds.length := by
    by_contra hne
    rw [List.getElem?_eq_none (by omega)] at hb
    cases hb
  have hbond := getBondWithIdx_of_getElem? mol bid bond hb
  refine ⟨fun hns => ?_, fun hs => ⟨fun dir hdir => ?_, fun e he => ?_⟩⟩
  · have hst : WedgeBondState mol bid fromAtomIdx (some conf) = (mol, none) := by
      unfold WedgeBondState
      simp only [hb, hown, ne_eq, not_true_eq_false, if_false, hns, not_false_eq_true, if_true]
    refine ⟨?_, hst⟩
    rw [wedgeBond_eq_outcome, hst]
    rfl
  · have hwd : dir = .BEGINWEDGE ∨ dir = .BEGINDASH := by
      by_cases hc : mol.isCenter (fromAtom bond fromAtomIdx) = true
      · rw [determineBondWedgeState_eq mol bid fromAtomIdx conf bond hb hs hc] at hdir
        rw [← Except.ok.inj hdir]
        exact swapsToDir_cases _ _
      · rw [determineBondWedgeState_untagged mol bid fromAtomIdx conf bond hb hs
          (by simpa using hc)] at hdir
        cases hdir
    refine ⟨hwd, ?_, ?_, fun j hj => getBondWithIdx_setBondDir_ne mol bid j dir hj, ?_, ?_⟩
    · unfold WedgeBond
      simp only [hb, hown, ne_eq, not_true_eq_false, if_false, hs, hdir, hwd, if_true]
    · unfold ROMol.setBondDir
      rw [getBondWithIdx_modifyBond, if_pos ⟨rfl, hlt⟩, hbond]
    · exact atoms_modifyBond mol bid _
    · exact length_modifyBond mol bid _
  · have hst : WedgeBondState mol bid fromAtomIdx (some conf) = (mol, some e) := by
      unfold WedgeBondState
      simp only [hb, hown, ne_eq, not_true_eq_false, if_false, hs, he]
    refine ⟨?_, hst⟩
    rw [wedgeBond_eq_outcome, hst]
    rfl

/-- Witness of C35 on `tetraMol`, whose first bond gets BEGINDASH. -/
theorem wedgeBond_effect_witness :
    ((tetraMol 0).bonds[0]? = some (plainBond 0 1 .SINGLE)
        ∧ tetraConf.owningMol = (tetraMol 0).molId
        ∧ WedgeBond (tetraMol 0) 0 0 (some tetraConf)
          = .ok ((tetraMol 0).setBondDir 0 .BEGINDASH))
      ∧ (((plainBond 0 1 .SINGLE).bondType ≠ .SINGLE →
          WedgeBond (tetraMol 0) 0 0 (some tetraConf) = .ok (tetraMol 0)
            ∧ WedgeBondState (tetraMol 0) 0 0 (some tetraConf) = (tetraMol 0, none))
        ∧ ((plainBond 0 1 .SINGLE).bondType = .SINGLE →
            (∀ dir, DetermineBondWedgeState (tetraMol 0) 0 0 (some tetraConf) = .ok dir →
                (dir = .BEGINWEDGE ∨ dir = .BEGINDASH)
                  ∧ WedgeBond (tetraMol 0) 0 0 (some tetraConf)
                    = .ok ((tetraMol 0).setBondDir 0 dir)
                  ∧ ((tetraMol 0).setBondDir 0 dir).getBondWithIdx 0
                    = { plainBond 0 1 .SINGLE with bondDir := dir }
                  ∧ (∀ j, j ≠ 0 →
                      ((tetraMol 0).setBondDir 0 dir).getBondWithIdx j
                        = (tetraMol 0).getBondWithIdx j)
                  ∧ ((tetraMol 0).setBondDir 0 dir).atoms = (tetraMol 0).atoms
                  ∧ ((tetraMol 0).setBondDir 0 dir).bonds.length = (tetraMol 0).bonds.length)
              ∧ (∀ e, DetermineBondWedgeState (tetraMol 0) 0 0 (some tetraConf) = .error e →
                  WedgeBond (tetraMol 0) 0 0 (some tetraConf) = .error e
                    ∧ WedgeBondState (tetraMol 0) 0 0 (some tetraConf)
                      = (tetraMol 0, some e)))) :=
  ⟨⟨rfl, rfl, rfl⟩,
    wedgeBond_effect (tetraMol 0) 0 0 tetraConf (plainBond 0 1 .SINGLE) rfl rfl⟩

end RDKit

namespace RDKit

/-! ## The scoring pass cannot fail; `ClearSingleBondDirFlags`; the parallel lists -/

/-- C36: every bond that `getBondNeighbors` lists for a bond shares an atom with
it, so `getNonsharedAtom` returns on it; hence the scoring pass of
`addWavyBondsForStereoAny` returns its tables and the routine returns, for every
molecule and all arguments. -/
theorem addWavyBondsForStereoAny_never_fails (th : StereoBondThresholds) (mol : ROMol) :
    (∀ d s, s ∈ getBondNeighbors mol d →
        (mol.getBondWithIdx s).sharesAtom (mol.getBondWithIdx d) = true
          ∧ ∃ o, getNonsharedAtom (mol.getBondWithIdx s) (mol.getBondWithIdx d) = .ok o)
      ∧ (∃ t, wavyTables th mol = .ok t)
      ∧ (∀ c T, ∃ fin, addWavyBondsForStereoAny th mol c T = .ok fin) := by
  obtain ⟨t, ht, _⟩ := wavyTables_spec th mol
  refine ⟨fun d s h => ⟨?_, getNonsharedAtom_ok mol d s h⟩, ⟨t, ht⟩,
    fun c T => ⟨_, addWavyBondsForStereoAny_eq th mol c T t ht⟩⟩
  obtain ⟨_, _, hsh⟩ := (mem_getBondNeighbors mol d s).1 h
  unfold Bond.sharesAtom
  simp only [Bool.or_eq_true, beq_iff_eq]
  tauto

/-- Witness of C36 on `polyene`, whose double bond 3 has the neighbours 2
and 4. -/
theorem addWavyBondsForStereoAny_never_fails_witness :
    (getBondNeighbors polyene 3 = [2, 4]
        ∧ getNonsharedAtom (polyene.getBondWithIdx 2) (polyene.getBondWithIdx 3) = .ok 2)
      ∧ (
(∀ d s, s ∈ getBondNeighbors polyene d →
        (polyene.getBondWithIdx s).sharesAtom (polyene.getBondWithIdx d) = true
          ∧ ∃ o, getNonsharedAtom (polyene.getBondWithIdx s) (polyene.getBondWithIdx d) = .ok o)
      ∧ (∃ t, wavyTables rdkitThresholds polyene = .ok t)
      ∧ (∀ c T, ∃ fin, addWavyBondsForStereoAny rdkitThresholds polyene c T = .ok fin)) :=
  ⟨⟨by decide, rfl⟩, addWavyBondsForStereoAny_never_fails rdkitThresholds polyene⟩

theorem getBondWithIdx_clearSingleBondDirFlags (mol : ROMol) (j : Nat) :
    (ClearSingleBondDirFlags mol).getBondWithIdx j
      = if (mol.getBondWithIdx j).bondType = .SINGLE then
          { mol.getBondWithIdx j with
            unknownStereoProp :=
              if (mol.getBondWithIdx j).bondDir = .UNKNOWN then some 1
              else (mol.getBondWithIdx j).unknownStereoProp
            bondDir := .NONE }
        else mol.getBondWithIdx j := by
  unfold ClearSingleBondDirFlags ROMol.getBondWithIdx
  simp only []
  have hd : (fun b : Bond =>
      if b.bondType = .SINGLE then
        { b with
          unknownStereoProp := if b.bondDir = .UNKNOWN then some 1 else b.unknownStereoProp
          bondDir := .NONE }
      else b) default = (default : Bond) := rfl
  conv_lhs => rw [← hd]
  rw [List.getD_map]

/-- C37: after `ClearSingleBondDirFlags` every single bond has the direction
NONE, a single bond whose direction was UNKNOWN carries the property
`_UnknownStereo = 1`, every bond that is not single is as it was, the atoms and
the ends and types of all bonds are kept, and a second application changes
nothing. -/
theorem clearSingleBondDirFlags_spec (mol : ROMol) :
    (∀ j, ((ClearSingleBondDirFlags mol).getBondWithIdx j).bondType = .SINGLE →
        ((ClearSingleBondDirFlags mol).getBondWithIdx j).bondDir = .NONE)
      ∧ (∀ j, (mol.getBondWithIdx j).bondType = .SINGLE →
          (mol.getBondWithIdx j).bondDir = .UNKNOWN →
          ((ClearSingleBondDirFlags mol).getBondWithIdx j).unknownStereoProp = some 1)
      ∧ (∀ j, (mol.getBondWithIdx j).bondType ≠ .SINGLE →
          (ClearSingleBondDirFlags mol).getBondWithIdx j = mol.getBondWithIdx j)
      ∧ (∀ j, ((ClearSingleBondDirFlags mol).getBondWithIdx j).bondType
            = (mol.getBondWithIdx j).bondType
          ∧ ((ClearSingleBondDirFlags mol).getBondWithIdx j).beginAtomIdx
            = (mol.getBondWithIdx j).beginAtomIdx
          ∧ ((ClearSingleBondDirFlags mol).getBondWithIdx j).endAtomIdx
            = (mol.getBondWithIdx j).endAtomIdx
          ∧ ((ClearSingleBondDirFlags mol).getBondWithIdx j).stereo
            = (mol.getBondWithIdx j).stereo)
      ∧ (ClearSingleBondDirFlags mol).atoms = mol.atoms
      ∧ (ClearSingleBondDirFlags mol).bonds.length = mol.bonds.length
      ∧ ClearSingleBondDirFlags (ClearSingleBondDirFlags mol) = ClearSingleBondDirFlags mol := by
  have hfields : ∀ j, ((ClearSingleBondDirFlags mol).getBondWithIdx j).bondType
        = (mol.getBondWithIdx j).bondType
      ∧ ((ClearSingleBondDirFlags mol).getBondWithIdx j).beginAtomIdx
        = (mol.getBondWithIdx j).beginAtomIdx
      ∧ ((ClearSingleBondDirFlags mol).getBondWithIdx j).endAtomIdx
        = (mol.getBondWithIdx j).endAtomIdx
      ∧ ((ClearSingleBondDirFlags mol).getBondWithIdx j).stereo
        = (mol.getBondWithIdx j).stereo := by
    intro j
    rw [getBondWithIdx_clearSingleBondDirFlags]
    split_ifs <;> exact ⟨rfl, rfl, rfl, rfl⟩
  refine ⟨fun j hj => ?_, fun j hs hu => ?_, fun j hns => ?_, hfields, rfl, ?_, ?_⟩
  · rw [(hfields j).1] at hj
    rw [getBondWithIdx_clearSingleBondDirFlags, if_pos hj]
  · rw [getBondWithIdx_clearSingleBondDirFlags, if_pos hs]
    simp only [hu, if_true]
  · rw [getBondWithIdx_clearSingleBondDirFlags, if_neg hns]
  · simp [ClearSingleBondDirFlags]
  · unfold ClearSingleBondDirFlags
    simp only [List.map_map]
    congr 1
    refine List.map_congr_left (fun b _ => ?_)
    simp only [Function.comp]
    by_cases hb : b.bondType = .SINGLE
    · simp [hb]
    · simp [hb]

/-- Witness of C37 on `markedButene`: the marked bond 0 loses its direction and
gets the property, the double bond 1 is as it was. -/
theorem clearSingleBondDirFlags_spec_witness :
    ((ClearSingleBondDirFlags markedButene).getBondWithIdx 0
          = ⟨0, 1, .SINGLE, .NONE, .STEREONONE, some 1⟩
        ∧ (ClearSingleBondDirFlags markedButene).getBondWithIdx 1
          = markedButene.getBondWithIdx 1)
      ∧ (
(∀ j, ((ClearSingleBondDirFlags markedButene).getBondWithIdx j).bondType = .SINGLE →
        ((ClearSingleBondDirFlags markedButene).getBondWithIdx j).bondDir = .NONE)
      ∧ (∀ j, (markedButene.getBondWithIdx j).bondType = .SINGLE →
          (markedButene.getBondWithIdx j).bondDir = .UNKNOWN →
          ((ClearSingleBondDirFlags markedButene).getBondWithIdx j).unknownStereoProp = some 1)
      ∧ (∀ j, (markedButene.getBondWithIdx j).bondType ≠ .SINGLE →
          (ClearSingleBondDirFlags markedButene).getBondWithIdx j = markedButene.getBondWithIdx j)
      ∧ (∀ j, ((ClearSingleBondDirFlags markedButene).getBondWithIdx j).bondType
            = (markedButene.getBondWithIdx j).bondType
          ∧ ((ClearSingleBondDirFlags markedButene).getBondWithIdx j).beginAtomIdx
            = (markedButene.getBondWithIdx j).beginAtomIdx
          ∧ ((ClearSingleBondDirFlags markedButene).getBondWithIdx j).endAtomIdx
            = (markedButene.getBondWithIdx j).endAtomIdx
          ∧ ((ClearSingleBondDirFlags markedButene).getBondWithIdx j).stereo
            = (markedButene.getBondWithIdx j).stereo)
      ∧ (ClearSingleBondDirFlags markedButene).atoms = markedButene.atoms
      ∧ (ClearSingleBondDirFlags markedButene).bonds.length = markedButene.bonds.length
      ∧ ClearSingleBondDirFlags (ClearSingleBondDirFlags markedButene) = ClearSingleBondDirFlags markedButene) :=
  ⟨⟨by decide, by decide⟩, clearSingleBondDirFlags_spec markedButene⟩

/-- The two lists that `DetermineBondWedgeState` builds, for a reference bond of
the molecule, any from-atom and any depiction: they have the same length, the
list of bond indices is a permutation of the bonds of the center, each bond
once, and the angle list is in non-decreasing order when no signed angle of
the depiction is not-a-number. -/
theorem neighborLists_parallel (mol : ROMol) (conf : Conformer) (bid fromAtomIdx : Nat)
    (hlt : bid < mol.bonds.length) :
    (neighborLists mol conf bid fromAtomIdx).1.length
        = (neighborLists mol conf bid fromAtomIdx).2.length
      ∧ ((∀ nb ∈ mol.atomBonds (fromAtom (mol.getBondWithIdx bid) fromAtomIdx), nb ≠ bid →
            (conf.signedAngle (fromAtom (mol.getBondWithIdx bid) fromAtomIdx)
              (toAtom (mol.getBondWithIdx bid) fromAtomIdx)
              ((mol.getBondWithIdx nb).getOtherAtomIdx
                (fromAtom (mol.getBondWithIdx bid) fromAtomIdx))).isNaN = false) →
          (neighborLists mol conf bid fromAtomIdx).1.Pairwise (fun a b => a.le b = true))
      ∧ (neighborLists mol conf bid fromAtomIdx).2.Perm
          (mol.atomBonds (fromAtom (mol.getBondWithIdx bid) fromAtomIdx))
      ∧ (neighborLists mol conf bid fromAtomIdx).2.Nodup
      ∧ (∀ b ∈ mol.atomBonds (fromAtom (mol.getBondWithIdx bid) fromAtomIdx),
          (neighborLists mol conf bid fromAtomIdx).2.count b = 1) := by
  obtain ⟨g1, g2, g3, _⟩ := neighborLists_spec mol conf bid fromAtomIdx
  have hmem : bid ∈ mol.atomBonds (fromAtom (mol.getBondWithIdx bid) fromAtomIdx) := by
    rw [mem_atomBonds]
    refine ⟨hlt, ?_⟩
    unfold fromAtom
    split_ifs with h
    · exact Or.inl rfl
    · exact Or.inr rfl
  have hnd := atomBonds_nodup mol (fromAtom (mol.getBondWithIdx bid) fromAtomIdx)
  have hperm : (neighborLists mol conf bid fromAtomIdx).2.Perm
      (mol.atomBonds (fromAtom (mol.getBondWithIdx bid) fromAtomIdx)) := by
    refine g3.trans ?_
    rw [← hnd.erase_eq_filter bid]
    exact (List.perm_cons_erase hmem).symm
  have hnd2 : (neighborLists mol conf bid fromAtomIdx).2.Nodup := hperm.nodup_iff.2 hnd
  refine ⟨by rw [g1, List.length_map], g2, hperm, hnd2, fun b hb => ?_⟩
  exact List.count_eq_one_of_mem hnd2 (hperm.symm.subset hb)

/-- Evaluation for C38: in `triMol` depicted by `overlapConf` the angle of the
bond 1 is not a number and the angle of the bond 2 is 2. Every test
`angle > (*angleIt)` with the not-a-number on either side is false, so both
bonds are inserted at the front: the angle list is `[2, NaN, 0]`, its first entry
is greater than its last, and it is not in non-decreasing order, neither for
all pairs nor for the adjacent ones. The lists have equal length and the index
list holds each bond of the center once. -/
theorem neighborLists_not_ascending :
    (triMol 0).atomBonds 0 = [0, 1, 2]
      ∧ neighborAngle (triMol 0) overlapConf 0 1 1 = .nan
      ∧ neighborAngle (triMol 0) overlapConf 0 1 2 = 2
      ∧ Double.gt .nan 0 = false
      ∧ Double.gt 2 .nan = false
      ∧ neighborLists (triMol 0) overlapConf 0 0 = ([2, .nan, 0], [2, 1, 0])
      ∧ Double.gt 2 0 = true
      ∧ ¬ (neighborLists (triMol 0) overlapConf 0 0).1.Pairwise (fun a b => a.le b = true)
      ∧ ¬ (neighborLists (triMol 0) overlapConf 0 0).1.Chain' (fun a b => a.le b = true)
      ∧ (neighborLists (triMol 0) overlapConf 0 0).1.length
        = (neighborLists (triMol 0) overlapConf 0 0).2.length
      ∧ (neighborLists (triMol 0) overlapConf 0 0).2.Perm ((triMol 0).atomBonds 0) := by
  have h : neighborLists (triMol 0) overlapConf 0 0 = ([2, .nan, 0], [2, 1, 0]) := by
    with_unfolding_all rfl
  refine ⟨by decide, by rfl, by rfl, by rfl, by rfl, h, by with_unfolding_all rfl, ?_, ?_, ?_, ?_⟩
  · rw [h]
    intro hp
    have h20 := List.rel_of_pairwise_cons hp (List.mem_cons_self _ _)
    exact absurd h20 (by simp [Double.le])
  · rw [h]
    intro hp
    have h20 := List.Chain'.rel_head hp
    exact absurd h20 (by simp [Double.le])
  · rw [h]
    rfl
  · rw [h]
    decide

end RDKit

namespace RDKit

/-! ## What `WedgeMolBonds` leaves unchanged -/

theorem type_setBondDir (mol : ROMol) (i j : Nat) (d : BondDir) :
    ((mol.setBondDir i d).getBondWithIdx j).bondType = (mol.getBondWithIdx j).bondType :=
  (struct_modifyBond mol i j (fun b => { b with bondDir := d }) (fun _ => ⟨rfl, rfl, rfl⟩)).2.2

theorem type_swapBeginEnd (mol : ROMol) (i j : Nat) :
    ((mol.swapBeginEnd i).getBondWithIdx j).bondType = (mol.getBondWithIdx j).bondType := by
  unfold ROMol.swapBeginEnd
  rw [getBondWithIdx_modifyBond]
  split_ifs with h
  · rw [h.1]
  · rfl

theorem getBondWithIdx_swapBeginEnd_ne (mol : ROMol) (i j : Nat) (h : j ≠ i) :
    (mol.swapBeginEnd i).getBondWithIdx j = mol.getBondWithIdx j := by
  unfold ROMol.swapBeginEnd
  rw [getBondWithIdx_modifyBond]
  simp [h]

/-- One turn of the state-keeping loop: it stops at the current molecule or
goes on from a molecule that differs at most in the bond visited, and not at
all when that bond is not a key of the map. -/
theorem wedgeMolLoopState_step (wedgeBonds : INT_MAP_INT) (conf : Conformer) (i : Nat)
    (rest : List Nat) (cur : ROMol) :
    ∃ nxt : ROMol,
      (wedgeMolLoopState wedgeBonds conf (i :: rest) cur
            = wedgeMolLoopState wedgeBonds conf rest nxt
          ∨ (wedgeMolLoopState wedgeBonds conf (i :: rest) cur).1 = nxt)
        ∧ nxt.atoms = cur.atoms ∧ nxt.bonds.length = cur.bonds.length
        ∧ (∀ j, (nxt.getBondWithIdx j).bondType = (cur.getBondWithIdx j).bondType)
        ∧ (∀ j, j ≠ i → nxt.getBondWithIdx j = cur.getBondWithIdx j)
        ∧ (wedgeBonds.find i = none → nxt = cur) := by
  have hself : ∃ nxt : ROMol,
      (wedgeMolLoopState wedgeBonds conf rest cur = wedgeMolLoopState wedgeBonds conf rest nxt
          ∨ (wedgeMolLoopState wedgeBonds conf rest cur).1 = nxt)
        ∧ nxt.atoms = cur.atoms ∧ nxt.bonds.length = cur.bonds.length
        ∧ (∀ j, (nxt.getBondWithIdx j).bondType = (cur.getBondWithIdx j).bondType)
        ∧ (∀ j, j ≠ i → nxt.getBondWithIdx j = cur.getBondWithIdx j)
        ∧ (wedgeBonds.find i = none → nxt = cur) :=
    ⟨cur, Or.inl rfl, rfl, rfl, fun _ => rfl, fun _ _ => rfl, fun _ => rfl⟩
  obtain ⟨r, hr⟩ : ∃ r, r = wedgeMolLoopState wedgeBonds conf (i :: rest) cur := ⟨_, rfl⟩
  rw [← hr]
  simp only [wedgeMolLoopState] at hr
  by_cases hs : (cur.getBondWithIdx i).bondType = .SINGLE
  · rw [if_pos hs] at hr
    cases hdet : DetermineBondWedgeStateMap cur i wedgeBonds (some conf) with
    | error e =>
      rw [hdet] at hr
      simp only [] at hr
      subst hr
      exact ⟨cur, Or.inr rfl, rfl, rfl, fun _ => rfl, fun _ _ => rfl, fun _ => rfl⟩
    | ok dir =>
      rw [hdet] at hr
      simp only [] at hr
      by_cases hd : dir = .BEGINWEDGE ∨ dir = .BEGINDASH
      · rw [if_pos hd] at hr
        cases hf : wedgeBonds.find i with
        | none =>
          rw [hf] at hr
          simp only [] at hr
          have hdir : dir = (cur.getBondWithIdx i).bondDir := by
            unfold DetermineBondWedgeStateMap at hdet
            cases hb : cur.bonds[i]? with
            | none =>
              rw [hb] at hdet
              cases hdet
            | some bond =>
              rw [hb] at hdet
              simp only [hf] at hdet
              rw [getBondWithIdx_of_getElem? cur i bond hb]
              exact (Except.ok.inj hdet).symm
          rw [hdir, setBondDir_self] at hr
          subst hr
          exact ⟨cur, Or.inl rfl, rfl, rfl, fun _ => rfl, fun _ _ => rfl, fun _ => rfl⟩
        | some a =>
          rw [hf] at hr
          simp only [] at hr
          by_cases hne : a ≠ ((cur.setBondDir i dir).getBondWithIdx i).beginAtomIdx
          · rw [if_pos hne] at hr
            subst hr
            refine ⟨(cur.setBondDir i dir).swapBeginEnd i, Or.inl rfl, ?_, ?_, fun j => ?_,
              fun j hj => ?_, fun h => (by cases h)⟩
            · rw [ROMol.swapBeginEnd, atoms_modifyBond, ROMol.setBondDir, atoms_modifyBond]
            · rw [ROMol.swapBeginEnd, length_modifyBond, ROMol.setBondDir, length_modifyBond]
            · rw [type_swapBeginEnd, type_setBondDir]
            · rw [getBondWithIdx_swapBeginEnd_ne _ i j hj, getBondWithIdx_setBondDir_ne _ i j dir hj]
          · rw [if_neg hne] at hr
            subst hr
            refine ⟨cur.setBondDir i dir, Or.inl rfl, ?_, ?_, fun j => ?_,
              fun j hj => ?_, fun h => (by cases h)⟩
            · rw [ROMol.setBondDir, atoms_modifyBond]
            · rw [ROMol.setBondDir, length_modifyBond]
            · rw [type_setBondDir]
            · rw [getBondWithIdx_setBondDir_ne _ i j dir hj]
      · rw [if_neg hd] at hr
        subst hr
        exact hself
  · rw [if_neg hs] at hr
    subst hr
    exact hself

/-- The state-keeping loop keeps the atoms, the number of bonds, the type of
every bond and every bond that is not a key of the map. -/
theorem wedgeMolLoopState_frame (wedgeBonds : INT_MAP_INT) (conf : Conformer) (is : List Nat)
    (cur : ROMol) :
    (wedgeMolLoopState wedgeBonds conf is cur).1.atoms = cur.atoms
      ∧ (wedgeMolLoopState wedgeBonds conf is cur).1.bonds.length = cur.bonds.length
      ∧ (∀ j, ((wedgeMolLoopState wedgeBonds conf is cur).1.getBondWithIdx j).bondType
          = (cur.getBondWithIdx j).bondType)
      ∧ (∀ j, wedgeBonds.find j = none →
          (wedgeMolLoopState wedgeBonds conf is cur).1.getBondWithIdx j
            = cur.getBondWithIdx j) := by
  induction is generalizing cur with
  | nil => exact ⟨rfl, rfl, fun _ => rfl, fun _ _ => rfl⟩
  | cons i rest ih =>
    obtain ⟨nxt, hrun, h1, h2, h3, h4, h5⟩ := wedgeMolLoopState_step wedgeBonds conf i rest cur
    have hnxt : ∀ j, wedgeBonds.find j = none → nxt.getBondWithIdx j = cur.getBondWithIdx j := by
      intro j hj
      by_cases e : j = i
      · subst e
        rw [h5 hj]
      · exact h4 j e
    rcases hrun with hrun | hrun
    · rw [hrun]
      obtain ⟨g1, g2, g3, g4⟩ := ih nxt
      exact ⟨g1.trans h1, g2.trans h2, fun j => (g3 j).trans (h3 j),
        fun j hj => (g4 j hj).trans (hnxt j hj)⟩
    · rw [hrun]
      exact ⟨h1, h2, h3, hnxt⟩

/-- C32: the molecule after `WedgeMolBonds`, returned or thrown out of, has the
atoms of the input, chiral tags included, and the type of every bond; every
bond that is not a key of the map returned by `pickBondsToWedge` is as it was,
direction and ends included; when `pickBondsToWedge` or the conformer test
fails the molecule is as it was. -/
theorem wedgeMolBonds_frame (mol : ROMol) (conf : Option Conformer) :
    (WedgeMolBondsState mol conf).1.atoms = mol.atoms
      ∧ (∀ a, ((WedgeMolBondsState mol conf).1.getAtomWithIdx a).chiralTag
          = (mol.getAtomWithIdx a).chiralTag)
      ∧ (WedgeMolBondsState mol conf).1.bonds.length = mol.bonds.length
      ∧ (∀ j, ((WedgeMolBondsState mol conf).1.getBondWithIdx j).bondType
          = (mol.getBondWithIdx j).bondType)
      ∧ (∀ res, pickBondsToWedge mol = .ok res → ∀ j, j ∉ res.map Prod.fst →
          (WedgeMolBondsState mol conf).1.getBondWithIdx j = mol.getBondWithIdx j)
      ∧ (∀ e, pickBondsToWedge mol = .error e → (WedgeMolBondsState mol conf).1 = mol)
      ∧ (∀ fin, WedgeMolBonds mol conf = .ok fin → fin = (WedgeMolBondsState mol conf).1) := by
  have hlink : ∀ fin, WedgeMolBonds mol conf = .ok fin →
      fin = (WedgeMolBondsState mol conf).1 := by
    intro fin hfin
    rw [wedgeMolBonds_eq_outcome] at hfin
    unfold outcome at hfin
    cases h2 : (WedgeMolBondsState mol conf).2 with
    | none =>
      rw [h2] at hfin
      exact (Except.ok.inj hfin).symm
    | some e =>
      rw [h2] at hfin
      cases hfin
  cases conf with
  | none =>
    exact ⟨rfl, fun _ => rfl, rfl, fun _ => rfl, fun _ _ _ _ => rfl, fun _ _ => rfl, hlink⟩
  | some c =>
    cases hpick : pickBondsToWedge mol with
    | error e =>
      have hst : WedgeMolBondsState mol (some c) = (mol, some e) := by
        unfold WedgeMolBondsState
        simp only [hpick]
      rw [hst]
      exact ⟨rfl, fun _ => rfl, rfl, fun _ => rfl, fun _ _ _ _ => rfl, fun _ _ => rfl,
        fun fin hfin => by rw [hlink fin hfin, hst]⟩
    | ok res =>
      have hst : WedgeMolBondsState mol (some c)
          = wedgeMolLoopState res c (List.range mol.getNumBonds) mol := by
        unfold WedgeMolBondsState
        simp only [hpick]
      obtain ⟨g1, g2, g3, g4⟩ := wedgeMolLoopState_frame res c (List.range mol.getNumBonds) mol
      rw [← hst] at g1 g2 g3 g4
      refine ⟨g1, fun a => ?_, g2, g3, fun res1 hres1 j hj => ?_, fun e he => (by cases he), hlink⟩
      · unfold ROMol.getAtomWithIdx
        rw [g1]
      · have hres : res1 = res := (Except.ok.inj hres1).symm
        subst hres
        exact g4 j ((INT_MAP_INT.find_eq_none_iff res1 j).2 hj)

/-- Witness of C32 on `endCenter`: the map is `0 ↦ 1`, and the bonds 1, 2 and 3
are after the call what they were before. -/
theorem wedgeMolBonds_frame_witness :
    (pickBondsToWedge endCenter = .ok [(0, 1)]
        ∧ WedgeMolBondsState endCenter (some tetraConf) = (endCenterWedged, none)
        ∧ endCenterWedged.getBondWithIdx 1 = endCenter.getBondWithIdx 1)
      ∧ ((WedgeMolBondsState endCenter (some tetraConf)).1.atoms = endCenter.atoms
        ∧ (∀ a, ((WedgeMolBondsState endCenter (some tetraConf)).1.getAtomWithIdx a).chiralTag
            = (endCenter.getAtomWithIdx a).chiralTag)
        ∧ (WedgeMolBondsState endCenter (some tetraConf)).1.bonds.length
          = endCenter.bonds.length
        ∧ (∀ j, ((WedgeMolBondsState endCenter (some tetraConf)).1.getBondWithIdx j).bondType
            = (endCenter.getBondWithIdx j).bondType)
        ∧ (∀ res, pickBondsToWedge endCenter = .ok res → ∀ j, j ∉ res.map Prod.fst →
            (WedgeMolBondsState endCenter (some tetraConf)).1.getBondWithIdx j
              = endCenter.getBondWithIdx j)
        ∧ (∀ e, pickBondsToWedge endCenter = .error e →
            (WedgeMolBondsState endCenter (some tetraConf)).1 = endCenter)
        ∧ (∀ fin, WedgeMolBonds endCenter (some tetraConf) = .ok fin →
            fin = (WedgeMolBondsState endCenter (some tetraConf)).1)) :=
  ⟨⟨rfl, rfl, rfl⟩, wedgeMolBonds_frame endCenter (some tetraConf)⟩

end RDKit

namespace RDKit

/-! ## The number of single bonds that the marking pass marks -/

theorem wavyInnerLog_fst (c : Bool) (T sc sb : Nat) (ds : List Nat)
    (st : (ROMol × (Nat → Bool)) × List Nat) :
    (wavyInnerLog c T sc sb ds st).1 = wavyInner c T sc sb ds st.1 := by
  induction ds generalizing st with
  | nil => rfl
  | cons x rest ih =>
    show (wavyInnerLog c T sc sb rest (wavyStepLog c T sc sb st x)).1 = _
    rw [ih, wavyInner_cons]
    rfl

theorem wavyOuterLog_fst (c : Bool) (T : Nat) (nbrs : Nat → List Nat)
    (l : List (Int × Nat × Nat)) (st : (ROMol × (Nat → Bool)) × List Nat) :
    (wavyOuterLog c T nbrs l st).1 = wavyOuter c T nbrs l st.1 := by
  induction l generalizing st with
  | nil => rfl
  | cons tpl rest ih =>
    show (wavyOuterLog c T nbrs rest (wavyInnerLog c T tpl.2.1 tpl.2.2 (nbrs tpl.2.2) st)).1 = _
    rw [ih, wavyOuter_cons, wavyInnerLog_fst]

theorem countP_update_false (f : Nat → Bool) (x : Nat) (l : List Nat) (hnd : l.Nodup)
    (hx : x ∈ l) (hf : f x = true) :
    List.countP (Function.update f x false) l + 1 = List.countP f l := by
  induction l with
  | nil => exact absurd hx (List.not_mem_nil _)
  | cons y rest ih =>
    obtain ⟨hy, hrest⟩ := List.nodup_cons.1 hnd
    rw [List.countP_cons, List.countP_cons]
    by_cases e : y = x
    · subst e
      have hsame : List.countP (Function.update f y false) rest = List.countP f rest := by
        refine List.countP_congr (fun z hz => ?_)
        have hne : z ≠ y := fun e => hy (e ▸ hz)
        rw [Function.update_noteq hne]
      rw [hsame, Function.update_same, hf]
      simp
    · have hxr : x ∈ rest := by
        rcases List.mem_cons.1 hx with e1 | e1
        · exact absurd e1.symm e
        · exact e1
      rw [Function.update_noteq e]
      have := ih hrest hxr
      omega

theorem logInv_step (c : Bool) (T sc sb : Nat) (m0 : ROMol) (nbrs : Nat → List Nat) (K : Nat)
    (st : (ROMol × (Nat → Bool)) × List Nat) (x : Nat) (hsb : sb < m0.bonds.length)
    (hx : x < m0.bonds.length) (hxn : x ∈ nbrs sb) (h : LogInv m0 nbrs K st) :
    LogInv m0 nbrs K (wavyStepLog c T sc sb st x) := by
  obtain ⟨h1, h2, h3, h4⟩ := h
  unfold wavyStepLog
  by_cases hcond : st.1.2 x = true ∧ ¬ (T ≠ 0 ∧ sc > T)
  · rw [if_pos hcond]
    have hmark := wavyStep_mark c T sc sb st.1 x hcond.1 hcond.2
    refine ⟨?_, fun s hs => ?_, fun j hj hne => ?_, ?_⟩
    · show (sb :: st.2).length + List.countP (wavyStep c T sc sb st.1 x).2 _ = K
      rw [hmark]
      have := countP_update_false st.1.2 x (List.range m0.bonds.length) (List.nodup_range _)
        (List.mem_range.2 hx) hcond.1
      simp only [List.length_cons]
      omega
    · show ((wavyStep c T sc sb st.1 x).1.getBondWithIdx s).bondDir = .UNKNOWN ∧ nbrs s ≠ []
      rcases List.mem_cons.1 hs with e | e
      · subst e
        exact ⟨wavyStep_unknown c T sc s st.1 x s
          (Or.inr ⟨rfl, by rw [h4]; exact hsb, hcond.1, hcond.2⟩), List.ne_nil_of_mem hxn⟩
      · exact ⟨wavyStep_unknown c T sc sb st.1 x s (Or.inl (h2 s e).1), (h2 s e).2⟩
    · show j ∈ sb :: st.2
      by_cases e : j = sb
      · rw [e]
        exact List.mem_cons_self _ _
      · have hjx : j ≠ x := by
          intro e1
          rw [e1] at hj
          exact hj sb hxn
        have hfr := wavyStep_frame c T sc sb st.1 x j (Or.inr ⟨e, hjx⟩)
        refine List.mem_cons_of_mem _ (h3 j hj ?_)
        rw [← hfr]
        exact hne
    · show (wavyStep c T sc sb st.1 x).1.bonds.length = m0.bonds.length
      rw [wavyStep_length, h4]
  · rw [if_neg hcond]
    have hskip : wavyStep c T sc sb st.1 x = st.1 := by
      refine wavyStep_skip c T sc sb st.1 x ?_
      by_cases hb : st.1.2 x = true
      · right
        by_contra hne
        exact hcond ⟨hb, hne⟩
      · left
        simpa using hb
    rw [hskip]
    exact ⟨h1, h2, h3, h4⟩

theorem logInv_inner (c : Bool) (T sc sb : Nat) (m0 : ROMol) (nbrs : Nat → List Nat) (K : Nat)
    (ds : List Nat) (st : (ROMol × (Nat → Bool)) × List Nat) (hsb : sb < m0.bonds.length)
    (hds : ∀ x ∈ ds, x < m0.bonds.length ∧ x ∈ nbrs sb) (h : LogInv m0 nbrs K st) :
    LogInv m0 nbrs K (wavyInnerLog c T sc sb ds st) := by
  induction ds generalizing st with
  | nil => exact h
  | cons x rest ih =>
    show LogInv m0 nbrs K (wavyInnerLog c T sc sb rest (wavyStepLog c T sc sb st x))
    obtain ⟨hx1, hx2⟩ := hds x (List.mem_cons_self _ _)
    exact ih _ (fun y hy => hds y (List.mem_cons_of_mem _ hy))
      (logInv_step c T sc sb m0 nbrs K st x hsb hx1 hx2 h)

theorem logInv_outer (c : Bool) (T : Nat) (m0 : ROMol) (nbrs : Nat → List Nat) (K : Nat)
    (l : List (Int × Nat × Nat)) (st : (ROMol × (Nat → Bool)) × List Nat)
    (hl : ∀ tpl ∈ l, tpl.2.2 < m0.bonds.length ∧ ∀ x ∈ nbrs tpl.2.2, x < m0.bonds.length)
    (h : LogInv m0 nbrs K st) : LogInv m0 nbrs K (wavyOuterLog c T nbrs l st) := by
  induction l generalizing st with
  | nil => exact h
  | cons tpl rest ih =>
    show LogInv m0 nbrs K
      (wavyOuterLog c T nbrs rest (wavyInnerLog c T tpl.2.1 tpl.2.2 (nbrs tpl.2.2) st))
    obtain ⟨ht1, ht2⟩ := hl tpl (List.mem_cons_self _ _)
    exact ih _ (fun q hq => hl q (List.mem_cons_of_mem _ hq))
      (logInv_inner c T _ _ m0 nbrs K _ st ht1 (fun x hx => ⟨ht2 x hx, hx⟩) h)

/-- C33: the routine returns; the calls of `setBondDir(UNKNOWN)` are at most as
many as the double bonds of stereo STEREOANY before the call, and so are the
distinct single bonds they mark and the single bonds whose direction has
changed; a marked bond is a single bond next to a STEREOANY double bond and ends
UNKNOWN, and a single bond whose direction has changed is a marked one. -/
theorem addWavyBondsForStereoAny_marked_count (th : StereoBondThresholds) (mol : ROMol)
    (c : Bool) (T : Nat) :
    ∃ fin, addWavyBondsForStereoAny th mol c T = .ok fin
      ∧ (markedBonds th mol c T).length ≤ (anyDoubleBonds mol).length
      ∧ (markedBonds th mol c T).toFinset.card ≤ (anyDoubleBonds mol).length
      ∧ (∀ s ∈ markedBonds th mol c T, (mol.getBondWithIdx s).bondType = .SINGLE
          ∧ (fin.getBondWithIdx s).bondDir = .UNKNOWN
          ∧ ∃ D ∈ anyDoubleBonds mol, s ∈ getBondNeighbors mol D)
      ∧ (∀ j, (mol.getBondWithIdx j).bondType = .SINGLE →
          (fin.getBondWithIdx j).bondDir ≠ (mol.getBondWithIdx j).bondDir →
          j ∈ markedBonds th mol c T)
      ∧ ((List.range mol.bonds.length).filter fun j =>
            decide ((mol.getBondWithIdx j).bondType = .SINGLE)
              && decide ((fin.getBondWithIdx j).bondDir ≠ (mol.getBondWithIdx j).bondDir)).length
          ≤ (anyDoubleBonds mol).length := by
  obtain ⟨t, ht, hS2, hS3, hsc⟩ := wavyTables_spec th mol
  have hK : List.countP t.doubleBondsToSet (List.range mol.bonds.length)
      = (anyDoubleBonds mol).length := by
    rw [List.countP_eq_length_filter]
    unfold anyDoubleBonds
    congr 1
    refine List.filter_congr (fun x hx => ?_)
    have hlt := List.mem_range.1 hx
    by_cases hb : t.doubleBondsToSet x = true
    · obtain ⟨_, g2, g3⟩ := (hS2 x).1 hb
      simp [hb, g2, g3]
    · have hbf : t.doubleBondsToSet x = false := by simpa using hb
      rw [hbf]
      symm
      by_contra hne
      have : decide ((mol.getBondWithIdx x).bondType = .DOUBLE)
          && decide ((mol.getBondWithIdx x).stereo = .STEREOANY) = true := by simpa using hne
      simp only [Bool.and_eq_true, decide_eq_true_eq] at this
      exact hb ((hS2 x).2 ⟨hlt, this.1, this.2⟩)
  have hinit : LogInv mol t.singleBondNeighbors (anyDoubleBonds mol).length
      ((mol, t.doubleBondsToSet), []) :=
    ⟨by simpa using hK, fun s hs => absurd hs (List.not_mem_nil _),
      fun j _ hne => absurd rfl hne, rfl⟩
  have hl : ∀ tpl ∈ sortedScores mol t, tpl.2.2 < mol.bonds.length
      ∧ ∀ x ∈ t.singleBondNeighbors tpl.2.2, x < mol.bonds.length :=
    fun tpl htpl => ⟨((mem_sortedScores mol t tpl).1 htpl).1,
      fun x hx => ((hS3 tpl.2.2 x).1 hx).1⟩
  obtain ⟨k1, k2, k3, _⟩ := logInv_outer c T mol t.singleBondNeighbors _ (sortedScores mol t)
    ((mol, t.doubleBondsToSet), []) hl hinit
  have hfst := wavyOuterLog_fst c T t.singleBondNeighbors (sortedScores mol t)
    ((mol, t.doubleBondsToSet), [])
  have hmb : markedBonds th mol c T
      = (wavyOuterLog c T t.singleBondNeighbors (sortedScores mol t)
          ((mol, t.doubleBondsToSet), [])).2 := by
    simp [markedBonds, ht]
  rw [hfst] at k2 k3
  rw [← hmb] at k1 k2 k3
  simp only [] at k2 k3
  have hlen : (markedBonds th mol c T).length ≤ (anyDoubleBonds mol).length := by omega
  have hchanged : ∀ j, (mol.getBondWithIdx j).bondType = .SINGLE →
      ((wavyOuter c T t.singleBondNeighbors (sortedScores mol t)
        (mol, t.doubleBondsToSet)).1.getBondWithIdx j).bondDir
        ≠ (mol.getBondWithIdx j).bondDir → j ∈ markedBonds th mol c T := by
    intro j hj hne
    refine k3 j (fun s hs => ?_) hne
    have := ((hS3 s j).1 hs).2.1
    rw [hj] at this
    cases this
  refine ⟨_, addWavyBondsForStereoAny_eq th mol c T t ht, hlen,
    le_trans (List.toFinset_card_le _) hlen, fun s hs => ?_, hchanged, ?_⟩
  · obtain ⟨g1, g2⟩ := k2 s hs
    obtain ⟨x, hx⟩ := List.exists_mem_of_ne_nil _ g2
    obtain ⟨x1, x2, x3, x4, x5⟩ := (hS3 s x).1 hx
    exact ⟨x5, g1, x, (mem_anyDoubleBonds mol x).2 ⟨x1, x2, x3⟩, x4⟩
  · have hnd : ((List.range mol.bonds.length).filter fun j =>
        decide ((mol.getBondWithIdx j).bondType = .SINGLE)
          && decide (((wavyOuter c T t.singleBondNeighbors (sortedScores mol t)
              (mol, t.doubleBondsToSet)).1.getBondWithIdx j).bondDir
            ≠ (mol.getBondWithIdx j).bondDir)).Nodup := (List.nodup_range _).filter _
    rw [← List.toFinset_card_of_nodup hnd]
    refine le_trans (Finset.card_le_card ?_) (le_trans (List.toFinset_card_le _) hlen)
    intro j hj
    rw [List.mem_toFinset, List.mem_filter] at hj
    rw [List.mem_toFinset]
    have h2 := hj.2
    simp only [Bool.and_eq_true, decide_eq_true_eq] at h2
    exact hchanged j h2.1 h2.2

/-- Witness of C33 on `branchedTriene`: two calls, both on the bond 8, for the
two STEREOANY double bonds 5 and 9. -/
theorem addWavyBondsForStereoAny_marked_count_witness :
    markedBonds rdkitThresholds branchedTriene true 1000 = [8, 8]
      ∧ anyDoubleBonds branchedTriene = [5, 9]
      ∧ ∃ fin, addWavyBondsForStereoAny rdkitThresholds branchedTriene true 1000 = .ok fin
        ∧ (markedBonds rdkitThresholds branchedTriene true 1000).length
          ≤ (anyDoubleBonds branchedTriene).length
        ∧ (markedBonds rdkitThresholds branchedTriene true 1000).toFinset.card
          ≤ (anyDoubleBonds branchedTriene).length
        ∧ (∀ s ∈ markedBonds rdkitThresholds branchedTriene true 1000,
            (branchedTriene.getBondWithIdx s).bondType = .SINGLE
              ∧ (fin.getBondWithIdx s).bondDir = .UNKNOWN
              ∧ ∃ D ∈ anyDoubleBonds branchedTriene, s ∈ getBondNeighbors branchedTriene D)
        ∧ (∀ j, (branchedTriene.getBondWithIdx j).bondType = .SINGLE →
            (fin.getBondWithIdx j).bondDir ≠ (branchedTriene.getBondWithIdx j).bondDir →
            j ∈ markedBonds rdkitThresholds branchedTriene true 1000)
        ∧ ((List.range branchedTriene.bonds.length).filter fun j =>
              decide ((branchedTriene.getBondWithIdx j).bondType = .SINGLE)
                && decide ((fin.getBondWithIdx j).bondDir
                  ≠ (branchedTriene.getBondWithIdx j).bondDir)).length
            ≤ (anyDoubleBonds branchedTriene).length :=
  ⟨by decide, by decide,
    addWavyBondsForStereoAny_marked_count rdkitThresholds branchedTriene true 1000⟩

end RDKit
